import Mathlib

set_option maxHeartbeats 1000000
set_option maxRecDepth 4000

/-!
Shallow embedding of the pmemkv `tree3` storage engine
(`src/engines-experimental/tree3.cc` / `tree3.h`).

Keys and values are byte strings, modelled as `List Nat` (each entry one
byte).  `std::string::compare` is three-way lexicographic comparison of
unsigned bytes, then of lengths; it is modelled by `strCmp`.

The persistent pool is modelled as a heap of leaves addressed by
allocation index together with the linked list of leaf ids hanging off the
root (`head`).  Volatile tree nodes mirror the C++ `KVNode` hierarchy.
-/

namespace Tree3Model

/-- A byte string (contents of a `std::string` / `string_view`). -/
abbrev Str := List Nat

/-- Three-way comparison of byte strings, as `std::string::compare`:
lexicographic on bytes (`memcmp` order), shorter prefix first. -/
def strCmp : Str → Str → Ordering
  | [], [] => Ordering.eq
  | [], _ :: _ => Ordering.lt
  | _ :: _, [] => Ordering.gt
  | a :: as, b :: bs =>
      if a < b then Ordering.lt else if b < a then Ordering.gt else strCmp as bs

/-- `a.compare(b) <= 0` in the C++ source. -/
def strLe (a b : Str) : Bool := strCmp a b != Ordering.gt

/-- `a.compare(b) < 0` in the C++ source. -/
def strLt (a b : Str) : Bool := strCmp a b == Ordering.lt

/-- `a.compare(b) > 0` in the C++ source. -/
def strGt (a b : Str) : Bool := strCmp a b == Ordering.gt

theorem strLe_iff {a b : Str} : strLe a b = true ↔ strCmp a b ≠ Ordering.gt := by
  simp only [strLe]
  cases h : strCmp a b <;> decide

theorem strLt_iff {a b : Str} : strLt a b = true ↔ strCmp a b = Ordering.lt := by
  simp only [strLt]
  cases h : strCmp a b <;> decide

theorem strGt_iff {a b : Str} : strGt a b = true ↔ strCmp a b = Ordering.gt := by
  simp only [strGt]
  cases h : strCmp a b <;> decide

theorem strCmp_self (a : Str) : strCmp a a = Ordering.eq := by
  induction a with
  | nil => rfl
  | cons x xs ih => simp [strCmp, ih]

theorem strCmp_swap (a b : Str) : strCmp b a = (strCmp a b).swap := by
  induction a generalizing b with
  | nil => cases b <;> rfl
  | cons x xs ih =>
      cases b with
      | nil => rfl
      | cons y ys =>
          by_cases hxy : x < y
          · have hyx : ¬ y < x := Nat.lt_asymm hxy
            simp [strCmp, hxy, hyx, Ordering.swap]
          · by_cases hyx : y < x
            · simp [strCmp, hxy, hyx, Ordering.swap]
            · simp [strCmp, hxy, hyx, ih]

theorem strCmp_eq_iff {a b : Str} : strCmp a b = Ordering.eq ↔ a = b := by
  induction a generalizing b with
  | nil => cases b <;> simp [strCmp]
  | cons x xs ih =>
      cases b with
      | nil => simp [strCmp]
      | cons y ys =>
          by_cases hxy : x < y
          · simp [strCmp, hxy]
            intro h
            omega
          · by_cases hyx : y < x
            · simp [strCmp, hxy, hyx]
              intro h
              omega
            · have hxy' : x = y := Nat.le_antisymm (Nat.le_of_not_lt hyx) (Nat.le_of_not_lt hxy)
              simp [strCmp, hxy, hyx, ih, hxy']

theorem strCmp_lt_trans {a b c : Str} (hab : strCmp a b = Ordering.lt)
    (hbc : strCmp b c = Ordering.lt) : strCmp a c = Ordering.lt := by
  induction a generalizing b c with
  | nil =>
      cases c with
      | nil =>
          cases b with
          | nil => exact hbc
          | cons y ys => simp [strCmp] at hbc
      | cons z zs => rfl
  | cons x xs ih =>
      cases b with
      | nil => simp [strCmp] at hab
      | cons y ys =>
          cases c with
          | nil => simp [strCmp] at hbc
          | cons z zs =>
              simp only [strCmp] at hab hbc ⊢
              by_cases hxy : x < y
              · by_cases hyz : y < z
                · have hxz : x < z := Nat.lt_trans hxy hyz
                  simp [hxz]
                · by_cases hzy : z < y
                  · simp [hyz, hzy] at hbc
                  · have : y = z := Nat.le_antisymm (Nat.le_of_not_lt hzy) (Nat.le_of_not_lt hyz)
                    subst this
                    simp [hxy]
              · by_cases hyx : y < x
                · simp [hxy, hyx] at hab
                · have hxyeq : x = y := Nat.le_antisymm (Nat.le_of_not_lt hyx) (Nat.le_of_not_lt hxy)
                  subst hxyeq
                  by_cases hxz : x < z
                  · simp [hxz]
                  · by_cases hzx : z < x
                    · simp [hxz, hzx] at hbc
                    · have : x = z := Nat.le_antisymm (Nat.le_of_not_lt hzx) (Nat.le_of_not_lt hxz)
                      subst this
                      simp [hxz] at hbc ⊢
                      simp [hxy] at hab
                      exact ih hab hbc

theorem strLt_iff_not_le {a b : Str} : strLt a b = true ↔ ¬ strLe b a = true := by
  rw [strLt_iff, strLe_iff, strCmp_swap a b]
  cases h : strCmp a b <;> simp [Ordering.swap]

theorem strLe_iff_not_lt {a b : Str} : strLe a b = true ↔ ¬ strLt b a = true := by
  rw [strLt_iff, strLe_iff, strCmp_swap a b]
  cases h : strCmp a b <;> simp [Ordering.swap]

theorem strGt_iff_lt {a b : Str} : strGt a b = true ↔ strLt b a = true := by
  rw [strGt_iff, strLt_iff, strCmp_swap a b]
  cases h : strCmp a b <;> simp [Ordering.swap]

theorem strLe_refl (a : Str) : strLe a a = true := by
  simp [strLe_iff, strCmp_self]

theorem strLt_irrefl (a : Str) : strLt a a = false := by
  rw [Bool.eq_false_iff, Ne, strLt_iff, strCmp_self]
  simp

theorem strLt_trans {a b c : Str} (hab : strLt a b = true) (hbc : strLt b c = true) :
    strLt a c = true := by
  rw [strLt_iff] at *
  exact strCmp_lt_trans hab hbc

theorem strLe_antisymm {a b : Str} (hab : strLe a b = true) (hba : strLe b a = true) :
    a = b := by
  rw [strLe_iff] at hab hba
  rw [strCmp_swap] at hba
  rw [← strCmp_eq_iff]
  cases h : strCmp a b
  · rw [h] at hba
    simp [Ordering.swap] at hba
  · rfl
  · exact absurd h hab

theorem strLe_total (a b : Str) : strLe a b = true ∨ strLe b a = true := by
  rw [strLe_iff, strLe_iff, strCmp_swap a b]
  cases h : strCmp a b <;> simp [Ordering.swap]

theorem strLt_of_le_of_ne {a b : Str} (hab : strLe a b = true) (hne : a ≠ b) :
    strLt a b = true := by
  rw [strLe_iff] at hab
  rw [strLt_iff]
  cases h : strCmp a b
  · rfl
  · exact absurd (strCmp_eq_iff.mp h) hne
  · exact absurd h hab

theorem strLe_of_lt {a b : Str} (h : strLt a b = true) : strLe a b = true := by
  rw [strLt_iff] at h
  rw [strLe_iff, h]
  simp

theorem strLt_ne {a b : Str} (h : strLt a b = true) : a ≠ b := by
  intro he
  subst he
  rw [strLt_iff, strCmp_self] at h
  simp at h

theorem strLt_of_lt_of_le {a b c : Str} (hab : strLt a b = true) (hbc : strLe b c = true) :
    strLt a c = true := by
  cases h : strCmp b c
  · exact strLt_trans hab (strLt_iff.mpr h)
  · rw [strCmp_eq_iff] at h
    exact h ▸ hab
  · rw [strLe_iff] at hbc
    exact absurd h hbc

theorem strLt_of_le_of_lt {a b c : Str} (hab : strLe a b = true) (hbc : strLt b c = true) :
    strLt a c = true := by
  cases h : strCmp a b
  · exact strLt_trans (strLt_iff.mpr h) hbc
  · rw [strCmp_eq_iff] at h
    exact h ▸ hbc
  · rw [strLe_iff] at hab
    exact absurd h hab

theorem strLe_trans {a b c : Str} (hab : strLe a b = true) (hbc : strLe b c = true) :
    strLe a c = true := by
  rw [strLe_iff_not_lt]
  intro hca
  have hcb : strLt c b = true := strLt_of_lt_of_le hca hab
  rw [strLt_iff_not_le] at hcb
  exact hcb hbc

theorem strLt_asymm {a b : Str} (h : strLt a b = true) : strLt b a = false := by
  rw [Bool.eq_false_iff, Ne]
  intro hba
  have := strLt_trans h hba
  rw [strLt_iff, strCmp_self] at this
  simp at this

/-- `¬ (k > sk)` (the complement of the migration test) is `k ≤ sk`. -/
theorem strGt_eq_false_iff {a b : Str} : strGt a b = false ↔ strLe a b = true := by
  rw [Bool.eq_false_iff, Ne, strGt_iff, strLe_iff]

/-! ## Slot payloads (`KVSlot`)

A persistent slot owns either no payload (`kv == nullptr`) or one packed
byte buffer.  The buffer is written by `KVSlot::set`, which allocates a
zero-initialised persistent `char[]` and then stores the two `u32` sizes,
the hash byte and the key/value bytes at their offsets (the zero separator
and terminator are the untouched zero-initialised bytes). -/

/-- A payload buffer: the bytes of one persistent `char[]` allocation. -/
abbrev Payload := List Nat

/-- Little-endian bytes of a `uint32_t` store. -/
def u32le (n : Nat) : List Nat :=
  [n % 256, n / 256 % 256, n / 65536 % 256, n / 16777216 % 256]

/-- Read back a `uint32_t` stored at offset `off`. -/
def readU32 (p : Payload) (off : Nat) : Nat :=
  p.getD off 0 + 256 * p.getD (off + 1) 0 + 65536 * p.getD (off + 2) 0 +
    16777216 * p.getD (off + 3) 0

/-- Overwrite `data.length` bytes of `buf` starting at `off` (a `memcpy`
or in-place field store). -/
def writeBytes (buf : List Nat) (off : Nat) (data : List Nat) : List Nat :=
  buf.take off ++ data ++ buf.drop (off + data.length)

namespace KVSlot

/-- `KVSlot::set(hash, key, value)`: allocate a zero-filled buffer of
`ksize + vsize + 2 + 4 + 4 + 1` bytes, then write `key_size` at offset 0,
`value_size` at offset 4, the hash byte at offset 8, the key bytes at
offset 9 and the value bytes at offset `9 + ksize + 1`. -/
def set (hash : Nat) (key value : Str) : Payload :=
  let ksize := key.length
  let vsize := value.length
  let size := ksize + vsize + 2 + 4 + 4 + 1
  let buf := List.replicate size 0
  let buf := writeBytes buf 0 (u32le ksize)
  let buf := writeBytes buf 4 (u32le vsize)
  let buf := writeBytes buf 8 [hash % 256]
  let buf := writeBytes buf 9 key
  writeBytes buf (9 + ksize + 1) value

/-- `KVSlot::get_ks`: the `uint32_t` at offset 0. -/
def get_ks (p : Payload) : Nat := readU32 p 0

/-- `KVSlot::get_vs`: the `uint32_t` at offset 4. -/
def get_vs (p : Payload) : Nat := readU32 p 4

/-- `KVSlot::get_ph` / `KVSlot::hash`: the byte at offset 8. -/
def get_ph (p : Payload) : Nat := p.getD 8 0

/-- `KVSlot::key()` together with `keysize()`: the `get_ks` bytes at
offset 9. -/
def keyBytes (p : Payload) : Str := (p.drop 9).take (get_ks p)

/-- `KVSlot::val()` together with `valsize()`: the `get_vs` bytes at
offset `9 + get_ks + 1`. -/
def valBytes (p : Payload) : Str := (p.drop (9 + get_ks p + 1)).take (get_vs p)

theorem u32le_length (n : Nat) : (u32le n).length = 4 := rfl

theorem writeBytes_exact (off : Nat) (pre mid post data : List Nat)
    (hoff : off = pre.length) (hlen : mid.length = data.length) :
    writeBytes (pre ++ mid ++ post) off data = pre ++ data ++ post := by
  subst hoff
  unfold writeBytes
  have h1 : List.take pre.length (pre ++ mid ++ post) = pre := by
    rw [List.append_assoc, List.take_left]
  have h2 : List.drop (pre.length + data.length) (pre ++ mid ++ post) = post := by
    have he : pre.length + data.length = (pre ++ mid).length := by
      simp [hlen]
    rw [he, List.drop_left]
  rw [h1, h2, List.append_assoc]

theorem set_layout (hash : Nat) (key value : Str) :
    set hash key value =
      u32le key.length ++ u32le value.length ++ [hash % 256] ++
        key ++ [0] ++ value ++ [0] := by
  have s1 : writeBytes (List.replicate (key.length + value.length + 2 + 4 + 4 + 1) 0) 0
        (u32le key.length) =
      u32le key.length ++ List.replicate (key.length + value.length + 7) 0 := by
    have hb : List.replicate (key.length + value.length + 2 + 4 + 4 + 1) (0 : Nat) =
        ([] : List Nat) ++ List.replicate 4 0 ++
          List.replicate (key.length + value.length + 7) 0 := by
      rw [List.nil_append, ← List.replicate_add]
      congr 1 <;> omega
    rw [hb, writeBytes_exact 0 [] (List.replicate 4 0)
      (List.replicate (key.length + value.length + 7) 0) (u32le key.length) rfl rfl,
      List.nil_append]
  have s2 : writeBytes
        (u32le key.length ++ List.replicate (key.length + value.length + 7) 0) 4
        (u32le value.length) =
      u32le key.length ++ u32le value.length ++
        List.replicate (key.length + value.length + 3) 0 := by
    have hb : u32le key.length ++ List.replicate (key.length + value.length + 7) (0 : Nat) =
        u32le key.length ++ List.replicate 4 0 ++
          List.replicate (key.length + value.length + 3) 0 := by
      rw [List.append_assoc, ← List.replicate_add]
      congr 2 <;> omega
    rw [hb, writeBytes_exact 4 (u32le key.length) (List.replicate 4 0)
      (List.replicate (key.length + value.length + 3) 0) (u32le value.length) rfl rfl]
  have s3 : writeBytes
        (u32le key.length ++ u32le value.length ++
          List.replicate (key.length + value.length + 3) 0) 8 [hash % 256] =
      u32le key.length ++ u32le value.length ++ [hash % 256] ++
        List.replicate (key.length + value.length + 2) 0 := by
    have hb : u32le key.length ++ u32le value.length ++
          List.replicate (key.length + value.length + 3) (0 : Nat) =
        (u32le key.length ++ u32le value.length) ++ List.replicate 1 0 ++
          List.replicate (key.length + value.length + 2) 0 := by
      rw [List.append_assoc (u32le key.length ++ u32le value.length), ← List.replicate_add]
      congr 2 <;> omega
    rw [hb, writeBytes_exact 8 (u32le key.length ++ u32le value.length) (List.replicate 1 0)
      (List.replicate (key.length + value.length + 2) 0) [hash % 256] rfl rfl]
  have s4 : writeBytes
        (u32le key.length ++ u32le value.length ++ [hash % 256] ++
          List.replicate (key.length + value.length + 2) 0) 9 key =
      u32le key.length ++ u32le value.length ++ [hash % 256] ++ key ++
        List.replicate (value.length + 2) 0 := by
    have hb : u32le key.length ++ u32le value.length ++ [hash % 256] ++
          List.replicate (key.length + value.length + 2) (0 : Nat) =
        (u32le key.length ++ u32le value.length ++ [hash % 256]) ++
          List.replicate key.length 0 ++ List.replicate (value.length + 2) 0 := by
      rw [List.append_assoc (u32le key.length ++ u32le value.length ++ [hash % 256]),
        ← List.replicate_add]
      congr 2 <;> omega
    rw [hb, writeBytes_exact 9 (u32le key.length ++ u32le value.length ++ [hash % 256])
      (List.replicate key.length 0) (List.replicate (value.length + 2) 0) key
      (by simp [u32le]) (by simp)]
  have s5 : writeBytes
        (u32le key.length ++ u32le value.length ++ [hash % 256] ++ key ++
          List.replicate (value.length + 2) 0) (9 + key.length + 1) value =
      u32le key.length ++ u32le value.length ++ [hash % 256] ++ key ++ [0] ++
        value ++ [0] := by
    have hb : u32le key.length ++ u32le value.length ++ [hash % 256] ++ key ++
          List.replicate (value.length + 2) (0 : Nat) =
        (u32le key.length ++ u32le value.length ++ [hash % 256] ++ key ++ [0]) ++
          List.replicate value.length 0 ++ [0] := by
      have hr : List.replicate (value.length + 2) (0 : Nat) =
          [0] ++ List.replicate value.length 0 ++ [0] := by
        have : value.length + 2 = 1 + (value.length + 1) := by omega
        rw [this, List.replicate_add, List.replicate_add]
        simp [List.replicate_succ]
      rw [hr]
      simp [List.append_assoc]
    rw [hb, writeBytes_exact (9 + key.length + 1)
      (u32le key.length ++ u32le value.length ++ [hash % 256] ++ key ++ [0])
      (List.replicate value.length 0) [0] value (by simp [u32le]; omega) (by simp)]
  show writeBytes (writeBytes (writeBytes (writeBytes (writeBytes
      (List.replicate (key.length + value.length + 2 + 4 + 4 + 1) 0) 0 (u32le key.length))
      4 (u32le value.length)) 8 [hash % 256]) 9 key) (9 + key.length + 1) value = _
  rw [s1, s2, s3, s4, s5]

theorem set_length (hash : Nat) (key value : Str) :
    (set hash key value).length = key.length + value.length + 11 := by
  rw [set_layout]
  simp [u32le]
  omega

theorem readU32_u32le_append (n : Nat) (rest : List Nat) :
    readU32 (u32le n ++ rest) 0 = n % 4294967296 := by
  simp [readU32, u32le, List.getD]
  omega

theorem get_ph_set (hash : Nat) (hh : hash < 256) (key value : Str) :
    get_ph (set hash key value) = hash := by
  rw [set_layout]
  simp only [get_ph, u32le]
  simp [List.getD_append, List.getD]
  exact hh

theorem get_ks_set (hash : Nat) (key value : Str) (hk : key.length < 4294967296) :
    get_ks (set hash key value) = key.length := by
  rw [set_layout, get_ks]
  have : u32le key.length ++ u32le value.length ++ [hash % 256] ++ key ++ [0] ++
      value ++ [0] = u32le key.length ++ (u32le value.length ++ ([hash % 256] ++ (key ++
      ([0] ++ (value ++ [0]))))) := by
    simp [List.append_assoc]
  rw [this, readU32_u32le_append]
  exact Nat.mod_eq_of_lt hk

theorem drop9_set (hash : Nat) (key value : Str) :
    (set hash key value).drop 9 = key ++ [0] ++ value ++ [0] := by
  rw [set_layout]
  have : u32le key.length ++ u32le value.length ++ [hash % 256] ++ key ++ [0] ++
      value ++ [0] = (u32le key.length ++ u32le value.length ++ [hash % 256]) ++
      (key ++ [0] ++ value ++ [0]) := by
    simp [List.append_assoc]
  rw [this]
  have h9 : 9 = (u32le key.length ++ u32le value.length ++ [hash % 256]).length := by
    simp [u32le]
  rw [h9, List.drop_left]

theorem keyBytes_set (hash : Nat) (key value : Str) (hk : key.length < 4294967296) :
    keyBytes (set hash key value) = key := by
  rw [keyBytes, get_ks_set hash key value hk, drop9_set]
  have : key ++ [0] ++ value ++ [0] = key ++ ([0] ++ value ++ [0]) := by
    simp [List.append_assoc]
  rw [this, List.take_left]

theorem get_vs_set (hash : Nat) (key value : Str) (hv : value.length < 4294967296) :
    get_vs (set hash key value) = value.length := by
  rw [set_layout, get_vs]
  simp only [u32le]
  simp [readU32, List.getD_append, List.getD]
  omega

theorem valBytes_set (hash : Nat) (key value : Str) (hk : key.length < 4294967296)
    (hv : value.length < 4294967296) :
    valBytes (set hash key value) = value := by
  rw [valBytes, get_ks_set hash key value hk, get_vs_set hash key value hv]
  have hd : (set hash key value).drop (9 + key.length + 1) = value ++ [0] := by
    have : 9 + key.length + 1 = 9 + (key.length + 1) := by omega
    rw [this, ← List.drop_drop, drop9_set]
    have h2 : key ++ [0] ++ value ++ [0] = (key ++ [0]) ++ (value ++ [0]) := by
      simp [List.append_assoc]
    rw [h2]
    have h3 : key.length + 1 = (key ++ [0]).length := by simp
    rw [h3, List.drop_left]
  rw [hd]
  rw [List.take_left]

end KVSlot

/-! ## Pearson hashing (`tree3::PearsonHash`)

The 256-entry lookup table from RFC 3074, reproduced from the source. -/

def PEARSON_LOOKUP_TABLE : List Nat := [
  251, 175, 119, 215, 81, 14, 79, 191, 103, 49, 181, 143, 186, 157, 0, 232,
  31, 32, 55, 60, 152, 58, 17, 237, 174, 70, 160, 144, 220, 90, 57, 223,
  59, 3, 18, 140, 111, 166, 203, 196, 134, 243, 124, 95, 222, 179, 197, 65,
  180, 48, 36, 15, 107, 46, 233, 130, 165, 30, 123, 161, 209, 23, 97, 16,
  40, 91, 219, 61, 100, 10, 210, 109, 250, 127, 22, 138, 29, 108, 244, 67,
  207, 9, 178, 204, 74, 98, 126, 249, 167, 116, 34, 77, 193, 200, 121, 5,
  20, 113, 71, 35, 128, 13, 182, 94, 25, 226, 227, 199, 75, 27, 41, 245,
  230, 224, 43, 225, 177, 26, 155, 150, 212, 142, 218, 115, 241, 73, 88, 105,
  39, 114, 62, 255, 192, 201, 145, 214, 168, 158, 221, 148, 154, 122, 12, 84,
  82, 163, 44, 139, 228, 236, 205, 242, 217, 11, 187, 146, 159, 64, 86, 239,
  195, 42, 106, 198, 118, 112, 184, 172, 87, 2, 173, 117, 176, 229, 247, 253,
  137, 185, 99, 164, 102, 147, 45, 66, 231, 52, 141, 211, 194, 206, 246, 238,
  56, 110, 78, 248, 63, 240, 189, 93, 92, 51, 53, 183, 19, 171, 72, 50,
  33, 104, 101, 69, 8, 252, 83, 120, 76, 135, 85, 54, 202, 125, 188, 213,
  96, 235, 136, 208, 162, 129, 190, 132, 156, 38, 47, 1, 7, 254, 24, 4,
  216, 131, 89, 21, 28, 133, 37, 153, 149, 80, 170, 68, 6, 169, 234, 151]

/-- One step of the hashing loop: `hash = PEARSON_LOOKUP_TABLE[hash ^ data[i]]`
(bytes are unsigned 8-bit values, so the xor stays below 256). -/
def pearsonStep (hash b : Nat) : Nat :=
  PEARSON_LOOKUP_TABLE.getD ((hash ^^^ b) % 256) 0

/-- The `for (size_t i = size; i > 0;) hash = TABLE[hash ^ data[--i]]` loop,
counting the remaining index `i` down to zero. -/
def pearsonLoop (data : Str) : Nat → Nat → Nat
  | 0, hash => hash
  | i + 1, hash => pearsonLoop data i (pearsonStep hash (data.getD i 0))

/-- `tree3::PearsonHash`: run the loop starting from `(uint8_t)size`, then
remap a zero result to 1 (0 is reserved for "null"). -/
def PearsonHash (data : Str) : Nat :=
  let hash := pearsonLoop data data.length (data.length % 256)
  if hash = 0 then 1 else hash

/-- Spec-side formulation of the hash (§4.1 of the spec): initialise
`h = (u8)size`, fold `h = TABLE[h ^ b]` over the bytes in reverse order
(index `size-1` down to `0`), then remap 0 to 1. -/
def pearsonSpecHash (data : Str) : Nat :=
  let h := data.reverse.foldl pearsonStep (data.length % 256)
  if h = 0 then 1 else h

theorem pearsonLoop_eq_foldl (data : Str) :
    ∀ n h, n ≤ data.length →
      pearsonLoop data n h = ((data.take n).reverse).foldl pearsonStep h := by
  intro n
  induction n with
  | zero => intro h _; simp [pearsonLoop]
  | succ m ih =>
      intro h hm
      rw [pearsonLoop]
      rw [ih _ (by omega)]
      have hlt : m < data.length := by omega
      have htake : data.take (m + 1) = data.take m ++ [data.getD m 0] := by
        rw [List.take_succ]
        congr 1
        rw [List.getD_eq_getElem?_getD]
        cases hx : data[m]? with
        | none =>
            rw [List.getElem?_eq_none_iff] at hx
            omega
        | some v => simp
      rw [htake]
      simp [List.foldl_append]

theorem PearsonHash_eq_spec (data : Str) : PearsonHash data = pearsonSpecHash data := by
  unfold PearsonHash pearsonSpecHash
  rw [pearsonLoop_eq_foldl data data.length _ (Nat.le_refl _), List.take_length]

theorem PearsonHash_ne_zero (data : Str) : PearsonHash data ≠ 0 := by
  unfold PearsonHash
  by_cases h : pearsonLoop data data.length (data.length % 256) = 0 <;> simp [h]

theorem pearson_table_entries : ∀ x ∈ PEARSON_LOOKUP_TABLE, x < 256 := by decide

theorem pearsonStep_lt (hash b : Nat) : pearsonStep hash b < 256 := by
  unfold pearsonStep
  have hidx : (hash ^^^ b) % 256 < PEARSON_LOOKUP_TABLE.length := by
    have : PEARSON_LOOKUP_TABLE.length = 256 := by decide
    rw [this]
    exact Nat.mod_lt _ (by omega)
  rw [List.getD_eq_getElem?_getD, List.getElem?_eq_getElem hidx]
  exact pearson_table_entries _ (List.getElem_mem hidx)

theorem pearsonLoop_lt (data : Str) : ∀ n h, h < 256 → pearsonLoop data n h < 256 := by
  intro n
  induction n with
  | zero => intro h hh; exact hh
  | succ m ih => intro h hh; exact ih _ (pearsonStep_lt _ _)

theorem PearsonHash_lt (data : Str) : PearsonHash data < 256 := by
  unfold PearsonHash
  by_cases h : pearsonLoop data data.length (data.length % 256) = 0
  · simp [h]
  · simp only [if_neg h]
    exact pearsonLoop_lt data data.length _ (Nat.mod_lt _ (by omega))

/-- C7: for every byte string, the Pearson hash of the source equals the
spec formulation (initialise `h` to the size byte, fold the RFC 3074 table
over the bytes in reverse order, remap 0 to 1), and is consequently never
zero. -/
theorem claim_C7_pearson (data : Str) :
    PearsonHash data = pearsonSpecHash data ∧ PearsonHash data ≠ 0 :=
  ⟨PearsonHash_eq_spec data, PearsonHash_ne_zero data⟩

/-- C5 counterexample: the claimed total payload size `ks + vs + 10` is wrong;
for an empty key and value the buffer written by `KVSlot::set` has 11 bytes
(4 + 4 + 1 header bytes, zero separator, zero terminator), not 10. -/
theorem claim_C5_counterexample : ¬ ((KVSlot.set 1 [] []).length = 0 + 0 + 10) := by decide

/-- C5 (amended): the payload written by `KVSlot::set` is exactly
`key_size (u32, offset 0) ++ value_size (u32, offset 4) ++ hash (offset 8) ++
key (offset 9) ++ zero separator ++ value ++ zero terminator`, and its total
size is `ks + vs + 11` (the claimed `ks + vs + 10` does not account for all
three trailing zero/value regions). -/
theorem claim_C5_slot_layout (hash : Nat) (key value : Str) (hh : hash < 256) :
    KVSlot.set hash key value =
      u32le key.length ++ u32le value.length ++ [hash] ++ key ++ [0] ++ value ++ [0] ∧
    (KVSlot.set hash key value).length = key.length + value.length + 11 := by
  constructor
  · rw [KVSlot.set_layout, Nat.mod_eq_of_lt hh]
  · exact KVSlot.set_length hash key value

theorem claim_C5_slot_layout_witness :
    (2 : Nat) < 256 ∧
    (KVSlot.set 2 [7] [8, 9] =
      u32le 1 ++ u32le 2 ++ [2] ++ [7] ++ [0] ++ [8, 9] ++ [0] ∧
    (KVSlot.set 2 [7] [8, 9]).length = 1 + 2 + 11) := by
  refine ⟨by decide, ?_⟩
  have h := claim_C5_slot_layout 2 [7] [8, 9] (by decide)
  simpa using h

/-! ## Persistent and volatile state

The persistent pool is a heap of `KVLeaf` objects addressed by allocation
id, plus the list `head` of ids forming the linked leaf list hanging off
the root (`root->head` first).  Prepending to `head` models
`root->head = new_leaf; new_leaf->next = old_head`.  Volatile `KVLeafNode`
and `KVInnerNode` objects become the two constructors of `VNode`; a leaf
node holds the id of its persistent companion.  Parent back-pointers are
realised by recursion: operations that walk parent chains in C++ are
written as descend-and-rebuild recursions here. -/

def LEAF_KEYS : Nat := 48
def INNER_KEYS : Nat := 4
def INNER_KEYS_MIDPOINT : Nat := INNER_KEYS / 2
def INNER_KEYS_UPPER : Nat := INNER_KEYS / 2 + 1
def LEAF_KEYS_MIDPOINT : Nat := LEAF_KEYS / 2

/-- A persistent leaf: `LEAF_KEYS` slots, each empty (`none`, a null
`kv` pointer) or owning a payload buffer. -/
structure KVLeaf where
  slots : List (Option Payload)
  deriving DecidableEq

/-- A freshly allocated (zero-initialised) persistent leaf. -/
def emptyLeaf : KVLeaf := ⟨List.replicate LEAF_KEYS none⟩

/-- Volatile tree nodes (`KVLeafNode` / `KVInnerNode`).  An inner node
keeps its `keycount` routing keys and `keycount + 1` children; a leaf node
mirrors the hashes and key strings of its persistent leaf `pleaf`. -/
inductive VNode where
  | leaf (hashes : List Nat) (keys : List Str) (pleaf : Nat)
  | inner (rkeys : List Str) (children : List VNode)

instance : Inhabited VNode := ⟨VNode.leaf [] [] 0⟩

mutual

def VNode.beq : VNode → VNode → Bool
  | VNode.leaf h1 k1 p1, VNode.leaf h2 k2 p2 => h1 == h2 && k1 == k2 && p1 == p2
  | VNode.inner r1 c1, VNode.inner r2 c2 => r1 == r2 && VNode.beqList c1 c2
  | _, _ => false

def VNode.beqList : List VNode → List VNode → Bool
  | [], [] => true
  | a :: as, b :: bs => VNode.beq a b && VNode.beqList as bs
  | _, _ => false

end

mutual

theorem VNode.beq_iff : ∀ a b : VNode, VNode.beq a b = true ↔ a = b
  | VNode.leaf h1 k1 p1, VNode.leaf h2 k2 p2 => by
      simp [VNode.beq, and_assoc]
  | VNode.inner r1 c1, VNode.inner r2 c2 => by
      simp [VNode.beq, VNode.beqList_iff c1 c2]
  | VNode.leaf _ _ _, VNode.inner _ _ => by simp [VNode.beq]
  | VNode.inner _ _, VNode.leaf _ _ _ => by simp [VNode.beq]

theorem VNode.beqList_iff : ∀ as bs : List VNode, VNode.beqList as bs = true ↔ as = bs
  | [], [] => by simp [VNode.beqList]
  | a :: as, b :: bs => by
      simp [VNode.beqList, VNode.beq_iff a b, VNode.beqList_iff as bs]
  | [], _ :: _ => by simp [VNode.beqList]
  | _ :: _, [] => by simp [VNode.beqList]

end

instance : DecidableEq VNode := fun a b => decidable_of_iff _ (VNode.beq_iff a b)

/-- The persistent pool plus the volatile free pool of empty leaves. -/
structure PState where
  heap : List KVLeaf
  head : List Nat
  prealloc : List Nat
  deriving DecidableEq

/-- Full engine state: pool and the volatile `tree_top`. -/
structure Tree3 where
  ps : PState
  tree_top : Option VNode
  deriving DecidableEq

/-- Engine status codes. -/
inductive Status where
  | OK
  | NOT_FOUND
  | FAILED
  deriving DecidableEq

def getLeafP (ps : PState) (id : Nat) : KVLeaf := ps.heap.getD id emptyLeaf

def setLeafSlots (ps : PState) (id : Nat) (slots : List (Option Payload)) : PState :=
  { ps with heap := ps.heap.set id ⟨slots⟩ }

/-- A slot counts as live unless it is empty or its stored hash byte is 0
(`kvslot.empty() || kvslot.hash() == 0`). -/
def slotLive : Option Payload → Bool
  | none => false
  | some p => KVSlot.get_ph p != 0

def leafLiveCount (lf : KVLeaf) : Nat := lf.slots.countP slotLive

/-- The value `tree3::count` computes: live slots summed over the
persistent leaf list. -/
def totalLive (ps : PState) : Nat :=
  (ps.head.map (fun id => leafLiveCount (getLeafP ps id))).sum

/-- Slot iteration order of `for (int slot = LEAF_KEYS; slot--;)`. -/
def descRange : List Nat := (List.range LEAF_KEYS).reverse

/-! ## Volatile index search (`tree3::LeafSearch`) -/

/-- The child index chosen by the inner-node loop: scan the routing keys
left to right and stop at the first with `key.compare(r) <= 0`; with no
match fall through to child `keycount`. -/
def descIdx : Str → List Str → Nat
  | _, [] => 0
  | key, r :: rs => if strLe key r then 0 else descIdx key rs + 1

mutual

/-- `tree3::LeafSearch`: descend from the given node to a leaf.  An
out-of-range child (impossible on well-formed trees) yields `none`. -/
def LeafSearch (key : Str) : VNode → Option VNode
  | VNode.leaf hashes keys pleaf => some (VNode.leaf hashes keys pleaf)
  | VNode.inner rkeys children => LeafSearchChild key (descIdx key rkeys) children

/-- Descend into child `i` (the list-indexing step of `LeafSearch`,
written as structural recursion). -/
def LeafSearchChild (key : Str) : Nat → List VNode → Option VNode
  | _, [] => none
  | 0, c :: _ => LeafSearch key c
  | i + 1, _ :: cs => LeafSearchChild key i cs

end

theorem LeafSearchChild_eq (key : Str) :
    ∀ (cs : List VNode) (i : Nat),
      LeafSearchChild key i cs =
        match cs[i]? with
        | some c => LeafSearch key c
        | none => none := by
  intro cs
  induction cs with
  | nil => intro i; cases i <;> rfl
  | cons c cs ih =>
      intro i
      cases i with
      | zero => rw [LeafSearchChild, List.getElem?_cons_zero]
      | succ j => rw [LeafSearchChild, ih j, List.getElem?_cons_succ]

/-- `LeafSearch` from `tree_top` (null tree gives null). -/
def searchTop (s : Tree3) (key : Str) : Option VNode :=
  match s.tree_top with
  | none => none
  | some top => LeafSearch key top

/-- The intra-leaf scan of `get`/`exists`/`remove`: first slot in
descending order whose mirrored hash equals `hash` and whose mirrored key
equals `key`. -/
def findSlot (hashes : List Nat) (keys : List Str) (hash : Nat) (key : Str) : Option Nat :=
  descRange.find? (fun slot => hashes.getD slot 0 == hash && keys.getD slot [] == key)

/-! ## Read-only operations

Each read-only method threads the engine state through its loops
unchanged, mirroring the C++ loops which perform no writes. -/

/-- The slot loop of `tree3::get`. -/
def getScan (s : Tree3) (pid : Nat) (hashes : List Nat) (keys : List Str)
    (hash : Nat) (key : Str) : List Nat → Tree3 × Option Str
  | [] => (s, none)
  | slot :: rest =>
      if hashes.getD slot 0 == hash && keys.getD slot [] == key then
        (s, ((getLeafP s.ps pid).slots.getD slot none).map KVSlot.valBytes)
      else getScan s pid hashes keys hash key rest

/-- `tree3::get`: search for the leaf, then scan its slots; on a match the
callback receives the payload value bytes (`some v`); otherwise
`NOT_FOUND` (`none`). -/
def tree3.get (s : Tree3) (key : Str) : Tree3 × Option Str :=
  match s.tree_top with
  | none => (s, none)
  | some top =>
      match LeafSearch key top with
      | some (VNode.leaf hashes keys pleaf) =>
          getScan s pleaf hashes keys (PearsonHash key) key descRange
      | _ => (s, none)

/-- The slot loop of `tree3::exists`. -/
def existsScan (s : Tree3) (hashes : List Nat) (keys : List Str)
    (hash : Nat) (key : Str) : List Nat → Tree3 × Bool
  | [] => (s, false)
  | slot :: rest =>
      if hashes.getD slot 0 == hash && keys.getD slot [] == key then (s, true)
      else existsScan s hashes keys hash key rest

/-- `tree3::exists`: `true` models status `OK`, `false` `NOT_FOUND`. -/
def tree3.existsKey (s : Tree3) (key : Str) : Tree3 × Bool :=
  match s.tree_top with
  | none => (s, false)
  | some top =>
      match LeafSearch key top with
      | some (VNode.leaf hashes keys _) =>
          existsScan s hashes keys (PearsonHash key) key descRange
      | _ => (s, false)

/-- The per-leaf slot loop of `tree3::count`. -/
def countSlots (lf : KVLeaf) : List Nat → Nat
  | [] => 0
  | slot :: rest =>
      (if slotLive (lf.slots.getD slot none) then 1 else 0) + countSlots lf rest

/-- The leaf-list loop of `tree3::count`. -/
def countLoop (s : Tree3) : List Nat → Nat → Tree3 × Nat
  | [], acc => (s, acc)
  | id :: rest, acc =>
      countLoop s rest (acc + countSlots (getLeafP s.ps id) descRange)

/-- `tree3::count`: walk the persistent leaf list, counting slots that are
neither empty nor hash-0. -/
def tree3.count (s : Tree3) : Tree3 × Nat := countLoop s s.ps.head 0

/-- Live `(key, value)` pairs of one leaf in descending slot order, as
visited by `all`/`each`. -/
def leafVisits (lf : KVLeaf) : List (Str × Str) :=
  descRange.filterMap fun slot =>
    match lf.slots.getD slot none with
    | none => none
    | some p =>
        if KVSlot.get_ph p = 0 then none
        else some (KVSlot.keyBytes p, KVSlot.valBytes p)

/-- The leaf-list loop of `tree3::each` (and of `tree3::all`, which passes
only the key part to its callback). -/
def eachLoop (s : Tree3) : List Nat → List (Str × Str) → Tree3 × List (Str × Str)
  | [], acc => (s, acc)
  | id :: rest, acc => eachLoop s rest (acc ++ leafVisits (getLeafP s.ps id))

/-- `tree3::each`: the list of `(key, value)` callback invocations. -/
def tree3.each (s : Tree3) : Tree3 × List (Str × Str) := eachLoop s s.ps.head []

/-- `tree3::all`: the list of key callback invocations. -/
def tree3.all (s : Tree3) : Tree3 × List Str :=
  let r := eachLoop s s.ps.head []
  (r.1, r.2.map Prod.fst)

/-! ## C10: read-only operations do not modify any state -/

theorem getScan_fst (s : Tree3) (pid : Nat) (hashes : List Nat) (keys : List Str)
    (hash : Nat) (key : Str) :
    ∀ slots : List Nat, (getScan s pid hashes keys hash key slots).1 = s := by
  intro slots
  induction slots with
  | nil => rfl
  | cons slot rest ih =>
      rw [getScan]
      split
      · rfl
      · exact ih

theorem existsScan_fst (s : Tree3) (hashes : List Nat) (keys : List Str)
    (hash : Nat) (key : Str) :
    ∀ slots : List Nat, (existsScan s hashes keys hash key slots).1 = s := by
  intro slots
  induction slots with
  | nil => rfl
  | cons slot rest ih =>
      rw [existsScan]
      split
      · rfl
      · exact ih

theorem countLoop_fst (s : Tree3) :
    ∀ (ids : List Nat) (acc : Nat), (countLoop s ids acc).1 = s := by
  intro ids
  induction ids with
  | nil => intro acc; rfl
  | cons id rest ih => intro acc; rw [countLoop]; exact ih _

theorem eachLoop_fst (s : Tree3) :
    ∀ (ids : List Nat) (acc : List (Str × Str)), (eachLoop s ids acc).1 = s := by
  intro ids
  induction ids with
  | nil => intro acc; rfl
  | cons id rest ih => intro acc; rw [eachLoop]; exact ih _

/-- C10: the read-only operations `get`, `exists`, `count`, `all` and
`each` leave the whole engine state (persistent heap, leaf list head,
free pool and every volatile node) unchanged: the state threaded through
their loops comes back equal to the input state. -/
theorem claim_C10_readonly_frame (s : Tree3) (key : Str) :
    (tree3.get s key).1 = s ∧ (tree3.existsKey s key).1 = s ∧
    (tree3.count s).1 = s ∧ (tree3.all s).1 = s ∧ (tree3.each s).1 = s := by
  refine ⟨?_, ?_, countLoop_fst s _ _, eachLoop_fst s _ _, eachLoop_fst s _ _⟩
  · rw [tree3.get]
    split
    · rfl
    · split
      · exact getScan_fst _ _ _ _ _ _ _
      · rfl
  · rw [tree3.existsKey]
    split
    · rfl
    · split
      · exact existsScan_fst _ _ _ _ _ _
      · rfl

/-! ## C8: the index search follows the least-index descent rule -/

mutual

/-- In-order list of the leaf nodes of a volatile subtree. -/
def leavesOf : VNode → List VNode
  | VNode.leaf hashes keys pleaf => [VNode.leaf hashes keys pleaf]
  | VNode.inner _ children => leavesOfList children

def leavesOfList : List VNode → List VNode
  | [] => []
  | c :: cs => leavesOf c ++ leavesOfList cs

end

mutual

/-- Structural well-formedness: every inner node has `keycount + 1`
children (`assert_invariants` shape). -/
def shapeOk : VNode → Bool
  | VNode.leaf _ _ _ => true
  | VNode.inner rkeys children =>
      (children.length == rkeys.length + 1) && shapeOkList children

def shapeOkList : List VNode → Bool
  | [] => true
  | c :: cs => shapeOk c && shapeOkList cs

end

theorem shapeOkList_mem {cs : List VNode} (h : shapeOkList cs = true) :
    ∀ c ∈ cs, shapeOk c = true := by
  induction cs with
  | nil => intro c hc; cases hc
  | cons a as ih =>
      rw [shapeOkList, Bool.and_eq_true] at h
      intro c hc
      rcases List.mem_cons.mp hc with rfl | hc
      · exact h.1
      · exact ih h.2 c hc

theorem mem_leavesOfList {cs : List VNode} {c x : VNode} (hc : c ∈ cs)
    (hx : x ∈ leavesOf c) : x ∈ leavesOfList cs := by
  induction cs with
  | nil => cases hc
  | cons a as ih =>
      rw [leavesOfList]
      rcases List.mem_cons.mp hc with rfl | hc
      · exact List.mem_append_left _ hx
      · exact List.mem_append_right _ (ih hc)

theorem descIdx_le (key : Str) (rkeys : List Str) : descIdx key rkeys ≤ rkeys.length := by
  induction rkeys with
  | nil => simp [descIdx]
  | cons r rs ih =>
      rw [descIdx]
      by_cases h : strLe key r = true
      · simp [h]
      · simp only [Bool.not_eq_true] at h
        simp [h]
        omega

/-- The loop of `LeafSearch` computes the least index whose routing key
admits the key (the spec formulation, via `findIdx?`). -/
theorem descIdx_spec (key : Str) (rkeys : List Str) :
    descIdx key rkeys = ((rkeys.findIdx? fun r => strLe key r).getD rkeys.length) := by
  induction rkeys with
  | nil => simp [descIdx]
  | cons r rs ih =>
      rw [descIdx, List.findIdx?_cons]
      by_cases h : strLe key r = true
      · simp [h]
      · simp only [Bool.not_eq_true] at h
        simp only [h, cond_false, ih]
        cases hf : rs.findIdx? fun r => strLe key r <;> simp [hf, List.length_cons]

theorem LeafSearch_reaches_leaf (key : Str) :
    ∀ t : VNode, shapeOk t = true →
      ∃ hashes keys pleaf, LeafSearch key t = some (VNode.leaf hashes keys pleaf) ∧
        VNode.leaf hashes keys pleaf ∈ leavesOf t
  | VNode.leaf hashes keys pleaf, _ =>
      ⟨hashes, keys, pleaf, by rw [LeafSearch], by rw [leavesOf]; simp⟩
  | VNode.inner rkeys children, h => by
      rw [shapeOk, Bool.and_eq_true, beq_iff_eq] at h
      have hidx : descIdx key rkeys < children.length := by
        have := descIdx_le key rkeys
        omega
      rcases hc : children[descIdx key rkeys]? with _ | c
      · rw [List.getElem?_eq_none_iff] at hc
        omega
      · have hcmem : c ∈ children := by
          rcases List.getElem?_eq_some_iff.mp hc with ⟨hlt, he⟩
          exact he ▸ List.getElem_mem hlt
        have hcsh : shapeOk c = true := shapeOkList_mem h.2 c hcmem
        rcases LeafSearch_reaches_leaf key c hcsh with ⟨hs, ks, pl, hsearch, hmem⟩
        refine ⟨hs, ks, pl, ?_, ?_⟩
        · rw [LeafSearch, LeafSearchChild_eq, hc]
          exact hsearch
        · rw [leavesOf]
          exact mem_leavesOfList hcmem hmem
termination_by t => sizeOf t
decreasing_by
  simp only [VNode.inner.sizeOf_spec]
  have := List.sizeOf_lt_of_mem hcmem
  omega

/-- C8: the index search starting at a null `tree_top` returns null; at an
inner node it descends to `children[i]` for the least `i` with
`K ≤ r[i]` (`children[keycount]` when there is none); and on a
well-formed tree it returns the leaf node reached by that descent. -/
theorem claim_C8_leaf_search (key : Str) (s : Tree3) (rkeys : List Str)
    (children : List VNode) (t : VNode)
    (hnull : s.tree_top = none) (ht : shapeOk t = true)
    (hsh : shapeOk (VNode.inner rkeys children) = true) :
    searchTop s key = none ∧
    (∃ c, children[((rkeys.findIdx? fun r => strLe key r).getD rkeys.length)]? = some c ∧
      LeafSearch key (VNode.inner rkeys children) = LeafSearch key c) ∧
    (∃ hashes keys pleaf, LeafSearch key t = some (VNode.leaf hashes keys pleaf) ∧
      VNode.leaf hashes keys pleaf ∈ leavesOf t) := by
  refine ⟨by rw [searchTop, hnull], ?_, LeafSearch_reaches_leaf key t ht⟩
  rw [shapeOk, Bool.and_eq_true, beq_iff_eq] at hsh
  have hidx : descIdx key rkeys < children.length := by
    have := descIdx_le key rkeys
    omega
  rcases hc : children[descIdx key rkeys]? with _ | c
  · rw [List.getElem?_eq_none_iff] at hc
    omega
  · refine ⟨c, by rw [← descIdx_spec]; exact hc, ?_⟩
    rw [LeafSearch, LeafSearchChild_eq, hc]

theorem claim_C8_leaf_search_witness :
    ({ ps := ⟨[], [], []⟩, tree_top := none } : Tree3).tree_top = none ∧
    shapeOk (VNode.leaf [1] [[5]] 0) = true ∧
    shapeOk (VNode.inner [[7]] [VNode.leaf [1] [[5]] 0, VNode.leaf [2] [[9]] 1]) = true ∧
    (searchTop { ps := ⟨[], [], []⟩, tree_top := none } [5] = none ∧
      (∃ c, [VNode.leaf [1] [[5]] 0, VNode.leaf [2] [[9]] 1][((([[7]] : List Str).findIdx?
          fun r => strLe [5] r).getD 1)]? = some c ∧
        LeafSearch [5] (VNode.inner [[7]] [VNode.leaf [1] [[5]] 0, VNode.leaf [2] [[9]] 1]) =
          LeafSearch [5] c) ∧
      (∃ hashes keys pleaf,
        LeafSearch [5] (VNode.leaf [1] [[5]] 0) = some (VNode.leaf hashes keys pleaf) ∧
        VNode.leaf hashes keys pleaf ∈ leavesOf (VNode.leaf [1] [[5]] 0))) := by
  refine ⟨rfl, by decide, by decide, ?_⟩
  exact claim_C8_leaf_search [5] _ [[7]] [VNode.leaf [1] [[5]] 0, VNode.leaf [2] [[9]] 1]
    (VNode.leaf [1] [[5]] 0) rfl (by decide) (by decide)

/-! ## Mutation helpers -/

/-- Insert an element at position `n`, shifting the tail right (the key and
child array shifting of `InnerUpdateAfterSplit`). -/
def insertAt {α : Type} : Nat → α → List α → List α
  | 0, a, l => a :: l
  | _ + 1, a, [] => [a]
  | n + 1, a, x :: xs => x :: insertAt n a xs

/-- `strLe` as a relation, for the sorting API. -/
def SLe (a b : Str) : Prop := strLe a b = true

instance : DecidableRel SLe := fun a b => by
  unfold SLe
  infer_instance

instance : IsTotal Str SLe := ⟨strLe_total⟩

instance : IsTrans Str SLe := ⟨fun _ _ _ => strLe_trans⟩

/-- The `std::sort` of the 49 keys in `LeafSplitFull` (keys there are
distinct, so the strict-comparator sort of the source produces exactly the
`SLe`-sorted permutation). -/
def sortKeys (l : List Str) : List Str := List.insertionSort SLe l

/-- The slot scan of `LeafFillSlotForKey`: walk slots in descending order,
recording the most recent empty slot, and break on the first key match.
Returns `(key_match_slot, last_empty_slot)`. -/
def scanSlotsAux (hashes : List Nat) (keys : List Str) (hash : Nat) (key : Str) :
    List Nat → Option Nat → Option Nat × Option Nat
  | [], le => (none, le)
  | slot :: rest, le =>
      let sh := hashes.getD slot 0
      if sh = 0 then scanSlotsAux hashes keys hash key rest (some slot)
      else if sh = hash ∧ keys.getD slot [] = key then (some slot, le)
      else scanSlotsAux hashes keys hash key rest le

def scanSlots (hashes : List Nat) (keys : List Str) (hash : Nat) (key : Str) :
    Option Nat × Option Nat :=
  scanSlotsAux hashes keys hash key descRange none

/-- `tree3::LeafFillSpecificSlot`: store the payload into the persistent
slot and mirror hash and key in the volatile arrays. -/
def fillSpecific (ps : PState) (pid : Nat) (hashes : List Nat) (keys : List Str)
    (hash : Nat) (key value : Str) (slot : Nat) : PState × List Nat × List Str :=
  (setLeafSlots ps pid ((getLeafP ps pid).slots.set slot (some (KVSlot.set hash key value))),
   hashes.set slot hash, keys.set slot key)

/-- The slot search of `tree3::LeafFillEmptySlot`: first slot in descending
order whose mirrored hash is 0. -/
def findEmptySlot (hashes : List Nat) : Option Nat :=
  descRange.find? fun slot => hashes.getD slot 0 == 0

/-- `tree3::LeafFillEmptySlot`: fill the first empty slot found; if the
leaf has no empty slot the function silently does nothing. -/
def fillEmpty (ps : PState) (pid : Nat) (hashes : List Nat) (keys : List Str)
    (hash : Nat) (key value : Str) : PState × List Nat × List Str :=
  match findEmptySlot hashes with
  | some slot => fillSpecific ps pid hashes keys hash key value slot
  | none => (ps, hashes, keys)

/-- Attach a persistent leaf to a new volatile node: pop the back of
`leaves_prealloc` if possible, else `make_persistent` a fresh leaf and
link it at the head of the persistent list.  Returns its id. -/
def allocLeaf (ps : PState) : Nat × PState :=
  match ps.prealloc.getLast? with
  | some nid => (nid, { ps with prealloc := ps.prealloc.dropLast })
  | none =>
      (ps.heap.length,
       { heap := ps.heap ++ [emptyLeaf], head := ps.heap.length :: ps.head,
         prealloc := ps.prealloc })

/-- `tree3::LeafSplitFull` up to (not including) the parent update: sort
the 48 keys plus the new key, take the element at index
`LEAF_KEYS_MIDPOINT` as split key, move every slot whose key is strictly
greater than the split key to the same slot index of the new leaf
(swapping the persistent payloads, blanking the source mirror), and insert
`(hash, key, value)` into an empty slot of the new leaf if
`key > split_key`, of the original leaf otherwise.  Returns the updated
pool, the original leaf node, the split key and the new leaf node. -/
def migOrigSlots (sk : Str) (keys : List Str) (oslots nslots : List (Option Payload)) :
    List (Option Payload) :=
  (List.range LEAF_KEYS).map fun slot =>
    if strGt (keys.getD slot []) sk then nslots.getD slot none else oslots.getD slot none

def migNewSlots (sk : Str) (keys : List Str) (oslots nslots : List (Option Payload)) :
    List (Option Payload) :=
  (List.range LEAF_KEYS).map fun slot =>
    if strGt (keys.getD slot []) sk then oslots.getD slot none else nslots.getD slot none

def migOrigHashes (sk : Str) (hashes : List Nat) (keys : List Str) : List Nat :=
  (List.range LEAF_KEYS).map fun slot =>
    if strGt (keys.getD slot []) sk then 0 else hashes.getD slot 0

def migOrigKeys (sk : Str) (keys : List Str) : List Str :=
  (List.range LEAF_KEYS).map fun slot =>
    if strGt (keys.getD slot []) sk then [] else keys.getD slot []

def migNewHashes (sk : Str) (hashes : List Nat) (keys : List Str) : List Nat :=
  (List.range LEAF_KEYS).map fun slot =>
    if strGt (keys.getD slot []) sk then hashes.getD slot 0 else 0

def migNewKeys (sk : Str) (keys : List Str) : List Str :=
  (List.range LEAF_KEYS).map fun slot =>
    if strGt (keys.getD slot []) sk then keys.getD slot [] else []

def splitLeaf (ps : PState) (hashes : List Nat) (keys : List Str) (pid : Nat)
    (hash : Nat) (key value : Str) : PState × VNode × Str × VNode :=
  let sorted := sortKeys (keys ++ [key])
  let split_key := sorted.getD LEAF_KEYS_MIDPOINT []
  let a := allocLeaf ps
  let nid := a.1
  let ps1 := a.2
  let oslots := (getLeafP ps1 pid).slots
  let nslots := (getLeafP ps1 nid).slots
  let ps2 := setLeafSlots (setLeafSlots ps1 pid (migOrigSlots split_key keys oslots nslots))
    nid (migNewSlots split_key keys oslots nslots)
  if strGt key split_key then
    let r := fillEmpty ps2 nid (migNewHashes split_key hashes keys)
      (migNewKeys split_key keys) hash key value
    (r.1, VNode.leaf (migOrigHashes split_key hashes keys) (migOrigKeys split_key keys) pid,
     split_key, VNode.leaf r.2.1 r.2.2 nid)
  else
    let r := fillEmpty ps2 pid (migOrigHashes split_key hashes keys)
      (migOrigKeys split_key keys) hash key value
    (r.1, VNode.leaf r.2.1 r.2.2 pid, split_key,
     VNode.leaf (migNewHashes split_key hashes keys) (migNewKeys split_key keys) nid)

/-- The insertion-position loop of `InnerUpdateAfterSplit`:
`while (idx < keycount && keys[idx].compare(split_key) <= 0) idx++`. -/
def insPos (sk : Str) : List Str → Nat
  | [] => 0
  | r :: rs => if strLe r sk then insPos sk rs + 1 else 0

/-- The body of `InnerUpdateAfterSplit` for one inner node: insert the
split key and new child (right of the split position); if the node now
holds `INNER_KEYS + 1` keys, split it at `INNER_KEYS_MIDPOINT`, the upper
keys and children from `INNER_KEYS_UPPER` moving to a new sibling and the
midpoint key becoming the separator passed up. -/
def absorbSplit (rkeys : List Str) (children : List VNode) (sk : Str) (nn : VNode) :
    VNode × Option (Str × VNode) :=
  let idx := insPos sk rkeys
  let rkeys2 := insertAt idx sk rkeys
  let children2 := insertAt (idx + 1) nn children
  if rkeys2.length ≤ INNER_KEYS then (VNode.inner rkeys2 children2, none)
  else
    (VNode.inner (rkeys2.take INNER_KEYS_MIDPOINT) (children2.take (INNER_KEYS_MIDPOINT + 1)),
     some (rkeys2.getD INNER_KEYS_MIDPOINT [],
       VNode.inner (rkeys2.drop INNER_KEYS_UPPER) (children2.drop INNER_KEYS_UPPER)))

/-- The root case of `InnerUpdateAfterSplit`: a split reaching the top
creates a new top node with one key and the two nodes as children. -/
def finishSplit (t : VNode) (sp : Option (Str × VNode)) : VNode :=
  match sp with
  | none => t
  | some (sk, nn) => VNode.inner [sk] [t, nn]

/-! ## Put

`tree3::put` locates the leaf with `LeafSearch` and then mutates it in
place, propagating splits through parent pointers.  `putRec` realises the
same computation as one descend-and-rebuild recursion: it descends by
`descIdx` exactly as `LeafSearch` does, applies `LeafFillSlotForKey` or
`LeafSplitFull` at the leaf, and performs each parent's
`InnerUpdateAfterSplit` insertion on the way back up, returning a
propagated `(split_key, new_node)` pair where the C++ recursion walks up
the parent chain. -/

mutual

def putRec (hash : Nat) (key value : Str) :
    PState → VNode → PState × VNode × Option (Str × VNode)
  | ps, VNode.leaf hashes keys pid =>
      match scanSlots hashes keys hash key with
      | (some slot, _) =>
          let r := fillSpecific ps pid hashes keys hash key value slot
          (r.1, VNode.leaf r.2.1 r.2.2 pid, none)
      | (none, some slot) =>
          let r := fillSpecific ps pid hashes keys hash key value slot
          (r.1, VNode.leaf r.2.1 r.2.2 pid, none)
      | (none, none) =>
          let r := splitLeaf ps hashes keys pid hash key value
          (r.1, r.2.1, some (r.2.2.1, r.2.2.2))
  | ps, VNode.inner rkeys children =>
      let r := putRecChild hash key value ps (descIdx key rkeys) children
      match r.2.2 with
      | none => (r.1, VNode.inner rkeys r.2.1, none)
      | some (sk, nn) =>
          let a := absorbSplit rkeys r.2.1 sk nn
          (r.1, a.1, a.2)

def putRecChild (hash : Nat) (key value : Str) :
    PState → Nat → List VNode → PState × List VNode × Option (Str × VNode)
  | ps, _, [] => (ps, [], none)
  | ps, 0, c :: cs =>
      let r := putRec hash key value ps c
      (r.1, r.2.1 :: cs, r.2.2)
  | ps, i + 1, c :: cs =>
      let r := putRecChild hash key value ps i cs
      (r.1, c :: r.2.1, r.2.2)

end

/-- `tree3::put` (success path; allocation failure, the only source of a
`FAILED` status, is outside the model).  A null `tree_top` allocates a
fresh volatile head leaf (zeroed mirror arrays) and fills its slot 0; a
split that bubbles out of the root creates a new top node. -/
def tree3.put (s : Tree3) (key value : Str) : Tree3 :=
  let hash := PearsonHash key
  match s.tree_top with
  | none =>
      let a := allocLeaf s.ps
      let r := fillSpecific a.2 a.1 (List.replicate LEAF_KEYS 0)
        (List.replicate LEAF_KEYS []) hash key value 0
      { ps := r.1, tree_top := some (VNode.leaf r.2.1 r.2.2 a.1) }
  | some top =>
      let r := putRec hash key value s.ps top
      { ps := r.1, tree_top := some (finishSplit r.2.1 r.2.2) }

/-! ## Remove

`tree3::remove` clears the volatile mirror entries (`hashes[slot] = 0`,
`keys[slot].clear()`) before running the pool transaction that clears the
persistent slot.  The `txOk` flag models whether that transaction commits:
on abort (`txOk = false`) the persistent slot is rolled back, the catch
block returns `FAILED`, and the volatile mirror stays cleared, exactly as
in the source. -/

mutual

def removeRec (txOk : Bool) (hash : Nat) (key : Str) :
    PState → VNode → PState × VNode × Status
  | ps, VNode.leaf hashes keys pid =>
      match findSlot hashes keys hash key with
      | some slot =>
          if txOk then
            (setLeafSlots ps pid ((getLeafP ps pid).slots.set slot none),
             VNode.leaf (hashes.set slot 0) (keys.set slot []) pid, Status.OK)
          else
            (ps, VNode.leaf (hashes.set slot 0) (keys.set slot []) pid, Status.FAILED)
      | none => (ps, VNode.leaf hashes keys pid, Status.NOT_FOUND)
  | ps, VNode.inner rkeys children =>
      let r := removeRecChild txOk hash key ps (descIdx key rkeys) children
      (r.1, VNode.inner rkeys r.2.1, r.2.2)

def removeRecChild (txOk : Bool) (hash : Nat) (key : Str) :
    PState → Nat → List VNode → PState × List VNode × Status
  | ps, _, [] => (ps, [], Status.NOT_FOUND)
  | ps, 0, c :: cs =>
      let r := removeRec txOk hash key ps c
      (r.1, r.2.1 :: cs, r.2.2)
  | ps, i + 1, c :: cs =>
      let r := removeRecChild txOk hash key ps i cs
      (r.1, c :: r.2.1, r.2.2)

end

/-- `tree3::remove` with the transaction outcome made explicit. -/
def tree3.removeTx (txOk : Bool) (s : Tree3) (key : Str) : Tree3 × Status :=
  match s.tree_top with
  | none => (s, Status.NOT_FOUND)
  | some top =>
      let r := removeRec txOk (PearsonHash key) key s.ps top
      ({ ps := r.1, tree_top := some r.2.1 }, r.2.2)

/-- `tree3::remove` (committing transaction). -/
def tree3.remove (s : Tree3) (key : Str) : Tree3 × Status :=
  tree3.removeTx true s key

/-! ## Recovery (`tree3::Recover`)

On open, the constructor walks the persistent leaf list, rebuilds one
volatile leaf node per non-empty leaf (recording its maximum live key),
collects fully-empty leaves into `leaves_prealloc`, sorts the recovered
leaves by ascending maximum key and reassembles the inner tree by
repeatedly applying `InnerUpdateAfterSplit` with the previous leaf's
maximum as split key.  Since the previous leaf is always the rightmost
leaf of the tree built so far, its parent chain is the right spine, which
`insertSpine` walks. -/

/-- Working record for one recovered leaf (`KVRecoveredLeaf` plus the
rebuilt mirror arrays of its `KVLeafNode`). -/
structure RecEntry where
  hashes : List Nat
  keys : List Str
  pid : Nat
  max_key : Str

/-- The per-slot recovery loop: skip empty slots, copy the stored hash,
skip hash-0 slots, copy the key bytes and track the maximum key. -/
def recoverLeafAux (lf : KVLeaf) :
    List Nat → List Nat → List Str → Option Str → List Nat × List Str × Option Str
  | [], hashes, keys, mx => (hashes, keys, mx)
  | slot :: rest, hashes, keys, mx =>
      match lf.slots.getD slot none with
      | none => recoverLeafAux lf rest hashes keys mx
      | some p =>
          let h := KVSlot.get_ph p
          if h = 0 then recoverLeafAux lf rest (hashes.set slot h) keys mx
          else
            let k := KVSlot.keyBytes p
            let mx2 := match mx with
              | none => some k
              | some m => if strLt m k then some k else some m
            recoverLeafAux lf rest (hashes.set slot h) (keys.set slot k) mx2

/-- Rebuild the volatile mirror of one persistent leaf; `none` as maximum
means the leaf has no live slot (`empty_leaf`). -/
def recoverLeaf (lf : KVLeaf) : List Nat × List Str × Option Str :=
  recoverLeafAux lf descRange (List.replicate LEAF_KEYS 0)
    (List.replicate LEAF_KEYS []) none

/-- Walk the persistent list: empty leaves are pushed onto the free pool,
live leaves become `RecEntry` records (both in list order). -/
def recoverWalk (ps : PState) : List Nat → List Nat × List RecEntry
  | [] => ([], [])
  | id :: rest =>
      let r := recoverLeaf (getLeafP ps id)
      let w := recoverWalk ps rest
      match r.2.2 with
      | none => (id :: w.1, w.2)
      | some mx => (w.1, ⟨r.1, r.2.1, id, mx⟩ :: w.2)

/-- `RecEntry` order: ascending `max_key` (the `leaves.sort` comparator;
recovered maxima are distinct, so the strict comparator of the source
yields exactly this sorted permutation). -/
def entLe (a b : RecEntry) : Prop := SLe a.max_key b.max_key

instance : DecidableRel entLe := fun a b => by
  unfold entLe
  infer_instance

instance : IsTotal RecEntry entLe := ⟨fun a b => strLe_total a.max_key b.max_key⟩

instance : IsTrans RecEntry entLe := ⟨fun _ _ _ => strLe_trans⟩

def sortEntries (l : List RecEntry) : List RecEntry := List.insertionSort entLe l

mutual

/-- `InnerUpdateAfterSplit(prevnode, new_node, split_key)` where
`prevnode` is the rightmost leaf: walk down the right spine to the level
above `prevnode`, insert `(split_key, new_node)` there with
`absorbSplit`, and propagate any overflow split back up. -/
def insertSpine : VNode → Str → VNode → VNode × Option (Str × VNode)
  | VNode.leaf hashes keys pid, sk, nn => (VNode.leaf hashes keys pid, some (sk, nn))
  | VNode.inner rkeys children, sk, nn =>
      let r := insertSpineLast children sk nn
      match r.2 with
      | none => (VNode.inner rkeys r.1, none)
      | some (sk2, nn2) => absorbSplit rkeys r.1 sk2 nn2

/-- Apply `insertSpine` to the last child of the list. -/
def insertSpineLast : List VNode → Str → VNode → List VNode × Option (Str × VNode)
  | [], _, _ => ([], none)
  | [c], sk, nn =>
      let r := insertSpine c sk nn
      ([r.1], r.2)
  | c :: c2 :: cs, sk, nn =>
      let r := insertSpineLast (c2 :: cs) sk nn
      (c :: r.1, r.2)

end

/-- The reassembly loop of `Recover`: fold the sorted leaves into a tree,
passing the previous maximum as split key. -/
def recoverBuild : VNode → Str → List RecEntry → VNode
  | t, _, [] => t
  | t, prevMax, e :: rest =>
      let r := insertSpine t prevMax (VNode.leaf e.hashes e.keys e.pid)
      recoverBuild (finishSplit r.1 r.2) e.max_key rest

/-- `tree3::Recover`, as run by the constructor on open: rebuilds
`tree_top` and `leaves_prealloc` from the persistent state (`heap` and
`head` are untouched). -/
def Recover (ps : PState) : Tree3 :=
  let w := recoverWalk ps ps.head
  match sortEntries w.2 with
  | [] => { ps := { ps with prealloc := w.1 }, tree_top := none }
  | e :: rest =>
      { ps := { ps with prealloc := w.1 },
        tree_top := some (recoverBuild (VNode.leaf e.hashes e.keys e.pid) e.max_key rest) }

/-! ## C4: remove's abort path does not roll back the volatile mirror

`tree3::remove` clears `leafnode->hashes[slot]` and `leafnode->keys[slot]`
before `transaction::run`; when the transaction aborts the catch block
returns `FAILED` with the persistent slot rolled back but the volatile
mirror still cleared. -/

/-- C4 (code bug): starting from the store holding only `"a" -> "x"`
(bytes `[97] -> [120]`), a `remove("a")` whose pool transaction aborts
returns `FAILED` and leaves the persistent state untouched, but the
volatile mirror differs from its pre-call state: the claimed rollback of
volatile edits does not happen in `tree3::remove`. -/
theorem claim_C4_remove_abort_mirror :
    (tree3.removeTx false (tree3.put { ps := ⟨[], [], []⟩, tree_top := none } [97] [120])
        [97]).2 = Status.FAILED ∧
    (tree3.removeTx false (tree3.put { ps := ⟨[], [], []⟩, tree_top := none } [97] [120])
        [97]).1.ps =
      (tree3.put { ps := ⟨[], [], []⟩, tree_top := none } [97] [120]).ps ∧
    (tree3.removeTx false (tree3.put { ps := ⟨[], [], []⟩, tree_top := none } [97] [120])
        [97]).1.tree_top ≠
      (tree3.put { ps := ⟨[], [], []⟩, tree_top := none } [97] [120]).tree_top := by
  decide

/-! ## Live keys of a leaf mirror, and slot-update lemmas -/

/-- The live keys mirrored by a volatile leaf, in ascending slot order
(slots with hash 0 are empty). -/
def liveKeysLeaf (hashes : List Nat) (keys : List Str) : List Str :=
  (List.range LEAF_KEYS).filterMap fun slot =>
    if hashes.getD slot 0 = 0 then none else some (keys.getD slot [])

theorem getD_range_map {α : Type} (f : Nat → α) (n i : Nat) (d : α) (h : i < n) :
    ((List.range n).map f).getD i d = f i := by
  rw [List.getD_eq_getElem?_getD, List.getElem?_map, List.getElem?_range h]
  rfl

theorem map_getD_range {α : Type} (l : List α) (d : α) :
    (List.range l.length).map (fun i => l.getD i d) = l := by
  apply List.ext_getElem
  · simp
  · intro i h1 h2
    simp only [List.getElem_map, List.getElem_range, List.getD_eq_getElem?_getD,
      List.getElem?_eq_getElem h2]
    rfl

theorem range_split (n i : Nat) (h : i < n) :
    List.range n = List.range i ++ i :: (List.range (n - i - 1)).map (fun j => i + (j + 1)) := by
  have h1 : n = i + (n - i) := by omega
  conv_lhs => rw [h1]
  rw [List.range_add]
  have h2 : n - i = (n - i - 1) + 1 := by omega
  rw [h2, List.range_succ_eq_map]
  simp [List.map_cons, List.map_map, Function.comp, Nat.succ_eq_add_one]

theorem liveKeysLeaf_set_decomp (hashes : List Nat) (keys : List Str) (fslot nh : Nat)
    (nk : Str) (hhlen : hashes.length = LEAF_KEYS) (hklen : keys.length = LEAF_KEYS)
    (hf : fslot < LEAF_KEYS) :
    ∃ A B : List Str,
      liveKeysLeaf hashes keys =
        A ++ (if hashes.getD fslot 0 = 0 then [] else [keys.getD fslot []]) ++ B ∧
      liveKeysLeaf (hashes.set fslot nh) (keys.set fslot nk) =
        A ++ (if nh = 0 then [] else [nk]) ++ B := by
  have hset_ne : ∀ slot, slot ≠ fslot →
      ((hashes.set fslot nh).getD slot 0 = hashes.getD slot 0 ∧
       (keys.set fslot nk).getD slot [] = keys.getD slot []) := by
    intro slot hne
    constructor
    · rw [List.getD_eq_getElem?_getD, List.getElem?_set_ne (fun he => hne he.symm),
        ← List.getD_eq_getElem?_getD]
    · rw [List.getD_eq_getElem?_getD, List.getElem?_set_ne (fun he => hne he.symm),
        ← List.getD_eq_getElem?_getD]
  refine ⟨(List.range fslot).filterMap
      (fun slot => if hashes.getD slot 0 = 0 then none else some (keys.getD slot [])),
    ((List.range (LEAF_KEYS - fslot - 1)).map (fun j => fslot + (j + 1))).filterMap
      (fun slot => if hashes.getD slot 0 = 0 then none else some (keys.getD slot [])),
    ?_, ?_⟩
  · rw [liveKeysLeaf, range_split LEAF_KEYS fslot hf, List.filterMap_append,
      List.filterMap_cons]
    by_cases hz : hashes.getD fslot 0 = 0
    · simp only [hz, if_pos rfl, if_true]
      simp
    · simp only [if_neg hz]
      simp
  · rw [liveKeysLeaf, range_split LEAF_KEYS fslot hf, List.filterMap_append,
      List.filterMap_cons]
    have hself_h : (hashes.set fslot nh).getD fslot 0 = nh := by
      rw [List.getD_eq_getElem?_getD, List.getElem?_set_self (by omega)]
      rfl
    have hself_k : (keys.set fslot nk).getD fslot [] = nk := by
      rw [List.getD_eq_getElem?_getD, List.getElem?_set_self (by omega)]
      rfl
    have hA : (List.range fslot).filterMap
        (fun slot => if (hashes.set fslot nh).getD slot 0 = 0 then none
          else some ((keys.set fslot nk).getD slot [])) =
        (List.range fslot).filterMap
        (fun slot => if hashes.getD slot 0 = 0 then none else some (keys.getD slot [])) := by
      apply List.filterMap_congr
      intro slot hs
      have : slot ≠ fslot := by
        have := List.mem_range.mp hs
        omega
      rw [(hset_ne slot this).1, (hset_ne slot this).2]
    have hB : ((List.range (LEAF_KEYS - fslot - 1)).map (fun j => fslot + (j + 1))).filterMap
        (fun slot => if (hashes.set fslot nh).getD slot 0 = 0 then none
          else some ((keys.set fslot nk).getD slot [])) =
        ((List.range (LEAF_KEYS - fslot - 1)).map (fun j => fslot + (j + 1))).filterMap
        (fun slot => if hashes.getD slot 0 = 0 then none else some (keys.getD slot [])) := by
      apply List.filterMap_congr
      intro slot hs
      rcases List.mem_map.mp hs with ⟨j, _, rfl⟩
      have : fslot + (j + 1) ≠ fslot := by omega
      rw [(hset_ne _ this).1, (hset_ne _ this).2]
    rw [hA, hB, hself_h, hself_k]
    by_cases hz : nh = 0
    · simp only [hz, if_pos rfl]
      simp
    · simp only [if_neg hz]
      simp

/-- Filling a previously empty slot inserts exactly the new key into the
live set. -/
theorem liveKeysLeaf_fill_perm (hashes : List Nat) (keys : List Str) (fslot nh : Nat)
    (nk : Str) (hhlen : hashes.length = LEAF_KEYS) (hklen : keys.length = LEAF_KEYS)
    (hf : fslot < LEAF_KEYS) (hemp : hashes.getD fslot 0 = 0) (hnh : nh ≠ 0) :
    List.Perm (liveKeysLeaf (hashes.set fslot nh) (keys.set fslot nk))
      (nk :: liveKeysLeaf hashes keys) := by
  rcases liveKeysLeaf_set_decomp hashes keys fslot nh nk hhlen hklen hf with ⟨A, B, h1, h2⟩
  rw [h1, h2, if_pos hemp, if_neg hnh]
  simpa using List.perm_middle

/-- Clearing a live slot removes exactly its key from the live set. -/
theorem liveKeysLeaf_clear_perm (hashes : List Nat) (keys : List Str) (fslot : Nat)
    (hhlen : hashes.length = LEAF_KEYS) (hklen : keys.length = LEAF_KEYS)
    (hf : fslot < LEAF_KEYS) (hlive : hashes.getD fslot 0 ≠ 0) :
    List.Perm (liveKeysLeaf hashes keys)
      (keys.getD fslot [] :: liveKeysLeaf (hashes.set fslot 0) (keys.set fslot [])) := by
  rcases liveKeysLeaf_set_decomp hashes keys fslot 0 [] hhlen hklen hf with ⟨A, B, h1, h2⟩
  rw [h1, h2, if_neg hlive, if_pos rfl]
  simpa using List.perm_middle

theorem mem_liveKeysLeaf {hashes : List Nat} {keys : List Str} {k : Str} :
    k ∈ liveKeysLeaf hashes keys ↔
      ∃ slot, slot < LEAF_KEYS ∧ hashes.getD slot 0 ≠ 0 ∧ keys.getD slot [] = k := by
  rw [liveKeysLeaf]
  constructor
  · intro h
    rcases List.mem_filterMap.mp h with ⟨slot, hs, hv⟩
    by_cases hz : hashes.getD slot 0 = 0
    · rw [if_pos hz] at hv
      cases hv
    · rw [if_neg hz] at hv
      exact ⟨slot, List.mem_range.mp hs, hz, by injection hv⟩
  · rintro ⟨slot, hlt, hz, rfl⟩
    exact List.mem_filterMap.mpr ⟨slot, List.mem_range.mpr hlt, by rw [if_neg hz]⟩

/-! ## Sorted-median counting, for `LeafSplitFull` -/

theorem sortKeys_perm (l : List Str) : List.Perm (sortKeys l) l :=
  List.perm_insertionSort SLe l

theorem sortKeys_sorted (l : List Str) : List.Sorted SLe (sortKeys l) :=
  List.sorted_insertionSort SLe l

theorem sortKeys_sorted_lt {l : List Str} (h : l.Nodup) :
    List.Sorted (fun a b => strLt a b = true) (sortKeys l) := by
  have hs := sortKeys_sorted l
  have hn : (sortKeys l).Nodup := ((sortKeys_perm l).nodup_iff).mpr h
  exact (hs.and hn).imp fun hab => strLt_of_le_of_ne hab.1 hab.2

theorem strGt_eq_strLt (a b : Str) : strGt a b = strLt b a := by
  rw [strGt, strLt, strCmp_swap a b]
  cases strCmp a b <;> rfl

/-- In a strictly sorted list, exactly the elements after position `i` are
greater than the element at position `i`. -/
theorem countP_gt_getD_sorted {l : List Str}
    (hs : List.Sorted (fun a b => strLt a b = true) l) {i : Nat} (hi : i < l.length) :
    l.countP (fun x => strLt (l.getD i []) x) = l.length - i - 1 := by
  have hget : l.getD i [] = l[i] := by
    rw [List.getD_eq_getElem?_getD, List.getElem?_eq_getElem hi]
    rfl
  have hpw := (List.pairwise_iff_getElem).mp hs
  obtain ⟨m, hm⟩ : ∃ m, l.getD i [] = m := ⟨_, rfl⟩
  rw [hm]
  rw [hm] at hget
  conv_lhs => rw [← List.take_append_drop (i + 1) l]
  rw [List.countP_append]
  have h1 : (l.take (i + 1)).countP (fun x => strLt m x) = 0 := by
    rw [List.countP_eq_zero]
    intro a ha
    rcases List.mem_iff_getElem.mp ha with ⟨j, hj, rfl⟩
    have hjl : j < i + 1 := by
      have := hj
      simp [List.length_take] at this
      omega
    rw [List.getElem_take]
    rcases Nat.lt_or_ge j i with hlt | hge
    · have := hpw j i (by omega) hi hlt
      rw [hget]
      intro hcon
      have := strLt_trans this hcon
      rw [strLt_iff, strCmp_self] at this
      simp at this
    · have hji : j = i := by omega
      subst hji
      rw [hget]
      intro hcon
      rw [strLt_iff, strCmp_self] at hcon
      simp at hcon
  have h2 : (l.drop (i + 1)).countP (fun x => strLt m x) =
      (l.drop (i + 1)).length := by
    rw [List.countP_eq_length]
    intro a ha
    rcases List.mem_iff_getElem.mp ha with ⟨j, hj, rfl⟩
    rw [List.getElem_drop, hget]
    exact hpw i (i + 1 + j) hi (by simp [List.length_drop] at hj; omega) (by omega)
  rw [h1, h2, List.length_drop]
  omega

/-- C6/C9 context: the 48 leaf keys plus the new key. -/
def all49 (keys : List Str) (key : Str) : List Str := keys ++ [key]

/-- The split key of `LeafSplitFull`: element `LEAF_KEYS_MIDPOINT` of the
sorted 49 keys. -/
def splitKeyOf (keys : List Str) (key : Str) : Str :=
  (sortKeys (all49 keys key)).getD LEAF_KEYS_MIDPOINT []

theorem splitKeyOf_mem (keys : List Str) (key : Str) (hklen : keys.length = LEAF_KEYS) :
    splitKeyOf keys key ∈ all49 keys key := by
  have hlen : (sortKeys (all49 keys key)).length = LEAF_KEYS + 1 := by
    rw [(sortKeys_perm _).length_eq]
    simp [all49, hklen]
  have hi : LEAF_KEYS_MIDPOINT < (sortKeys (all49 keys key)).length := by
    rw [hlen]
    decide
  have : splitKeyOf keys key = (sortKeys (all49 keys key))[LEAF_KEYS_MIDPOINT] := by
    rw [splitKeyOf, List.getD_eq_getElem?_getD, List.getElem?_eq_getElem hi]
    rfl
  rw [this]
  exact (sortKeys_perm _).mem_iff.mp (List.getElem_mem hi)

/-- Exactly 24 of the 49 keys are strictly greater than the split key. -/
theorem countP_gt_splitKey (keys : List Str) (key : Str) (hklen : keys.length = LEAF_KEYS)
    (hnodup : (all49 keys key).Nodup) :
    (all49 keys key).countP (fun x => strLt (splitKeyOf keys key) x) = LEAF_KEYS_MIDPOINT := by
  have hperm := sortKeys_perm (all49 keys key)
  have hlen : (sortKeys (all49 keys key)).length = LEAF_KEYS + 1 := by
    rw [hperm.length_eq]
    simp [all49, hklen]
  have hi : LEAF_KEYS_MIDPOINT < (sortKeys (all49 keys key)).length := by
    rw [hlen]
    decide
  have hc := countP_gt_getD_sorted (sortKeys_sorted_lt hnodup) hi
  rw [← splitKeyOf] at hc
  rw [← hperm.countP_eq, hc, hlen]
  decide

/-- Number of existing keys strictly greater than the split key: 24 when
the new key is not above the split key, 23 when it is. -/
theorem countP_gt_splitKey_keys (keys : List Str) (key : Str)
    (hklen : keys.length = LEAF_KEYS) (hnodup : (all49 keys key).Nodup) :
    keys.countP (fun x => strLt (splitKeyOf keys key) x) =
      LEAF_KEYS_MIDPOINT - (if strLt (splitKeyOf keys key) key then 1 else 0) := by
  have h := countP_gt_splitKey keys key hklen hnodup
  rw [all49, List.countP_append] at h
  by_cases hx : strLt (splitKeyOf keys key) key = true
  · rw [if_pos hx]
    have hone : List.countP (fun x => strLt (splitKeyOf keys key) x) [key] = 1 := by
      simp [List.countP_cons, hx]
    rw [hone] at h
    omega
  · rw [if_neg hx]
    have hzero : List.countP (fun x => strLt (splitKeyOf keys key) x) [key] = 0 := by
      simp [List.countP_cons, hx]
    rw [hzero] at h
    omega

/-! ## Migration-array lemmas -/

theorem migOrigHashes_length (sk : Str) (hashes : List Nat) (keys : List Str) :
    (migOrigHashes sk hashes keys).length = LEAF_KEYS := by
  simp [migOrigHashes]

theorem migOrigKeys_length (sk : Str) (keys : List Str) :
    (migOrigKeys sk keys).length = LEAF_KEYS := by
  simp [migOrigKeys]

theorem migNewHashes_length (sk : Str) (hashes : List Nat) (keys : List Str) :
    (migNewHashes sk hashes keys).length = LEAF_KEYS := by
  simp [migNewHashes]

theorem migNewKeys_length (sk : Str) (keys : List Str) :
    (migNewKeys sk keys).length = LEAF_KEYS := by
  simp [migNewKeys]

theorem migOrigHashes_getD (sk : Str) (hashes : List Nat) (keys : List Str) {slot : Nat}
    (h : slot < LEAF_KEYS) :
    (migOrigHashes sk hashes keys).getD slot 0 =
      if strGt (keys.getD slot []) sk then 0 else hashes.getD slot 0 :=
  getD_range_map _ _ _ _ h

theorem migOrigKeys_getD (sk : Str) (keys : List Str) {slot : Nat} (h : slot < LEAF_KEYS) :
    (migOrigKeys sk keys).getD slot [] =
      if strGt (keys.getD slot []) sk then [] else keys.getD slot [] :=
  getD_range_map _ _ _ _ h

theorem migNewHashes_getD (sk : Str) (hashes : List Nat) (keys : List Str) {slot : Nat}
    (h : slot < LEAF_KEYS) :
    (migNewHashes sk hashes keys).getD slot 0 =
      if strGt (keys.getD slot []) sk then hashes.getD slot 0 else 0 :=
  getD_range_map _ _ _ _ h

theorem migNewKeys_getD (sk : Str) (keys : List Str) {slot : Nat} (h : slot < LEAF_KEYS) :
    (migNewKeys sk keys).getD slot [] =
      if strGt (keys.getD slot []) sk then keys.getD slot [] else [] :=
  getD_range_map _ _ _ _ h

theorem filterMap_guard (p : Str → Bool) (l : List Str) :
    (l.filterMap fun k => if p k then none else some k) = l.filter fun k => !p k := by
  induction l with
  | nil => rfl
  | cons a as ih =>
      rw [List.filterMap_cons, List.filter_cons]
      by_cases hp : p a = true
      · simp [hp, ih]
      · simp only [Bool.not_eq_true] at hp
        simp [hp, ih]

theorem filterMap_keep (p : Str → Bool) (l : List Str) :
    (l.filterMap fun k => if p k then some k else none) = l.filter p := by
  induction l with
  | nil => rfl
  | cons a as ih =>
      rw [List.filterMap_cons, List.filter_cons]
      by_cases hp : p a = true
      · simp [hp, ih]
      · simp only [Bool.not_eq_true] at hp
        simp [hp, ih]

theorem liveKeysLeaf_migOrig (sk : Str) (hashes : List Nat) (keys : List Str)
    (hklen : keys.length = LEAF_KEYS)
    (hfull : ∀ slot, slot < LEAF_KEYS → hashes.getD slot 0 ≠ 0) :
    liveKeysLeaf (migOrigHashes sk hashes keys) (migOrigKeys sk keys) =
      keys.filter fun k => !strGt k sk := by
  rw [liveKeysLeaf]
  have hcong : ((List.range LEAF_KEYS).filterMap fun slot =>
      if (migOrigHashes sk hashes keys).getD slot 0 = 0 then none
      else some ((migOrigKeys sk keys).getD slot [])) =
      ((List.range LEAF_KEYS).filterMap fun slot =>
        if strGt (keys.getD slot []) sk then none else some (keys.getD slot [])) := by
    apply List.filterMap_congr
    intro slot hs
    have hlt := List.mem_range.mp hs
    rw [migOrigHashes_getD sk hashes keys hlt, migOrigKeys_getD sk keys hlt]
    cases hps : strGt (keys.getD slot []) sk with
    | true => simp
    | false =>
        have hh := hfull slot hlt
        rw [List.getD_eq_getElem?_getD] at hh
        simp [hh]
  rw [hcong]
  have : ((List.range LEAF_KEYS).filterMap fun slot =>
      if strGt (keys.getD slot []) sk then none else some (keys.getD slot [])) =
      ((List.range LEAF_KEYS).map fun slot => keys.getD slot []).filterMap
        fun k => if strGt k sk then none else some k := by
    rw [List.filterMap_map]
    rfl
  rw [this, ← hklen, map_getD_range, filterMap_guard]

theorem liveKeysLeaf_migNew (sk : Str) (hashes : List Nat) (keys : List Str)
    (hklen : keys.length = LEAF_KEYS)
    (hfull : ∀ slot, slot < LEAF_KEYS → hashes.getD slot 0 ≠ 0) :
    liveKeysLeaf (migNewHashes sk hashes keys) (migNewKeys sk keys) =
      keys.filter fun k => strGt k sk := by
  rw [liveKeysLeaf]
  have hcong : ((List.range LEAF_KEYS).filterMap fun slot =>
      if (migNewHashes sk hashes keys).getD slot 0 = 0 then none
      else some ((migNewKeys sk keys).getD slot [])) =
      ((List.range LEAF_KEYS).filterMap fun slot =>
        if strGt (keys.getD slot []) sk then some (keys.getD slot []) else none) := by
    apply List.filterMap_congr
    intro slot hs
    have hlt := List.mem_range.mp hs
    rw [migNewHashes_getD sk hashes keys hlt, migNewKeys_getD sk keys hlt]
    cases hps : strGt (keys.getD slot []) sk with
    | true =>
        have hh := hfull slot hlt
        rw [List.getD_eq_getElem?_getD] at hh
        simp [hh]
    | false => simp
  rw [hcong]
  have : ((List.range LEAF_KEYS).filterMap fun slot =>
      if strGt (keys.getD slot []) sk then some (keys.getD slot []) else none) =
      ((List.range LEAF_KEYS).map fun slot => keys.getD slot []).filterMap
        fun k => if strGt k sk then some k else none := by
    rw [List.filterMap_map]
    rfl
  rw [this, ← hklen, map_getD_range, filterMap_keep]

theorem countP_strGt_range (keys : List Str) (sk : Str) (hklen : keys.length = LEAF_KEYS) :
    ((List.range LEAF_KEYS).countP fun slot => strGt (keys.getD slot []) sk) =
      keys.countP fun k => strGt k sk := by
  conv_rhs => rw [← map_getD_range keys ([] : Str), hklen]
  rw [List.countP_map]
  rfl

/-- If not every slot key migrates, the new leaf keeps an empty slot. -/
theorem migNew_has_empty {sk : Str} {hashes : List Nat} {keys : List Str}
    (hklen : keys.length = LEAF_KEYS)
    (hcnt : (keys.countP fun k => strGt k sk) < LEAF_KEYS) :
    ∃ fslot, fslot < LEAF_KEYS ∧ (migNewHashes sk hashes keys).getD fslot 0 = 0 := by
  by_contra hcon
  push_neg at hcon
  have hall : ∀ slot ∈ List.range LEAF_KEYS, strGt (keys.getD slot []) sk = true := by
    intro slot hs
    have hlt := List.mem_range.mp hs
    have := hcon slot hlt
    rw [migNewHashes_getD sk hashes keys hlt] at this
    by_cases hp : strGt (keys.getD slot []) sk = true
    · exact hp
    · simp only [Bool.not_eq_true] at hp
      rw [hp] at this
      simp at this
  have := List.countP_eq_length.mpr hall
  rw [countP_strGt_range keys sk hklen] at this
  rw [this] at hcnt
  simp at hcnt

/-- If at least one slot key migrates, the original leaf gains an empty
slot. -/
theorem migOrig_has_empty {sk : Str} {hashes : List Nat} {keys : List Str}
    (hklen : keys.length = LEAF_KEYS)
    (hcnt : 0 < keys.countP fun k => strGt k sk) :
    ∃ fslot, fslot < LEAF_KEYS ∧ (migOrigHashes sk hashes keys).getD fslot 0 = 0 := by
  rw [← countP_strGt_range keys sk hklen] at hcnt
  rcases List.countP_pos.mp hcnt with ⟨slot, hs, hp⟩
  have hlt := List.mem_range.mp hs
  refine ⟨slot, hlt, ?_⟩
  rw [migOrigHashes_getD sk hashes keys hlt, if_pos hp]

/-- When the leaf has an empty slot, `LeafFillEmptySlot` finds one and
fills it. -/
theorem fillEmpty_found {hashes : List Nat} {keys : List Str}
    (ps : PState) (pid : Nat) (hash : Nat) (key value : Str)
    (h : ∃ slot, slot < LEAF_KEYS ∧ hashes.getD slot 0 = 0) :
    ∃ fslot, fslot < LEAF_KEYS ∧ hashes.getD fslot 0 = 0 ∧
      findEmptySlot hashes = some fslot ∧
      fillEmpty ps pid hashes keys hash key value =
        fillSpecific ps pid hashes keys hash key value fslot := by
  rcases h with ⟨slot, hlt, hz⟩
  have hsome : (findEmptySlot hashes).isSome := by
    rw [findEmptySlot, List.find?_isSome]
    refine ⟨slot, by simp [descRange, List.mem_reverse, List.mem_range, hlt], ?_⟩
    simp only [beq_iff_eq]
    exact hz
  rcases hf : findEmptySlot hashes with _ | fslot
  · rw [hf] at hsome
    simp at hsome
  · have hp := List.find?_some hf
    have hmem := List.mem_of_find?_eq_some hf
    have hlt2 : fslot < LEAF_KEYS := by
      have := hmem
      simp [descRange, List.mem_reverse, List.mem_range] at this
      exact this
    refine ⟨fslot, hlt2, by simpa using hp, rfl, ?_⟩
    rw [fillEmpty, hf]

/-! ## C9: the split's fill target always has an empty slot -/

def VNode.getHashes : VNode → List Nat
  | VNode.leaf hashes _ _ => hashes
  | VNode.inner _ _ => []

def VNode.getKeys : VNode → List Str
  | VNode.leaf _ keys _ => keys
  | VNode.inner _ _ => []

def VNode.getPleaf : VNode → Nat
  | VNode.leaf _ _ pleaf => pleaf
  | VNode.inner _ _ => 0

theorem all49_nodup {keys : List Str} {key : Str} (hnodup : keys.Nodup)
    (hnew : key ∉ keys) : (all49 keys key).Nodup := by
  rw [all49, List.nodup_append]
  exact ⟨hnodup, by simp, fun a ha hb => by
    rw [List.mem_singleton] at hb
    exact hnew (hb ▸ ha)⟩

theorem split_count_cases (keys : List Str) (key : Str) (hklen : keys.length = LEAF_KEYS)
    (hnodupAll : (all49 keys key).Nodup) :
    (keys.countP fun k => strGt k (splitKeyOf keys key)) =
      LEAF_KEYS_MIDPOINT - (if strGt key (splitKeyOf keys key) then 1 else 0) := by
  have hfun : (fun k => strGt k (splitKeyOf keys key)) =
      fun k => strLt (splitKeyOf keys key) k :=
    funext fun k => strGt_eq_strLt k _
  rw [hfun, countP_gt_splitKey_keys keys key hklen hnodupAll, strGt_eq_strLt key _]

/-- C9: after the migration pass of a full-leaf split, the leaf receiving
the new key (the new leaf when `key > split_key`, the original otherwise)
still has a slot with hash 0, so `LeafFillEmptySlot` finds a slot and the
new mapping appears among the live keys of that leaf: it is never silently
dropped. -/
theorem claim_C9_split_fill_succeeds
    (ps : PState) (hashes : List Nat) (keys : List Str) (pid hash : Nat) (key value : Str)
    (hhlen : hashes.length = LEAF_KEYS) (hklen : keys.length = LEAF_KEYS)
    (hfull : ∀ slot, slot < LEAF_KEYS → hashes.getD slot 0 ≠ 0)
    (hnodup : keys.Nodup) (hnew : key ∉ keys) (hhash : hash ≠ 0) :
    (∃ fslot, fslot < LEAF_KEYS ∧
      findEmptySlot (if strGt key (splitKeyOf keys key)
        then migNewHashes (splitKeyOf keys key) hashes keys
        else migOrigHashes (splitKeyOf keys key) hashes keys) = some fslot) ∧
    key ∈ liveKeysLeaf
      (VNode.getHashes (if strGt key (splitKeyOf keys key)
        then (splitLeaf ps hashes keys pid hash key value).2.2.2
        else (splitLeaf ps hashes keys pid hash key value).2.1))
      (VNode.getKeys (if strGt key (splitKeyOf keys key)
        then (splitLeaf ps hashes keys pid hash key value).2.2.2
        else (splitLeaf ps hashes keys pid hash key value).2.1)) := by
  have hnodupAll : (all49 keys key).Nodup := all49_nodup hnodup hnew
  have hskdef : (sortKeys (keys ++ [key])).getD LEAF_KEYS_MIDPOINT [] = splitKeyOf keys key :=
    rfl
  have hcnt := split_count_cases keys key hklen hnodupAll
  by_cases hgt : strGt key (splitKeyOf keys key) = true
  · rw [if_pos hgt] at hcnt
    have hcnt2 : (keys.countP fun k => strGt k (splitKeyOf keys key)) < LEAF_KEYS := by
      rw [hcnt]
      decide
    rcases @migNew_has_empty (splitKeyOf keys key) hashes keys hklen hcnt2 with ⟨eslot, helt, hez⟩
    rcases @fillEmpty_found (migNewHashes (splitKeyOf keys key) hashes keys)
      (migNewKeys (splitKeyOf keys key) keys)
      (setLeafSlots (setLeafSlots (allocLeaf ps).2 pid
        (migOrigSlots (splitKeyOf keys key) keys
          (getLeafP (allocLeaf ps).2 pid).slots (getLeafP (allocLeaf ps).2 (allocLeaf ps).1).slots))
        (allocLeaf ps).1
        (migNewSlots (splitKeyOf keys key) keys
          (getLeafP (allocLeaf ps).2 pid).slots (getLeafP (allocLeaf ps).2 (allocLeaf ps).1).slots))
      (allocLeaf ps).1 hash key value ⟨eslot, helt, hez⟩
      with ⟨fslot, hflt, hfz, hfind, heq⟩
    constructor
    · exact ⟨fslot, hflt, by rw [if_pos hgt]; exact hfind⟩
    · rw [if_pos hgt]
      have hsplit : (splitLeaf ps hashes keys pid hash key value).2.2.2 =
          VNode.leaf ((migNewHashes (splitKeyOf keys key) hashes keys).set fslot hash)
            ((migNewKeys (splitKeyOf keys key) keys).set fslot key) (allocLeaf ps).1 := by
        rw [splitLeaf, hskdef, if_pos hgt, heq]
        rfl
      rw [hsplit]
      rw [VNode.getHashes, VNode.getKeys]
      apply mem_liveKeysLeaf.mpr
      refine ⟨fslot, hflt, ?_, ?_⟩
      · rw [List.getD_eq_getElem?_getD, List.getElem?_set_self
          (by rw [migNewHashes_length]; exact hflt)]
        exact hhash
      · rw [List.getD_eq_getElem?_getD, List.getElem?_set_self
          (by rw [migNewKeys_length]; exact hflt)]
        rfl
  · simp only [Bool.not_eq_true] at hgt
    have hgt' : ¬ (strGt key (splitKeyOf keys key) = true) := by
      rw [hgt]
      simp
    rw [if_neg hgt'] at hcnt
    have hcnt2 : 0 < keys.countP fun k => strGt k (splitKeyOf keys key) := by
      rw [hcnt]
      decide
    rcases @migOrig_has_empty (splitKeyOf keys key) hashes keys hklen hcnt2 with ⟨eslot, helt, hez⟩
    rcases @fillEmpty_found (migOrigHashes (splitKeyOf keys key) hashes keys)
      (migOrigKeys (splitKeyOf keys key) keys)
      (setLeafSlots (setLeafSlots (allocLeaf ps).2 pid
        (migOrigSlots (splitKeyOf keys key) keys
          (getLeafP (allocLeaf ps).2 pid).slots (getLeafP (allocLeaf ps).2 (allocLeaf ps).1).slots))
        (allocLeaf ps).1
        (migNewSlots (splitKeyOf keys key) keys
          (getLeafP (allocLeaf ps).2 pid).slots (getLeafP (allocLeaf ps).2 (allocLeaf ps).1).slots))
      pid hash key value ⟨eslot, helt, hez⟩
      with ⟨fslot, hflt, hfz, hfind, heq⟩
    constructor
    · refine ⟨fslot, hflt, ?_⟩
      rw [if_neg hgt']
      exact hfind
    · rw [if_neg hgt']
      have hsplit : (splitLeaf ps hashes keys pid hash key value).2.1 =
          VNode.leaf ((migOrigHashes (splitKeyOf keys key) hashes keys).set fslot hash)
            ((migOrigKeys (splitKeyOf keys key) keys).set fslot key) pid := by
        rw [splitLeaf, hskdef, if_neg hgt', heq]
        rfl
      rw [hsplit]
      rw [VNode.getHashes, VNode.getKeys]
      apply mem_liveKeysLeaf.mpr
      refine ⟨fslot, hflt, ?_, ?_⟩
      · rw [List.getD_eq_getElem?_getD, List.getElem?_set_self
          (by rw [migOrigHashes_length]; exact hflt)]
        exact hhash
      · rw [List.getD_eq_getElem?_getD, List.getElem?_set_self
          (by rw [migOrigKeys_length]; exact hflt)]
        rfl

/-- A concrete full leaf mirror used to instantiate the split theorems:
48 distinct one-byte keys, all hashes nonzero. -/
def demoKeys : List Str := (List.range LEAF_KEYS).map fun i => [i]

def demoHashes : List Nat := List.replicate LEAF_KEYS 7

theorem claim_C9_split_fill_succeeds_witness :
    (demoHashes.length = LEAF_KEYS ∧ demoKeys.length = LEAF_KEYS ∧
      (∀ slot, slot < LEAF_KEYS → demoHashes.getD slot 0 ≠ 0) ∧
      demoKeys.Nodup ∧ [100] ∉ demoKeys ∧ (5 : Nat) ≠ 0) ∧
    ((∃ fslot, fslot < LEAF_KEYS ∧
      findEmptySlot (if strGt [100] (splitKeyOf demoKeys [100])
        then migNewHashes (splitKeyOf demoKeys [100]) demoHashes demoKeys
        else migOrigHashes (splitKeyOf demoKeys [100]) demoHashes demoKeys) = some fslot) ∧
    [100] ∈ liveKeysLeaf
      (VNode.getHashes (if strGt [100] (splitKeyOf demoKeys [100])
        then (splitLeaf ⟨[], [], []⟩ demoHashes demoKeys 0 5 [100] [9]).2.2.2
        else (splitLeaf ⟨[], [], []⟩ demoHashes demoKeys 0 5 [100] [9]).2.1))
      (VNode.getKeys (if strGt [100] (splitKeyOf demoKeys [100])
        then (splitLeaf ⟨[], [], []⟩ demoHashes demoKeys 0 5 [100] [9]).2.2.2
        else (splitLeaf ⟨[], [], []⟩ demoHashes demoKeys 0 5 [100] [9]).2.1))) :=
  ⟨⟨by decide, by decide, by decide, by decide, by decide, by decide⟩,
   claim_C9_split_fill_succeeds ⟨[], [], []⟩ demoHashes demoKeys 0 5 [100] [9]
     (by decide) (by decide) (by decide) (by decide) (by decide) (by decide)⟩

/-! ## Pool-state helper lemmas -/

theorem setLeafSlots_heap_length (ps : PState) (id : Nat) (slots : List (Option Payload)) :
    (setLeafSlots ps id slots).heap.length = ps.heap.length := by
  simp [setLeafSlots]

theorem setLeafSlots_head (ps : PState) (id : Nat) (slots : List (Option Payload)) :
    (setLeafSlots ps id slots).head = ps.head := rfl

theorem setLeafSlots_prealloc (ps : PState) (id : Nat) (slots : List (Option Payload)) :
    (setLeafSlots ps id slots).prealloc = ps.prealloc := rfl

theorem getLeafP_setLeafSlots_self (ps : PState) (id : Nat) (slots : List (Option Payload))
    (h : id < ps.heap.length) :
    getLeafP (setLeafSlots ps id slots) id = ⟨slots⟩ := by
  rw [getLeafP, setLeafSlots]
  rw [List.getD_eq_getElem?_getD, List.getElem?_set_self (by simpa using h)]
  rfl

theorem getLeafP_setLeafSlots_ne (ps : PState) (id id2 : Nat)
    (slots : List (Option Payload)) (h : id ≠ id2) :
    getLeafP (setLeafSlots ps id slots) id2 = getLeafP ps id2 := by
  rw [getLeafP, setLeafSlots]
  rw [List.getD_eq_getElem?_getD, List.getElem?_set_ne h, ← List.getD_eq_getElem?_getD]
  rfl

theorem allocLeaf_id_lt (ps : PState)
    (hprevalid : ∀ id ∈ ps.prealloc, id < ps.heap.length) :
    (allocLeaf ps).1 < (allocLeaf ps).2.heap.length := by
  rw [allocLeaf]
  cases hl : ps.prealloc.getLast? with
  | none => simp
  | some nid =>
      simp only
      exact hprevalid nid (List.mem_of_getLast?_eq_some hl)

theorem allocLeaf_heap_le (ps : PState) :
    ps.heap.length ≤ (allocLeaf ps).2.heap.length := by
  rw [allocLeaf]
  cases hl : ps.prealloc.getLast? with
  | none => simp
  | some nid => simp

theorem allocLeaf_ne (ps : PState) (pid : Nat) (hpidlen : pid < ps.heap.length)
    (hpidpre : pid ∉ ps.prealloc) : (allocLeaf ps).1 ≠ pid := by
  rw [allocLeaf]
  cases hl : ps.prealloc.getLast? with
  | none =>
      simp only
      omega
  | some nid =>
      simp only
      intro he
      exact hpidpre (he ▸ List.mem_of_getLast?_eq_some hl)

/-- The slot array of the fresh or reused leaf has no live slots (a fresh
leaf is zeroed; a free-pool leaf was recovered with zero live slots). -/
theorem allocLeaf_getLeaf_fresh (ps : PState) (h : ps.prealloc.getLast? = none) :
    getLeafP (allocLeaf ps).2 (allocLeaf ps).1 = emptyLeaf := by
  rw [allocLeaf, h]
  simp only [getLeafP]
  rw [List.getD_eq_getElem?_getD]
  rw [List.getElem?_append_right (Nat.le_refl _)]
  simp

theorem allocLeaf_getLeaf_pre (ps : PState) (nid : Nat)
    (h : ps.prealloc.getLast? = some nid) :
    (allocLeaf ps).1 = nid ∧ (allocLeaf ps).2.heap = ps.heap := by
  rw [allocLeaf, h]
  exact ⟨rfl, rfl⟩

theorem allocLeaf_getLeaf_old (ps : PState) (pid : Nat) (hpidlen : pid < ps.heap.length) :
    getLeafP (allocLeaf ps).2 pid = getLeafP ps pid := by
  rw [allocLeaf]
  cases hl : ps.prealloc.getLast? with
  | none =>
      simp only [getLeafP]
      rw [List.getD_eq_getElem?_getD, List.getElem?_append_left hpidlen,
        ← List.getD_eq_getElem?_getD]
  | some nid => rfl

theorem getD_set_ne {α : Type} (l : List α) (i j : Nat) (v d : α) (h : i ≠ j) :
    (l.set i v).getD j d = l.getD j d := by
  rw [List.getD_eq_getElem?_getD, List.getElem?_set_ne h, ← List.getD_eq_getElem?_getD]

theorem getD_set_self {α : Type} (l : List α) (i : Nat) (v d : α) (h : i < l.length) :
    (l.set i v).getD i d = v := by
  rw [List.getD_eq_getElem?_getD, List.getElem?_set_self h]
  rfl

theorem migOrigSlots_length (sk : Str) (keys : List Str) (oslots nslots : List (Option Payload)) :
    (migOrigSlots sk keys oslots nslots).length = LEAF_KEYS := by
  simp [migOrigSlots]

theorem migNewSlots_length (sk : Str) (keys : List Str) (oslots nslots : List (Option Payload)) :
    (migNewSlots sk keys oslots nslots).length = LEAF_KEYS := by
  simp [migNewSlots]

theorem count_perm_beq {A : Type} [BEq A] {l1 l2 : List A}
    (h : List.Perm l1 l2) (k : A) : List.count k l1 = List.count k l2 :=
  h.countP_eq _

theorem count_nodup_one {A : Type} [BEq A] [LawfulBEq A] :
    ∀ (l : List A) (k : A), l.Nodup → k ∈ l → List.count k l = 1
  | a :: l, k, hnd, hk => by
    rcases List.mem_cons.mp hk with rfl | hk2
    · rw [List.count_cons_self, List.count_eq_zero.mpr (List.nodup_cons.mp hnd).1]
    · have hne : k ≠ a := fun he => (List.nodup_cons.mp hnd).1 (he ▸ hk2)
      rw [List.count_cons_of_ne hne, count_nodup_one l k (List.nodup_cons.mp hnd).2 hk2]

/-- C6: a full-leaf split sorts the 49 keys and takes the element at index
`LEAF_KEYS_MIDPOINT = 24` as split key; slots with keys strictly greater
than the split key move to the same slot index of the new leaf with the
source mirror blanked; `(hash, key, value)` is inserted into the new leaf
when `key > split_key` and into the original leaf otherwise; and
afterwards each of the 49 keys is live exactly once across the two
leaves. -/
theorem claim_C6_leaf_split
    (ps : PState) (hashes : List Nat) (keys : List Str) (pid hash : Nat) (key value : Str)
    (hhlen : hashes.length = LEAF_KEYS) (hklen : keys.length = LEAF_KEYS)
    (hfull : ∀ slot, slot < LEAF_KEYS → hashes.getD slot 0 ≠ 0)
    (hnodup : keys.Nodup) (hnew : key ∉ keys) (hhash : hash ≠ 0)
    (hpidlen : pid < ps.heap.length)
    (hprevalid : ∀ id ∈ ps.prealloc, id < ps.heap.length)
    (hpidpre : pid ∉ ps.prealloc) :
    (splitLeaf ps hashes keys pid hash key value).2.2.1 = splitKeyOf keys key ∧
    (∃ fslot, fslot < LEAF_KEYS ∧
      (VNode.getHashes (if strGt key (splitKeyOf keys key)
          then (splitLeaf ps hashes keys pid hash key value).2.2.2
          else (splitLeaf ps hashes keys pid hash key value).2.1)).getD fslot 0 = hash ∧
      (VNode.getKeys (if strGt key (splitKeyOf keys key)
          then (splitLeaf ps hashes keys pid hash key value).2.2.2
          else (splitLeaf ps hashes keys pid hash key value).2.1)).getD fslot [] = key ∧
      (getLeafP (splitLeaf ps hashes keys pid hash key value).1
          (if strGt key (splitKeyOf keys key) then (allocLeaf ps).1 else pid)).slots.getD
          fslot none = some (KVSlot.set hash key value) ∧
      (∀ slot, slot < LEAF_KEYS → slot ≠ fslot →
        if strGt (keys.getD slot []) (splitKeyOf keys key) = true then
          (VNode.getHashes (splitLeaf ps hashes keys pid hash key value).2.2.2).getD slot 0 =
              hashes.getD slot 0 ∧
          (VNode.getKeys (splitLeaf ps hashes keys pid hash key value).2.2.2).getD slot [] =
              keys.getD slot [] ∧
          (VNode.getHashes (splitLeaf ps hashes keys pid hash key value).2.1).getD slot 0 = 0 ∧
          (VNode.getKeys (splitLeaf ps hashes keys pid hash key value).2.1).getD slot [] = []
        else
          (VNode.getHashes (splitLeaf ps hashes keys pid hash key value).2.1).getD slot 0 =
              hashes.getD slot 0 ∧
          (VNode.getKeys (splitLeaf ps hashes keys pid hash key value).2.1).getD slot [] =
              keys.getD slot [] ∧
          (VNode.getHashes (splitLeaf ps hashes keys pid hash key value).2.2.2).getD slot 0 =
              0)) ∧
    (∀ k, k ∈ keys ++ [key] →
      (liveKeysLeaf (VNode.getHashes (splitLeaf ps hashes keys pid hash key value).2.1)
          (VNode.getKeys (splitLeaf ps hashes keys pid hash key value).2.1) ++
        liveKeysLeaf (VNode.getHashes (splitLeaf ps hashes keys pid hash key value).2.2.2)
          (VNode.getKeys (splitLeaf ps hashes keys pid hash key value).2.2.2)).count k = 1) := by
  have hnodupAll : (all49 keys key).Nodup := all49_nodup hnodup hnew
  have hskdef : (sortKeys (keys ++ [key])).getD LEAF_KEYS_MIDPOINT [] = splitKeyOf keys key :=
    rfl
  have hcnt := split_count_cases keys key hklen hnodupAll
  have hnidlt : (allocLeaf ps).1 < (allocLeaf ps).2.heap.length := allocLeaf_id_lt ps hprevalid
  have hpidlt1 : pid < (allocLeaf ps).2.heap.length :=
    Nat.lt_of_lt_of_le hpidlen (allocLeaf_heap_le ps)
  have hne : (allocLeaf ps).1 ≠ pid := allocLeaf_ne ps pid hpidlen hpidpre
  by_cases hgt : strGt key (splitKeyOf keys key) = true
  · rw [if_pos hgt] at hcnt
    have hcnt2 : (keys.countP fun k => strGt k (splitKeyOf keys key)) < LEAF_KEYS := by
      rw [hcnt]
      decide
    rcases @migNew_has_empty (splitKeyOf keys key) hashes keys hklen hcnt2 with ⟨eslot, helt, hez⟩
    rcases @fillEmpty_found (migNewHashes (splitKeyOf keys key) hashes keys)
      (migNewKeys (splitKeyOf keys key) keys)
      (setLeafSlots (setLeafSlots (allocLeaf ps).2 pid
        (migOrigSlots (splitKeyOf keys key) keys
          (getLeafP (allocLeaf ps).2 pid).slots (getLeafP (allocLeaf ps).2 (allocLeaf ps).1).slots))
        (allocLeaf ps).1
        (migNewSlots (splitKeyOf keys key) keys
          (getLeafP (allocLeaf ps).2 pid).slots (getLeafP (allocLeaf ps).2 (allocLeaf ps).1).slots))
      (allocLeaf ps).1 hash key value ⟨eslot, helt, hez⟩
      with ⟨fslot, hflt, hfz, hfind, heq⟩
    have hr : splitLeaf ps hashes keys pid hash key value =
        (setLeafSlots (setLeafSlots (setLeafSlots (allocLeaf ps).2 pid
            (migOrigSlots (splitKeyOf keys key) keys
              (getLeafP (allocLeaf ps).2 pid).slots
              (getLeafP (allocLeaf ps).2 (allocLeaf ps).1).slots))
            (allocLeaf ps).1
            (migNewSlots (splitKeyOf keys key) keys
              (getLeafP (allocLeaf ps).2 pid).slots
              (getLeafP (allocLeaf ps).2 (allocLeaf ps).1).slots))
          (allocLeaf ps).1
          ((getLeafP (setLeafSlots (setLeafSlots (allocLeaf ps).2 pid
              (migOrigSlots (splitKeyOf keys key) keys
                (getLeafP (allocLeaf ps).2 pid).slots
                (getLeafP (allocLeaf ps).2 (allocLeaf ps).1).slots))
              (allocLeaf ps).1
              (migNewSlots (splitKeyOf keys key) keys
                (getLeafP (allocLeaf ps).2 pid).slots
                (getLeafP (allocLeaf ps).2 (allocLeaf ps).1).slots))
            (allocLeaf ps).1).slots.set fslot (some (KVSlot.set hash key value))),
         VNode.leaf (migOrigHashes (splitKeyOf keys key) hashes keys)
           (migOrigKeys (splitKeyOf keys key) keys) pid,
         splitKeyOf keys key,
         VNode.leaf ((migNewHashes (splitKeyOf keys key) hashes keys).set fslot hash)
           ((migNewKeys (splitKeyOf keys key) keys).set fslot key) (allocLeaf ps).1) := by
      rw [splitLeaf, hskdef, if_pos hgt, heq]
      rfl
    rw [hr]
    simp only [VNode.getHashes, VNode.getKeys]
    refine ⟨trivial, ⟨fslot, hflt, ?_, ?_, ?_, ?_⟩, ?_⟩
    · rw [if_pos hgt]
      simp only [VNode.getHashes]
      exact getD_set_self _ _ _ _ (by rw [migNewHashes_length]; exact hflt)
    · rw [if_pos hgt]
      simp only [VNode.getKeys]
      exact getD_set_self _ _ _ _ (by rw [migNewKeys_length]; exact hflt)
    · rw [if_pos hgt]
      rw [getLeafP_setLeafSlots_self _ _ _
        (by rw [setLeafSlots_heap_length, setLeafSlots_heap_length]; exact hnidlt)]
      exact getD_set_self _ _ _ _ (by
        rw [getLeafP_setLeafSlots_self _ _ _
          (by rw [setLeafSlots_heap_length]; exact hnidlt)]
        rw [migNewSlots_length]
        exact hflt)
    · intro slot hslot hsne
      by_cases hgs : strGt (keys.getD slot []) (splitKeyOf keys key) = true
      · rw [if_pos hgs]
        refine ⟨?_, ?_, ?_, ?_⟩
        · rw [getD_set_ne _ _ _ _ _ (fun he => hsne he.symm),
            migNewHashes_getD _ _ _ hslot, if_pos hgs]
        · rw [getD_set_ne _ _ _ _ _ (fun he => hsne he.symm),
            migNewKeys_getD _ _ hslot, if_pos hgs]
        · rw [migOrigHashes_getD _ _ _ hslot, if_pos hgs]
        · rw [migOrigKeys_getD _ _ hslot, if_pos hgs]
      · rw [if_neg hgs]
        refine ⟨?_, ?_, ?_⟩
        · rw [migOrigHashes_getD _ _ _ hslot, if_neg hgs]
        · rw [migOrigKeys_getD _ _ hslot, if_neg hgs]
        · rw [getD_set_ne _ _ _ _ _ (fun he => hsne he.symm),
            migNewHashes_getD _ _ _ hslot, if_neg hgs]
    · intro k hk
      have hlo : liveKeysLeaf (migOrigHashes (splitKeyOf keys key) hashes keys)
          (migOrigKeys (splitKeyOf keys key) keys) =
          keys.filter fun x => !strGt x (splitKeyOf keys key) :=
        liveKeysLeaf_migOrig _ hashes keys hklen hfull
      have hln : List.Perm
          (liveKeysLeaf ((migNewHashes (splitKeyOf keys key) hashes keys).set fslot hash)
            ((migNewKeys (splitKeyOf keys key) keys).set fslot key))
          (key :: (keys.filter fun x => strGt x (splitKeyOf keys key))) := by
        have := liveKeysLeaf_fill_perm (migNewHashes (splitKeyOf keys key) hashes keys)
          (migNewKeys (splitKeyOf keys key) keys) fslot hash key
          (migNewHashes_length _ hashes keys) (migNewKeys_length _ keys) hflt hfz hhash
        rw [liveKeysLeaf_migNew _ hashes keys hklen hfull] at this
        exact this
      have hcomb : List.Perm
          (liveKeysLeaf (migOrigHashes (splitKeyOf keys key) hashes keys)
            (migOrigKeys (splitKeyOf keys key) keys) ++
           liveKeysLeaf ((migNewHashes (splitKeyOf keys key) hashes keys).set fslot hash)
            ((migNewKeys (splitKeyOf keys key) keys).set fslot key))
          (keys ++ [key]) := by
        rw [hlo]
        refine List.Perm.trans (List.Perm.append_left _ hln) ?_
        refine List.Perm.trans (List.perm_middle) ?_
        refine List.Perm.trans (List.Perm.cons key List.perm_append_comm) ?_
        refine List.Perm.trans (List.Perm.cons key (List.filter_append_perm _ keys)) ?_
        exact (List.perm_append_singleton key keys).symm
      rw [count_perm_beq hcomb k]
      exact count_nodup_one _ k hnodupAll hk
  · simp only [Bool.not_eq_true] at hgt
    have hgt' : ¬ (strGt key (splitKeyOf keys key) = true) := by
      rw [hgt]
      simp
    rw [if_neg hgt'] at hcnt
    have hcnt2 : 0 < keys.countP fun k => strGt k (splitKeyOf keys key) := by
      rw [hcnt]
      decide
    rcases @migOrig_has_empty (splitKeyOf keys key) hashes keys hklen hcnt2 with ⟨eslot, helt, hez⟩
    rcases @fillEmpty_found (migOrigHashes (splitKeyOf keys key) hashes keys)
      (migOrigKeys (splitKeyOf keys key) keys)
      (setLeafSlots (setLeafSlots (allocLeaf ps).2 pid
        (migOrigSlots (splitKeyOf keys key) keys
          (getLeafP (allocLeaf ps).2 pid).slots (getLeafP (allocLeaf ps).2 (allocLeaf ps).1).slots))
        (allocLeaf ps).1
        (migNewSlots (splitKeyOf keys key) keys
          (getLeafP (allocLeaf ps).2 pid).slots (getLeafP (allocLeaf ps).2 (allocLeaf ps).1).slots))
      pid hash key value ⟨eslot, helt, hez⟩
      with ⟨fslot, hflt, hfz, hfind, heq⟩
    have hr : splitLeaf ps hashes keys pid hash key value =
        (setLeafSlots (setLeafSlots (setLeafSlots (allocLeaf ps).2 pid
            (migOrigSlots (splitKeyOf keys key) keys
              (getLeafP (allocLeaf ps).2 pid).slots
              (getLeafP (allocLeaf ps).2 (allocLeaf ps).1).slots))
            (allocLeaf ps).1
            (migNewSlots (splitKeyOf keys key) keys
              (getLeafP (allocLeaf ps).2 pid).slots
              (getLeafP (allocLeaf ps).2 (allocLeaf ps).1).slots))
          pid
          ((getLeafP (setLeafSlots (setLeafSlots (allocLeaf ps).2 pid
              (migOrigSlots (splitKeyOf keys key) keys
                (getLeafP (allocLeaf ps).2 pid).slots
                (getLeafP (allocLeaf ps).2 (allocLeaf ps).1).slots))
              (allocLeaf ps).1
              (migNewSlots (splitKeyOf keys key) keys
                (getLeafP (allocLeaf ps).2 pid).slots
                (getLeafP (allocLeaf ps).2 (allocLeaf ps).1).slots))
            pid).slots.set fslot (some (KVSlot.set hash key value))),
         VNode.leaf ((migOrigHashes (splitKeyOf keys key) hashes keys).set fslot hash)
           ((migOrigKeys (splitKeyOf keys key) keys).set fslot key) pid,
         splitKeyOf keys key,
         VNode.leaf (migNewHashes (splitKeyOf keys key) hashes keys)
           (migNewKeys (splitKeyOf keys key) keys) (allocLeaf ps).1) := by
      rw [splitLeaf, hskdef, if_neg hgt', heq]
      rfl
    rw [hr]
    simp only [VNode.getHashes, VNode.getKeys]
    refine ⟨trivial, ⟨fslot, hflt, ?_, ?_, ?_, ?_⟩, ?_⟩
    · rw [if_neg hgt']
      simp only [VNode.getHashes]
      exact getD_set_self _ _ _ _ (by rw [migOrigHashes_length]; exact hflt)
    · rw [if_neg hgt']
      simp only [VNode.getKeys]
      exact getD_set_self _ _ _ _ (by rw [migOrigKeys_length]; exact hflt)
    · rw [if_neg hgt']
      rw [getLeafP_setLeafSlots_self _ _ _
        (by rw [setLeafSlots_heap_length, setLeafSlots_heap_length]; exact hpidlt1)]
      exact getD_set_self _ _ _ _ (by
        rw [getLeafP_setLeafSlots_ne _ _ _ _ hne,
          getLeafP_setLeafSlots_self _ _ _ hpidlt1]
        rw [migOrigSlots_length]
        exact hflt)
    · intro slot hslot hsne
      by_cases hgs : strGt (keys.getD slot []) (splitKeyOf keys key) = true
      · rw [if_pos hgs]
        refine ⟨?_, ?_, ?_, ?_⟩
        · rw [migNewHashes_getD _ _ _ hslot, if_pos hgs]
        · rw [migNewKeys_getD _ _ hslot, if_pos hgs]
        · rw [getD_set_ne _ _ _ _ _ (fun he => hsne he.symm),
            migOrigHashes_getD _ _ _ hslot, if_pos hgs]
        · rw [getD_set_ne _ _ _ _ _ (fun he => hsne he.symm),
            migOrigKeys_getD _ _ hslot, if_pos hgs]
      · rw [if_neg hgs]
        refine ⟨?_, ?_, ?_⟩
        · rw [getD_set_ne _ _ _ _ _ (fun he => hsne he.symm),
            migOrigHashes_getD _ _ _ hslot, if_neg hgs]
        · rw [getD_set_ne _ _ _ _ _ (fun he => hsne he.symm),
            migOrigKeys_getD _ _ hslot, if_neg hgs]
        · rw [migNewHashes_getD _ _ _ hslot, if_neg hgs]
    · intro k hk
      have hln : liveKeysLeaf (migNewHashes (splitKeyOf keys key) hashes keys)
          (migNewKeys (splitKeyOf keys key) keys) =
          keys.filter fun x => strGt x (splitKeyOf keys key) :=
        liveKeysLeaf_migNew _ hashes keys hklen hfull
      have hlo : List.Perm
          (liveKeysLeaf ((migOrigHashes (splitKeyOf keys key) hashes keys).set fslot hash)
            ((migOrigKeys (splitKeyOf keys key) keys).set fslot key))
          (key :: (keys.filter fun x => !strGt x (splitKeyOf keys key))) := by
        have := liveKeysLeaf_fill_perm (migOrigHashes (splitKeyOf keys key) hashes keys)
          (migOrigKeys (splitKeyOf keys key) keys) fslot hash key
          (migOrigHashes_length _ hashes keys) (migOrigKeys_length _ keys) hflt hfz hhash
        rw [liveKeysLeaf_migOrig _ hashes keys hklen hfull] at this
        exact this
      have hcomb : List.Perm
          (liveKeysLeaf ((migOrigHashes (splitKeyOf keys key) hashes keys).set fslot hash)
            ((migOrigKeys (splitKeyOf keys key) keys).set fslot key) ++
           liveKeysLeaf (migNewHashes (splitKeyOf keys key) hashes keys)
            (migNewKeys (splitKeyOf keys key) keys))
          (keys ++ [key]) := by
        rw [hln]
        refine List.Perm.trans (List.Perm.append_right _ hlo) ?_
        refine List.Perm.trans ?_ (List.perm_append_singleton key keys).symm
        rw [List.cons_append]
        refine List.Perm.cons key ?_
        refine List.Perm.trans List.perm_append_comm ?_
        exact List.filter_append_perm _ keys
      rw [count_perm_beq hcomb k]
      exact count_nodup_one _ k hnodupAll hk

def demoPS : PState := ⟨[emptyLeaf], [0], []⟩

theorem claim_C6_leaf_split_witness :
    (demoHashes.length = LEAF_KEYS ∧ demoKeys.length = LEAF_KEYS ∧
      (∀ slot, slot < LEAF_KEYS → demoHashes.getD slot 0 ≠ 0) ∧
      demoKeys.Nodup ∧ [100] ∉ demoKeys ∧ (5 : Nat) ≠ 0 ∧
      0 < demoPS.heap.length ∧
      (∀ id ∈ demoPS.prealloc, id < demoPS.heap.length) ∧
      0 ∉ demoPS.prealloc) ∧
    (splitLeaf demoPS demoHashes demoKeys 0 5 [100] [9]).2.2.1 =
      splitKeyOf demoKeys [100] :=
  ⟨⟨by decide, by decide, by decide, by decide, by decide, by decide,
    by decide, by decide, by decide⟩,
   (claim_C6_leaf_split demoPS demoHashes demoKeys 0 5 [100] [9]
     (by decide) (by decide) (by decide) (by decide) (by decide) (by decide)
     (by decide) (by decide) (by decide)).1⟩

/-! ## Global well-formedness

The correctness of `get`/`exists`/`put`/`remove` on populated stores rests
on an invariant the engine maintains: every inner node routes with
strictly increasing keys, every leaf's live keys fall inside the window
carved out by the routing keys above it, mirrored hashes are the Pearson
hashes of the mirrored keys, live keys are unique within a leaf, and the
volatile mirror agrees slot-by-slot with the persistent payloads.  The
pool state is healthy: the leaf list holds distinct valid ids, and the
preallocated leaves are fully dead. -/

def loOk : Option Str → Str → Bool
  | none, _ => true
  | some lo, k => strLt lo k

def hiOk : Option Str → Str → Bool
  | none, _ => true
  | some hi, k => strLe k hi

/-- Membership in a routing window: strictly above `lo`, at or below `hi`. -/
def inWin (lo hi : Option Str) (k : Str) : Bool := loOk lo k && hiOk hi k

/-- Window discipline of one leaf mirror: full-length arrays, no duplicate
live key, every live key inside the window. -/
def leafWinOk (lo hi : Option Str) (hashes : List Nat) (keys : List Str) : Bool :=
  (hashes.length == LEAF_KEYS) && (keys.length == LEAF_KEYS) &&
  decide (liveKeysLeaf hashes keys).Nodup &&
  ((List.range LEAF_KEYS).all fun slot =>
    (hashes.getD slot 0 == 0) || inWin lo hi (keys.getD slot []))

mutual

/-- Window well-formedness of a volatile subtree under bounds `(lo, hi]`. -/
def wfW : Option Str → Option Str → VNode → Bool
  | lo, hi, VNode.leaf hashes keys _ => leafWinOk lo hi hashes keys
  | lo, hi, VNode.inner rkeys children =>
      decide (1 ≤ rkeys.length) && decide (rkeys.length ≤ INNER_KEYS) &&
      chainW lo hi rkeys children

/-- The window chain of an inner node: child `i` is well formed on
`(r_(i-1), r_i]`, the routing keys strictly increase inside `(lo, hi]`,
and there is exactly one more child than routing keys. -/
def chainW : Option Str → Option Str → List Str → List VNode → Bool
  | lo, hi, [], [c] => wfW lo hi c
  | lo, hi, r :: rs, c :: cs =>
      loOk lo r && hiOk hi r && wfW lo (some r) c && chainW (some r) hi rs cs
  | _, _, _, _ => false

end

/-- Mirrored hashes are the Pearson hashes of the mirrored keys. -/
def leafIntegOk (hashes : List Nat) (keys : List Str) : Bool :=
  (List.range LEAF_KEYS).all fun slot =>
    (hashes.getD slot 0 == 0) || (hashes.getD slot 0 == PearsonHash (keys.getD slot []))

/-- Volatile/persistent agreement of one slot: a dead mirror slot has a
dead persistent slot, and a live mirror slot stores a payload carrying the
same hash byte and key bytes. -/
def slotAgree (ps : PState) (pid slot : Nat) (hashes : List Nat) (keys : List Str) : Bool :=
  match (getLeafP ps pid).slots.getD slot none with
  | none => hashes.getD slot 0 == 0
  | some p =>
      if hashes.getD slot 0 == 0 then KVSlot.get_ph p == 0
      else (KVSlot.get_ph p == hashes.getD slot 0) && (KVSlot.keyBytes p == keys.getD slot [])

/-- Agreement of a whole volatile leaf with the pool: a valid persistent
id on the leaf list, and slotwise agreement. -/
def leafAgreeB (ps : PState) : VNode → Bool
  | VNode.leaf hashes keys pid =>
      decide (pid < ps.heap.length) && decide (pid ∈ ps.head) &&
      ((List.range LEAF_KEYS).all fun slot => slotAgree ps pid slot hashes keys)
  | VNode.inner _ _ => false

/-- The persistent ids of the leaves of a subtree, in order. -/
def leafPids (t : VNode) : List Nat := (leavesOf t).map VNode.getPleaf

/-- A persistent leaf with no live slot. -/
def deadLeaf (ps : PState) (id : Nat) : Bool :=
  (List.range LEAF_KEYS).all fun slot => ! slotLive ((getLeafP ps id).slots.getD slot none)

/-- Health of the pool bookkeeping: every persistent leaf has its full
48-slot array, the leaf list holds distinct valid ids, and preallocated
leaves are distinct, linked, valid and fully dead. -/
def psOkB (ps : PState) : Bool :=
  (ps.heap.all fun lf => lf.slots.length == LEAF_KEYS) &&
  decide ps.head.Nodup &&
  (ps.head.all fun id => decide (id < ps.heap.length)) &&
  decide ps.prealloc.Nodup &&
  (ps.prealloc.all fun id =>
    decide (id ∈ ps.head) && decide (id < ps.heap.length) && deadLeaf ps id)

/-- The engine invariant.  An empty index means every linked leaf is dead;
otherwise the tree is window-well-formed with unbounded outer window, its
leaves agree with the pool and have Pearson-consistent mirrors, leaf ids
are distinct, every linked id is either a tree leaf or dead, and no
preallocated id is a tree leaf. -/
def InvB (s : Tree3) : Bool :=
  psOkB s.ps &&
  match s.tree_top with
  | none => s.ps.head.all fun id => deadLeaf s.ps id
  | some t =>
      wfW none none t &&
      ((leavesOf t).all fun L =>
        leafAgreeB s.ps L && leafIntegOk (VNode.getHashes L) (VNode.getKeys L)) &&
      decide (leafPids t).Nodup &&
      (s.ps.head.all fun id => decide (id ∈ leafPids t) || deadLeaf s.ps id) &&
      (s.ps.prealloc.all fun id => decide (id ∉ leafPids t))

/-! ## Basic facts about the invariant components -/

theorem inWin_iff {lo hi : Option Str} {k : Str} :
    inWin lo hi k = true ↔ loOk lo k = true ∧ hiOk hi k = true := by
  rw [inWin, Bool.and_eq_true]

theorem leafWinOk_iff {lo hi : Option Str} {h : List Nat} {k : List Str} :
    leafWinOk lo hi h k = true ↔
      h.length = LEAF_KEYS ∧ k.length = LEAF_KEYS ∧ (liveKeysLeaf h k).Nodup ∧
      ∀ slot, slot < LEAF_KEYS → h.getD slot 0 ≠ 0 →
        inWin lo hi (k.getD slot []) = true := by
  rw [leafWinOk]
  simp only [Bool.and_eq_true, beq_iff_eq, decide_eq_true_eq, List.all_eq_true,
    List.mem_range, Bool.or_eq_true]
  constructor
  · rintro ⟨⟨⟨h1, h2⟩, h3⟩, h4⟩
    refine ⟨h1, h2, h3, fun slot hs hz => ?_⟩
    rcases h4 slot hs with hc | hc
    · exact absurd hc hz
    · exact hc
  · rintro ⟨h1, h2, h3, h4⟩
    refine ⟨⟨⟨h1, h2⟩, h3⟩, fun slot hs => ?_⟩
    by_cases hz : h.getD slot 0 = 0
    · exact Or.inl hz
    · exact Or.inr (h4 slot hs hz)

theorem leafIntegOk_iff {h : List Nat} {k : List Str} :
    leafIntegOk h k = true ↔
      ∀ slot, slot < LEAF_KEYS → h.getD slot 0 ≠ 0 →
        h.getD slot 0 = PearsonHash (k.getD slot []) := by
  rw [leafIntegOk]
  simp only [List.all_eq_true, List.mem_range, Bool.or_eq_true, beq_iff_eq]
  constructor
  · intro h4 slot hs hz
    rcases h4 slot hs with hc | hc
    · exact absurd hc hz
    · exact hc
  · intro h4 slot hs
    by_cases hz : h.getD slot 0 = 0
    · exact Or.inl hz
    · exact Or.inr (h4 slot hs hz)

theorem leafAgreeB_iff {ps : PState} {h : List Nat} {k : List Str} {pid : Nat} :
    leafAgreeB ps (VNode.leaf h k pid) = true ↔
      pid < ps.heap.length ∧ pid ∈ ps.head ∧
      ∀ slot, slot < LEAF_KEYS → slotAgree ps pid slot h k = true := by
  rw [leafAgreeB]
  simp [List.all_eq_true, List.mem_range, and_assoc]

theorem psOkB_iff {ps : PState} :
    psOkB ps = true ↔
      (∀ lf ∈ ps.heap, lf.slots.length = LEAF_KEYS) ∧
      ps.head.Nodup ∧ (∀ id ∈ ps.head, id < ps.heap.length) ∧
      ps.prealloc.Nodup ∧
      ∀ id ∈ ps.prealloc, id ∈ ps.head ∧ id < ps.heap.length ∧ deadLeaf ps id = true := by
  rw [psOkB]
  simp only [Bool.and_eq_true, decide_eq_true_eq, List.all_eq_true, beq_iff_eq]
  constructor
  · rintro ⟨⟨⟨⟨h0, h1⟩, h2⟩, h3⟩, h4⟩
    exact ⟨h0, h1, h2, h3, fun id hid => by
      rcases h4 id hid with ⟨⟨a, b⟩, c⟩
      exact ⟨a, b, c⟩⟩
  · rintro ⟨h0, h1, h2, h3, h4⟩
    exact ⟨⟨⟨⟨h0, h1⟩, h2⟩, h3⟩, fun id hid => by
      rcases h4 id hid with ⟨a, b, c⟩
      exact ⟨⟨a, b⟩, c⟩⟩

theorem deadLeaf_iff {ps : PState} {id : Nat} :
    deadLeaf ps id = true ↔
      ∀ slot, slot < LEAF_KEYS → slotLive ((getLeafP ps id).slots.getD slot none) = false := by
  rw [deadLeaf]
  simp [List.all_eq_true, List.mem_range]

theorem InvB_some_iff {s : Tree3} {t : VNode} (ht : s.tree_top = some t) :
    InvB s = true ↔
      psOkB s.ps = true ∧ wfW none none t = true ∧
      (∀ L ∈ leavesOf t,
        leafAgreeB s.ps L = true ∧ leafIntegOk (VNode.getHashes L) (VNode.getKeys L) = true) ∧
      (leafPids t).Nodup ∧
      (∀ id ∈ s.ps.head, id ∈ leafPids t ∨ deadLeaf s.ps id = true) ∧
      ∀ id ∈ s.ps.prealloc, id ∉ leafPids t := by
  rw [InvB, ht]
  simp only [Bool.and_eq_true, decide_eq_true_eq, List.all_eq_true, Bool.or_eq_true]
  constructor
  · rintro ⟨h0, ⟨⟨⟨h1, h2⟩, h3⟩, h4⟩, h5⟩
    exact ⟨h0, h1, h2, h3, h4, h5⟩
  · rintro ⟨h0, h1, h2, h3, h4, h5⟩
    exact ⟨h0, ⟨⟨⟨h1, h2⟩, h3⟩, h4⟩, h5⟩

theorem InvB_none_iff {s : Tree3} (ht : s.tree_top = none) :
    InvB s = true ↔
      psOkB s.ps = true ∧ ∀ id ∈ s.ps.head, deadLeaf s.ps id = true := by
  rw [InvB, ht]
  simp [Bool.and_eq_true, List.all_eq_true]

/-! ## Scan-loop characterizations -/

theorem mem_descRange {s : Nat} : s ∈ descRange ↔ s < LEAF_KEYS := by
  rw [descRange, List.mem_reverse, List.mem_range]

theorem descRange_nodup : descRange.Nodup := by decide

theorem findSlot_some {hashes : List Nat} {keys : List Str} {hash : Nat} {key : Str}
    {slot : Nat} (h : findSlot hashes keys hash key = some slot) :
    slot < LEAF_KEYS ∧ hashes.getD slot 0 = hash ∧ keys.getD slot [] = key := by
  rw [findSlot] at h
  have hmem := List.mem_of_find?_eq_some h
  have hp := List.find?_some h
  rw [Bool.and_eq_true, beq_iff_eq, beq_iff_eq] at hp
  exact ⟨mem_descRange.mp hmem, hp.1, hp.2⟩

theorem findSlot_none {hashes : List Nat} {keys : List Str} {hash : Nat} {key : Str}
    (h : findSlot hashes keys hash key = none) :
    ∀ slot, slot < LEAF_KEYS → ¬(hashes.getD slot 0 = hash ∧ keys.getD slot [] = key) := by
  rw [findSlot, List.find?_eq_none] at h
  intro slot hs hc
  have := h slot (mem_descRange.mpr hs)
  rw [Bool.and_eq_true, beq_iff_eq, beq_iff_eq] at this
  exact this ⟨hc.1, hc.2⟩

theorem existsScan_eq (s : Tree3) (hashes : List Nat) (keys : List Str)
    (hash : Nat) (key : Str) :
    ∀ l : List Nat, existsScan s hashes keys hash key l =
      (s, (l.find? fun slot =>
        hashes.getD slot 0 == hash && keys.getD slot [] == key).isSome) := by
  intro l
  induction l with
  | nil => rfl
  | cons a l ih =>
      rw [existsScan, List.find?_cons]
      by_cases hp : (hashes.getD a 0 == hash && keys.getD a [] == key) = true
      · rw [if_pos hp, hp]
        rfl
      · rw [if_neg hp, ih]
        rw [Bool.not_eq_true] at hp
        rw [hp]

theorem getScan_eq (s : Tree3) (pid : Nat) (hashes : List Nat) (keys : List Str)
    (hash : Nat) (key : Str) :
    ∀ l : List Nat, getScan s pid hashes keys hash key l =
      (s, match l.find? fun slot =>
            hashes.getD slot 0 == hash && keys.getD slot [] == key with
          | some slot => ((getLeafP s.ps pid).slots.getD slot none).map KVSlot.valBytes
          | none => none) := by
  intro l
  induction l with
  | nil => rfl
  | cons a l ih =>
      rw [getScan, List.find?_cons]
      by_cases hp : (hashes.getD a 0 == hash && keys.getD a [] == key) = true
      · rw [if_pos hp, hp]
      · rw [if_neg hp, ih]
        rw [Bool.not_eq_true] at hp
        rw [hp]

/-- `tree3.existsKey` in terms of `findSlot` at the reached leaf. -/
theorem existsKey_eq (s : Tree3) (key : Str) :
    tree3.existsKey s key =
      (s, match s.tree_top with
          | none => false
          | some top =>
              match LeafSearch key top with
              | some (VNode.leaf hashes keys _) =>
                  (findSlot hashes keys (PearsonHash key) key).isSome
              | _ => false) := by
  rw [tree3.existsKey]
  cases htop : s.tree_top with
  | none => rfl
  | some top =>
      cases hs : LeafSearch key top with
      | none => simp only [hs]
      | some L =>
          cases L with
          | leaf h k p => simp only [hs]; rw [existsScan_eq, findSlot]
          | inner r c => simp only [hs]

/-- `tree3.get` in terms of `findSlot` at the reached leaf. -/
theorem get_eq (s : Tree3) (key : Str) :
    tree3.get s key =
      (s, match s.tree_top with
          | none => none
          | some top =>
              match LeafSearch key top with
              | some (VNode.leaf hashes keys pid) =>
                  match findSlot hashes keys (PearsonHash key) key with
                  | some slot =>
                      ((getLeafP s.ps pid).slots.getD slot none).map KVSlot.valBytes
                  | none => none
              | _ => none) := by
  rw [tree3.get]
  cases htop : s.tree_top with
  | none => rfl
  | some top =>
      cases hs : LeafSearch key top with
      | none => simp only [hs]
      | some L =>
          cases L with
          | leaf h k p => simp only [hs]; rw [getScan_eq, findSlot]
          | inner r c => simp only [hs]

/-! ## Count machinery -/

theorem countSlots_eq_countP (lf : KVLeaf) :
    ∀ l : List Nat, countSlots lf l = l.countP fun s => slotLive (lf.slots.getD s none) := by
  intro l
  induction l with
  | nil => rfl
  | cons a l ih =>
      rw [countSlots, ih, List.countP_cons]
      by_cases hp : slotLive (lf.slots.getD a none) = true
      · rw [hp]
        simp only [if_pos rfl, if_true]
        omega
      · rw [Bool.not_eq_true] at hp
        rw [hp]
        simp only [Bool.false_eq_true, if_false]
        omega

/-- The total `tree3.count` computes, as a map-sum over the leaf list. -/
def sumHead (ps : PState) : Nat :=
  (ps.head.map fun id => countSlots (getLeafP ps id) descRange).sum

theorem countLoop_eq (s : Tree3) :
    ∀ (l : List Nat) (acc : Nat), countLoop s l acc =
      (s, acc + (l.map fun id => countSlots (getLeafP s.ps id) descRange).sum) := by
  intro l
  induction l with
  | nil => intro acc; rw [countLoop]; simp
  | cons a l ih =>
      intro acc
      rw [countLoop, ih]
      simp only [List.map_cons, List.sum_cons]
      rw [Nat.add_assoc]

theorem count_eq_sumHead (s : Tree3) : tree3.count s = (s, sumHead s.ps) := by
  rw [tree3.count, countLoop_eq, sumHead]
  simp

/-- Changing `f` only at one element of a duplicate-free list shifts the
map-sum by exactly the change at that element. -/
theorem sum_map_update {f g : Nat → Nat} :
    ∀ {l : List Nat}, l.Nodup → ∀ {pid : Nat}, pid ∈ l →
      (∀ id ∈ l, id ≠ pid → g id = f id) →
      (l.map g).sum + f pid = (l.map f).sum + g pid := by
  intro l
  induction l with
  | nil => intro _ pid hmem; cases hmem
  | cons a l ih =>
      intro hnd pid hmem hfr
      rw [List.nodup_cons] at hnd
      simp only [List.map_cons, List.sum_cons]
      rcases List.mem_cons.mp hmem with rfl | hmem2
      · have hrest : l.map g = l.map f := by
          apply List.map_congr_left
          intro id hid
          exact hfr id (List.mem_cons_of_mem _ hid) (fun he => hnd.1 (he ▸ hid))
        rw [hrest]
        omega
      · have ha : g a = f a := hfr a (List.mem_cons_self a l) (fun he => hnd.1 (he ▸ hmem2))
        have := ih hnd.2 hmem2 (fun id hid hne => hfr id (List.mem_cons_of_mem _ hid) hne)
        omega

/-- Changing a predicate only at one element of a duplicate-free list
shifts `countP` by exactly the change at that element. -/
theorem countP_update_one {p q : Nat → Bool} :
    ∀ {l : List Nat}, l.Nodup → ∀ {s : Nat}, s ∈ l →
      (∀ x ∈ l, x ≠ s → q x = p x) →
      l.countP q + (if p s then 1 else 0) = l.countP p + (if q s then 1 else 0) := by
  intro l
  induction l with
  | nil => intro _ s hmem; cases hmem
  | cons a l ih =>
      intro hnd s hmem hfr
      rw [List.nodup_cons] at hnd
      rw [List.countP_cons, List.countP_cons]
      rcases List.mem_cons.mp hmem with rfl | hmem2
      · have hrest : l.countP q = l.countP p := by
          apply List.countP_congr
          intro x hx
          rw [hfr x (List.mem_cons_of_mem _ hx) (fun he => hnd.1 (he ▸ hx))]
        rw [hrest]
        by_cases hp : p s = true
        · by_cases hq : q s = true <;> simp [hp, hq]
        · rw [Bool.not_eq_true] at hp
          by_cases hq : q s = true <;> simp [hp, hq]
      · have ha : q a = p a := hfr a (List.mem_cons_self a l) (fun he => hnd.1 (he ▸ hmem2))
        have := ih hnd.2 hmem2 (fun x hx hne => hfr x (List.mem_cons_of_mem _ hx) hne)
        rw [ha]
        omega

/-- If two pairs of predicates have pointwise equal indicator sums, the
`countP` pairs have equal sums. -/
theorem countP_sum_pointwise {p q r u : Nat → Bool} :
    ∀ l : List Nat,
      (∀ x ∈ l, ((if p x then 1 else 0) + (if q x then 1 else 0) : Nat) =
                (if r x then 1 else 0) + (if u x then 1 else 0)) →
      l.countP p + l.countP q = l.countP r + l.countP u := by
  intro l
  induction l with
  | nil => intro _; rfl
  | cons a l ih =>
      intro hpt
      simp only [List.countP_cons]
      have h1 := hpt a (List.mem_cons_self a l)
      have h2 := ih fun x hx => hpt x (List.mem_cons_of_mem _ hx)
      by_cases hp : p a = true <;> by_cases hq : q a = true <;>
        by_cases hr : r a = true <;> by_cases hu : u a = true <;>
        simp [hp, hq, hr, hu] at h1 ⊢ <;> omega

/-- Overwriting a list entry with the value it already holds is a no-op. -/
theorem set_getD_eq {α : Type} {l : List α} {i : Nat} {v d : α} (h : l.getD i d = v) :
    l.set i v = l := by
  apply List.ext_getElem?
  intro n
  by_cases hn : n = i
  · subst hn
    by_cases hlt : n < l.length
    · rw [List.getElem?_set_self hlt, List.getElem?_eq_getElem hlt]
      rw [List.getD_eq_getElem?_getD, List.getElem?_eq_getElem hlt] at h
      rw [← h]
      rfl
    · rw [List.getElem?_eq_none_iff.mpr (show (l.set n v).length ≤ n by
        rw [List.length_set]; omega),
        List.getElem?_eq_none_iff.mpr (show l.length ≤ n by omega)]
  · rw [List.getElem?_set_ne (fun he => hn he.symm)]

/-! ## Remove: search alignment and the two outcomes -/

mutual

theorem LeafSearch_mem (key : Str) :
    ∀ (t : VNode) (L : VNode), LeafSearch key t = some L → L ∈ leavesOf t
  | VNode.leaf h k p, L, hs => by
      rw [LeafSearch] at hs
      injection hs with he
      rw [leavesOf, ← he]
      exact List.mem_singleton_self _
  | VNode.inner rkeys children, L, hs => by
      rw [LeafSearch] at hs
      rw [leavesOf]
      exact LeafSearchChild_mem key (descIdx key rkeys) children L hs

theorem LeafSearchChild_mem (key : Str) :
    ∀ (i : Nat) (cs : List VNode) (L : VNode),
      LeafSearchChild key i cs = some L → L ∈ leavesOfList cs
  | 0, [], L, hs => by
      rw [LeafSearchChild] at hs
      cases hs
  | _ + 1, [], L, hs => by
      rw [LeafSearchChild] at hs
      cases hs
  | 0, c :: cs, L, hs => by
      rw [LeafSearchChild] at hs
      rw [leavesOfList]
      exact List.mem_append_left _ (LeafSearch_mem key c L hs)
  | i + 1, c :: cs, L, hs => by
      rw [LeafSearchChild] at hs
      rw [leavesOfList]
      exact List.mem_append_right _ (LeafSearchChild_mem key i cs L hs)

end

mutual

/-- `tree3::remove` when the reached leaf (if any) has no matching slot:
nothing changes and the status is `NOT_FOUND`. -/
theorem removeRec_miss (txOk : Bool) (hash : Nat) (key : Str) :
    ∀ (t : VNode) (ps : PState),
      (match LeafSearch key t with
       | some (VNode.leaf h k _) => findSlot h k hash key = none
       | _ => True) →
      removeRec txOk hash key ps t = (ps, t, Status.NOT_FOUND)
  | VNode.leaf h k pid, ps, hmiss => by
      have hm : findSlot h k hash key = none := hmiss
      rw [removeRec, hm]
  | VNode.inner rkeys children, ps, hmiss => by
      rw [LeafSearch] at hmiss
      rw [removeRec, removeRecChild_miss txOk hash key (descIdx key rkeys) children ps hmiss]

theorem removeRecChild_miss (txOk : Bool) (hash : Nat) (key : Str) :
    ∀ (i : Nat) (cs : List VNode) (ps : PState),
      (match LeafSearchChild key i cs with
       | some (VNode.leaf h k _) => findSlot h k hash key = none
       | _ => True) →
      removeRecChild txOk hash key ps i cs = (ps, cs, Status.NOT_FOUND)
  | 0, [], ps, _ => by rw [removeRecChild]
  | _ + 1, [], ps, _ => by rw [removeRecChild]
  | 0, c :: cs, ps, hmiss => by
      rw [LeafSearchChild] at hmiss
      rw [removeRecChild, removeRec_miss txOk hash key c ps hmiss]
  | i + 1, c :: cs, ps, hmiss => by
      rw [LeafSearchChild] at hmiss
      rw [removeRecChild, removeRecChild_miss txOk hash key i cs ps hmiss]

end

mutual

/-- `tree3::remove` when the reached leaf holds the key at `slot`: the
persistent slot is cleared, the mirror entry is blanked, the status is
`OK`, and a fresh search still reaches the (now updated) leaf. -/
theorem removeRec_hit (hash : Nat) (key : Str) :
    ∀ (t : VNode) (ps : PState) (h : List Nat) (k : List Str) (pid slot : Nat),
      LeafSearch key t = some (VNode.leaf h k pid) →
      findSlot h k hash key = some slot →
      ∃ t', removeRec true hash key ps t =
          (setLeafSlots ps pid ((getLeafP ps pid).slots.set slot none), t', Status.OK) ∧
        LeafSearch key t' = some (VNode.leaf (h.set slot 0) (k.set slot []) pid)
  | VNode.leaf h0 k0 pid0, ps, h, k, pid, slot, hsearch, hfind => by
      rw [LeafSearch] at hsearch
      injection hsearch with he
      injection he with e1 e2 e3
      subst e1
      subst e2
      subst e3
      refine ⟨VNode.leaf (h0.set slot 0) (k0.set slot []) pid0, ?_, by rw [LeafSearch]⟩
      rw [removeRec, hfind]
      rfl
  | VNode.inner rkeys children, ps, h, k, pid, slot, hsearch, hfind => by
      rw [LeafSearch] at hsearch
      rcases removeRecChild_hit hash key (descIdx key rkeys) children ps h k pid slot
        hsearch hfind with ⟨cs', hr, hs⟩
      refine ⟨VNode.inner rkeys cs', ?_, ?_⟩
      · rw [removeRec, hr]
      · rw [LeafSearch]
        exact hs

theorem removeRecChild_hit (hash : Nat) (key : Str) :
    ∀ (i : Nat) (cs : List VNode) (ps : PState) (h : List Nat) (k : List Str) (pid slot : Nat),
      LeafSearchChild key i cs = some (VNode.leaf h k pid) →
      findSlot h k hash key = some slot →
      ∃ cs', removeRecChild true hash key ps i cs =
          (setLeafSlots ps pid ((getLeafP ps pid).slots.set slot none), cs', Status.OK) ∧
        LeafSearchChild key i cs' = some (VNode.leaf (h.set slot 0) (k.set slot []) pid)
  | 0, [], ps, h, k, pid, slot, hsearch, _ => by
      rw [LeafSearchChild] at hsearch
      cases hsearch
  | _ + 1, [], ps, h, k, pid, slot, hsearch, _ => by
      rw [LeafSearchChild] at hsearch
      cases hsearch
  | 0, c :: cs, ps, h, k, pid, slot, hsearch, hfind => by
      rw [LeafSearchChild] at hsearch
      rcases removeRec_hit hash key c ps h k pid slot hsearch hfind with ⟨t', hr, hs⟩
      refine ⟨t' :: cs, ?_, ?_⟩
      · rw [removeRecChild, hr]
      · rw [LeafSearchChild]
        exact hs
  | i + 1, c :: cs, ps, h, k, pid, slot, hsearch, hfind => by
      rw [LeafSearchChild] at hsearch
      rcases removeRecChild_hit hash key i cs ps h k pid slot hsearch hfind with ⟨cs', hr, hs⟩
      refine ⟨c :: cs', ?_, ?_⟩
      · rw [removeRecChild, hr]
      · rw [LeafSearchChild]
        exact hs

end

/-! ## Per-leaf facts extracted from tree well-formedness -/

mutual

theorem wfW_leaf_win :
    ∀ (t : VNode) (lo hi : Option Str), wfW lo hi t = true →
      ∀ (h : List Nat) (k : List Str) (pid : Nat), VNode.leaf h k pid ∈ leavesOf t →
        ∃ lo2 hi2, leafWinOk lo2 hi2 h k = true
  | VNode.leaf h0 k0 pid0, lo, hi, hw, h, k, pid, hmem => by
      rw [leavesOf, List.mem_singleton] at hmem
      injection hmem with e1 e2 e3
      subst e1
      subst e2
      rw [wfW] at hw
      exact ⟨lo, hi, hw⟩
  | VNode.inner rkeys children, lo, hi, hw, h, k, pid, hmem => by
      rw [wfW, Bool.and_eq_true] at hw
      rw [leavesOf] at hmem
      exact chainW_leaf_win rkeys children lo hi hw.2 h k pid hmem

theorem chainW_leaf_win :
    ∀ (rs : List Str) (cs : List VNode) (lo hi : Option Str), chainW lo hi rs cs = true →
      ∀ (h : List Nat) (k : List Str) (pid : Nat), VNode.leaf h k pid ∈ leavesOfList cs →
        ∃ lo2 hi2, leafWinOk lo2 hi2 h k = true
  | [], [], lo, hi, hch, h, k, pid, hmem => absurd hch Bool.false_ne_true
  | [], [c], lo, hi, hch, h, k, pid, hmem => by
      rw [chainW] at hch
      rw [leavesOfList, leavesOfList, List.append_nil] at hmem
      exact wfW_leaf_win c lo hi hch h k pid hmem
  | [], c1 :: c2 :: cs, lo, hi, hch, h, k, pid, hmem => absurd hch Bool.false_ne_true
  | r :: rs, [], lo, hi, hch, h, k, pid, hmem => absurd hch Bool.false_ne_true
  | r :: rs, c :: cs, lo, hi, hch, h, k, pid, hmem => by
      rw [chainW, Bool.and_eq_true, Bool.and_eq_true, Bool.and_eq_true] at hch
      rw [leavesOfList] at hmem
      rcases List.mem_append.mp hmem with hm | hm
      · exact wfW_leaf_win c lo (some r) hch.1.2 h k pid hm
      · exact chainW_leaf_win rs cs (some r) hi hch.2 h k pid hm

end

theorem wfW_leaf_basic {t : VNode} {lo hi : Option Str} (hw : wfW lo hi t = true)
    {h : List Nat} {k : List Str} {pid : Nat} (hmem : VNode.leaf h k pid ∈ leavesOf t) :
    h.length = LEAF_KEYS ∧ k.length = LEAF_KEYS ∧ (liveKeysLeaf h k).Nodup := by
  rcases wfW_leaf_win t lo hi hw h k pid hmem with ⟨lo2, hi2, hwin⟩
  rcases leafWinOk_iff.mp hwin with ⟨h1, h2, h3, _⟩
  exact ⟨h1, h2, h3⟩

/-- In a leaf mirror with duplicate-free live keys, two distinct live
slots hold distinct keys. -/
theorem live_slot_unique_lt {h : List Nat} {k : List Str}
    (hnd : (liveKeysLeaf h k).Nodup) {s1 s2 : Nat} (hlt : s1 < s2) (h2 : s2 < LEAF_KEYS)
    (hl1 : h.getD s1 0 ≠ 0) (hl2 : h.getD s2 0 ≠ 0) :
    k.getD s1 [] ≠ k.getD s2 [] := by
  intro heq
  have h1 : s1 < LEAF_KEYS := Nat.lt_trans hlt h2
  rw [liveKeysLeaf, range_split LEAF_KEYS s1 h1, List.filterMap_append,
    List.filterMap_cons] at hnd
  rw [if_neg hl1] at hnd
  have hnd2 := List.Nodup.of_append_right hnd
  rw [List.nodup_cons] at hnd2
  apply hnd2.1
  apply List.mem_filterMap.mpr
  refine ⟨s2, ?_, ?_⟩
  · apply List.mem_map.mpr
    exact ⟨s2 - s1 - 1, List.mem_range.mpr (by omega), by omega⟩
  · rw [if_neg hl2, heq]

theorem live_slot_unique {h : List Nat} {k : List Str}
    (hnd : (liveKeysLeaf h k).Nodup) {s1 s2 : Nat} (h1 : s1 < LEAF_KEYS)
    (h2 : s2 < LEAF_KEYS) (hne : s1 ≠ s2)
    (hl1 : h.getD s1 0 ≠ 0) (hl2 : h.getD s2 0 ≠ 0) :
    k.getD s1 [] ≠ k.getD s2 [] := by
  rcases Nat.lt_or_ge s1 s2 with hlt | hge
  · exact live_slot_unique_lt hnd hlt h2 hl1 hl2
  · have hlt : s2 < s1 := by omega
    exact fun he => live_slot_unique_lt hnd hlt h1 hl2 hl1 he.symm

/-! ## Count deltas -/

theorem countSlots_clear (lf : KVLeaf) (slot : Nat) (hs : slot < LEAF_KEYS)
    (hlive : slotLive (lf.slots.getD slot none) = true) :
    countSlots (⟨lf.slots.set slot none⟩ : KVLeaf) descRange + 1 =
      countSlots lf descRange := by
  have hsl : slot < lf.slots.length := by
    by_contra hge
    rw [List.getD_eq_getElem?_getD, List.getElem?_eq_none_iff.mpr (by omega)] at hlive
    simp [slotLive] at hlive
  rw [countSlots_eq_countP, countSlots_eq_countP]
  have hu := @countP_update_one (fun s => slotLive (lf.slots.getD s none))
    (fun s => slotLive ((lf.slots.set slot none).getD s none))
    descRange descRange_nodup slot (mem_descRange.mpr hs)
    (fun x _ hxne => by
      show slotLive ((lf.slots.set slot none).getD x none) =
        slotLive (lf.slots.getD x none)
      rw [getD_set_ne _ _ _ _ _ (fun he => hxne he.symm)])
  simp only [] at hu ⊢
  simp only [getD_set_self _ _ _ _ hsl, hlive, eq_self_iff_true, if_true] at hu
  have h2 : slotLive (none : Option Payload) = false := rfl
  simp only [h2, Bool.false_eq_true, if_false] at hu
  omega

theorem sumHead_remove {ps : PState} {pid slot : Nat}
    (hnd : ps.head.Nodup) (hmem : pid ∈ ps.head) (hpid : pid < ps.heap.length)
    (hs : slot < LEAF_KEYS)
    (hlive : slotLive ((getLeafP ps pid).slots.getD slot none) = true) :
    sumHead (setLeafSlots ps pid ((getLeafP ps pid).slots.set slot none)) + 1 =
      sumHead ps := by
  rw [sumHead, sumHead, setLeafSlots_head]
  have hsm := @sum_map_update (fun id => countSlots (getLeafP ps id) descRange)
    (fun id => countSlots
      (getLeafP (setLeafSlots ps pid ((getLeafP ps pid).slots.set slot none)) id) descRange)
    ps.head hnd pid hmem
    (fun id _ hne => by
      show countSlots
          (getLeafP (setLeafSlots ps pid ((getLeafP ps pid).slots.set slot none)) id)
          descRange = countSlots (getLeafP ps id) descRange
      rw [getLeafP_setLeafSlots_ne _ _ _ _ (fun he => hne he.symm)])
  simp only [] at hsm
  have hself : getLeafP (setLeafSlots ps pid ((getLeafP ps pid).slots.set slot none)) pid =
      ⟨(getLeafP ps pid).slots.set slot none⟩ :=
    getLeafP_setLeafSlots_self _ _ _ hpid
  rw [hself] at hsm
  have hc := countSlots_clear (getLeafP ps pid) slot hs hlive
  omega

theorem removeTx_eq (txOk : Bool) (ps : PState) (top : VNode) (key : Str) :
    tree3.removeTx txOk ⟨ps, some top⟩ key =
      ({ ps := (removeRec txOk (PearsonHash key) key ps top).1,
         tree_top := some (removeRec txOk (PearsonHash key) key ps top).2.1 },
       (removeRec txOk (PearsonHash key) key ps top).2.2) := rfl

/-- C3: `remove(K)` returns `NOT_FOUND` and changes nothing when either no
leaf is reached for `K` or no slot of that leaf holds `K` (exactly the
states where `exists(K)` reports absence); when `K` is present it returns
`OK`, after which `get(K)` is `NOT_FOUND` and `count` is exactly one
smaller. -/
theorem claim_C3_remove (s : Tree3) (key : Str) (hInv : InvB s = true) :
    ((tree3.existsKey s key).2 = false →
        tree3.remove s key = (s, Status.NOT_FOUND)) ∧
    ((tree3.existsKey s key).2 = true →
        (tree3.remove s key).2 = Status.OK ∧
        (tree3.get (tree3.remove s key).1 key).2 = none ∧
        (tree3.count (tree3.remove s key).1).2 + 1 = (tree3.count s).2) := by
  obtain ⟨ps0, tt0⟩ := s
  constructor
  · intro hex
    cases tt0 with
    | none => rw [tree3.remove, tree3.removeTx]
    | some top =>
        have hex2 : (match LeafSearch key top with
            | some (VNode.leaf h k _) => (findSlot h k (PearsonHash key) key).isSome
            | _ => false) = false := by
          rw [existsKey_eq] at hex
          exact hex
        have hmiss : (match LeafSearch key top with
            | some (VNode.leaf h k _) => findSlot h k (PearsonHash key) key = none
            | _ => True) := by
          cases hsr : LeafSearch key top with
          | none => trivial
          | some L =>
              cases L with
              | inner r c => trivial
              | leaf h k pid =>
                  rw [hsr] at hex2
                  have hex3 : (findSlot h k (PearsonHash key) key).isSome = false := hex2
                  show findSlot h k (PearsonHash key) key = none
                  cases hf : findSlot h k (PearsonHash key) key with
                  | none => rfl
                  | some sl =>
                      rw [hf] at hex3
                      simp at hex3
        rw [tree3.remove, removeTx_eq,
          removeRec_miss true (PearsonHash key) key top ps0 hmiss]
  · intro hex
    cases tt0 with
    | none =>
        rw [existsKey_eq] at hex
        exact absurd hex Bool.false_ne_true
    | some top =>
        have hex2 : (match LeafSearch key top with
            | some (VNode.leaf h k _) => (findSlot h k (PearsonHash key) key).isSome
            | _ => false) = true := by
          rw [existsKey_eq] at hex
          exact hex
        cases hsr : LeafSearch key top with
        | none =>
            rw [hsr] at hex2
            exact absurd hex2 Bool.false_ne_true
        | some L =>
          cases L with
          | inner r c =>
              rw [hsr] at hex2
              exact absurd hex2 Bool.false_ne_true
          | leaf h k pid =>
            rw [hsr] at hex2
            have hex3 : (findSlot h k (PearsonHash key) key).isSome = true := hex2
            cases hf : findSlot h k (PearsonHash key) key with
            | none =>
                rw [hf] at hex3
                simp at hex3
            | some slot =>
              obtain ⟨hpsOk, hwf, hleaves, hpidsnd, hcov, hpre⟩ :=
                (@InvB_some_iff ⟨ps0, some top⟩ top rfl).mp hInv
              have hmem : VNode.leaf h k pid ∈ leavesOf top := LeafSearch_mem key top _ hsr
              obtain ⟨hhlen, hklen, hnd⟩ := wfW_leaf_basic hwf hmem
              have hagree := (hleaves _ hmem).1
              rw [leafAgreeB_iff] at hagree
              obtain ⟨hpidlt, hpidhead, hslots⟩ := hagree
              obtain ⟨hslt, hsh, hsk⟩ := findSlot_some hf
              obtain ⟨hheaplen, hheadnd, hheadlt, hprend, hpreok⟩ := psOkB_iff.mp hpsOk
              have hls : h.getD slot 0 ≠ 0 := by
                rw [hsh]
                exact PearsonHash_ne_zero key
              have hplive : slotLive ((getLeafP ps0 pid).slots.getD slot none) = true := by
                have hsa := hslots slot hslt
                rw [slotAgree] at hsa
                cases hp : (getLeafP ps0 pid).slots.getD slot none with
                | none =>
                    rw [hp] at hsa
                    rw [beq_iff_eq] at hsa
                    exact absurd hsa hls
                | some p =>
                    rw [hp] at hsa
                    have hz : (h.getD slot 0 == 0) = false := by
                      rw [beq_eq_false_iff_ne]
                      exact hls
                    rw [hz] at hsa
                    simp only [Bool.false_eq_true, if_false, Bool.and_eq_true,
                      beq_iff_eq] at hsa
                    rw [slotLive, bne_iff_ne]
                    rw [hsa.1]
                    exact hls
              obtain ⟨t', hr, hs'⟩ :=
                removeRec_hit (PearsonHash key) key top ps0 h k pid slot hsr hf
              rw [tree3.remove, removeTx_eq, hr]
              refine ⟨rfl, ?_, ?_⟩
              · have hfnone : findSlot (h.set slot 0) (k.set slot [])
                    (PearsonHash key) key = none := by
                  rw [findSlot, List.find?_eq_none]
                  intro x hx hpx
                  rw [Bool.and_eq_true, beq_iff_eq, beq_iff_eq] at hpx
                  by_cases hxs : x = slot
                  · subst hxs
                    rw [getD_set_self _ _ _ _ (by rw [hhlen]; exact hslt)] at hpx
                    exact PearsonHash_ne_zero key hpx.1.symm
                  · rw [getD_set_ne _ _ _ _ _ (fun he => hxs he.symm)] at hpx
                    rcases hpx with ⟨hpx1, hpx2⟩
                    rw [getD_set_ne _ _ _ _ _ (fun he => hxs he.symm)] at hpx2
                    have hxlt : x < LEAF_KEYS := mem_descRange.mp hx
                    have hlx : h.getD x 0 ≠ 0 := by
                      rw [hpx1]
                      exact PearsonHash_ne_zero key
                    exact live_slot_unique hnd hxlt hslt hxs hlx hls
                      (by rw [hpx2, hsk])
                simp only [get_eq, hs', hfnone]
              · rw [count_eq_sumHead, count_eq_sumHead]
                show sumHead (setLeafSlots ps0 pid ((getLeafP ps0 pid).slots.set slot none))
                    + 1 = sumHead ps0
                exact sumHead_remove hheadnd hpidhead hpidlt hslt hplive

/-- A store holding exactly the pair `[97] -> [120]`. -/
def demoStore : Tree3 := tree3.put { ps := ⟨[], [], []⟩, tree_top := none } [97] [120]

theorem claim_C3_remove_witness :
    InvB demoStore = true ∧
    (((tree3.existsKey demoStore [97]).2 = false →
        tree3.remove demoStore [97] = (demoStore, Status.NOT_FOUND)) ∧
     ((tree3.existsKey demoStore [97]).2 = true →
        (tree3.remove demoStore [97]).2 = Status.OK ∧
        (tree3.get (tree3.remove demoStore [97]).1 [97]).2 = none ∧
        (tree3.count (tree3.remove demoStore [97]).1).2 + 1 =
          (tree3.count demoStore).2)) :=
  ⟨by decide, claim_C3_remove demoStore [97] (by decide)⟩

/-! ## The `LeafFillSlotForKey` scan -/

theorem scanSlotsAux_match_some {hashes : List Nat} {keys : List Str} {hash : Nat}
    {key : Str} :
    ∀ (l : List Nat) (le : Option Nat) {s : Nat},
      (scanSlotsAux hashes keys hash key l le).1 = some s →
      s ∈ l ∧ hashes.getD s 0 = hash ∧ keys.getD s [] = key := by
  intro l
  induction l with
  | nil =>
      intro le s h
      rw [scanSlotsAux] at h
      cases h
  | cons a rest ih =>
      intro le s h
      rw [scanSlotsAux] at h
      by_cases h0 : hashes.getD a 0 = 0
      · rw [if_pos h0] at h
        rcases ih _ h with ⟨m, hh, hk⟩
        exact ⟨List.mem_cons_of_mem _ m, hh, hk⟩
      · rw [if_neg h0] at h
        by_cases hm : hashes.getD a 0 = hash ∧ keys.getD a [] = key
        · rw [if_pos hm] at h
          injection h with he
          subst he
          exact ⟨List.mem_cons_self _ _, hm.1, hm.2⟩
        · rw [if_neg hm] at h
          rcases ih _ h with ⟨m, hh, hk⟩
          exact ⟨List.mem_cons_of_mem _ m, hh, hk⟩

theorem scanSlotsAux_match_none {hashes : List Nat} {keys : List Str} {hash : Nat}
    {key : Str} :
    ∀ (l : List Nat) (le : Option Nat),
      (scanSlotsAux hashes keys hash key l le).1 = none →
      ∀ s ∈ l, ¬(hashes.getD s 0 ≠ 0 ∧ hashes.getD s 0 = hash ∧
        keys.getD s [] = key) := by
  intro l
  induction l with
  | nil => intro le _ s hmem; cases hmem
  | cons a rest ih =>
      intro le h s hmem
      rw [scanSlotsAux] at h
      by_cases h0 : hashes.getD a 0 = 0
      · rw [if_pos h0] at h
        rcases List.mem_cons.mp hmem with rfl | hmem2
        · exact fun hc => hc.1 h0
        · exact ih _ h s hmem2
      · rw [if_neg h0] at h
        by_cases hm : hashes.getD a 0 = hash ∧ keys.getD a [] = key
        · rw [if_pos hm] at h
          cases h
        · rw [if_neg hm] at h
          rcases List.mem_cons.mp hmem with rfl | hmem2
          · exact fun hc => hm ⟨hc.2.1, hc.2.2⟩
          · exact ih _ h s hmem2

theorem scanSlotsAux_empty_some {hashes : List Nat} {keys : List Str} {hash : Nat}
    {key : Str} :
    ∀ (l : List Nat) (le : Option Nat) {s : Nat},
      (scanSlotsAux hashes keys hash key l le).2 = some s →
      (s ∈ l ∧ hashes.getD s 0 = 0) ∨ le = some s := by
  intro l
  induction l with
  | nil =>
      intro le s h
      rw [scanSlotsAux] at h
      exact Or.inr h
  | cons a rest ih =>
      intro le s h
      rw [scanSlotsAux] at h
      by_cases h0 : hashes.getD a 0 = 0
      · rw [if_pos h0] at h
        rcases ih _ h with ⟨m, hz⟩ | hle
        · exact Or.inl ⟨List.mem_cons_of_mem _ m, hz⟩
        · injection hle with he
          subst he
          exact Or.inl ⟨List.mem_cons_self _ _, h0⟩
      · rw [if_neg h0] at h
        by_cases hm : hashes.getD a 0 = hash ∧ keys.getD a [] = key
        · rw [if_pos hm] at h
          exact Or.inr h
        · rw [if_neg hm] at h
          rcases ih _ h with ⟨m, hz⟩ | hle
          · exact Or.inl ⟨List.mem_cons_of_mem _ m, hz⟩
          · exact Or.inr hle

theorem scanSlotsAux_none_none {hashes : List Nat} {keys : List Str} {hash : Nat}
    {key : Str} :
    ∀ (l : List Nat) (le : Option Nat),
      scanSlotsAux hashes keys hash key l le = (none, none) →
      (∀ s ∈ l, hashes.getD s 0 ≠ 0) ∧ le = none := by
  intro l
  induction l with
  | nil =>
      intro le h
      rw [scanSlotsAux] at h
      injection h with h1 h2
      exact ⟨fun s hmem => absurd hmem (List.not_mem_nil s), h2⟩
  | cons a rest ih =>
      intro le h
      rw [scanSlotsAux] at h
      by_cases h0 : hashes.getD a 0 = 0
      · rw [if_pos h0] at h
        rcases ih _ h with ⟨_, hle⟩
        cases hle
      · rw [if_neg h0] at h
        by_cases hm : hashes.getD a 0 = hash ∧ keys.getD a [] = key
        · rw [if_pos hm] at h
          injection h with h1 h2
          cases h1
        · rw [if_neg hm] at h
          rcases ih _ h with ⟨hall, hle⟩
          refine ⟨fun s hmem => ?_, hle⟩
          rcases List.mem_cons.mp hmem with rfl | hmem2
          · exact h0
          · exact hall s hmem2

theorem scanSlots_found {hashes : List Nat} {keys : List Str} {hash : Nat} {key : Str}
    {s : Nat} (h : (scanSlots hashes keys hash key).1 = some s) :
    s < LEAF_KEYS ∧ hashes.getD s 0 = hash ∧ keys.getD s [] = key := by
  rcases scanSlotsAux_match_some descRange none h with ⟨m, hh, hk⟩
  exact ⟨mem_descRange.mp m, hh, hk⟩

theorem scanSlots_miss_findSlot_none {hashes : List Nat} {keys : List Str} {hash : Nat}
    {key : Str} (hhash : hash ≠ 0) (h : (scanSlots hashes keys hash key).1 = none) :
    findSlot hashes keys hash key = none := by
  rw [findSlot, List.find?_eq_none]
  intro x hx hp
  rw [Bool.and_eq_true, beq_iff_eq, beq_iff_eq] at hp
  exact scanSlotsAux_match_none descRange none h x hx
    ⟨by rw [hp.1]; exact hhash, hp.1, hp.2⟩

theorem scanSlots_empty {hashes : List Nat} {keys : List Str} {hash : Nat} {key : Str}
    {s : Nat} (h : (scanSlots hashes keys hash key).2 = some s) :
    s < LEAF_KEYS ∧ hashes.getD s 0 = 0 := by
  rcases scanSlotsAux_empty_some descRange none h with ⟨m, hz⟩ | hle
  · exact ⟨mem_descRange.mp m, hz⟩
  · cases hle

theorem scanSlots_full {hashes : List Nat} {keys : List Str} {hash : Nat} {key : Str}
    (h : scanSlots hashes keys hash key = (none, none)) :
    ∀ s, s < LEAF_KEYS → hashes.getD s 0 ≠ 0 :=
  fun s hs => (scanSlotsAux_none_none descRange none h).1 s (mem_descRange.mpr hs)

/-! ## The pool-state effect of `put` is decided at the reached leaf -/

/-- The pool-state transformation `put` applies at the reached leaf:
overwrite the matching slot, fill the last empty slot, or split. -/
def leafPutPs (hash : Nat) (key value : Str) (ps : PState) (h : List Nat) (k : List Str)
    (pid : Nat) : PState :=
  match scanSlots h k hash key with
  | (some s, _) => (fillSpecific ps pid h k hash key value s).1
  | (none, some s) => (fillSpecific ps pid h k hash key value s).1
  | (none, none) => (splitLeaf ps h k pid hash key value).1

mutual

theorem putRec_fst (hash : Nat) (key value : Str) :
    ∀ (t : VNode) (ps : PState),
      (putRec hash key value ps t).1 =
        match LeafSearch key t with
        | some (VNode.leaf h k pid) => leafPutPs hash key value ps h k pid
        | _ => ps
  | VNode.leaf h k pid, ps => by
      rw [putRec, LeafSearch]
      show (match scanSlots h k hash key with
        | (some slot, _) =>
            let r := fillSpecific ps pid h k hash key value slot
            (r.1, VNode.leaf r.2.1 r.2.2 pid, (none : Option (Str × VNode)))
        | (none, some slot) =>
            let r := fillSpecific ps pid h k hash key value slot
            (r.1, VNode.leaf r.2.1 r.2.2 pid, none)
        | (none, none) =>
            let r := splitLeaf ps h k pid hash key value
            (r.1, r.2.1, some (r.2.2.1, r.2.2.2))).1 = leafPutPs hash key value ps h k pid
      rw [leafPutPs]
      rcases hscan : scanSlots h k hash key with ⟨o1, o2⟩
      cases o1 with
      | some s => rfl
      | none => cases o2 with
          | some s => rfl
          | none => rfl
  | VNode.inner rkeys children, ps => by
      rw [LeafSearch]
      have h1 : (putRec hash key value ps (VNode.inner rkeys children)).1 =
          (putRecChild hash key value ps (descIdx key rkeys) children).1 := by
        rw [putRec]
        rcases hr : (putRecChild hash key value ps (descIdx key rkeys) children).2.2 with
          _ | ⟨sk, nn⟩ <;> rfl
      rw [h1, putRecChild_fst hash key value (descIdx key rkeys) children ps]

theorem putRecChild_fst (hash : Nat) (key value : Str) :
    ∀ (i : Nat) (cs : List VNode) (ps : PState),
      (putRecChild hash key value ps i cs).1 =
        match LeafSearchChild key i cs with
        | some (VNode.leaf h k pid) => leafPutPs hash key value ps h k pid
        | _ => ps
  | 0, [], ps => by rw [putRecChild, LeafSearchChild]
  | _ + 1, [], ps => by rw [putRecChild, LeafSearchChild]
  | 0, c :: cs, ps => by
      rw [putRecChild, LeafSearchChild]
      exact putRec_fst hash key value c ps
  | i + 1, c :: cs, ps => by
      rw [putRecChild, LeafSearchChild]
      exact putRecChild_fst hash key value i cs ps

end

theorem put_some_eq (ps : PState) (top : VNode) (key value : Str) :
    tree3.put ⟨ps, some top⟩ key value =
      { ps := (putRec (PearsonHash key) key value ps top).1,
        tree_top := some (finishSplit (putRec (PearsonHash key) key value ps top).2.1
          (putRec (PearsonHash key) key value ps top).2.2) } := rfl

theorem put_none_eq (ps : PState) (key value : Str) :
    tree3.put ⟨ps, none⟩ key value =
      { ps := (fillSpecific (allocLeaf ps).2 (allocLeaf ps).1 (List.replicate LEAF_KEYS 0)
          (List.replicate LEAF_KEYS []) (PearsonHash key) key value 0).1,
        tree_top := some (VNode.leaf
          ((List.replicate LEAF_KEYS 0).set 0 (PearsonHash key))
          ((List.replicate LEAF_KEYS []).set 0 key) (allocLeaf ps).1) } := rfl

/-! ## Search correctness on well-formed trees -/

theorem loOk_weaken {lo : Option Str} {r x : Str} (h1 : loOk lo r = true)
    (h2 : strLt r x = true) : loOk lo x = true := by
  cases lo with
  | none => rfl
  | some b => exact strLt_trans h1 h2

theorem hiOk_weaken {hi : Option Str} {r x : Str} (h1 : hiOk hi r = true)
    (h2 : strLe x r = true) : hiOk hi x = true := by
  cases hi with
  | none => rfl
  | some b => exact strLe_trans h2 h1

mutual

theorem wfW_live_in_win :
    ∀ (t : VNode) (lo hi : Option Str), wfW lo hi t = true →
      ∀ (h : List Nat) (k : List Str) (pid s : Nat), VNode.leaf h k pid ∈ leavesOf t →
        s < LEAF_KEYS → h.getD s 0 ≠ 0 → inWin lo hi (k.getD s []) = true
  | VNode.leaf h0 k0 pid0, lo, hi, hw, h, k, pid, s, hmem, hs, hlv => by
      rw [leavesOf, List.mem_singleton] at hmem
      injection hmem with e1 e2 e3
      subst e1
      subst e2
      rw [wfW] at hw
      exact (leafWinOk_iff.mp hw).2.2.2 s hs hlv
  | VNode.inner rkeys children, lo, hi, hw, h, k, pid, s, hmem, hs, hlv => by
      rw [wfW, Bool.and_eq_true] at hw
      rw [leavesOf] at hmem
      exact chainW_live_in_win rkeys children lo hi hw.2 h k pid s hmem hs hlv

theorem chainW_live_in_win :
    ∀ (rs : List Str) (cs : List VNode) (lo hi : Option Str), chainW lo hi rs cs = true →
      ∀ (h : List Nat) (k : List Str) (pid s : Nat),
        VNode.leaf h k pid ∈ leavesOfList cs →
        s < LEAF_KEYS → h.getD s 0 ≠ 0 → inWin lo hi (k.getD s []) = true
  | [], [], lo, hi, hch, h, k, pid, s, hmem, hs, hlv => absurd hch Bool.false_ne_true
  | [], [c], lo, hi, hch, h, k, pid, s, hmem, hs, hlv => by
      rw [chainW] at hch
      rw [leavesOfList, leavesOfList, List.append_nil] at hmem
      exact wfW_live_in_win c lo hi hch h k pid s hmem hs hlv
  | [], c1 :: c2 :: cs, lo, hi, hch, h, k, pid, s, hmem, hs, hlv =>
      absurd hch Bool.false_ne_true
  | r :: rs, [], lo, hi, hch, h, k, pid, s, hmem, hs, hlv =>
      absurd hch Bool.false_ne_true
  | r :: rs, c :: cs, lo, hi, hch, h, k, pid, s, hmem, hs, hlv => by
      rw [chainW, Bool.and_eq_true, Bool.and_eq_true, Bool.and_eq_true] at hch
      rw [leavesOfList] at hmem
      rcases List.mem_append.mp hmem with hm | hm
      · have hin := wfW_live_in_win c lo (some r) hch.1.2 h k pid s hm hs hlv
        rw [inWin_iff] at hin ⊢
        exact ⟨hin.1, hiOk_weaken hch.1.1.2 hin.2⟩
      · have hin := chainW_live_in_win rs cs (some r) hi hch.2 h k pid s hm hs hlv
        rw [inWin_iff] at hin ⊢
        exact ⟨loOk_weaken hch.1.1.1 hin.1, hin.2⟩

end

mutual

/-- On a window-well-formed tree, `LeafSearch` reaches the (unique) leaf
whose mirror holds a given live key. -/
theorem searchCorrect (key : Str) :
    ∀ (t : VNode) (lo hi : Option Str), wfW lo hi t = true →
      ∀ (h : List Nat) (k : List Str) (pid s : Nat), VNode.leaf h k pid ∈ leavesOf t →
        s < LEAF_KEYS → h.getD s 0 ≠ 0 → k.getD s [] = key →
        LeafSearch key t = some (VNode.leaf h k pid)
  | VNode.leaf h0 k0 pid0, lo, hi, hw, h, k, pid, s, hmem, hs, hlv, hk => by
      rw [leavesOf, List.mem_singleton] at hmem
      rw [LeafSearch, hmem]
  | VNode.inner rkeys children, lo, hi, hw, h, k, pid, s, hmem, hs, hlv, hk => by
      rw [wfW, Bool.and_eq_true] at hw
      rw [leavesOf] at hmem
      rw [LeafSearch]
      exact searchCorrectChain key rkeys children lo hi hw.2 h k pid s hmem hs hlv hk

theorem searchCorrectChain (key : Str) :
    ∀ (rs : List Str) (cs : List VNode) (lo hi : Option Str), chainW lo hi rs cs = true →
      ∀ (h : List Nat) (k : List Str) (pid s : Nat),
        VNode.leaf h k pid ∈ leavesOfList cs →
        s < LEAF_KEYS → h.getD s 0 ≠ 0 → k.getD s [] = key →
        LeafSearchChild key (descIdx key rs) cs = some (VNode.leaf h k pid)
  | [], [], lo, hi, hch, h, k, pid, s, hmem, hs, hlv, hk => absurd hch Bool.false_ne_true
  | [], [c], lo, hi, hch, h, k, pid, s, hmem, hs, hlv, hk => by
      rw [chainW] at hch
      rw [leavesOfList, leavesOfList, List.append_nil] at hmem
      rw [descIdx, LeafSearchChild]
      exact searchCorrect key c lo hi hch h k pid s hmem hs hlv hk
  | [], c1 :: c2 :: cs, lo, hi, hch, h, k, pid, s, hmem, hs, hlv, hk =>
      absurd hch Bool.false_ne_true
  | r :: rs, [], lo, hi, hch, h, k, pid, s, hmem, hs, hlv, hk =>
      absurd hch Bool.false_ne_true
  | r :: rs, c :: cs, lo, hi, hch, h, k, pid, s, hmem, hs, hlv, hk => by
      rw [chainW, Bool.and_eq_true, Bool.and_eq_true, Bool.and_eq_true] at hch
      rw [leavesOfList] at hmem
      rcases List.mem_append.mp hmem with hm | hm
      · have hin := wfW_live_in_win c lo (some r) hch.1.2 h k pid s hm hs hlv
        rw [inWin_iff] at hin
        have hle : strLe key r = true := by
          rw [← hk]
          exact hin.2
        rw [descIdx, if_pos hle, LeafSearchChild]
        exact searchCorrect key c lo (some r) hch.1.2 h k pid s hm hs hlv hk
      · have hin := chainW_live_in_win rs cs (some r) hi hch.2 h k pid s hm hs hlv
        rw [inWin_iff] at hin
        have hlt : strLt r key = true := by
          rw [← hk]
          exact hin.1
        have hnle : ¬ strLe key r = true := by
          rw [strLt_iff_not_le] at hlt
          intro hc
          rw [strLe_iff_not_lt] at hc
          exact hc (by rw [strLt_iff_not_le]; exact hlt)
        rw [descIdx, if_neg hnle, LeafSearchChild]
        exact searchCorrectChain key rs cs (some r) hi hch.2 h k pid s hm hs hlv hk

end

/-! ## Auxiliary facts for the put proof -/

theorem slotAgree_congr {ps2 ps : PState} {pid2 pid slot2 slot : Nat}
    {h2 h : List Nat} {k2 k : List Str}
    (hp : (getLeafP ps2 pid2).slots.getD slot2 none =
      (getLeafP ps pid).slots.getD slot none)
    (hh : h2.getD slot2 0 = h.getD slot 0) (hk : k2.getD slot2 [] = k.getD slot []) :
    slotAgree ps2 pid2 slot2 h2 k2 = slotAgree ps pid slot h k := by
  rw [slotAgree, slotAgree, hp, hh, hk]

theorem slotAgree_dead {ps : PState} {pid slot : Nat} {h : List Nat} {k : List Str}
    (hz : h.getD slot 0 = 0)
    (hd : slotLive ((getLeafP ps pid).slots.getD slot none) = false) :
    slotAgree ps pid slot h k = true := by
  rw [slotAgree]
  cases hp : (getLeafP ps pid).slots.getD slot none with
  | none =>
      rw [beq_iff_eq]
      exact hz
  | some p =>
      have hb : (KVSlot.get_ph p != 0) = false := by
        rw [hp, slotLive] at hd
        exact hd
      have hph : KVSlot.get_ph p = 0 := by
        by_contra hne
        rw [bne_iff_ne.mpr hne] at hb
        cases hb
      have hcond : (h.getD slot 0 == 0) = true := beq_iff_eq.mpr hz
      rw [hcond]
      show (KVSlot.get_ph p == 0) = true
      exact beq_iff_eq.mpr hph

theorem slotAgree_payload {ps : PState} {pid slot : Nat} {h : List Nat} {k : List Str}
    {hash : Nat} {key value : Str} (hk32 : key.length < 4294967296)
    (hhlt : hash < 256) (hhz : hash ≠ 0)
    (hp : (getLeafP ps pid).slots.getD slot none = some (KVSlot.set hash key value))
    (hh : h.getD slot 0 = hash) (hk : k.getD slot [] = key) :
    slotAgree ps pid slot h k = true := by
  rw [slotAgree, hp]
  have hcond : (h.getD slot 0 == 0) = false := by
    rw [beq_eq_false_iff_ne, hh]
    exact hhz
  rw [hcond]
  simp only [Bool.false_eq_true, if_false, Bool.and_eq_true, beq_iff_eq]
  rw [KVSlot.get_ph_set hash hhlt, KVSlot.keyBytes_set hash key value hk32, hh, hk]
  exact ⟨rfl, rfl⟩

theorem filterMap_eq_map_of_some {α β : Type} {f : α → Option β} {g : α → β} :
    ∀ {l : List α}, (∀ x ∈ l, f x = some (g x)) → l.filterMap f = l.map g := by
  intro l
  induction l with
  | nil => intro _; rfl
  | cons a l ih =>
      intro hf
      rw [List.filterMap_cons, hf a (List.mem_cons_self a l), List.map_cons,
        ih fun x hx => hf x (List.mem_cons_of_mem _ hx)]

theorem liveKeysLeaf_all_live {h : List Nat} {k : List Str}
    (hlv : ∀ s, s < LEAF_KEYS → h.getD s 0 ≠ 0) (hklen : k.length = LEAF_KEYS) :
    liveKeysLeaf h k = k := by
  rw [liveKeysLeaf]
  rw [filterMap_eq_map_of_some (g := fun s => k.getD s [])
    (fun s hs => by rw [if_neg (hlv s (List.mem_range.mp hs))])]
  rw [← hklen, map_getD_range]

theorem find?_unique {α : Type} {p : α → Bool} :
    ∀ {l : List α} {s : α}, s ∈ l → p s = true → (∀ x ∈ l, x ≠ s → p x = false) →
      l.find? p = some s := by
  intro l
  induction l with
  | nil => intro s hmem; cases hmem
  | cons a l ih =>
      intro s hmem hp hfr
      rw [List.find?_cons]
      by_cases ha : a = s
      · subst ha
        rw [hp]
      · rw [hfr a (List.mem_cons_self a l) ha]
        rcases List.mem_cons.mp hmem with rfl | hmem2
        · exact absurd rfl ha
        · exact ih hmem2 hp fun x hx => hfr x (List.mem_cons_of_mem _ hx)

theorem insertAt_length {α : Type} :
    ∀ (n : Nat) (a : α) (l : List α), (insertAt n a l).length = l.length + 1
  | 0, a, l => rfl
  | n + 1, a, [] => rfl
  | n + 1, a, x :: xs => by
      rw [insertAt, List.length_cons, List.length_cons, insertAt_length n a xs]

theorem leavesOfList_append :
    ∀ (l1 l2 : List VNode), leavesOfList (l1 ++ l2) = leavesOfList l1 ++ leavesOfList l2
  | [], l2 => rfl
  | c :: cs, l2 => by
      rw [List.cons_append, leavesOfList, leavesOfList, leavesOfList_append cs l2,
        List.append_assoc]

theorem getLeafP_out {ps : PState} {id : Nat} (h : ps.heap.length ≤ id) :
    getLeafP ps id = emptyLeaf := by
  rw [getLeafP, List.getD_eq_getElem?_getD, List.getElem?_eq_none_iff.mpr h]
  rfl

theorem allocLeaf_spec (ps : PState) :
    (∃ nid, ps.prealloc.getLast? = some nid ∧
      allocLeaf ps = (nid, { ps with prealloc := ps.prealloc.dropLast })) ∨
    (ps.prealloc.getLast? = none ∧
      allocLeaf ps = (ps.heap.length,
        { heap := ps.heap ++ [emptyLeaf], head := ps.heap.length :: ps.head,
          prealloc := ps.prealloc })) := by
  cases hl : ps.prealloc.getLast? with
  | some nid =>
      left
      exact ⟨nid, rfl, by rw [allocLeaf, hl]⟩
  | none =>
      right
      exact ⟨rfl, by rw [allocLeaf, hl]⟩

theorem deadLeaf_slotLive {ps : PState} {id : Nat} (hd : deadLeaf ps id = true)
    {s : Nat} (hs : s < LEAF_KEYS) :
    slotLive ((getLeafP ps id).slots.getD s none) = false :=
  deadLeaf_iff.mp hd s hs

theorem dropLast_getLast_nodup {l : List Nat} {x : Nat} (hnd : l.Nodup)
    (hx : l.getLast? = some x) : x ∉ l.dropLast := by
  intro hmem
  have hne : l ≠ [] := by
    intro hnil
    rw [hnil] at hx
    cases hx
  have hsplit : l.dropLast ++ [x] = l := by
    have hc := List.dropLast_concat_getLast hne
    rw [List.getLast?_eq_getLast l hne] at hx
    injection hx with he
    rw [← he]
    exact hc
  have hnd2 : (l.dropLast ++ [x]).Nodup := by
    rw [hsplit]
    exact hnd
  rw [List.nodup_append] at hnd2
  exact hnd2.2.2 hmem (List.mem_singleton_self x)

/-! ## The `put` postcondition -/

/-- The leaves produced by one `putRec` call: the rebuilt subtree's leaves
followed by the new sibling's leaves when a split propagates. -/
def sideLeaves (t : VNode) (sp : Option (Str × VNode)) : List VNode :=
  match sp with
  | none => leavesOf t
  | some (_, nn) => leavesOf t ++ leavesOf nn

/-- Postcondition of `putRec` over the result `(ps', t', sp)`: window
well-formedness of the rebuilt pieces (a propagated split key sits
strictly below the upper window bound), presence of the new mapping in a
result leaf together with its persistent payload, agreement and Pearson
integrity of every result leaf, and leaf-id/pool bookkeeping. -/
def putPost (key value : Str) (ps : PState) (t : VNode)
    (lo hi : Option Str) (res : PState × VNode × Option (Str × VNode)) : Prop :=
  (match res.2.2 with
   | none => wfW lo hi res.2.1 = true
   | some (sk, nn) =>
       wfW lo (some sk) res.2.1 = true ∧ wfW (some sk) hi nn = true ∧
       loOk lo sk = true ∧ hiOk hi sk = true ∧
       (∀ b, hi = some b → strLt sk b = true)) ∧
  (∃ h2 k2 pid2 s2, VNode.leaf h2 k2 pid2 ∈ sideLeaves res.2.1 res.2.2 ∧
    s2 < LEAF_KEYS ∧ h2.getD s2 0 = PearsonHash key ∧ k2.getD s2 [] = key ∧
    (getLeafP res.1 pid2).slots.getD s2 none =
      some (KVSlot.set (PearsonHash key) key value)) ∧
  (∀ L ∈ sideLeaves res.2.1 res.2.2,
    leafAgreeB res.1 L = true ∧
    leafIntegOk (VNode.getHashes L) (VNode.getKeys L) = true) ∧
  (∀ id ∈ ps.head, id ∈ res.1.head) ∧
  ps.heap.length ≤ res.1.heap.length ∧
  (((sideLeaves res.2.1 res.2.2).map VNode.getPleaf = leafPids t ∧
      (∀ id, id ∉ leafPids t → getLeafP res.1 id = getLeafP ps id)) ∨
    (∃ nid l1 l2, leafPids t = l1 ++ l2 ∧
      (sideLeaves res.2.1 res.2.2).map VNode.getPleaf = l1 ++ nid :: l2 ∧
      (∀ id, id ∉ leafPids t → id ≠ nid → getLeafP res.1 id = getLeafP ps id) ∧
      (nid = ps.heap.length ∨ nid ∈ ps.prealloc)))

/-- The child lists produced by one `putRecChild` call, with a propagated
split already inserted at the position the parent will use. -/
def childLeaves (rs : List Str) (cs2 : List VNode) (sp : Option (Str × VNode)) :
    List VNode :=
  match sp with
  | none => leavesOfList cs2
  | some (sk, nn) => leavesOfList (insertAt (insPos sk rs + 1) nn cs2)

/-- Postcondition of `putRecChild`, phrased against the routing keys `rs`
of the enclosing inner node. -/
def putChildPost (key value : Str) (ps : PState) (cs : List VNode) (rs : List Str)
    (lo hi : Option Str) (res : PState × List VNode × Option (Str × VNode)) : Prop :=
  (match res.2.2 with
   | none => chainW lo hi rs res.2.1 = true
   | some (sk, nn) =>
       chainW lo hi (insertAt (insPos sk rs) sk rs)
         (insertAt (insPos sk rs + 1) nn res.2.1) = true) ∧
  (∃ h2 k2 pid2 s2, VNode.leaf h2 k2 pid2 ∈ childLeaves rs res.2.1 res.2.2 ∧
    s2 < LEAF_KEYS ∧ h2.getD s2 0 = PearsonHash key ∧ k2.getD s2 [] = key ∧
    (getLeafP res.1 pid2).slots.getD s2 none =
      some (KVSlot.set (PearsonHash key) key value)) ∧
  (∀ L ∈ childLeaves rs res.2.1 res.2.2,
    leafAgreeB res.1 L = true ∧
    leafIntegOk (VNode.getHashes L) (VNode.getKeys L) = true) ∧
  (∀ id ∈ ps.head, id ∈ res.1.head) ∧
  ps.heap.length ≤ res.1.heap.length ∧
  (((childLeaves rs res.2.1 res.2.2).map VNode.getPleaf =
        (leavesOfList cs).map VNode.getPleaf ∧
      (∀ id, id ∉ (leavesOfList cs).map VNode.getPleaf →
        getLeafP res.1 id = getLeafP ps id)) ∨
    (∃ nid l1 l2, (leavesOfList cs).map VNode.getPleaf = l1 ++ l2 ∧
      (childLeaves rs res.2.1 res.2.2).map VNode.getPleaf = l1 ++ nid :: l2 ∧
      (∀ id, id ∉ (leavesOfList cs).map VNode.getPleaf → id ≠ nid →
        getLeafP res.1 id = getLeafP ps id) ∧
      (nid = ps.heap.length ∨ nid ∈ ps.prealloc)))

theorem getLeafP_slots_length {ps : PState} (hps : psOkB ps = true) {pid : Nat}
    (hpid : pid < ps.heap.length) : (getLeafP ps pid).slots.length = LEAF_KEYS := by
  have hall := (psOkB_iff.mp hps).1
  have he : getLeafP ps pid = ps.heap[pid] := by
    rw [getLeafP, List.getD_eq_getElem?_getD, List.getElem?_eq_getElem hpid]
    rfl
  rw [he]
  exact hall _ (List.getElem_mem hpid)

theorem putRec_leaf_found {hash : Nat} {key value : Str} {ps : PState}
    {h : List Nat} {k : List Str} {pid s : Nat} {o2 : Option Nat}
    (hscan : scanSlots h k hash key = (some s, o2)) :
    putRec hash key value ps (VNode.leaf h k pid) =
      (setLeafSlots ps pid
        ((getLeafP ps pid).slots.set s (some (KVSlot.set hash key value))),
       VNode.leaf (h.set s hash) (k.set s key) pid, none) := by
  rw [putRec, hscan]
  rfl

theorem putRec_leaf_empty {hash : Nat} {key value : Str} {ps : PState}
    {h : List Nat} {k : List Str} {pid s : Nat}
    (hscan : scanSlots h k hash key = (none, some s)) :
    putRec hash key value ps (VNode.leaf h k pid) =
      (setLeafSlots ps pid
        ((getLeafP ps pid).slots.set s (some (KVSlot.set hash key value))),
       VNode.leaf (h.set s hash) (k.set s key) pid, none) := by
  rw [putRec, hscan]
  rfl

theorem putRec_leaf_split {hash : Nat} {key value : Str} {ps : PState}
    {h : List Nat} {k : List Str} {pid : Nat}
    (hscan : scanSlots h k hash key = (none, none)) :
    putRec hash key value ps (VNode.leaf h k pid) =
      ((splitLeaf ps h k pid hash key value).1,
       (splitLeaf ps h k pid hash key value).2.1,
       some ((splitLeaf ps h k pid hash key value).2.2.1,
         (splitLeaf ps h k pid hash key value).2.2.2)) := by
  rw [putRec, hscan]

theorem putPost_overwrite {key value : Str} (hk32 : key.length < 4294967296)
    {ps : PState} {h : List Nat} {k : List Str} {pid s : Nat} {o2 : Option Nat}
    {lo hi : Option Str}
    (hw : wfW lo hi (VNode.leaf h k pid) = true)
    (hagree : leafAgreeB ps (VNode.leaf h k pid) = true)
    (hinteg : leafIntegOk h k = true)
    (hps : psOkB ps = true)
    (hscan : scanSlots h k (PearsonHash key) key = (some s, o2)) :
    putPost key value ps (VNode.leaf h k pid) lo hi
      (putRec (PearsonHash key) key value ps (VNode.leaf h k pid)) := by
  obtain ⟨hslt, hsh, hsk⟩ := scanSlots_found (s := s) (by rw [hscan])
  rw [leafAgreeB_iff] at hagree
  obtain ⟨hpidlt, hpidhead, hslots⟩ := hagree
  have hsetH : h.set s (PearsonHash key) = h := set_getD_eq hsh
  have hsetK : k.set s key = k := set_getD_eq hsk
  have hlen : (getLeafP ps pid).slots.length = LEAF_KEYS := getLeafP_slots_length hps hpidlt
  rw [putRec_leaf_found hscan, hsetH, hsetK, putPost]
  have hpayload : (getLeafP (setLeafSlots ps pid ((getLeafP ps pid).slots.set s
      (some (KVSlot.set (PearsonHash key) key value)))) pid).slots.getD s none =
      some (KVSlot.set (PearsonHash key) key value) := by
    rw [getLeafP_setLeafSlots_self _ _ _ hpidlt]
    exact getD_set_self _ _ _ _ (by rw [hlen]; exact hslt)
  refine ⟨hw, ⟨h, k, pid, s, List.mem_singleton_self _, hslt, hsh, hsk, hpayload⟩,
    ?_, ?_, ?_, Or.inl ⟨rfl, ?_⟩⟩
  · intro L hL
    rw [sideLeaves, leavesOf, List.mem_singleton] at hL
    subst hL
    constructor
    · rw [leafAgreeB_iff]
      refine ⟨by rw [setLeafSlots_heap_length]; exact hpidlt,
        by rw [setLeafSlots_head]; exact hpidhead, ?_⟩
      intro slot hslot
      by_cases hss : slot = s
      · subst hss
        exact slotAgree_payload hk32 (PearsonHash_lt key) (PearsonHash_ne_zero key)
          hpayload hsh hsk
      · have hp : (getLeafP (setLeafSlots ps pid ((getLeafP ps pid).slots.set s
            (some (KVSlot.set (PearsonHash key) key value)))) pid).slots.getD slot none =
            (getLeafP ps pid).slots.getD slot none := by
          rw [getLeafP_setLeafSlots_self _ _ _ hpidlt]
          exact getD_set_ne _ _ _ _ _ (fun he => hss he.symm)
        rw [slotAgree_congr hp rfl rfl]
        exact hslots slot hslot
    · exact hinteg
  · intro id hid
    rw [setLeafSlots_head]
    exact hid
  · rw [setLeafSlots_heap_length]
  · intro id hid
    have hne : pid ≠ id := by
      intro he
      exact hid (by rw [leafPids, leavesOf, ← he]; exact List.mem_singleton_self _)
    exact getLeafP_setLeafSlots_ne _ _ _ _ hne

/-- A key absent from the scan is absent from the live mirror (via Pearson
integrity of the mirror). -/
theorem key_not_live_of_scan_miss {key : Str} {h : List Nat} {k : List Str}
    (hinteg : leafIntegOk h k = true)
    (hmiss : (scanSlots h k (PearsonHash key) key).1 = none) :
    key ∉ liveKeysLeaf h k := by
  intro hmem
  rcases mem_liveKeysLeaf.mp hmem with ⟨slot, hslot, hlv, hkey⟩
  have hph : h.getD slot 0 = PearsonHash key := by
    rw [leafIntegOk_iff] at hinteg
    rw [hinteg slot hslot hlv, hkey]
  exact scanSlotsAux_match_none descRange none hmiss slot (mem_descRange.mpr hslot)
    ⟨hlv, hph, hkey⟩

theorem putPost_fill {key value : Str} (hk32 : key.length < 4294967296)
    {ps : PState} {h : List Nat} {k : List Str} {pid s : Nat}
    {lo hi : Option Str}
    (hw : wfW lo hi (VNode.leaf h k pid) = true)
    (hkwin : inWin lo hi key = true)
    (hagree : leafAgreeB ps (VNode.leaf h k pid) = true)
    (hinteg : leafIntegOk h k = true)
    (hps : psOkB ps = true)
    (hscan : scanSlots h k (PearsonHash key) key = (none, some s)) :
    putPost key value ps (VNode.leaf h k pid) lo hi
      (putRec (PearsonHash key) key value ps (VNode.leaf h k pid)) := by
  obtain ⟨hslt, hsz⟩ := scanSlots_empty (s := s) (by rw [hscan])
  rw [leafAgreeB_iff] at hagree
  obtain ⟨hpidlt, hpidhead, hslots⟩ := hagree
  rw [wfW, leafWinOk_iff] at hw
  obtain ⟨hhlen, hklen, hnd, hwin⟩ := hw
  have hlen : (getLeafP ps pid).slots.length = LEAF_KEYS := getLeafP_slots_length hps hpidlt
  have hnotlive : key ∉ liveKeysLeaf h k :=
    key_not_live_of_scan_miss hinteg (by rw [hscan])
  rw [putRec_leaf_empty hscan, putPost]
  have hpayload : (getLeafP (setLeafSlots ps pid ((getLeafP ps pid).slots.set s
      (some (KVSlot.set (PearsonHash key) key value)))) pid).slots.getD s none =
      some (KVSlot.set (PearsonHash key) key value) := by
    rw [getLeafP_setLeafSlots_self _ _ _ hpidlt]
    exact getD_set_self _ _ _ _ (by rw [hlen]; exact hslt)
  have hgh : (h.set s (PearsonHash key)).getD s 0 = PearsonHash key :=
    getD_set_self _ _ _ _ (by rw [hhlen]; exact hslt)
  have hgk : (k.set s key).getD s [] = key :=
    getD_set_self _ _ _ _ (by rw [hklen]; exact hslt)
  refine ⟨?_, ⟨h.set s (PearsonHash key), k.set s key, pid, s,
      List.mem_singleton_self _, hslt, hgh, hgk, hpayload⟩,
    ?_, ?_, ?_, Or.inl ⟨rfl, ?_⟩⟩
  · -- window well-formedness of the filled leaf
    show wfW lo hi (VNode.leaf (h.set s (PearsonHash key)) (k.set s key) pid) = true
    rw [wfW, leafWinOk_iff]
    refine ⟨by rw [List.length_set]; exact hhlen, by rw [List.length_set]; exact hklen,
      ?_, ?_⟩
    · have hperm := liveKeysLeaf_fill_perm h k s (PearsonHash key) key hhlen hklen hslt
        hsz (PearsonHash_ne_zero key)
      rw [hperm.nodup_iff]
      rw [List.nodup_cons]
      exact ⟨hnotlive, hnd⟩
    · intro slot hslot hlv
      by_cases hss : slot = s
      · subst hss
        rw [hgk]
        exact hkwin
      · rw [getD_set_ne _ _ _ _ _ (fun he => hss he.symm)] at hlv ⊢
        exact hwin slot hslot hlv
  · intro L hL
    rw [sideLeaves, leavesOf, List.mem_singleton] at hL
    subst hL
    constructor
    · rw [leafAgreeB_iff]
      refine ⟨by rw [setLeafSlots_heap_length]; exact hpidlt,
        by rw [setLeafSlots_head]; exact hpidhead, ?_⟩
      intro slot hslot
      by_cases hss : slot = s
      · subst hss
        exact slotAgree_payload hk32 (PearsonHash_lt key) (PearsonHash_ne_zero key)
          hpayload hgh hgk
      · have hp : (getLeafP (setLeafSlots ps pid ((getLeafP ps pid).slots.set s
            (some (KVSlot.set (PearsonHash key) key value)))) pid).slots.getD slot none =
            (getLeafP ps pid).slots.getD slot none := by
          rw [getLeafP_setLeafSlots_self _ _ _ hpidlt]
          exact getD_set_ne _ _ _ _ _ (fun he => hss he.symm)
        rw [slotAgree_congr hp (getD_set_ne _ _ _ _ _ (fun he => hss he.symm))
          (getD_set_ne _ _ _ _ _ (fun he => hss he.symm))]
        exact hslots slot hslot
    · show leafIntegOk (h.set s (PearsonHash key)) (k.set s key) = true
      rw [leafIntegOk_iff]
      intro slot hslot hlv
      by_cases hss : slot = s
      · subst hss
        rw [hgh, hgk]
      · rw [getD_set_ne _ _ _ _ _ (fun he => hss he.symm)] at hlv ⊢
        rw [getD_set_ne _ _ _ _ _ (fun he => hss he.symm)]
        exact (leafIntegOk_iff.mp hinteg) slot hslot hlv
  · intro id hid
    rw [setLeafSlots_head]
    exact hid
  · rw [setLeafSlots_heap_length]
  · intro id hid
    have hne : pid ≠ id := by
      intro he
      exact hid (by rw [leafPids, leavesOf, ← he]; exact List.mem_singleton_self _)
    exact getLeafP_setLeafSlots_ne _ _ _ _ hne

/-! ## Split building blocks: windows and integrity of the migrated arrays -/

theorem migOrigSlots_getD (sk : Str) (keys : List Str)
    (oslots nslots : List (Option Payload)) {slot : Nat} (h : slot < LEAF_KEYS) :
    (migOrigSlots sk keys oslots nslots).getD slot none =
      if strGt (keys.getD slot []) sk then nslots.getD slot none
      else oslots.getD slot none := by
  rw [migOrigSlots, getD_range_map _ _ _ _ h]

theorem migNewSlots_getD (sk : Str) (keys : List Str)
    (oslots nslots : List (Option Payload)) {slot : Nat} (h : slot < LEAF_KEYS) :
    (migNewSlots sk keys oslots nslots).getD slot none =
      if strGt (keys.getD slot []) sk then oslots.getD slot none
      else nslots.getD slot none := by
  rw [migNewSlots, getD_range_map _ _ _ _ h]

theorem leafWinOk_set_fill {lo hi : Option Str} {h : List Nat} {k : List Str}
    {fslot nh : Nat} {nk : Str}
    (hwin : leafWinOk lo hi h k = true) (hfz : h.getD fslot 0 = 0)
    (hflt : fslot < LEAF_KEYS) (hnk : inWin lo hi nk = true)
    (hnotlive : nk ∉ liveKeysLeaf h k) (hnh : nh ≠ 0) :
    leafWinOk lo hi (h.set fslot nh) (k.set fslot nk) = true := by
  rw [leafWinOk_iff] at hwin ⊢
  obtain ⟨hhlen, hklen, hnd, hw⟩ := hwin
  refine ⟨by rw [List.length_set]; exact hhlen, by rw [List.length_set]; exact hklen,
    ?_, ?_⟩
  · have hperm := liveKeysLeaf_fill_perm h k fslot nh nk hhlen hklen hflt hfz hnh
    rw [hperm.nodup_iff, List.nodup_cons]
    exact ⟨hnotlive, hnd⟩
  · intro slot hslot hlv
    by_cases hss : slot = fslot
    · subst hss
      rw [getD_set_self _ _ _ _ (by rw [hklen]; exact hslot)]
      exact hnk
    · rw [getD_set_ne _ _ _ _ _ (fun he => hss he.symm)] at hlv ⊢
      exact hw slot hslot hlv

theorem leafIntegOk_set_fill {h : List Nat} {k : List Str} {fslot : Nat} {nk : Str}
    (hinteg : leafIntegOk h k = true) (hflt : fslot < LEAF_KEYS)
    (hhlen : h.length = LEAF_KEYS) (hklen : k.length = LEAF_KEYS) :
    leafIntegOk (h.set fslot (PearsonHash nk)) (k.set fslot nk) = true := by
  rw [leafIntegOk_iff] at hinteg ⊢
  intro slot hslot hlv
  by_cases hss : slot = fslot
  · subst hss
    rw [getD_set_self _ _ _ _ (by rw [hhlen]; exact hslot),
      getD_set_self _ _ _ _ (by rw [hklen]; exact hslot)]
  · rw [getD_set_ne _ _ _ _ _ (fun he => hss he.symm)] at hlv ⊢
    rw [getD_set_ne _ _ _ _ _ (fun he => hss he.symm)]
    exact hinteg slot hslot hlv

theorem leafIntegOk_migOrig {sk : Str} {h : List Nat} {k : List Str}
    (hinteg : leafIntegOk h k = true) :
    leafIntegOk (migOrigHashes sk h k) (migOrigKeys sk k) = true := by
  rw [leafIntegOk_iff] at hinteg ⊢
  intro slot hslot hlv
  rw [migOrigHashes_getD sk h k hslot] at hlv ⊢
  rw [migOrigKeys_getD sk k hslot]
  by_cases hgs : strGt (k.getD slot []) sk = true
  · rw [if_pos hgs] at hlv
    exact absurd rfl hlv
  · rw [if_neg hgs] at hlv ⊢
    rw [if_neg hgs]
    exact hinteg slot hslot hlv

theorem leafIntegOk_migNew {sk : Str} {h : List Nat} {k : List Str}
    (hinteg : leafIntegOk h k = true) :
    leafIntegOk (migNewHashes sk h k) (migNewKeys sk k) = true := by
  rw [leafIntegOk_iff] at hinteg ⊢
  intro slot hslot hlv
  rw [migNewHashes_getD sk h k hslot] at hlv ⊢
  rw [migNewKeys_getD sk k hslot]
  by_cases hgs : strGt (k.getD slot []) sk = true
  · rw [if_pos hgs] at hlv ⊢
    rw [if_pos hgs]
    exact hinteg slot hslot hlv
  · rw [if_neg hgs] at hlv
    exact absurd rfl hlv

theorem leafWinOk_migOrig {lo hi : Option Str} {sk : Str} {h : List Nat} {k : List Str}
    (hhlen : h.length = LEAF_KEYS) (hklen : k.length = LEAF_KEYS)
    (hfull : ∀ s, s < LEAF_KEYS → h.getD s 0 ≠ 0) (hnd : k.Nodup)
    (hwin : ∀ s, s < LEAF_KEYS → h.getD s 0 ≠ 0 → inWin lo hi (k.getD s []) = true) :
    leafWinOk lo (some sk) (migOrigHashes sk h k) (migOrigKeys sk k) = true := by
  rw [leafWinOk_iff]
  refine ⟨migOrigHashes_length sk h k, migOrigKeys_length sk k, ?_, ?_⟩
  · rw [liveKeysLeaf_migOrig sk h k hklen hfull]
    exact hnd.filter _
  · intro slot hslot hlv
    rw [migOrigHashes_getD sk h k hslot] at hlv
    rw [migOrigKeys_getD sk k hslot]
    by_cases hgs : strGt (k.getD slot []) sk = true
    · rw [if_pos hgs] at hlv
      exact absurd rfl hlv
    · rw [if_neg hgs] at hlv
      rw [if_neg hgs, inWin_iff]
      have hw := inWin_iff.mp (hwin slot hslot hlv)
      refine ⟨hw.1, ?_⟩
      show strLe (k.getD slot []) sk = true
      rw [Bool.not_eq_true] at hgs
      exact strGt_eq_false_iff.mp hgs

theorem leafWinOk_migNew {lo hi : Option Str} {sk : Str} {h : List Nat} {k : List Str}
    (hhlen : h.length = LEAF_KEYS) (hklen : k.length = LEAF_KEYS)
    (hfull : ∀ s, s < LEAF_KEYS → h.getD s 0 ≠ 0) (hnd : k.Nodup)
    (hwin : ∀ s, s < LEAF_KEYS → h.getD s 0 ≠ 0 → inWin lo hi (k.getD s []) = true) :
    leafWinOk (some sk) hi (migNewHashes sk h k) (migNewKeys sk k) = true := by
  rw [leafWinOk_iff]
  refine ⟨migNewHashes_length sk h k, migNewKeys_length sk k, ?_, ?_⟩
  · rw [liveKeysLeaf_migNew sk h k hklen hfull]
    exact hnd.filter _
  · intro slot hslot hlv
    rw [migNewHashes_getD sk h k hslot] at hlv
    rw [migNewKeys_getD sk k hslot]
    by_cases hgs : strGt (k.getD slot []) sk = true
    · rw [if_pos hgs, inWin_iff]
      have hw := inWin_iff.mp (hwin slot hslot (by rw [if_pos hgs] at hlv; exact hlv))
      refine ⟨?_, hw.2⟩
      show strLt sk (k.getD slot []) = true
      rw [← strGt_iff_lt]
      exact hgs
    · rw [if_neg hgs] at hlv
      exact absurd rfl hlv

/-- The facts `LeafSplitFull` needs about the freshly attached leaf: its
persistent slots are dead and full-length, its id is linked, valid, and
comes either from the end of the heap or from the preallocated pool, and
no other leaf moved. -/
theorem allocLeaf_facts {ps : PState} (hps : psOkB ps = true) :
    (∀ s, s < LEAF_KEYS →
      slotLive ((getLeafP (allocLeaf ps).2 (allocLeaf ps).1).slots.getD s none) = false) ∧
    (allocLeaf ps).1 ∈ (allocLeaf ps).2.head ∧
    (∀ id ∈ ps.head, id ∈ (allocLeaf ps).2.head) ∧
    ps.heap.length ≤ (allocLeaf ps).2.heap.length ∧
    (∀ id, id ≠ (allocLeaf ps).1 → getLeafP (allocLeaf ps).2 id = getLeafP ps id) ∧
    ((allocLeaf ps).1 = ps.heap.length ∨ (allocLeaf ps).1 ∈ ps.prealloc) ∧
    (getLeafP (allocLeaf ps).2 (allocLeaf ps).1).slots.length = LEAF_KEYS := by
  obtain ⟨hheaplen, hheadnd, hheadlt, hprend, hpreok⟩ := psOkB_iff.mp hps
  rcases allocLeaf_spec ps with ⟨nid0, hlast, heq⟩ | ⟨hlast, heq⟩
  · have hnid0 : nid0 ∈ ps.prealloc := List.mem_of_getLast?_eq_some hlast
    obtain ⟨hnhead, hnlt, hndead⟩ := hpreok nid0 hnid0
    have h1 : (allocLeaf ps).1 = nid0 := by rw [heq]
    have hheap2 : (allocLeaf ps).2.heap = ps.heap := by rw [heq]
    have hhead2 : (allocLeaf ps).2.head = ps.head := by rw [heq]
    have hsame : ∀ id, getLeafP (allocLeaf ps).2 id = getLeafP ps id := by
      intro id
      rw [getLeafP, getLeafP, hheap2]
    refine ⟨?_, ?_, ?_, ?_, fun id _ => hsame id, Or.inr (h1 ▸ hnid0), ?_⟩
    · intro s hs
      rw [hsame, h1]
      exact deadLeaf_slotLive hndead hs
    · rw [hhead2, h1]
      exact hnhead
    · intro id hid
      rw [hhead2]
      exact hid
    · rw [hheap2]
    · rw [hsame, h1]
      exact getLeafP_slots_length hps hnlt
  · have hfresh := allocLeaf_getLeaf_fresh ps hlast
    have h1 : (allocLeaf ps).1 = ps.heap.length := by rw [heq]
    have hheap2 : (allocLeaf ps).2.heap = ps.heap ++ [emptyLeaf] := by rw [heq]
    have hhead2 : (allocLeaf ps).2.head = ps.heap.length :: ps.head := by rw [heq]
    have hlen2 : (allocLeaf ps).2.heap.length = ps.heap.length + 1 := by
      rw [hheap2]
      simp
    refine ⟨?_, ?_, ?_, ?_, ?_, Or.inl h1, ?_⟩
    · intro s hs
      rw [hfresh]
      show slotLive ((List.replicate LEAF_KEYS (none : Option Payload)).getD s none) = false
      rw [List.getD_eq_getElem?_getD, List.getElem?_replicate]
      simp only [hs, if_pos]
      rfl
    · rw [hhead2, h1]
      exact List.mem_cons_self _ _
    · intro id hid
      rw [hhead2]
      exact List.mem_cons_of_mem _ hid
    · rw [hlen2]
      omega
    · intro id hid
      rw [h1] at hid
      rcases Nat.lt_or_ge id ps.heap.length with hlt | hge
      · rw [getLeafP, getLeafP, hheap2]
        rw [List.getD_eq_getElem?_getD, List.getElem?_append_left hlt,
          ← List.getD_eq_getElem?_getD]
      · have hgt : ps.heap.length < id := Nat.lt_of_le_of_ne hge (fun he => hid he.symm)
        rw [getLeafP_out (by rw [hlen2]; omega), getLeafP_out (Nat.le_of_lt hgt)]
    · rw [hfresh]
      show (List.replicate LEAF_KEYS (none : Option Payload)).length = LEAF_KEYS
      rw [List.length_replicate]

theorem putPost_split {key value : Str} (hk32 : key.length < 4294967296)
    {ps : PState} {h : List Nat} {k : List Str} {pid : Nat}
    {lo hi : Option Str}
    (hw : wfW lo hi (VNode.leaf h k pid) = true)
    (hkwin : inWin lo hi key = true)
    (hagree : leafAgreeB ps (VNode.leaf h k pid) = true)
    (hinteg : leafIntegOk h k = true)
    (hps : psOkB ps = true)
    (hpidpre : pid ∉ ps.prealloc)
    (hscan : scanSlots h k (PearsonHash key) key = (none, none)) :
    putPost key value ps (VNode.leaf h k pid) lo hi
      (putRec (PearsonHash key) key value ps (VNode.leaf h k pid)) := by
  have hfull : ∀ s, s < LEAF_KEYS → h.getD s 0 ≠ 0 := scanSlots_full hscan
  rw [leafAgreeB_iff] at hagree
  obtain ⟨hpidlt, hpidhead, hslots⟩ := hagree
  rw [wfW, leafWinOk_iff] at hw
  obtain ⟨hhlen, hklen, hndlive, hwin⟩ := hw
  have hlive_eq : liveKeysLeaf h k = k := liveKeysLeaf_all_live hfull hklen
  have hnd : k.Nodup := by rw [← hlive_eq]; exact hndlive
  have hnew : key ∉ k := by
    rw [← hlive_eq]
    exact key_not_live_of_scan_miss hinteg (by rw [hscan])
  have hallin : ∀ x ∈ all49 k key, inWin lo hi x = true := by
    intro x hx
    rw [all49] at hx
    rcases List.mem_append.mp hx with hx | hx
    · rw [← hlive_eq] at hx
      rcases mem_liveKeysLeaf.mp hx with ⟨slot, hslot, hlv, hkey⟩
      rw [← hkey]
      exact hwin slot hslot hlv
    · rw [List.mem_singleton] at hx
      rw [hx]
      exact hkwin
  have hnodupAll : (all49 k key).Nodup := all49_nodup hnd hnew
  have hprevalid : ∀ id ∈ ps.prealloc, id < ps.heap.length := by
    obtain ⟨_, _, _, _, c⟩ := psOkB_iff.mp hps
    exact fun id hid => (c id hid).2.1
  obtain ⟨hniddead, hnidmem, hheadmono, hheaple, hallocframe, hnidorigin, hnidslen⟩ :=
    allocLeaf_facts hps
  have hnidlt : (allocLeaf ps).1 < (allocLeaf ps).2.heap.length := allocLeaf_id_lt ps hprevalid
  have hpidlt1 : pid < (allocLeaf ps).2.heap.length :=
    Nat.lt_of_lt_of_le hpidlt (allocLeaf_heap_le ps)
  have hne : (allocLeaf ps).1 ≠ pid := allocLeaf_ne ps pid hpidlt hpidpre
  have hpidslots : (getLeafP (allocLeaf ps).2 pid).slots = (getLeafP ps pid).slots := by
    rw [hallocframe pid (fun he => hne he.symm)]
  have hskdef : (sortKeys (k ++ [key])).getD LEAF_KEYS_MIDPOINT [] = splitKeyOf k key := rfl
  have hcnt := split_count_cases k key hklen hnodupAll
  have hskin : inWin lo hi (splitKeyOf k key) = true :=
    hallin _ (splitKeyOf_mem k key hklen)
  have hstrict : ∀ b, hi = some b → strLt (splitKeyOf k key) b = true := by
    intro b hhi
    have hpos : 0 < (all49 k key).countP (fun x => strLt (splitKeyOf k key) x) := by
      rw [countP_gt_splitKey k key hklen hnodupAll]
      decide
    rcases List.countP_pos.mp hpos with ⟨w, hwmem, hwgt⟩
    have hwin2 := inWin_iff.mp (hallin w hwmem)
    have hwb : strLe w b = true := by
      have hx := hwin2.2
      rw [hhi] at hx
      exact hx
    exact strLt_of_lt_of_le hwgt hwb
  have hps2nid : getLeafP (setLeafSlots (setLeafSlots (allocLeaf ps).2 pid (migOrigSlots (splitKeyOf k key) k (getLeafP (allocLeaf ps).2 pid).slots (getLeafP (allocLeaf ps).2 (allocLeaf ps).1).slots)) (allocLeaf ps).1 (migNewSlots (splitKeyOf k key) k (getLeafP (allocLeaf ps).2 pid).slots (getLeafP (allocLeaf ps).2 (allocLeaf ps).1).slots)) (allocLeaf ps).1 = ⟨(migNewSlots (splitKeyOf k key) k (getLeafP (allocLeaf ps).2 pid).slots (getLeafP (allocLeaf ps).2 (allocLeaf ps).1).slots)⟩ :=
    getLeafP_setLeafSlots_self _ _ _
      (by rw [setLeafSlots_heap_length]; exact hnidlt)
  have hps2pid : getLeafP (setLeafSlots (setLeafSlots (allocLeaf ps).2 pid (migOrigSlots (splitKeyOf k key) k (getLeafP (allocLeaf ps).2 pid).slots (getLeafP (allocLeaf ps).2 (allocLeaf ps).1).slots)) (allocLeaf ps).1 (migNewSlots (splitKeyOf k key) k (getLeafP (allocLeaf ps).2 pid).slots (getLeafP (allocLeaf ps).2 (allocLeaf ps).1).slots)) pid = ⟨(migOrigSlots (splitKeyOf k key) k (getLeafP (allocLeaf ps).2 pid).slots (getLeafP (allocLeaf ps).2 (allocLeaf ps).1).slots)⟩ := by
    rw [getLeafP_setLeafSlots_ne _ _ _ _ hne]
    exact getLeafP_setLeafSlots_self _ _ _ hpidlt1
  have hps2frame : ∀ id, id ≠ pid → id ≠ (allocLeaf ps).1 →
      getLeafP (setLeafSlots (setLeafSlots (allocLeaf ps).2 pid (migOrigSlots (splitKeyOf k key) k (getLeafP (allocLeaf ps).2 pid).slots (getLeafP (allocLeaf ps).2 (allocLeaf ps).1).slots)) (allocLeaf ps).1 (migNewSlots (splitKeyOf k key) k (getLeafP (allocLeaf ps).2 pid).slots (getLeafP (allocLeaf ps).2 (allocLeaf ps).1).slots)) id = getLeafP ps id := by
    intro id hid1 hid2
    rw [getLeafP_setLeafSlots_ne _ _ _ _ (fun he => hid2 he.symm),
      getLeafP_setLeafSlots_ne _ _ _ _ (fun he => hid1 he.symm)]
    exact hallocframe id hid2
  have hps2head : ((setLeafSlots (setLeafSlots (allocLeaf ps).2 pid (migOrigSlots (splitKeyOf k key) k (getLeafP (allocLeaf ps).2 pid).slots (getLeafP (allocLeaf ps).2 (allocLeaf ps).1).slots)) (allocLeaf ps).1 (migNewSlots (splitKeyOf k key) k (getLeafP (allocLeaf ps).2 pid).slots (getLeafP (allocLeaf ps).2 (allocLeaf ps).1).slots))).head = (allocLeaf ps).2.head := by
    rw [setLeafSlots_head, setLeafSlots_head]
  have hps2heap : ((setLeafSlots (setLeafSlots (allocLeaf ps).2 pid (migOrigSlots (splitKeyOf k key) k (getLeafP (allocLeaf ps).2 pid).slots (getLeafP (allocLeaf ps).2 (allocLeaf ps).1).slots)) (allocLeaf ps).1 (migNewSlots (splitKeyOf k key) k (getLeafP (allocLeaf ps).2 pid).slots (getLeafP (allocLeaf ps).2 (allocLeaf ps).1).slots))).heap.length = (allocLeaf ps).2.heap.length := by
    rw [setLeafSlots_heap_length, setLeafSlots_heap_length]
  by_cases hgt : strGt key (splitKeyOf k key) = true
  · rw [if_pos hgt] at hcnt
    have hcnt2 : (k.countP fun x => strGt x (splitKeyOf k key)) < LEAF_KEYS := by
      rw [hcnt]
      decide
    rcases @migNew_has_empty (splitKeyOf k key) h k hklen hcnt2 with ⟨eslot, helt, hez⟩
    rcases @fillEmpty_found (migNewHashes (splitKeyOf k key) h k) (migNewKeys (splitKeyOf k key) k)
      (setLeafSlots (setLeafSlots (allocLeaf ps).2 pid (migOrigSlots (splitKeyOf k key) k (getLeafP (allocLeaf ps).2 pid).slots (getLeafP (allocLeaf ps).2 (allocLeaf ps).1).slots)) (allocLeaf ps).1 (migNewSlots (splitKeyOf k key) k (getLeafP (allocLeaf ps).2 pid).slots (getLeafP (allocLeaf ps).2 (allocLeaf ps).1).slots)) (allocLeaf ps).1 (PearsonHash key) key value ⟨eslot, helt, hez⟩
      with ⟨fslot, hflt, hfz, hfind, heq⟩
    have hr : splitLeaf ps h k pid (PearsonHash key) key value =
        ((setLeafSlots (setLeafSlots (setLeafSlots (allocLeaf ps).2 pid (migOrigSlots (splitKeyOf k key) k (getLeafP (allocLeaf ps).2 pid).slots (getLeafP (allocLeaf ps).2 (allocLeaf ps).1).slots)) (allocLeaf ps).1 (migNewSlots (splitKeyOf k key) k (getLeafP (allocLeaf ps).2 pid).slots (getLeafP (allocLeaf ps).2 (allocLeaf ps).1).slots)) (allocLeaf ps).1 ((getLeafP (setLeafSlots (setLeafSlots (allocLeaf ps).2 pid (migOrigSlots (splitKeyOf k key) k (getLeafP (allocLeaf ps).2 pid).slots (getLeafP (allocLeaf ps).2 (allocLeaf ps).1).slots)) (allocLeaf ps).1 (migNewSlots (splitKeyOf k key) k (getLeafP (allocLeaf ps).2 pid).slots (getLeafP (allocLeaf ps).2 (allocLeaf ps).1).slots)) (allocLeaf ps).1).slots.set fslot (some (KVSlot.set (PearsonHash key) key value)))),
         VNode.leaf (migOrigHashes (splitKeyOf k key) h k) (migOrigKeys (splitKeyOf k key) k) pid,
         splitKeyOf k key,
         VNode.leaf ((migNewHashes (splitKeyOf k key) h k).set fslot (PearsonHash key))
           ((migNewKeys (splitKeyOf k key) k).set fslot key) (allocLeaf ps).1) := by
      rw [splitLeaf, hskdef, if_pos hgt, heq]
      rfl
    rw [putRec_leaf_split hscan, hr, putPost]
    have hpsnid : getLeafP (setLeafSlots (setLeafSlots (setLeafSlots (allocLeaf ps).2 pid (migOrigSlots (splitKeyOf k key) k (getLeafP (allocLeaf ps).2 pid).slots (getLeafP (allocLeaf ps).2 (allocLeaf ps).1).slots)) (allocLeaf ps).1 (migNewSlots (splitKeyOf k key) k (getLeafP (allocLeaf ps).2 pid).slots (getLeafP (allocLeaf ps).2 (allocLeaf ps).1).slots)) (allocLeaf ps).1 ((getLeafP (setLeafSlots (setLeafSlots (allocLeaf ps).2 pid (migOrigSlots (splitKeyOf k key) k (getLeafP (allocLeaf ps).2 pid).slots (getLeafP (allocLeaf ps).2 (allocLeaf ps).1).slots)) (allocLeaf ps).1 (migNewSlots (splitKeyOf k key) k (getLeafP (allocLeaf ps).2 pid).slots (getLeafP (allocLeaf ps).2 (allocLeaf ps).1).slots)) (allocLeaf ps).1).slots.set fslot (some (KVSlot.set (PearsonHash key) key value)))) (allocLeaf ps).1 =
        ⟨(migNewSlots (splitKeyOf k key) k (getLeafP (allocLeaf ps).2 pid).slots (getLeafP (allocLeaf ps).2 (allocLeaf ps).1).slots).set fslot (some (KVSlot.set (PearsonHash key) key value))⟩ := by
      rw [hps2nid]
      exact getLeafP_setLeafSlots_self _ _ _ (by rw [hps2heap]; exact hnidlt)
    have hpspid : getLeafP (setLeafSlots (setLeafSlots (setLeafSlots (allocLeaf ps).2 pid (migOrigSlots (splitKeyOf k key) k (getLeafP (allocLeaf ps).2 pid).slots (getLeafP (allocLeaf ps).2 (allocLeaf ps).1).slots)) (allocLeaf ps).1 (migNewSlots (splitKeyOf k key) k (getLeafP (allocLeaf ps).2 pid).slots (getLeafP (allocLeaf ps).2 (allocLeaf ps).1).slots)) (allocLeaf ps).1 ((getLeafP (setLeafSlots (setLeafSlots (allocLeaf ps).2 pid (migOrigSlots (splitKeyOf k key) k (getLeafP (allocLeaf ps).2 pid).slots (getLeafP (allocLeaf ps).2 (allocLeaf ps).1).slots)) (allocLeaf ps).1 (migNewSlots (splitKeyOf k key) k (getLeafP (allocLeaf ps).2 pid).slots (getLeafP (allocLeaf ps).2 (allocLeaf ps).1).slots)) (allocLeaf ps).1).slots.set fslot (some (KVSlot.set (PearsonHash key) key value)))) pid = ⟨(migOrigSlots (splitKeyOf k key) k (getLeafP (allocLeaf ps).2 pid).slots (getLeafP (allocLeaf ps).2 (allocLeaf ps).1).slots)⟩ := by
      rw [getLeafP_setLeafSlots_ne _ _ _ _ hne]
      exact hps2pid
    have hpayload : (getLeafP (setLeafSlots (setLeafSlots (setLeafSlots (allocLeaf ps).2 pid (migOrigSlots (splitKeyOf k key) k (getLeafP (allocLeaf ps).2 pid).slots (getLeafP (allocLeaf ps).2 (allocLeaf ps).1).slots)) (allocLeaf ps).1 (migNewSlots (splitKeyOf k key) k (getLeafP (allocLeaf ps).2 pid).slots (getLeafP (allocLeaf ps).2 (allocLeaf ps).1).slots)) (allocLeaf ps).1 ((getLeafP (setLeafSlots (setLeafSlots (allocLeaf ps).2 pid (migOrigSlots (splitKeyOf k key) k (getLeafP (allocLeaf ps).2 pid).slots (getLeafP (allocLeaf ps).2 (allocLeaf ps).1).slots)) (allocLeaf ps).1 (migNewSlots (splitKeyOf k key) k (getLeafP (allocLeaf ps).2 pid).slots (getLeafP (allocLeaf ps).2 (allocLeaf ps).1).slots)) (allocLeaf ps).1).slots.set fslot (some (KVSlot.set (PearsonHash key) key value)))) (allocLeaf ps).1).slots.getD fslot none =
        some (KVSlot.set (PearsonHash key) key value) := by
      rw [hpsnid]
      show ((migNewSlots (splitKeyOf k key) k (getLeafP (allocLeaf ps).2 pid).slots (getLeafP (allocLeaf ps).2 (allocLeaf ps).1).slots).set fslot (some (KVSlot.set (PearsonHash key) key value))).getD fslot none = some (KVSlot.set (PearsonHash key) key value)
      exact getD_set_self _ _ _ _ (by rw [migNewSlots_length]; exact hflt)
    have hgdh : ((migNewHashes (splitKeyOf k key) h k).set fslot (PearsonHash key)).getD fslot 0 = PearsonHash key :=
      getD_set_self _ _ _ _ (by rw [migNewHashes_length]; exact hflt)
    have hgdk : ((migNewKeys (splitKeyOf k key) k).set fslot key).getD fslot [] = key :=
      getD_set_self _ _ _ _ (by rw [migNewKeys_length]; exact hflt)
    have hpshead : ((setLeafSlots (setLeafSlots (setLeafSlots (allocLeaf ps).2 pid (migOrigSlots (splitKeyOf k key) k (getLeafP (allocLeaf ps).2 pid).slots (getLeafP (allocLeaf ps).2 (allocLeaf ps).1).slots)) (allocLeaf ps).1 (migNewSlots (splitKeyOf k key) k (getLeafP (allocLeaf ps).2 pid).slots (getLeafP (allocLeaf ps).2 (allocLeaf ps).1).slots)) (allocLeaf ps).1 ((getLeafP (setLeafSlots (setLeafSlots (allocLeaf ps).2 pid (migOrigSlots (splitKeyOf k key) k (getLeafP (allocLeaf ps).2 pid).slots (getLeafP (allocLeaf ps).2 (allocLeaf ps).1).slots)) (allocLeaf ps).1 (migNewSlots (splitKeyOf k key) k (getLeafP (allocLeaf ps).2 pid).slots (getLeafP (allocLeaf ps).2 (allocLeaf ps).1).slots)) (allocLeaf ps).1).slots.set fslot (some (KVSlot.set (PearsonHash key) key value))))).head = (allocLeaf ps).2.head := by
      rw [setLeafSlots_head, hps2head]
    have hpsheap : ((setLeafSlots (setLeafSlots (setLeafSlots (allocLeaf ps).2 pid (migOrigSlots (splitKeyOf k key) k (getLeafP (allocLeaf ps).2 pid).slots (getLeafP (allocLeaf ps).2 (allocLeaf ps).1).slots)) (allocLeaf ps).1 (migNewSlots (splitKeyOf k key) k (getLeafP (allocLeaf ps).2 pid).slots (getLeafP (allocLeaf ps).2 (allocLeaf ps).1).slots)) (allocLeaf ps).1 ((getLeafP (setLeafSlots (setLeafSlots (allocLeaf ps).2 pid (migOrigSlots (splitKeyOf k key) k (getLeafP (allocLeaf ps).2 pid).slots (getLeafP (allocLeaf ps).2 (allocLeaf ps).1).slots)) (allocLeaf ps).1 (migNewSlots (splitKeyOf k key) k (getLeafP (allocLeaf ps).2 pid).slots (getLeafP (allocLeaf ps).2 (allocLeaf ps).1).slots)) (allocLeaf ps).1).slots.set fslot (some (KVSlot.set (PearsonHash key) key value))))).heap.length = (allocLeaf ps).2.heap.length := by
      rw [setLeafSlots_heap_length, hps2heap]
    refine ⟨⟨?_, ?_, ?_, ?_, hstrict⟩, ?_, ?_, ?_, ?_, ?_⟩
    · show wfW lo (some (splitKeyOf k key)) (VNode.leaf (migOrigHashes (splitKeyOf k key) h k) (migOrigKeys (splitKeyOf k key) k) pid) = true
      rw [wfW]
      exact leafWinOk_migOrig hhlen hklen hfull hnd hwin
    · show wfW (some (splitKeyOf k key)) hi (VNode.leaf ((migNewHashes (splitKeyOf k key) h k).set fslot (PearsonHash key))
        ((migNewKeys (splitKeyOf k key) k).set fslot key) (allocLeaf ps).1) = true
      rw [wfW]
      apply leafWinOk_set_fill (leafWinOk_migNew hhlen hklen hfull hnd hwin) hfz hflt
      · rw [inWin_iff]
        refine ⟨?_, (inWin_iff.mp hkwin).2⟩
        show strLt (splitKeyOf k key) key = true
        rw [← strGt_iff_lt]
        exact hgt
      · rw [liveKeysLeaf_migNew (splitKeyOf k key) h k hklen hfull]
        intro hmem
        exact hnew (List.mem_of_mem_filter hmem)
      · exact PearsonHash_ne_zero key
    · exact (inWin_iff.mp hskin).1
    · exact (inWin_iff.mp hskin).2
    · exact ⟨(migNewHashes (splitKeyOf k key) h k).set fslot (PearsonHash key), (migNewKeys (splitKeyOf k key) k).set fslot key, (allocLeaf ps).1, fslot,
        List.mem_append_right _ (List.mem_singleton_self _), hflt, hgdh, hgdk, hpayload⟩
    · intro L hL
      rcases List.mem_append.mp hL with hL | hL
      all_goals rw [leavesOf, List.mem_singleton] at hL
      all_goals subst hL
      · constructor
        · rw [leafAgreeB_iff]
          refine ⟨by rw [hpsheap]; exact hpidlt1,
            by rw [hpshead]; exact hheadmono pid hpidhead, ?_⟩
          intro slot hslot
          have hpay2 : (getLeafP (setLeafSlots (setLeafSlots (setLeafSlots (allocLeaf ps).2 pid (migOrigSlots (splitKeyOf k key) k (getLeafP (allocLeaf ps).2 pid).slots (getLeafP (allocLeaf ps).2 (allocLeaf ps).1).slots)) (allocLeaf ps).1 (migNewSlots (splitKeyOf k key) k (getLeafP (allocLeaf ps).2 pid).slots (getLeafP (allocLeaf ps).2 (allocLeaf ps).1).slots)) (allocLeaf ps).1 ((getLeafP (setLeafSlots (setLeafSlots (allocLeaf ps).2 pid (migOrigSlots (splitKeyOf k key) k (getLeafP (allocLeaf ps).2 pid).slots (getLeafP (allocLeaf ps).2 (allocLeaf ps).1).slots)) (allocLeaf ps).1 (migNewSlots (splitKeyOf k key) k (getLeafP (allocLeaf ps).2 pid).slots (getLeafP (allocLeaf ps).2 (allocLeaf ps).1).slots)) (allocLeaf ps).1).slots.set fslot (some (KVSlot.set (PearsonHash key) key value)))) pid).slots.getD slot none =
              if strGt (k.getD slot []) (splitKeyOf k key) then (getLeafP (allocLeaf ps).2 (allocLeaf ps).1).slots.getD slot none
              else (getLeafP (allocLeaf ps).2 pid).slots.getD slot none := by
            rw [hpspid]
            exact migOrigSlots_getD (splitKeyOf k key) k (getLeafP (allocLeaf ps).2 pid).slots (getLeafP (allocLeaf ps).2 (allocLeaf ps).1).slots hslot
          by_cases hgs : strGt (k.getD slot []) (splitKeyOf k key) = true
          · apply slotAgree_dead
            · rw [migOrigHashes_getD (splitKeyOf k key) h k hslot, if_pos hgs]
            · rw [hpay2, if_pos hgs]
              exact hniddead slot hslot
          · have hcg : slotAgree (setLeafSlots (setLeafSlots (setLeafSlots (allocLeaf ps).2 pid (migOrigSlots (splitKeyOf k key) k (getLeafP (allocLeaf ps).2 pid).slots (getLeafP (allocLeaf ps).2 (allocLeaf ps).1).slots)) (allocLeaf ps).1 (migNewSlots (splitKeyOf k key) k (getLeafP (allocLeaf ps).2 pid).slots (getLeafP (allocLeaf ps).2 (allocLeaf ps).1).slots)) (allocLeaf ps).1 ((getLeafP (setLeafSlots (setLeafSlots (allocLeaf ps).2 pid (migOrigSlots (splitKeyOf k key) k (getLeafP (allocLeaf ps).2 pid).slots (getLeafP (allocLeaf ps).2 (allocLeaf ps).1).slots)) (allocLeaf ps).1 (migNewSlots (splitKeyOf k key) k (getLeafP (allocLeaf ps).2 pid).slots (getLeafP (allocLeaf ps).2 (allocLeaf ps).1).slots)) (allocLeaf ps).1).slots.set fslot (some (KVSlot.set (PearsonHash key) key value)))) pid slot (migOrigHashes (splitKeyOf k key) h k) (migOrigKeys (splitKeyOf k key) k) = slotAgree ps pid slot h k := by
              apply slotAgree_congr
              · rw [hpay2, if_neg hgs, hpidslots]
              · rw [migOrigHashes_getD (splitKeyOf k key) h k hslot, if_neg hgs]
              · rw [migOrigKeys_getD (splitKeyOf k key) k hslot, if_neg hgs]
            rw [hcg]
            exact hslots slot hslot
        · show leafIntegOk (migOrigHashes (splitKeyOf k key) h k) (migOrigKeys (splitKeyOf k key) k) = true
          exact leafIntegOk_migOrig hinteg
      · constructor
        · rw [leafAgreeB_iff]
          refine ⟨by rw [hpsheap]; exact hnidlt,
            by rw [hpshead]; exact hnidmem, ?_⟩
          intro slot hslot
          by_cases hsf : slot = fslot
          · subst hsf
            exact slotAgree_payload hk32 (PearsonHash_lt key) (PearsonHash_ne_zero key)
              hpayload hgdh hgdk
          · have hpay2 : (getLeafP (setLeafSlots (setLeafSlots (setLeafSlots (allocLeaf ps).2 pid (migOrigSlots (splitKeyOf k key) k (getLeafP (allocLeaf ps).2 pid).slots (getLeafP (allocLeaf ps).2 (allocLeaf ps).1).slots)) (allocLeaf ps).1 (migNewSlots (splitKeyOf k key) k (getLeafP (allocLeaf ps).2 pid).slots (getLeafP (allocLeaf ps).2 (allocLeaf ps).1).slots)) (allocLeaf ps).1 ((getLeafP (setLeafSlots (setLeafSlots (allocLeaf ps).2 pid (migOrigSlots (splitKeyOf k key) k (getLeafP (allocLeaf ps).2 pid).slots (getLeafP (allocLeaf ps).2 (allocLeaf ps).1).slots)) (allocLeaf ps).1 (migNewSlots (splitKeyOf k key) k (getLeafP (allocLeaf ps).2 pid).slots (getLeafP (allocLeaf ps).2 (allocLeaf ps).1).slots)) (allocLeaf ps).1).slots.set fslot (some (KVSlot.set (PearsonHash key) key value)))) (allocLeaf ps).1).slots.getD slot none =
                if strGt (k.getD slot []) (splitKeyOf k key) then (getLeafP (allocLeaf ps).2 pid).slots.getD slot none
                else (getLeafP (allocLeaf ps).2 (allocLeaf ps).1).slots.getD slot none := by
              rw [hpsnid]
              show ((migNewSlots (splitKeyOf k key) k (getLeafP (allocLeaf ps).2 pid).slots (getLeafP (allocLeaf ps).2 (allocLeaf ps).1).slots).set fslot (some (KVSlot.set (PearsonHash key) key value))).getD slot none = _
              rw [getD_set_ne _ _ _ _ _ (fun he => hsf he.symm)]
              exact migNewSlots_getD (splitKeyOf k key) k (getLeafP (allocLeaf ps).2 pid).slots (getLeafP (allocLeaf ps).2 (allocLeaf ps).1).slots hslot
            by_cases hgs : strGt (k.getD slot []) (splitKeyOf k key) = true
            · have hcg : slotAgree (setLeafSlots (setLeafSlots (setLeafSlots (allocLeaf ps).2 pid (migOrigSlots (splitKeyOf k key) k (getLeafP (allocLeaf ps).2 pid).slots (getLeafP (allocLeaf ps).2 (allocLeaf ps).1).slots)) (allocLeaf ps).1 (migNewSlots (splitKeyOf k key) k (getLeafP (allocLeaf ps).2 pid).slots (getLeafP (allocLeaf ps).2 (allocLeaf ps).1).slots)) (allocLeaf ps).1 ((getLeafP (setLeafSlots (setLeafSlots (allocLeaf ps).2 pid (migOrigSlots (splitKeyOf k key) k (getLeafP (allocLeaf ps).2 pid).slots (getLeafP (allocLeaf ps).2 (allocLeaf ps).1).slots)) (allocLeaf ps).1 (migNewSlots (splitKeyOf k key) k (getLeafP (allocLeaf ps).2 pid).slots (getLeafP (allocLeaf ps).2 (allocLeaf ps).1).slots)) (allocLeaf ps).1).slots.set fslot (some (KVSlot.set (PearsonHash key) key value)))) (allocLeaf ps).1 slot
                  ((migNewHashes (splitKeyOf k key) h k).set fslot (PearsonHash key)) ((migNewKeys (splitKeyOf k key) k).set fslot key) =
                  slotAgree ps pid slot h k := by
                apply slotAgree_congr
                · rw [hpay2, if_pos hgs, hpidslots]
                · rw [getD_set_ne _ _ _ _ _ (fun he => hsf he.symm),
                    migNewHashes_getD (splitKeyOf k key) h k hslot, if_pos hgs]
                · rw [getD_set_ne _ _ _ _ _ (fun he => hsf he.symm),
                    migNewKeys_getD (splitKeyOf k key) k hslot, if_pos hgs]
              rw [hcg]
              exact hslots slot hslot
            · apply slotAgree_dead
              · rw [getD_set_ne _ _ _ _ _ (fun he => hsf he.symm),
                  migNewHashes_getD (splitKeyOf k key) h k hslot, if_neg hgs]
              · rw [hpay2, if_neg hgs]
                exact hniddead slot hslot
        · show leafIntegOk ((migNewHashes (splitKeyOf k key) h k).set fslot (PearsonHash key))
            ((migNewKeys (splitKeyOf k key) k).set fslot key) = true
          exact leafIntegOk_set_fill (leafIntegOk_migNew hinteg) hflt
            (migNewHashes_length (splitKeyOf k key) h k) (migNewKeys_length (splitKeyOf k key) k)
    · intro id hid
      rw [hpshead]
      exact hheadmono id hid
    · rw [hpsheap]
      exact hheaple
    · refine Or.inr ⟨(allocLeaf ps).1, [pid], [], by simp [leafPids, leavesOf, leavesOfList, VNode.getPleaf], rfl, ?_,
        hnidorigin⟩
      intro id hid1 hid2
      have hidpid : id ≠ pid := by
        intro he
        exact hid1 (by rw [leafPids, leavesOf, he]; exact List.mem_singleton_self _)
      rw [getLeafP_setLeafSlots_ne _ _ _ _ (fun he => hid2 he.symm)]
      exact hps2frame id hidpid hid2
  · have hgt2 : strGt key (splitKeyOf k key) = false := by
      rw [Bool.not_eq_true] at hgt
      exact hgt
    rw [if_neg hgt] at hcnt
    have hcnt2 : 0 < (k.countP fun x => strGt x (splitKeyOf k key)) := by
      rw [hcnt]
      decide
    rcases @migOrig_has_empty (splitKeyOf k key) h k hklen hcnt2 with ⟨eslot, helt, hez⟩
    rcases @fillEmpty_found (migOrigHashes (splitKeyOf k key) h k) (migOrigKeys (splitKeyOf k key) k)
      (setLeafSlots (setLeafSlots (allocLeaf ps).2 pid (migOrigSlots (splitKeyOf k key) k (getLeafP (allocLeaf ps).2 pid).slots (getLeafP (allocLeaf ps).2 (allocLeaf ps).1).slots)) (allocLeaf ps).1 (migNewSlots (splitKeyOf k key) k (getLeafP (allocLeaf ps).2 pid).slots (getLeafP (allocLeaf ps).2 (allocLeaf ps).1).slots)) pid (PearsonHash key) key value ⟨eslot, helt, hez⟩
      with ⟨fslot, hflt, hfz, hfind, heq⟩
    have hr : splitLeaf ps h k pid (PearsonHash key) key value =
        ((setLeafSlots (setLeafSlots (setLeafSlots (allocLeaf ps).2 pid (migOrigSlots (splitKeyOf k key) k (getLeafP (allocLeaf ps).2 pid).slots (getLeafP (allocLeaf ps).2 (allocLeaf ps).1).slots)) (allocLeaf ps).1 (migNewSlots (splitKeyOf k key) k (getLeafP (allocLeaf ps).2 pid).slots (getLeafP (allocLeaf ps).2 (allocLeaf ps).1).slots)) pid ((getLeafP (setLeafSlots (setLeafSlots (allocLeaf ps).2 pid (migOrigSlots (splitKeyOf k key) k (getLeafP (allocLeaf ps).2 pid).slots (getLeafP (allocLeaf ps).2 (allocLeaf ps).1).slots)) (allocLeaf ps).1 (migNewSlots (splitKeyOf k key) k (getLeafP (allocLeaf ps).2 pid).slots (getLeafP (allocLeaf ps).2 (allocLeaf ps).1).slots)) pid).slots.set fslot (some (KVSlot.set (PearsonHash key) key value)))),
         VNode.leaf ((migOrigHashes (splitKeyOf k key) h k).set fslot (PearsonHash key))
           ((migOrigKeys (splitKeyOf k key) k).set fslot key) pid,
         splitKeyOf k key,
         VNode.leaf (migNewHashes (splitKeyOf k key) h k) (migNewKeys (splitKeyOf k key) k) (allocLeaf ps).1) := by
      rw [splitLeaf, hskdef, if_neg hgt, heq]
      rfl
    rw [putRec_leaf_split hscan, hr, putPost]
    have hpsnid : getLeafP (setLeafSlots (setLeafSlots (setLeafSlots (allocLeaf ps).2 pid (migOrigSlots (splitKeyOf k key) k (getLeafP (allocLeaf ps).2 pid).slots (getLeafP (allocLeaf ps).2 (allocLeaf ps).1).slots)) (allocLeaf ps).1 (migNewSlots (splitKeyOf k key) k (getLeafP (allocLeaf ps).2 pid).slots (getLeafP (allocLeaf ps).2 (allocLeaf ps).1).slots)) pid ((getLeafP (setLeafSlots (setLeafSlots (allocLeaf ps).2 pid (migOrigSlots (splitKeyOf k key) k (getLeafP (allocLeaf ps).2 pid).slots (getLeafP (allocLeaf ps).2 (allocLeaf ps).1).slots)) (allocLeaf ps).1 (migNewSlots (splitKeyOf k key) k (getLeafP (allocLeaf ps).2 pid).slots (getLeafP (allocLeaf ps).2 (allocLeaf ps).1).slots)) pid).slots.set fslot (some (KVSlot.set (PearsonHash key) key value)))) (allocLeaf ps).1 = ⟨(migNewSlots (splitKeyOf k key) k (getLeafP (allocLeaf ps).2 pid).slots (getLeafP (allocLeaf ps).2 (allocLeaf ps).1).slots)⟩ := by
      rw [getLeafP_setLeafSlots_ne _ _ _ _ (fun he => hne he.symm)]
      exact hps2nid
    have hpspid : getLeafP (setLeafSlots (setLeafSlots (setLeafSlots (allocLeaf ps).2 pid (migOrigSlots (splitKeyOf k key) k (getLeafP (allocLeaf ps).2 pid).slots (getLeafP (allocLeaf ps).2 (allocLeaf ps).1).slots)) (allocLeaf ps).1 (migNewSlots (splitKeyOf k key) k (getLeafP (allocLeaf ps).2 pid).slots (getLeafP (allocLeaf ps).2 (allocLeaf ps).1).slots)) pid ((getLeafP (setLeafSlots (setLeafSlots (allocLeaf ps).2 pid (migOrigSlots (splitKeyOf k key) k (getLeafP (allocLeaf ps).2 pid).slots (getLeafP (allocLeaf ps).2 (allocLeaf ps).1).slots)) (allocLeaf ps).1 (migNewSlots (splitKeyOf k key) k (getLeafP (allocLeaf ps).2 pid).slots (getLeafP (allocLeaf ps).2 (allocLeaf ps).1).slots)) pid).slots.set fslot (some (KVSlot.set (PearsonHash key) key value)))) pid =
        ⟨(migOrigSlots (splitKeyOf k key) k (getLeafP (allocLeaf ps).2 pid).slots (getLeafP (allocLeaf ps).2 (allocLeaf ps).1).slots).set fslot (some (KVSlot.set (PearsonHash key) key value))⟩ := by
      rw [getLeafP_setLeafSlots_self _ _ _ (by rw [hps2heap]; exact hpidlt1)]
      rw [hps2pid]
    have hpayload : (getLeafP (setLeafSlots (setLeafSlots (setLeafSlots (allocLeaf ps).2 pid (migOrigSlots (splitKeyOf k key) k (getLeafP (allocLeaf ps).2 pid).slots (getLeafP (allocLeaf ps).2 (allocLeaf ps).1).slots)) (allocLeaf ps).1 (migNewSlots (splitKeyOf k key) k (getLeafP (allocLeaf ps).2 pid).slots (getLeafP (allocLeaf ps).2 (allocLeaf ps).1).slots)) pid ((getLeafP (setLeafSlots (setLeafSlots (allocLeaf ps).2 pid (migOrigSlots (splitKeyOf k key) k (getLeafP (allocLeaf ps).2 pid).slots (getLeafP (allocLeaf ps).2 (allocLeaf ps).1).slots)) (allocLeaf ps).1 (migNewSlots (splitKeyOf k key) k (getLeafP (allocLeaf ps).2 pid).slots (getLeafP (allocLeaf ps).2 (allocLeaf ps).1).slots)) pid).slots.set fslot (some (KVSlot.set (PearsonHash key) key value)))) pid).slots.getD fslot none =
        some (KVSlot.set (PearsonHash key) key value) := by
      rw [hpspid]
      show ((migOrigSlots (splitKeyOf k key) k (getLeafP (allocLeaf ps).2 pid).slots (getLeafP (allocLeaf ps).2 (allocLeaf ps).1).slots).set fslot (some (KVSlot.set (PearsonHash key) key value))).getD fslot none = some (KVSlot.set (PearsonHash key) key value)
      exact getD_set_self _ _ _ _ (by rw [migOrigSlots_length]; exact hflt)
    have hgdh : ((migOrigHashes (splitKeyOf k key) h k).set fslot (PearsonHash key)).getD fslot 0 = PearsonHash key :=
      getD_set_self _ _ _ _ (by rw [migOrigHashes_length]; exact hflt)
    have hgdk : ((migOrigKeys (splitKeyOf k key) k).set fslot key).getD fslot [] = key :=
      getD_set_self _ _ _ _ (by rw [migOrigKeys_length]; exact hflt)
    have hpshead : ((setLeafSlots (setLeafSlots (setLeafSlots (allocLeaf ps).2 pid (migOrigSlots (splitKeyOf k key) k (getLeafP (allocLeaf ps).2 pid).slots (getLeafP (allocLeaf ps).2 (allocLeaf ps).1).slots)) (allocLeaf ps).1 (migNewSlots (splitKeyOf k key) k (getLeafP (allocLeaf ps).2 pid).slots (getLeafP (allocLeaf ps).2 (allocLeaf ps).1).slots)) pid ((getLeafP (setLeafSlots (setLeafSlots (allocLeaf ps).2 pid (migOrigSlots (splitKeyOf k key) k (getLeafP (allocLeaf ps).2 pid).slots (getLeafP (allocLeaf ps).2 (allocLeaf ps).1).slots)) (allocLeaf ps).1 (migNewSlots (splitKeyOf k key) k (getLeafP (allocLeaf ps).2 pid).slots (getLeafP (allocLeaf ps).2 (allocLeaf ps).1).slots)) pid).slots.set fslot (some (KVSlot.set (PearsonHash key) key value))))).head = (allocLeaf ps).2.head := by
      rw [setLeafSlots_head, hps2head]
    have hpsheap : ((setLeafSlots (setLeafSlots (setLeafSlots (allocLeaf ps).2 pid (migOrigSlots (splitKeyOf k key) k (getLeafP (allocLeaf ps).2 pid).slots (getLeafP (allocLeaf ps).2 (allocLeaf ps).1).slots)) (allocLeaf ps).1 (migNewSlots (splitKeyOf k key) k (getLeafP (allocLeaf ps).2 pid).slots (getLeafP (allocLeaf ps).2 (allocLeaf ps).1).slots)) pid ((getLeafP (setLeafSlots (setLeafSlots (allocLeaf ps).2 pid (migOrigSlots (splitKeyOf k key) k (getLeafP (allocLeaf ps).2 pid).slots (getLeafP (allocLeaf ps).2 (allocLeaf ps).1).slots)) (allocLeaf ps).1 (migNewSlots (splitKeyOf k key) k (getLeafP (allocLeaf ps).2 pid).slots (getLeafP (allocLeaf ps).2 (allocLeaf ps).1).slots)) pid).slots.set fslot (some (KVSlot.set (PearsonHash key) key value))))).heap.length = (allocLeaf ps).2.heap.length := by
      rw [setLeafSlots_heap_length, hps2heap]
    refine ⟨⟨?_, ?_, ?_, ?_, hstrict⟩, ?_, ?_, ?_, ?_, ?_⟩
    · show wfW lo (some (splitKeyOf k key)) (VNode.leaf ((migOrigHashes (splitKeyOf k key) h k).set fslot (PearsonHash key))
        ((migOrigKeys (splitKeyOf k key) k).set fslot key) pid) = true
      rw [wfW]
      apply leafWinOk_set_fill (leafWinOk_migOrig hhlen hklen hfull hnd hwin) hfz hflt
      · rw [inWin_iff]
        refine ⟨(inWin_iff.mp hkwin).1, ?_⟩
        show strLe key (splitKeyOf k key) = true
        exact strGt_eq_false_iff.mp hgt2
      · rw [liveKeysLeaf_migOrig (splitKeyOf k key) h k hklen hfull]
        intro hmem
        exact hnew (List.mem_of_mem_filter hmem)
      · exact PearsonHash_ne_zero key
    · show wfW (some (splitKeyOf k key)) hi (VNode.leaf (migNewHashes (splitKeyOf k key) h k) (migNewKeys (splitKeyOf k key) k) (allocLeaf ps).1) = true
      rw [wfW]
      exact leafWinOk_migNew hhlen hklen hfull hnd hwin
    · exact (inWin_iff.mp hskin).1
    · exact (inWin_iff.mp hskin).2
    · exact ⟨(migOrigHashes (splitKeyOf k key) h k).set fslot (PearsonHash key), (migOrigKeys (splitKeyOf k key) k).set fslot key, pid, fslot,
        List.mem_append_left _ (List.mem_singleton_self _), hflt, hgdh, hgdk, hpayload⟩
    · intro L hL
      rcases List.mem_append.mp hL with hL | hL
      all_goals rw [leavesOf, List.mem_singleton] at hL
      all_goals subst hL
      · constructor
        · rw [leafAgreeB_iff]
          refine ⟨by rw [hpsheap]; exact hpidlt1,
            by rw [hpshead]; exact hheadmono pid hpidhead, ?_⟩
          intro slot hslot
          by_cases hsf : slot = fslot
          · subst hsf
            exact slotAgree_payload hk32 (PearsonHash_lt key) (PearsonHash_ne_zero key)
              hpayload hgdh hgdk
          · have hpay2 : (getLeafP (setLeafSlots (setLeafSlots (setLeafSlots (allocLeaf ps).2 pid (migOrigSlots (splitKeyOf k key) k (getLeafP (allocLeaf ps).2 pid).slots (getLeafP (allocLeaf ps).2 (allocLeaf ps).1).slots)) (allocLeaf ps).1 (migNewSlots (splitKeyOf k key) k (getLeafP (allocLeaf ps).2 pid).slots (getLeafP (allocLeaf ps).2 (allocLeaf ps).1).slots)) pid ((getLeafP (setLeafSlots (setLeafSlots (allocLeaf ps).2 pid (migOrigSlots (splitKeyOf k key) k (getLeafP (allocLeaf ps).2 pid).slots (getLeafP (allocLeaf ps).2 (allocLeaf ps).1).slots)) (allocLeaf ps).1 (migNewSlots (splitKeyOf k key) k (getLeafP (allocLeaf ps).2 pid).slots (getLeafP (allocLeaf ps).2 (allocLeaf ps).1).slots)) pid).slots.set fslot (some (KVSlot.set (PearsonHash key) key value)))) pid).slots.getD slot none =
                if strGt (k.getD slot []) (splitKeyOf k key) then (getLeafP (allocLeaf ps).2 (allocLeaf ps).1).slots.getD slot none
                else (getLeafP (allocLeaf ps).2 pid).slots.getD slot none := by
              rw [hpspid]
              show ((migOrigSlots (splitKeyOf k key) k (getLeafP (allocLeaf ps).2 pid).slots (getLeafP (allocLeaf ps).2 (allocLeaf ps).1).slots).set fslot (some (KVSlot.set (PearsonHash key) key value))).getD slot none = _
              rw [getD_set_ne _ _ _ _ _ (fun he => hsf he.symm)]
              exact migOrigSlots_getD (splitKeyOf k key) k (getLeafP (allocLeaf ps).2 pid).slots (getLeafP (allocLeaf ps).2 (allocLeaf ps).1).slots hslot
            by_cases hgs : strGt (k.getD slot []) (splitKeyOf k key) = true
            · apply slotAgree_dead
              · rw [getD_set_ne _ _ _ _ _ (fun he => hsf he.symm),
                  migOrigHashes_getD (splitKeyOf k key) h k hslot, if_pos hgs]
              · rw [hpay2, if_pos hgs]
                exact hniddead slot hslot
            · have hcg : slotAgree (setLeafSlots (setLeafSlots (setLeafSlots (allocLeaf ps).2 pid (migOrigSlots (splitKeyOf k key) k (getLeafP (allocLeaf ps).2 pid).slots (getLeafP (allocLeaf ps).2 (allocLeaf ps).1).slots)) (allocLeaf ps).1 (migNewSlots (splitKeyOf k key) k (getLeafP (allocLeaf ps).2 pid).slots (getLeafP (allocLeaf ps).2 (allocLeaf ps).1).slots)) pid ((getLeafP (setLeafSlots (setLeafSlots (allocLeaf ps).2 pid (migOrigSlots (splitKeyOf k key) k (getLeafP (allocLeaf ps).2 pid).slots (getLeafP (allocLeaf ps).2 (allocLeaf ps).1).slots)) (allocLeaf ps).1 (migNewSlots (splitKeyOf k key) k (getLeafP (allocLeaf ps).2 pid).slots (getLeafP (allocLeaf ps).2 (allocLeaf ps).1).slots)) pid).slots.set fslot (some (KVSlot.set (PearsonHash key) key value)))) pid slot
                  ((migOrigHashes (splitKeyOf k key) h k).set fslot (PearsonHash key)) ((migOrigKeys (splitKeyOf k key) k).set fslot key) =
                  slotAgree ps pid slot h k := by
                apply slotAgree_congr
                · rw [hpay2, if_neg hgs, hpidslots]
                · rw [getD_set_ne _ _ _ _ _ (fun he => hsf he.symm),
                    migOrigHashes_getD (splitKeyOf k key) h k hslot, if_neg hgs]
                · rw [getD_set_ne _ _ _ _ _ (fun he => hsf he.symm),
                    migOrigKeys_getD (splitKeyOf k key) k hslot, if_neg hgs]
              rw [hcg]
              exact hslots slot hslot
        · show leafIntegOk ((migOrigHashes (splitKeyOf k key) h k).set fslot (PearsonHash key))
            ((migOrigKeys (splitKeyOf k key) k).set fslot key) = true
          exact leafIntegOk_set_fill (leafIntegOk_migOrig hinteg) hflt
            (migOrigHashes_length (splitKeyOf k key) h k) (migOrigKeys_length (splitKeyOf k key) k)
      · constructor
        · rw [leafAgreeB_iff]
          refine ⟨by rw [hpsheap]; exact hnidlt,
            by rw [hpshead]; exact hnidmem, ?_⟩
          intro slot hslot
          have hpay2 : (getLeafP (setLeafSlots (setLeafSlots (setLeafSlots (allocLeaf ps).2 pid (migOrigSlots (splitKeyOf k key) k (getLeafP (allocLeaf ps).2 pid).slots (getLeafP (allocLeaf ps).2 (allocLeaf ps).1).slots)) (allocLeaf ps).1 (migNewSlots (splitKeyOf k key) k (getLeafP (allocLeaf ps).2 pid).slots (getLeafP (allocLeaf ps).2 (allocLeaf ps).1).slots)) pid ((getLeafP (setLeafSlots (setLeafSlots (allocLeaf ps).2 pid (migOrigSlots (splitKeyOf k key) k (getLeafP (allocLeaf ps).2 pid).slots (getLeafP (allocLeaf ps).2 (allocLeaf ps).1).slots)) (allocLeaf ps).1 (migNewSlots (splitKeyOf k key) k (getLeafP (allocLeaf ps).2 pid).slots (getLeafP (allocLeaf ps).2 (allocLeaf ps).1).slots)) pid).slots.set fslot (some (KVSlot.set (PearsonHash key) key value)))) (allocLeaf ps).1).slots.getD slot none =
              if strGt (k.getD slot []) (splitKeyOf k key) then (getLeafP (allocLeaf ps).2 pid).slots.getD slot none
              else (getLeafP (allocLeaf ps).2 (allocLeaf ps).1).slots.getD slot none := by
            rw [hpsnid]
            exact migNewSlots_getD (splitKeyOf k key) k (getLeafP (allocLeaf ps).2 pid).slots (getLeafP (allocLeaf ps).2 (allocLeaf ps).1).slots hslot
          by_cases hgs : strGt (k.getD slot []) (splitKeyOf k key) = true
          · have hcg : slotAgree (setLeafSlots (setLeafSlots (setLeafSlots (allocLeaf ps).2 pid (migOrigSlots (splitKeyOf k key) k (getLeafP (allocLeaf ps).2 pid).slots (getLeafP (allocLeaf ps).2 (allocLeaf ps).1).slots)) (allocLeaf ps).1 (migNewSlots (splitKeyOf k key) k (getLeafP (allocLeaf ps).2 pid).slots (getLeafP (allocLeaf ps).2 (allocLeaf ps).1).slots)) pid ((getLeafP (setLeafSlots (setLeafSlots (allocLeaf ps).2 pid (migOrigSlots (splitKeyOf k key) k (getLeafP (allocLeaf ps).2 pid).slots (getLeafP (allocLeaf ps).2 (allocLeaf ps).1).slots)) (allocLeaf ps).1 (migNewSlots (splitKeyOf k key) k (getLeafP (allocLeaf ps).2 pid).slots (getLeafP (allocLeaf ps).2 (allocLeaf ps).1).slots)) pid).slots.set fslot (some (KVSlot.set (PearsonHash key) key value)))) (allocLeaf ps).1 slot (migNewHashes (splitKeyOf k key) h k) (migNewKeys (splitKeyOf k key) k) =
                slotAgree ps pid slot h k := by
              apply slotAgree_congr
              · rw [hpay2, if_pos hgs, hpidslots]
              · rw [migNewHashes_getD (splitKeyOf k key) h k hslot, if_pos hgs]
              · rw [migNewKeys_getD (splitKeyOf k key) k hslot, if_pos hgs]
            rw [hcg]
            exact hslots slot hslot
          · apply slotAgree_dead
            · rw [migNewHashes_getD (splitKeyOf k key) h k hslot, if_neg hgs]
            · rw [hpay2, if_neg hgs]
              exact hniddead slot hslot
        · show leafIntegOk (migNewHashes (splitKeyOf k key) h k) (migNewKeys (splitKeyOf k key) k) = true
          exact leafIntegOk_migNew hinteg
    · intro id hid
      rw [hpshead]
      exact hheadmono id hid
    · rw [hpsheap]
      exact hheaple
    · refine Or.inr ⟨(allocLeaf ps).1, [pid], [], by simp [leafPids, leavesOf, leavesOfList, VNode.getPleaf], rfl, ?_,
        hnidorigin⟩
      intro id hid1 hid2
      have hidpid : id ≠ pid := by
        intro he
        exact hid1 (by rw [leafPids, leavesOf, he]; exact List.mem_singleton_self _)
      rw [getLeafP_setLeafSlots_ne _ _ _ _ (fun he => hidpid he.symm)]
      exact hps2frame id hidpid hid2

/-! ## Transporting agreement across pool updates that avoid a leaf -/

theorem leafAgreeB_mono {ps ps' : PState} {L : VNode}
    (hag : leafAgreeB ps L = true)
    (hfr : getLeafP ps' (VNode.getPleaf L) = getLeafP ps (VNode.getPleaf L))
    (hlen : ps.heap.length ≤ ps'.heap.length)
    (hhead : ∀ id ∈ ps.head, id ∈ ps'.head) :
    leafAgreeB ps' L = true := by
  cases L with
  | inner r c =>
      rw [leafAgreeB] at hag
      cases hag
  | leaf h k pid =>
      rw [leafAgreeB_iff] at hag ⊢
      refine ⟨Nat.lt_of_lt_of_le hag.1 hlen, hhead pid hag.2.1, ?_⟩
      intro slot hs
      have hcg : slotAgree ps' pid slot h k = slotAgree ps pid slot h k := by
        apply slotAgree_congr
        · rw [show VNode.getPleaf (VNode.leaf h k pid) = pid from rfl] at hfr
          rw [hfr]
        · rfl
        · rfl
      rw [hcg]
      exact hag.2.2 slot hs

theorem agreeList_mono {ps ps' : PState} {ls : List VNode}
    (hag : ∀ L ∈ ls, leafAgreeB ps L = true ∧
      leafIntegOk (VNode.getHashes L) (VNode.getKeys L) = true)
    (hfr : ∀ L ∈ ls, getLeafP ps' (VNode.getPleaf L) = getLeafP ps (VNode.getPleaf L))
    (hlen : ps.heap.length ≤ ps'.heap.length)
    (hhead : ∀ id ∈ ps.head, id ∈ ps'.head) :
    ∀ L ∈ ls, leafAgreeB ps' L = true ∧
      leafIntegOk (VNode.getHashes L) (VNode.getKeys L) = true :=
  fun L hL => ⟨leafAgreeB_mono (hag L hL).1 (hfr L hL) hlen hhead, (hag L hL).2⟩

theorem sibling_unchanged {ps ps' : PState} {childPids allPids : List Nat} {nid : Nat}
    (hfr : ∀ id, id ∉ childPids → id ≠ nid → getLeafP ps' id = getLeafP ps id)
    (horigin : nid = ps.heap.length ∨ nid ∈ ps.prealloc)
    (hpre : ∀ id ∈ ps.prealloc, id ∉ allPids)
    {p : Nat} (hplt : p < ps.heap.length) (hpall : p ∈ allPids) (hpnc : p ∉ childPids) :
    getLeafP ps' p = getLeafP ps p := by
  apply hfr p hpnc
  intro he
  rcases horigin with ho | ho
  · rw [he, ho] at hplt
    exact Nat.lt_irrefl _ hplt
  · exact hpre nid ho (he ▸ hpall)

theorem chainW_length :
    ∀ (rs : List Str) (cs : List VNode) (lo hi : Option Str),
      chainW lo hi rs cs = true → cs.length = rs.length + 1
  | [], [], lo, hi, hch => absurd hch Bool.false_ne_true
  | [], [c], _, _, _ => rfl
  | [], c1 :: c2 :: cs, lo, hi, hch => absurd hch Bool.false_ne_true
  | r :: rs, [], lo, hi, hch => absurd hch Bool.false_ne_true
  | r :: rs, c :: cs, lo, hi, hch => by
      rw [chainW, Bool.and_eq_true, Bool.and_eq_true, Bool.and_eq_true] at hch
      rw [List.length_cons, List.length_cons, chainW_length rs cs _ _ hch.2]

/-- A leaf with pool agreement has a valid persistent id. -/
theorem agree_pid_lt {ps : PState} {L : VNode} (hag : leafAgreeB ps L = true) :
    VNode.getPleaf L < ps.heap.length := by
  cases L with
  | inner r c =>
      rw [leafAgreeB] at hag
      cases hag
  | leaf h k pid => exact (leafAgreeB_iff.mp hag).1

/-! ## Extending a child postcondition with untouched siblings -/

theorem post_extend_right {key value : Str} {ps ps' : PState} {c : VNode}
    {cs sideL : List VNode}
    (hpres : ∃ h2 k2 pid2 s2, VNode.leaf h2 k2 pid2 ∈ sideL ∧ s2 < LEAF_KEYS ∧
      h2.getD s2 0 = PearsonHash key ∧ k2.getD s2 [] = key ∧
      (getLeafP ps' pid2).slots.getD s2 none =
        some (KVSlot.set (PearsonHash key) key value))
    (hagr : ∀ L ∈ sideL, leafAgreeB ps' L = true ∧
      leafIntegOk (VNode.getHashes L) (VNode.getKeys L) = true)
    (hhead : ∀ id ∈ ps.head, id ∈ ps'.head)
    (hheap : ps.heap.length ≤ ps'.heap.length)
    (hagcs : ∀ L ∈ leavesOfList cs, leafAgreeB ps L = true ∧
      leafIntegOk (VNode.getHashes L) (VNode.getKeys L) = true)
    (hnodup : ((leavesOfList (c :: cs)).map VNode.getPleaf).Nodup)
    (hpre : ∀ id ∈ ps.prealloc, id ∉ (leavesOfList (c :: cs)).map VNode.getPleaf)
    (hpids : (sideL.map VNode.getPleaf = (leavesOf c).map VNode.getPleaf ∧
        (∀ id, id ∉ (leavesOf c).map VNode.getPleaf →
          getLeafP ps' id = getLeafP ps id)) ∨
      (∃ nid l1 l2, (leavesOf c).map VNode.getPleaf = l1 ++ l2 ∧
        sideL.map VNode.getPleaf = l1 ++ nid :: l2 ∧
        (∀ id, id ∉ (leavesOf c).map VNode.getPleaf → id ≠ nid →
          getLeafP ps' id = getLeafP ps id) ∧
        (nid = ps.heap.length ∨ nid ∈ ps.prealloc))) :
    (∃ h2 k2 pid2 s2, VNode.leaf h2 k2 pid2 ∈ sideL ++ leavesOfList cs ∧
      s2 < LEAF_KEYS ∧ h2.getD s2 0 = PearsonHash key ∧ k2.getD s2 [] = key ∧
      (getLeafP ps' pid2).slots.getD s2 none =
        some (KVSlot.set (PearsonHash key) key value)) ∧
    (∀ L ∈ sideL ++ leavesOfList cs, leafAgreeB ps' L = true ∧
      leafIntegOk (VNode.getHashes L) (VNode.getKeys L) = true) ∧
    (((sideL ++ leavesOfList cs).map VNode.getPleaf =
        (leavesOfList (c :: cs)).map VNode.getPleaf ∧
      (∀ id, id ∉ (leavesOfList (c :: cs)).map VNode.getPleaf →
        getLeafP ps' id = getLeafP ps id)) ∨
      (∃ nid l1 l2, (leavesOfList (c :: cs)).map VNode.getPleaf = l1 ++ l2 ∧
        (sideL ++ leavesOfList cs).map VNode.getPleaf = l1 ++ nid :: l2 ∧
        (∀ id, id ∉ (leavesOfList (c :: cs)).map VNode.getPleaf → id ≠ nid →
          getLeafP ps' id = getLeafP ps id) ∧
        (nid = ps.heap.length ∨ nid ∈ ps.prealloc))) := by
  have hmapC : (leavesOfList (c :: cs)).map VNode.getPleaf =
      (leavesOf c).map VNode.getPleaf ++ (leavesOfList cs).map VNode.getPleaf := by
    rw [leavesOfList, List.map_append]
  have hdisj : ∀ p ∈ (leavesOfList cs).map VNode.getPleaf,
      p ∉ (leavesOf c).map VNode.getPleaf := by
    intro p hp hpc
    have h2 := hnodup
    rw [hmapC] at h2
    exact (List.nodup_append.mp h2).2.2 hpc hp
  have hframe : ∀ L ∈ leavesOfList cs,
      getLeafP ps' (VNode.getPleaf L) = getLeafP ps (VNode.getPleaf L) := by
    intro L hL
    have hmem : VNode.getPleaf L ∈ (leavesOfList cs).map VNode.getPleaf :=
      List.mem_map_of_mem _ hL
    rcases hpids with ⟨hsame, hfr⟩ | ⟨nid, l1, l2, hsplit, hins, hfr, horigin⟩
    · exact hfr _ (hdisj _ hmem)
    · exact sibling_unchanged hfr horigin hpre (agree_pid_lt (hagcs L hL).1)
        (by rw [hmapC]; exact List.mem_append_right _ hmem) (hdisj _ hmem)
  refine ⟨?_, ?_, ?_⟩
  · obtain ⟨h2, k2, pid2, s2, hm, hs, hh, hk, hp⟩ := hpres
    exact ⟨h2, k2, pid2, s2, List.mem_append_left _ hm, hs, hh, hk, hp⟩
  · intro L hL
    rcases List.mem_append.mp hL with h | h
    · exact hagr L h
    · exact agreeList_mono hagcs hframe hheap hhead L h
  · rcases hpids with ⟨hsame, hfr⟩ | ⟨nid, l1, l2, hsplit, hins, hfr, horigin⟩
    · left
      constructor
      · rw [List.map_append, hsame, hmapC]
      · intro id hid
        apply hfr
        intro hc
        exact hid (by rw [hmapC]; exact List.mem_append_left _ hc)
    · right
      refine ⟨nid, l1, l2 ++ (leavesOfList cs).map VNode.getPleaf, ?_, ?_, ?_, horigin⟩
      · rw [hmapC, hsplit, List.append_assoc]
      · rw [List.map_append, hins, List.append_assoc, List.cons_append]
      · intro id hid hne
        apply hfr _ _ hne
        intro hc
        exact hid (by rw [hmapC]; exact List.mem_append_left _ hc)

theorem post_extend_left {key value : Str} {ps ps' : PState} {c : VNode}
    {cs tailL : List VNode}
    (hpres : ∃ h2 k2 pid2 s2, VNode.leaf h2 k2 pid2 ∈ tailL ∧ s2 < LEAF_KEYS ∧
      h2.getD s2 0 = PearsonHash key ∧ k2.getD s2 [] = key ∧
      (getLeafP ps' pid2).slots.getD s2 none =
        some (KVSlot.set (PearsonHash key) key value))
    (hagr : ∀ L ∈ tailL, leafAgreeB ps' L = true ∧
      leafIntegOk (VNode.getHashes L) (VNode.getKeys L) = true)
    (hhead : ∀ id ∈ ps.head, id ∈ ps'.head)
    (hheap : ps.heap.length ≤ ps'.heap.length)
    (hagc : ∀ L ∈ leavesOf c, leafAgreeB ps L = true ∧
      leafIntegOk (VNode.getHashes L) (VNode.getKeys L) = true)
    (hnodup : ((leavesOfList (c :: cs)).map VNode.getPleaf).Nodup)
    (hpre : ∀ id ∈ ps.prealloc, id ∉ (leavesOfList (c :: cs)).map VNode.getPleaf)
    (hpids : (tailL.map VNode.getPleaf = (leavesOfList cs).map VNode.getPleaf ∧
        (∀ id, id ∉ (leavesOfList cs).map VNode.getPleaf →
          getLeafP ps' id = getLeafP ps id)) ∨
      (∃ nid l1 l2, (leavesOfList cs).map VNode.getPleaf = l1 ++ l2 ∧
        tailL.map VNode.getPleaf = l1 ++ nid :: l2 ∧
        (∀ id, id ∉ (leavesOfList cs).map VNode.getPleaf → id ≠ nid →
          getLeafP ps' id = getLeafP ps id) ∧
        (nid = ps.heap.length ∨ nid ∈ ps.prealloc))) :
    (∃ h2 k2 pid2 s2, VNode.leaf h2 k2 pid2 ∈ leavesOf c ++ tailL ∧
      s2 < LEAF_KEYS ∧ h2.getD s2 0 = PearsonHash key ∧ k2.getD s2 [] = key ∧
      (getLeafP ps' pid2).slots.getD s2 none =
        some (KVSlot.set (PearsonHash key) key value)) ∧
    (∀ L ∈ leavesOf c ++ tailL, leafAgreeB ps' L = true ∧
      leafIntegOk (VNode.getHashes L) (VNode.getKeys L) = true) ∧
    (((leavesOf c ++ tailL).map VNode.getPleaf =
        (leavesOfList (c :: cs)).map VNode.getPleaf ∧
      (∀ id, id ∉ (leavesOfList (c :: cs)).map VNode.getPleaf →
        getLeafP ps' id = getLeafP ps id)) ∨
      (∃ nid l1 l2, (leavesOfList (c :: cs)).map VNode.getPleaf = l1 ++ l2 ∧
        (leavesOf c ++ tailL).map VNode.getPleaf = l1 ++ nid :: l2 ∧
        (∀ id, id ∉ (leavesOfList (c :: cs)).map VNode.getPleaf → id ≠ nid →
          getLeafP ps' id = getLeafP ps id) ∧
        (nid = ps.heap.length ∨ nid ∈ ps.prealloc))) := by
  have hmapC : (leavesOfList (c :: cs)).map VNode.getPleaf =
      (leavesOf c).map VNode.getPleaf ++ (leavesOfList cs).map VNode.getPleaf := by
    rw [leavesOfList, List.map_append]
  have hdisj : ∀ p ∈ (leavesOf c).map VNode.getPleaf,
      p ∉ (leavesOfList cs).map VNode.getPleaf := by
    intro p hp hpc
    have h2 := hnodup
    rw [hmapC] at h2
    exact (List.nodup_append.mp h2).2.2 hp hpc
  have hframe : ∀ L ∈ leavesOf c,
      getLeafP ps' (VNode.getPleaf L) = getLeafP ps (VNode.getPleaf L) := by
    intro L hL
    have hmem : VNode.getPleaf L ∈ (leavesOf c).map VNode.getPleaf :=
      List.mem_map_of_mem _ hL
    rcases hpids with ⟨hsame, hfr⟩ | ⟨nid, l1, l2, hsplit, hins, hfr, horigin⟩
    · exact hfr _ (hdisj _ hmem)
    · exact sibling_unchanged hfr horigin hpre (agree_pid_lt (hagc L hL).1)
        (by rw [hmapC]; exact List.mem_append_left _ hmem) (hdisj _ hmem)
  refine ⟨?_, ?_, ?_⟩
  · obtain ⟨h2, k2, pid2, s2, hm, hs, hh, hk, hp⟩ := hpres
    exact ⟨h2, k2, pid2, s2, List.mem_append_right _ hm, hs, hh, hk, hp⟩
  · intro L hL
    rcases List.mem_append.mp hL with h | h
    · exact agreeList_mono hagc hframe hheap hhead L h
    · exact hagr L h
  · rcases hpids with ⟨hsame, hfr⟩ | ⟨nid, l1, l2, hsplit, hins, hfr, horigin⟩
    · left
      constructor
      · rw [List.map_append, hsame, hmapC]
      · intro id hid
        apply hfr
        intro hc
        exact hid (by rw [hmapC]; exact List.mem_append_right _ hc)
    · right
      refine ⟨nid, (leavesOf c).map VNode.getPleaf ++ l1, l2, ?_, ?_, ?_, horigin⟩
      · rw [hmapC, hsplit, List.append_assoc]
      · rw [List.map_append, hins, List.append_assoc]
      · intro id hid hne
        apply hfr _ _ hne
        intro hc
        exact hid (by rw [hmapC]; exact List.mem_append_right _ hc)

theorem insertAt_mem {α : Type} : ∀ (n : Nat) (a : α) (l : List α), a ∈ insertAt n a l
  | 0, a, l => List.mem_cons_self a l
  | n + 1, a, [] => List.mem_singleton_self a
  | n + 1, a, x :: xs => List.mem_cons_of_mem x (insertAt_mem n a xs)

theorem chainW_keys_loOk :
    ∀ (ks : List Str) (cs : List VNode) (lo hi : Option Str),
      chainW lo hi ks cs = true → ∀ k ∈ ks, loOk lo k = true
  | [], _, _, _, _, k, hk => absurd hk (List.not_mem_nil k)
  | r :: rs, [], lo, hi, hch, k, hk => absurd hch Bool.false_ne_true
  | r :: rs, c :: cs, lo, hi, hch, k, hk => by
      rw [chainW, Bool.and_eq_true, Bool.and_eq_true, Bool.and_eq_true] at hch
      rcases List.mem_cons.mp hk with he | hm
      · rw [he]
        exact hch.1.1.1
      · exact loOk_weaken hch.1.1.1 (chainW_keys_loOk rs cs (some r) hi hch.2 k hm)

/-! ## Assembling `putChildPost` from the recursive results -/

theorem assemble_child_zero_nil {key value : Str} {ps : PState} {c : VNode}
    {lo hi : Option Str} {ps' : PState} {t' : VNode} {sp : Option (Str × VNode)}
    (hnodup : ((leavesOfList [c]).map VNode.getPleaf).Nodup)
    (hpre : ∀ id ∈ ps.prealloc, id ∉ (leavesOfList [c]).map VNode.getPleaf)
    (hpp : putPost key value ps c lo hi (ps', t', sp)) :
    putChildPost key value ps [c] [] lo hi (ps', [t'], sp) := by
  rw [putPost] at hpp
  rw [putChildPost]
  have hagcs : ∀ L ∈ leavesOfList ([] : List VNode), leafAgreeB ps L = true ∧
      leafIntegOk (VNode.getHashes L) (VNode.getKeys L) = true :=
    fun L hL => absurd hL (List.not_mem_nil L)
  cases sp with
  | none =>
      simp only [] at hpp ⊢
      obtain ⟨hwf, hpres, hagr, hhead, hheap, hpids⟩ := hpp
      simp only [leafPids] at hpids
      obtain ⟨hp1, hp2, hp3⟩ :=
        post_extend_right hpres hagr hhead hheap hagcs hnodup hpre hpids
      have hCL : childLeaves ([] : List Str) [t'] none =
          sideLeaves t' none ++ leavesOfList [] := rfl
      rw [← hCL] at hp1 hp2 hp3
      exact ⟨hwf, hp1, hp2, hhead, hheap, hp3⟩
  | some p =>
      obtain ⟨sk, nn⟩ := p
      simp only [] at hpp ⊢
      obtain ⟨hwf, hpres, hagr, hhead, hheap, hpids⟩ := hpp
      obtain ⟨hwf1, hwf2, hlo, hhi, hstrict⟩ := hwf
      simp only [leafPids] at hpids
      obtain ⟨hp1, hp2, hp3⟩ :=
        post_extend_right hpres hagr hhead hheap hagcs hnodup hpre hpids
      have hCL : childLeaves ([] : List Str) [t'] (some (sk, nn)) =
          sideLeaves t' (some (sk, nn)) ++ leavesOfList [] := by
        show leavesOf t' ++ (leavesOf nn ++ leavesOfList []) =
          (leavesOf t' ++ leavesOf nn) ++ leavesOfList []
        rw [List.append_assoc]
      rw [← hCL] at hp1 hp2 hp3
      refine ⟨?_, hp1, hp2, hhead, hheap, hp3⟩
      show chainW lo hi [sk] [t', nn] = true
      rw [chainW, Bool.and_eq_true, Bool.and_eq_true, Bool.and_eq_true]
      exact ⟨⟨⟨hlo, hhi⟩, hwf1⟩, hwf2⟩

theorem assemble_child_zero_cons {key value : Str} {ps : PState} {c : VNode}
    {cs : List VNode} {r : Str} {rs : List Str} {lo hi : Option Str}
    {ps' : PState} {t' : VNode} {sp : Option (Str × VNode)}
    (hlk : loOk lo r = true) (hhk : hiOk hi r = true)
    (hch : chainW (some r) hi rs cs = true)
    (hagcs : ∀ L ∈ leavesOfList cs, leafAgreeB ps L = true ∧
      leafIntegOk (VNode.getHashes L) (VNode.getKeys L) = true)
    (hnodup : ((leavesOfList (c :: cs)).map VNode.getPleaf).Nodup)
    (hpre : ∀ id ∈ ps.prealloc, id ∉ (leavesOfList (c :: cs)).map VNode.getPleaf)
    (hpp : putPost key value ps c lo (some r) (ps', t', sp)) :
    putChildPost key value ps (c :: cs) (r :: rs) lo hi (ps', t' :: cs, sp) := by
  rw [putPost] at hpp
  rw [putChildPost]
  cases sp with
  | none =>
      simp only [] at hpp ⊢
      obtain ⟨hwf, hpres, hagr, hhead, hheap, hpids⟩ := hpp
      simp only [leafPids] at hpids
      obtain ⟨hp1, hp2, hp3⟩ :=
        post_extend_right hpres hagr hhead hheap hagcs hnodup hpre hpids
      have hCL : childLeaves (r :: rs) (t' :: cs) none =
          sideLeaves t' none ++ leavesOfList cs := rfl
      rw [← hCL] at hp1 hp2 hp3
      refine ⟨?_, hp1, hp2, hhead, hheap, hp3⟩
      rw [chainW, Bool.and_eq_true, Bool.and_eq_true, Bool.and_eq_true]
      exact ⟨⟨⟨hlk, hhk⟩, hwf⟩, hch⟩
  | some p =>
      obtain ⟨sk, nn⟩ := p
      simp only [] at hpp ⊢
      obtain ⟨hwf, hpres, hagr, hhead, hheap, hpids⟩ := hpp
      obtain ⟨hwf1, hwf2, hlo, hhi, hstrict⟩ := hwf
      simp only [leafPids] at hpids
      obtain ⟨hp1, hp2, hp3⟩ :=
        post_extend_right hpres hagr hhead hheap hagcs hnodup hpre hpids
      have hltr : strLt sk r = true := hstrict r rfl
      have hler : strLe r sk = false := by
        cases hsr : strLe r sk
        · rfl
        · exact absurd hltr (strLe_iff_not_lt.mp hsr)
      have hins : insPos sk (r :: rs) = 0 := by
        rw [insPos, hler]
        rfl
      have hCL : childLeaves (r :: rs) (t' :: cs) (some (sk, nn)) =
          sideLeaves t' (some (sk, nn)) ++ leavesOfList cs := by
        show leavesOfList (insertAt (insPos sk (r :: rs) + 1) nn (t' :: cs)) =
          (leavesOf t' ++ leavesOf nn) ++ leavesOfList cs
        rw [hins]
        show leavesOf t' ++ (leavesOf nn ++ leavesOfList cs) =
          (leavesOf t' ++ leavesOf nn) ++ leavesOfList cs
        rw [List.append_assoc]
      rw [← hCL] at hp1 hp2 hp3
      refine ⟨?_, hp1, hp2, hhead, hheap, hp3⟩
      rw [hins]
      show chainW lo hi (sk :: r :: rs) (t' :: nn :: cs) = true
      rw [chainW, Bool.and_eq_true, Bool.and_eq_true, Bool.and_eq_true]
      refine ⟨⟨⟨hlo, hiOk_weaken hhk (strLe_of_lt hltr)⟩, hwf1⟩, ?_⟩
      rw [chainW, Bool.and_eq_true, Bool.and_eq_true, Bool.and_eq_true]
      exact ⟨⟨⟨hltr, hhk⟩, hwf2⟩, hch⟩

theorem assemble_child_succ {key value : Str} {ps : PState} {c : VNode}
    {cs : List VNode} {r : Str} {rs : List Str} {lo hi : Option Str}
    {ps' : PState} {cs2 : List VNode} {sp : Option (Str × VNode)}
    (hlk : loOk lo r = true) (hhk : hiOk hi r = true)
    (hwc : wfW lo (some r) c = true)
    (hagc : ∀ L ∈ leavesOf c, leafAgreeB ps L = true ∧
      leafIntegOk (VNode.getHashes L) (VNode.getKeys L) = true)
    (hnodup : ((leavesOfList (c :: cs)).map VNode.getPleaf).Nodup)
    (hpre : ∀ id ∈ ps.prealloc, id ∉ (leavesOfList (c :: cs)).map VNode.getPleaf)
    (hcp : putChildPost key value ps cs rs (some r) hi (ps', cs2, sp)) :
    putChildPost key value ps (c :: cs) (r :: rs) lo hi (ps', c :: cs2, sp) := by
  rw [putChildPost] at hcp
  rw [putChildPost]
  cases sp with
  | none =>
      simp only [] at hcp ⊢
      obtain ⟨hch, hpres, hagr, hhead, hheap, hpids⟩ := hcp
      obtain ⟨hp1, hp2, hp3⟩ :=
        post_extend_left hpres hagr hhead hheap hagc hnodup hpre hpids
      have hCL : childLeaves (r :: rs) (c :: cs2) none =
          leavesOf c ++ childLeaves rs cs2 none := rfl
      rw [← hCL] at hp1 hp2 hp3
      refine ⟨?_, hp1, hp2, hhead, hheap, hp3⟩
      rw [chainW, Bool.and_eq_true, Bool.and_eq_true, Bool.and_eq_true]
      exact ⟨⟨⟨hlk, hhk⟩, hwc⟩, hch⟩
  | some p =>
      obtain ⟨sk, nn⟩ := p
      simp only [] at hcp ⊢
      obtain ⟨hch, hpres, hagr, hhead, hheap, hpids⟩ := hcp
      obtain ⟨hp1, hp2, hp3⟩ :=
        post_extend_left hpres hagr hhead hheap hagc hnodup hpre hpids
      have hrsk : strLe r sk = true := by
        have hm : sk ∈ insertAt (insPos sk rs) sk rs := insertAt_mem _ _ _
        have hlo : loOk (some r) sk = true :=
          chainW_keys_loOk _ _ _ _ hch sk hm
        exact strLe_of_lt hlo
      have hins : insPos sk (r :: rs) = insPos sk rs + 1 := by
        rw [insPos, hrsk]
        rfl
      have hCL : childLeaves (r :: rs) (c :: cs2) (some (sk, nn)) =
          leavesOf c ++ childLeaves rs cs2 (some (sk, nn)) := by
        show leavesOfList (insertAt (insPos sk (r :: rs) + 1) nn (c :: cs2)) =
          leavesOf c ++ leavesOfList (insertAt (insPos sk rs + 1) nn cs2)
        rw [hins]
        show leavesOf c ++ leavesOfList (insertAt (insPos sk rs + 1) nn cs2) =
          leavesOf c ++ leavesOfList (insertAt (insPos sk rs + 1) nn cs2)
        rfl
      rw [← hCL] at hp1 hp2 hp3
      refine ⟨?_, hp1, hp2, hhead, hheap, hp3⟩
      rw [hins]
      show chainW lo hi (r :: insertAt (insPos sk rs) sk rs)
        (c :: insertAt (insPos sk rs + 1) nn cs2) = true
      rw [chainW, Bool.and_eq_true, Bool.and_eq_true, Bool.and_eq_true]
      exact ⟨⟨⟨hlk, hhk⟩, hwc⟩, hch⟩

theorem cons_of_len_succ {α : Type} : ∀ (l : List α) (n : Nat), l.length = n + 1 →
    ∃ a t, l = a :: t ∧ t.length = n
  | [], _, h => absurd h (by simp)
  | a :: t, n, h => ⟨a, t, rfl, by rw [List.length_cons] at h; omega⟩

/-! ## Assembling `putPost` of an inner node from its child postcondition -/

theorem assemble_inner_none {key value : Str} {ps : PState} {rkeys : List Str}
    {children : List VNode} {lo hi : Option Str} {ps' : PState} {cs' : List VNode}
    (hlen1 : 1 ≤ rkeys.length) (hlen4 : rkeys.length ≤ INNER_KEYS)
    (hcp : putChildPost key value ps children rkeys lo hi (ps', cs', none)) :
    putPost key value ps (VNode.inner rkeys children) lo hi
      (ps', VNode.inner rkeys cs', none) := by
  rw [putChildPost] at hcp
  rw [putPost]
  simp only [] at hcp ⊢
  obtain ⟨hch, hpres, hagr, hhead, hheap, hpids⟩ := hcp
  refine ⟨?_, ?_, ?_, hhead, hheap, ?_⟩
  · rw [wfW, Bool.and_eq_true, Bool.and_eq_true]
    exact ⟨⟨decide_eq_true hlen1, decide_eq_true hlen4⟩, hch⟩
  · exact hpres
  · exact hagr
  · simp only [leafPids, leavesOf]
    exact hpids

theorem assemble_inner_some {key value : Str} {ps : PState} {rkeys : List Str}
    {children cs' : List VNode} {sk : Str} {nn : VNode} {lo hi : Option Str} {ps' : PState}
    (hlen1 : 1 ≤ rkeys.length) (hlen4 : rkeys.length ≤ INNER_KEYS)
    (hcp : putChildPost key value ps children rkeys lo hi (ps', cs', some (sk, nn))) :
    putPost key value ps (VNode.inner rkeys children) lo hi
      (ps', (absorbSplit rkeys cs' sk nn).1, (absorbSplit rkeys cs' sk nn).2) := by
  rw [putChildPost] at hcp
  rw [putPost]
  simp only [] at hcp
  obtain ⟨hch, hpres, hagr, hhead, hheap, hpids⟩ := hcp
  by_cases hovf : (insertAt (insPos sk rkeys) sk rkeys).length ≤ INNER_KEYS
  · have habs : absorbSplit rkeys cs' sk nn =
        (VNode.inner (insertAt (insPos sk rkeys) sk rkeys)
          (insertAt (insPos sk rkeys + 1) nn cs'), none) := by
      rw [absorbSplit]
      rw [if_pos hovf]
    rw [habs]
    refine ⟨?_, ?_, ?_, hhead, hheap, ?_⟩
    · rw [wfW, Bool.and_eq_true, Bool.and_eq_true]
      refine ⟨⟨?_, decide_eq_true hovf⟩, hch⟩
      apply decide_eq_true
      rw [insertAt_length]
      omega
    · exact hpres
    · exact hagr
    · simp only [leafPids, leavesOf]
      exact hpids
  · have hIK : INNER_KEYS = 4 := rfl
    have hlen5 : (insertAt (insPos sk rkeys) sk rkeys).length = 5 := by
      rw [insertAt_length] at hovf ⊢
      rw [hIK] at hovf hlen4
      omega
    have hclen : (insertAt (insPos sk rkeys + 1) nn cs').length = 6 := by
      have h6 := chainW_length _ _ _ _ hch
      rw [hlen5] at h6
      exact h6
    obtain ⟨a, t1, hrk1, ht1⟩ := cons_of_len_succ _ _ hlen5
    obtain ⟨b, t2, hrk2, ht2⟩ := cons_of_len_succ _ _ ht1
    obtain ⟨m, t3, hrk3, ht3⟩ := cons_of_len_succ _ _ ht2
    obtain ⟨d, t4, hrk4, ht4⟩ := cons_of_len_succ _ _ ht3
    obtain ⟨e, t5, hrk5, ht5⟩ := cons_of_len_succ _ _ ht4
    have ht5n : t5 = [] := List.length_eq_zero.mp ht5
    have hrk : insertAt (insPos sk rkeys) sk rkeys = [a, b, m, d, e] := by
      rw [hrk1, hrk2, hrk3, hrk4, hrk5, ht5n]
    obtain ⟨c0, u1, hck1, hu1⟩ := cons_of_len_succ _ _ hclen
    obtain ⟨c1, u2, hck2, hu2⟩ := cons_of_len_succ _ _ hu1
    obtain ⟨c2, u3, hck3, hu3⟩ := cons_of_len_succ _ _ hu2
    obtain ⟨c3, u4, hck4, hu4⟩ := cons_of_len_succ _ _ hu3
    obtain ⟨c4, u5, hck5, hu5⟩ := cons_of_len_succ _ _ hu4
    obtain ⟨c5, u6, hck6, hu6⟩ := cons_of_len_succ _ _ hu5
    have hu6n : u6 = [] := List.length_eq_zero.mp hu6
    have hck : insertAt (insPos sk rkeys + 1) nn cs' = [c0, c1, c2, c3, c4, c5] := by
      rw [hck1, hck2, hck3, hck4, hck5, hck6, hu6n]
    rw [hrk, hck] at hch
    rw [chainW, Bool.and_eq_true, Bool.and_eq_true, Bool.and_eq_true] at hch
    obtain ⟨⟨⟨hloa, hhia⟩, hwf0⟩, hch⟩ := hch
    rw [chainW, Bool.and_eq_true, Bool.and_eq_true, Bool.and_eq_true] at hch
    obtain ⟨⟨⟨hab, hhib⟩, hwf1⟩, hch⟩ := hch
    rw [chainW, Bool.and_eq_true, Bool.and_eq_true, Bool.and_eq_true] at hch
    obtain ⟨⟨⟨hbm, hhim⟩, hwf2⟩, hch⟩ := hch
    rw [chainW, Bool.and_eq_true, Bool.and_eq_true, Bool.and_eq_true] at hch
    obtain ⟨⟨⟨hmd, hhid⟩, hwf3⟩, hch⟩ := hch
    rw [chainW, Bool.and_eq_true, Bool.and_eq_true, Bool.and_eq_true] at hch
    obtain ⟨⟨⟨hde, hhie⟩, hwf4⟩, hch⟩ := hch
    have hab2 : strLt a b = true := hab
    have hbm2 : strLt b m = true := hbm
    have hmd2 : strLt m d = true := hmd
    have hde2 : strLt d e = true := hde
    have habs : absorbSplit rkeys cs' sk nn =
        (VNode.inner [a, b] [c0, c1, c2],
         some (m, VNode.inner [d, e] [c3, c4, c5])) := by
      rw [absorbSplit]
      rw [hrk, hck, if_neg (show ¬ ([a, b, m, d, e] : List Str).length ≤ INNER_KEYS by
        rw [show ([a, b, m, d, e] : List Str).length = 5 from rfl]
        decide)]
      rfl
    rw [habs]
    have hsplit6 : leavesOfList [c0, c1, c2, c3, c4, c5] =
        leavesOfList [c0, c1, c2] ++ leavesOfList [c3, c4, c5] := by
      rw [show ([c0, c1, c2, c3, c4, c5] : List VNode) =
        [c0, c1, c2] ++ [c3, c4, c5] from rfl, leavesOfList_append]
    have hCLdef : childLeaves rkeys cs' (some (sk, nn)) =
        leavesOfList [c0, c1, c2, c3, c4, c5] := by
      rw [childLeaves, hck]
    rw [hCLdef, hsplit6] at hpres hagr hpids
    refine ⟨⟨?_, ?_, ?_, hhim, ?_⟩, ?_, ?_, hhead, hheap, ?_⟩
    · rw [wfW, Bool.and_eq_true, Bool.and_eq_true]
      refine ⟨⟨decide_eq_true ?_, decide_eq_true ?_⟩, ?_⟩
      · show 1 ≤ 2
        decide
      · show 2 ≤ INNER_KEYS
        decide
      rw [chainW, Bool.and_eq_true, Bool.and_eq_true, Bool.and_eq_true]
      refine ⟨⟨⟨hloa, strLe_of_lt (strLt_trans hab2 hbm2)⟩, hwf0⟩, ?_⟩
      rw [chainW, Bool.and_eq_true, Bool.and_eq_true, Bool.and_eq_true]
      exact ⟨⟨⟨hab2, strLe_of_lt hbm2⟩, hwf1⟩, hwf2⟩
    · rw [wfW, Bool.and_eq_true, Bool.and_eq_true]
      refine ⟨⟨decide_eq_true ?_, decide_eq_true ?_⟩, ?_⟩
      · show 1 ≤ 2
        decide
      · show 2 ≤ INNER_KEYS
        decide
      rw [chainW, Bool.and_eq_true, Bool.and_eq_true, Bool.and_eq_true]
      refine ⟨⟨⟨hmd2, hhid⟩, hwf3⟩, ?_⟩
      rw [chainW, Bool.and_eq_true, Bool.and_eq_true, Bool.and_eq_true]
      exact ⟨⟨⟨hde2, hhie⟩, hwf4⟩, hch⟩
    · exact loOk_weaken (loOk_weaken hloa hab2) hbm2
    · intro b' hb'
      rw [hb'] at hhid
      exact strLt_of_lt_of_le hmd2 hhid
    · exact hpres
    · exact hagr
    · simp only [leafPids, leavesOf]
      exact hpids

/-! ## The main `putRec` postcondition -/

mutual

theorem putRec_spec (key value : Str) (hk32 : key.length < 4294967296) :
    ∀ (t : VNode) (ps : PState) (lo hi : Option Str),
      wfW lo hi t = true → inWin lo hi key = true →
      (∀ L ∈ leavesOf t, leafAgreeB ps L = true ∧
        leafIntegOk (VNode.getHashes L) (VNode.getKeys L) = true) →
      ((leavesOf t).map VNode.getPleaf).Nodup →
      psOkB ps = true →
      (∀ id ∈ ps.prealloc, id ∉ (leavesOf t).map VNode.getPleaf) →
      putPost key value ps t lo hi (putRec (PearsonHash key) key value ps t)
  | VNode.leaf h k pid, ps, lo, hi, hw, hkwin, hagree, hnodup, hps, hpre => by
      have hmem : VNode.leaf h k pid ∈ leavesOf (VNode.leaf h k pid) :=
        List.mem_singleton_self _
      have hag : leafAgreeB ps (VNode.leaf h k pid) = true := (hagree _ hmem).1
      have hint2 : leafIntegOk h k = true := (hagree _ hmem).2
      have hpidpre : pid ∉ ps.prealloc := fun hc =>
        hpre pid hc (show pid ∈ [pid] from List.mem_singleton_self _)
      rcases hscan : scanSlots h k (PearsonHash key) key with ⟨o1, o2⟩
      cases o1 with
      | some s => exact putPost_overwrite hk32 hw hag hint2 hps hscan
      | none =>
          cases o2 with
          | some s => exact putPost_fill hk32 hw hkwin hag hint2 hps hscan
          | none => exact putPost_split hk32 hw hkwin hag hint2 hps hpidpre hscan
  | VNode.inner rkeys children, ps, lo, hi, hw, hkwin, hagree, hnodup, hps, hpre => by
      rw [wfW, Bool.and_eq_true, Bool.and_eq_true] at hw
      obtain ⟨⟨hl1, hl4⟩, hchain⟩ := hw
      have hl1' : 1 ≤ rkeys.length := of_decide_eq_true hl1
      have hl4' : rkeys.length ≤ INNER_KEYS := of_decide_eq_true hl4
      rw [inWin, Bool.and_eq_true] at hkwin
      obtain ⟨hklo, hkhi⟩ := hkwin
      have hcp := putRecChild_spec key value hk32 (descIdx key rkeys) children rkeys
        ps lo hi hchain rfl hklo hkhi hagree hnodup hps hpre
      rcases hres : putRecChild (PearsonHash key) key value ps (descIdx key rkeys) children
        with ⟨ps2, cs2, sp⟩
      rw [hres] at hcp
      cases sp with
      | none =>
          have hpr : putRec (PearsonHash key) key value ps (VNode.inner rkeys children) =
              (ps2, VNode.inner rkeys cs2, none) := by
            rw [putRec, hres]
          rw [hpr]
          exact assemble_inner_none hl1' hl4' hcp
      | some p =>
          obtain ⟨sk, nn⟩ := p
          have hpr : putRec (PearsonHash key) key value ps (VNode.inner rkeys children) =
              (ps2, (absorbSplit rkeys cs2 sk nn).1, (absorbSplit rkeys cs2 sk nn).2) := by
            rw [putRec, hres]
          rw [hpr]
          exact assemble_inner_some hl1' hl4' hcp

theorem putRecChild_spec (key value : Str) (hk32 : key.length < 4294967296) :
    ∀ (i : Nat) (cs : List VNode) (rs : List Str) (ps : PState) (lo hi : Option Str),
      chainW lo hi rs cs = true → i = descIdx key rs →
      loOk lo key = true → hiOk hi key = true →
      (∀ L ∈ leavesOfList cs, leafAgreeB ps L = true ∧
        leafIntegOk (VNode.getHashes L) (VNode.getKeys L) = true) →
      ((leavesOfList cs).map VNode.getPleaf).Nodup →
      psOkB ps = true →
      (∀ id ∈ ps.prealloc, id ∉ (leavesOfList cs).map VNode.getPleaf) →
      putChildPost key value ps cs rs lo hi (putRecChild (PearsonHash key) key value ps i cs)
  | i, [], rs, ps, lo, hi, hch, hidx, hklo, hkhi, hagree, hnodup, hps, hpre => by
      cases rs with
      | nil => exact absurd hch Bool.false_ne_true
      | cons r rs' => exact absurd hch Bool.false_ne_true
  | 0, c :: cs, rs, ps, lo, hi, hch, hidx, hklo, hkhi, hagree, hnodup, hps, hpre => by
      cases rs with
      | nil =>
          cases cs with
          | nil =>
              have hw : wfW lo hi c = true := hch
              have hkwin : inWin lo hi key = true := by
                rw [inWin, Bool.and_eq_true]
                exact ⟨hklo, hkhi⟩
              have hagc : ∀ L ∈ leavesOf c, leafAgreeB ps L = true ∧
                  leafIntegOk (VNode.getHashes L) (VNode.getKeys L) = true :=
                fun L hL => hagree L (by
                  rw [leavesOfList]
                  exact List.mem_append_left _ hL)
              have hnodc : ((leavesOf c).map VNode.getPleaf).Nodup := by
                have hna := hnodup
                rw [leavesOfList, List.map_append] at hna
                exact (List.nodup_append.mp hna).1
              have hprec : ∀ id ∈ ps.prealloc, id ∉ (leavesOf c).map VNode.getPleaf :=
                fun id hid hm => hpre id hid (by
                  rw [leavesOfList, List.map_append]
                  exact List.mem_append_left _ hm)
              have hpp := putRec_spec key value hk32 c ps lo hi hw hkwin hagc hnodc hps hprec
              rcases hres : putRec (PearsonHash key) key value ps c with ⟨ps2, t2, sp⟩
              rw [hres] at hpp
              have hpr : putRecChild (PearsonHash key) key value ps 0 [c] =
                  (ps2, [t2], sp) := by
                rw [putRecChild, hres]
              rw [hpr]
              exact assemble_child_zero_nil hnodup hpre hpp
          | cons c2 cs' => exact absurd hch Bool.false_ne_true
      | cons r rs' =>
          rw [chainW, Bool.and_eq_true, Bool.and_eq_true, Bool.and_eq_true] at hch
          obtain ⟨⟨⟨hlor, hhir⟩, hwc⟩, hcrest⟩ := hch
          have hkr : strLe key r = true := by
            cases hsr : strLe key r
            · rw [descIdx, if_neg (by rw [hsr]; exact Bool.false_ne_true)] at hidx
              omega
            · rfl
          have hkwin : inWin lo (some r) key = true := by
            rw [inWin, Bool.and_eq_true]
            exact ⟨hklo, hkr⟩
          have hagc : ∀ L ∈ leavesOf c, leafAgreeB ps L = true ∧
              leafIntegOk (VNode.getHashes L) (VNode.getKeys L) = true :=
            fun L hL => hagree L (by
              rw [leavesOfList]
              exact List.mem_append_left _ hL)
          have hagcs : ∀ L ∈ leavesOfList cs, leafAgreeB ps L = true ∧
              leafIntegOk (VNode.getHashes L) (VNode.getKeys L) = true :=
            fun L hL => hagree L (by
              rw [leavesOfList]
              exact List.mem_append_right _ hL)
          have hnodc : ((leavesOf c).map VNode.getPleaf).Nodup := by
            have hna := hnodup
            rw [leavesOfList, List.map_append] at hna
            exact (List.nodup_append.mp hna).1
          have hprec : ∀ id ∈ ps.prealloc, id ∉ (leavesOf c).map VNode.getPleaf :=
            fun id hid hm => hpre id hid (by
              rw [leavesOfList, List.map_append]
              exact List.mem_append_left _ hm)
          have hpp := putRec_spec key value hk32 c ps lo (some r) hwc hkwin hagc hnodc hps hprec
          rcases hres : putRec (PearsonHash key) key value ps c with ⟨ps2, t2, sp⟩
          rw [hres] at hpp
          have hpr : putRecChild (PearsonHash key) key value ps 0 (c :: cs) =
              (ps2, t2 :: cs, sp) := by
            rw [putRecChild, hres]
          rw [hpr]
          exact assemble_child_zero_cons hlor hhir hcrest hagcs hnodup hpre hpp
  | i + 1, c :: cs, rs, ps, lo, hi, hch, hidx, hklo, hkhi, hagree, hnodup, hps, hpre => by
      cases rs with
      | nil =>
          rw [descIdx] at hidx
          omega
      | cons r rs' =>
          rw [chainW, Bool.and_eq_true, Bool.and_eq_true, Bool.and_eq_true] at hch
          obtain ⟨⟨⟨hlor, hhir⟩, hwc⟩, hcrest⟩ := hch
          have hnkr : strLe key r = false := by
            cases hsr : strLe key r
            · rfl
            · rw [descIdx, if_pos hsr] at hidx
              omega
          have hidx' : i = descIdx key rs' := by
            rw [descIdx, if_neg (by rw [hnkr]; exact Bool.false_ne_true)] at hidx
            omega
          have hklo' : loOk (some r) key = true := by
            show strLt r key = true
            exact strLt_iff_not_le.mpr (by
              intro hc
              rw [hnkr] at hc
              exact absurd hc Bool.false_ne_true)
          have hagc : ∀ L ∈ leavesOf c, leafAgreeB ps L = true ∧
              leafIntegOk (VNode.getHashes L) (VNode.getKeys L) = true :=
            fun L hL => hagree L (by
              rw [leavesOfList]
              exact List.mem_append_left _ hL)
          have hagcs : ∀ L ∈ leavesOfList cs, leafAgreeB ps L = true ∧
              leafIntegOk (VNode.getHashes L) (VNode.getKeys L) = true :=
            fun L hL => hagree L (by
              rw [leavesOfList]
              exact List.mem_append_right _ hL)
          have hnodcs : ((leavesOfList cs).map VNode.getPleaf).Nodup := by
            have hna := hnodup
            rw [leavesOfList, List.map_append] at hna
            exact (List.nodup_append.mp hna).2.1
          have hprecs : ∀ id ∈ ps.prealloc, id ∉ (leavesOfList cs).map VNode.getPleaf :=
            fun id hid hm => hpre id hid (by
              rw [leavesOfList, List.map_append]
              exact List.mem_append_right _ hm)
          have hcp := putRecChild_spec key value hk32 i cs rs' ps (some r) hi
            hcrest hidx' hklo' hkhi hagcs hnodcs hps hprecs
          rcases hres : putRecChild (PearsonHash key) key value ps i cs with ⟨ps2, cs2, sp⟩
          rw [hres] at hcp
          have hpr : putRecChild (PearsonHash key) key value ps (i + 1) (c :: cs) =
              (ps2, c :: cs2, sp) := by
            rw [putRecChild, hres]
          rw [hpr]
          exact assemble_child_succ hlor hhir hwc hagc hnodup hpre hcp

end

/-! ## Count deltas of the `put` pool transformations -/

theorem slotAgree_live {ps : PState} {pid slot : Nat} {h : List Nat} {k : List Str}
    (hsa : slotAgree ps pid slot h k = true)
    (hls : h.getD slot 0 ≠ 0) :
    slotLive ((getLeafP ps pid).slots.getD slot none) = true := by
  rw [slotAgree] at hsa
  cases hp : (getLeafP ps pid).slots.getD slot none with
  | none =>
      rw [hp] at hsa
      rw [beq_iff_eq] at hsa
      exact absurd hsa hls
  | some p =>
      rw [hp] at hsa
      have hz : (h.getD slot 0 == 0) = false := by
        rw [beq_eq_false_iff_ne]
        exact hls
      rw [hz] at hsa
      simp only [Bool.false_eq_true, if_false, Bool.and_eq_true, beq_iff_eq] at hsa
      rw [slotLive, bne_iff_ne, hsa.1]
      exact hls

theorem slotAgree_dead_zero {ps : PState} {pid slot : Nat} {h : List Nat} {k : List Str}
    (hsa : slotAgree ps pid slot h k = true)
    (hz : h.getD slot 0 = 0) :
    slotLive ((getLeafP ps pid).slots.getD slot none) = false := by
  rw [slotAgree] at hsa
  cases hp : (getLeafP ps pid).slots.getD slot none with
  | none => rfl
  | some p =>
      rw [hp] at hsa
      have hzz : (h.getD slot 0 == 0) = true := by
        rw [beq_iff_eq]
        exact hz
      rw [hzz] at hsa
      simp only [if_true, beq_iff_eq] at hsa
      show (KVSlot.get_ph p != 0) = false
      rw [hsa]
      rfl

theorem countSlots_set (lf : KVLeaf) (slot : Nat) (v : Option Payload)
    (hs : slot < LEAF_KEYS) (hlen : lf.slots.length = LEAF_KEYS) :
    countSlots (⟨lf.slots.set slot v⟩ : KVLeaf) descRange +
      (if slotLive (lf.slots.getD slot none) then 1 else 0) =
    countSlots lf descRange + (if slotLive v then 1 else 0) := by
  rw [countSlots_eq_countP, countSlots_eq_countP]
  have hu := @countP_update_one (fun s => slotLive (lf.slots.getD s none))
    (fun s => slotLive ((lf.slots.set slot v).getD s none))
    descRange descRange_nodup slot (mem_descRange.mpr hs)
    (fun x _ hxne => by
      show slotLive ((lf.slots.set slot v).getD x none) = slotLive (lf.slots.getD x none)
      rw [getD_set_ne _ _ _ _ _ (fun he => hxne he.symm)])
  simp only [] at hu ⊢
  simp only [getD_set_self _ _ _ _ (show slot < lf.slots.length by rw [hlen]; exact hs)] at hu
  omega

theorem countSlots_dead {lf : KVLeaf}
    (hd : ∀ s, s < LEAF_KEYS → slotLive (lf.slots.getD s none) = false) :
    countSlots lf descRange = 0 := by
  rw [countSlots_eq_countP, List.countP_eq_zero]
  intro a ha
  rw [hd a (mem_descRange.mp ha)]
  exact Bool.false_ne_true

theorem sumHead_setLeaf {ps : PState} {pid : Nat} (slots : List (Option Payload))
    (hnd : ps.head.Nodup) (hmem : pid ∈ ps.head) (hpid : pid < ps.heap.length) :
    sumHead (setLeafSlots ps pid slots) + countSlots (getLeafP ps pid) descRange =
      sumHead ps + countSlots (⟨slots⟩ : KVLeaf) descRange := by
  rw [sumHead, sumHead, setLeafSlots_head]
  have hsm := @sum_map_update (fun id => countSlots (getLeafP ps id) descRange)
    (fun id => countSlots (getLeafP (setLeafSlots ps pid slots) id) descRange)
    ps.head hnd pid hmem
    (fun id _ hne => by
      show countSlots (getLeafP (setLeafSlots ps pid slots) id) descRange =
        countSlots (getLeafP ps id) descRange
      rw [getLeafP_setLeafSlots_ne _ _ _ _ (fun he => hne he.symm)])
  simp only [] at hsm
  rw [getLeafP_setLeafSlots_self _ _ _ hpid] at hsm
  exact hsm

theorem allocLeaf_head_nodup {ps : PState} (hps : psOkB ps = true) :
    (allocLeaf ps).2.head.Nodup := by
  obtain ⟨hheaplen, hheadnd, hheadlt, hprend, hpreok⟩ := psOkB_iff.mp hps
  rcases allocLeaf_spec ps with ⟨nid0, hlast, heq⟩ | ⟨hlast, heq⟩
  · rw [heq]
    exact hheadnd
  · rw [heq]
    show (ps.heap.length :: ps.head).Nodup
    rw [List.nodup_cons]
    exact ⟨fun hmem => Nat.lt_irrefl _ (hheadlt _ hmem), hheadnd⟩

theorem sumHead_alloc {ps : PState} (hps : psOkB ps = true) :
    sumHead (allocLeaf ps).2 = sumHead ps := by
  obtain ⟨hheaplen, hheadnd, hheadlt, hprend, hpreok⟩ := psOkB_iff.mp hps
  rcases allocLeaf_spec ps with ⟨nid0, hlast, heq⟩ | ⟨hlast, heq⟩
  · rw [heq]
    rfl
  · have hfresh := allocLeaf_getLeaf_fresh ps hlast
    have hhead2 : (allocLeaf ps).2.head = ps.heap.length :: ps.head := by rw [heq]
    have h1 : (allocLeaf ps).1 = ps.heap.length := by rw [heq]
    have hframe : ∀ id, id ≠ (allocLeaf ps).1 →
        getLeafP (allocLeaf ps).2 id = getLeafP ps id :=
      (allocLeaf_facts hps).2.2.2.2.1
    rw [sumHead, hhead2, List.map_cons, List.sum_cons]
    have hz : countSlots (getLeafP (allocLeaf ps).2 ps.heap.length) descRange = 0 := by
      rw [← h1, hfresh]
      exact countSlots_dead fun s hs => by
        show slotLive ((List.replicate LEAF_KEYS (none : Option Payload)).getD s none) = false
        rw [List.getD_eq_getElem?_getD, List.getElem?_replicate]
        simp only [hs, if_pos]
        rfl
    have hrest : (ps.head.map fun id => countSlots (getLeafP (allocLeaf ps).2 id) descRange) =
        ps.head.map fun id => countSlots (getLeafP ps id) descRange :=
      List.map_congr_left fun id hid => by
        have hne : id ≠ (allocLeaf ps).1 := by
          intro he
          have hlt := hheadlt id hid
          rw [he, h1] at hlt
          exact Nat.lt_irrefl _ hlt
        rw [hframe id hne]
    rw [hz, hrest, sumHead]
    omega

theorem countSlots_swap {sk : Str} {k : List Str} {oslots nslots : List (Option Payload)} :
    countSlots (⟨migOrigSlots sk k oslots nslots⟩ : KVLeaf) descRange +
      countSlots (⟨migNewSlots sk k oslots nslots⟩ : KVLeaf) descRange =
    countSlots (⟨oslots⟩ : KVLeaf) descRange +
      countSlots (⟨nslots⟩ : KVLeaf) descRange := by
  rw [countSlots_eq_countP, countSlots_eq_countP, countSlots_eq_countP, countSlots_eq_countP]
  apply countP_sum_pointwise
  intro x hx
  have hxlt := mem_descRange.mp hx
  simp only []
  rw [migOrigSlots_getD sk k oslots nslots hxlt, migNewSlots_getD sk k oslots nslots hxlt]
  by_cases hgs : strGt (k.getD x []) sk = true
  · rw [if_pos hgs, if_pos hgs, Nat.add_comm]
  · rw [if_neg hgs, if_neg hgs]


theorem sumHead_leafPutPs {key value : Str} {ps : PState} {h : List Nat} {k : List Str}
    {pid : Nat} {lo hi : Option Str}
    (hw : wfW lo hi (VNode.leaf h k pid) = true)
    (hagree : leafAgreeB ps (VNode.leaf h k pid) = true)
    (hinteg : leafIntegOk h k = true)
    (hps : psOkB ps = true)
    (hpidpre : pid ∉ ps.prealloc) :
    ((findSlot h k (PearsonHash key) key).isSome = true →
      sumHead (leafPutPs (PearsonHash key) key value ps h k pid) = sumHead ps) ∧
    ((findSlot h k (PearsonHash key) key).isSome = false →
      sumHead (leafPutPs (PearsonHash key) key value ps h k pid) = sumHead ps + 1) := by
  rw [leafAgreeB_iff] at hagree
  obtain ⟨hpidlt, hpidhead, hslots⟩ := hagree
  obtain ⟨hheaplen, hheadnd, hheadlt, hprend, hpreok⟩ := psOkB_iff.mp hps
  have hlen48 : (getLeafP ps pid).slots.length = LEAF_KEYS := getLeafP_slots_length hps hpidlt
  have hpaylive : slotLive (some (KVSlot.set (PearsonHash key) key value)) = true := by
    show (KVSlot.get_ph (KVSlot.set (PearsonHash key) key value) != 0) = true
    rw [KVSlot.get_ph_set (PearsonHash key) (PearsonHash_lt key) key value, bne_iff_ne]
    exact PearsonHash_ne_zero key
  rcases hscan : scanSlots h k (PearsonHash key) key with ⟨o1, o2⟩
  cases o1 with
  | some s =>
      obtain ⟨hslt, hsh, hsk⟩ := scanSlots_found (s := s) (by rw [hscan])
      have hfindT : (findSlot h k (PearsonHash key) key).isSome = true := by
        rw [findSlot, List.find?_isSome]
        exact ⟨s, mem_descRange.mpr hslt, by
          rw [Bool.and_eq_true, beq_iff_eq, beq_iff_eq]
          exact ⟨hsh, hsk⟩⟩
      have hlp : leafPutPs (PearsonHash key) key value ps h k pid =
          setLeafSlots ps pid ((getLeafP ps pid).slots.set s
            (some (KVSlot.set (PearsonHash key) key value))) := by
        rw [leafPutPs, hscan]
        rfl
      have hold : slotLive ((getLeafP ps pid).slots.getD s none) = true :=
        slotAgree_live (hslots s hslt) (by rw [hsh]; exact PearsonHash_ne_zero key)
      have h1 := sumHead_setLeaf ((getLeafP ps pid).slots.set s
        (some (KVSlot.set (PearsonHash key) key value))) hheadnd hpidhead hpidlt
      have h2 := countSlots_set (getLeafP ps pid) s
        (some (KVSlot.set (PearsonHash key) key value)) hslt hlen48
      have e1 : (if slotLive ((getLeafP ps pid).slots.getD s none) = true
          then 1 else 0) = 1 := if_pos hold
      have e2 : (if slotLive (some (KVSlot.set (PearsonHash key) key value)) = true
          then 1 else 0) = 1 := if_pos hpaylive
      rw [e1, e2] at h2
      constructor
      · intro hdummy
        rw [hlp]
        omega
      · intro hc
        rw [hfindT] at hc
        exact absurd hc.symm Bool.false_ne_true
  | none =>
      cases o2 with
      | some s =>
          obtain ⟨hslt, hsz⟩ := scanSlots_empty (s := s) (by rw [hscan])
          have hfindN : findSlot h k (PearsonHash key) key = none :=
            scanSlots_miss_findSlot_none (PearsonHash_ne_zero key) (by rw [hscan])
          have hlp : leafPutPs (PearsonHash key) key value ps h k pid =
              setLeafSlots ps pid ((getLeafP ps pid).slots.set s
                (some (KVSlot.set (PearsonHash key) key value))) := by
            rw [leafPutPs, hscan]
            rfl
          have hdead : slotLive ((getLeafP ps pid).slots.getD s none) = false :=
            slotAgree_dead_zero (hslots s hslt) hsz
          have h1 := sumHead_setLeaf ((getLeafP ps pid).slots.set s
            (some (KVSlot.set (PearsonHash key) key value))) hheadnd hpidhead hpidlt
          have h2 := countSlots_set (getLeafP ps pid) s
            (some (KVSlot.set (PearsonHash key) key value)) hslt hlen48
          have e1 : (if slotLive ((getLeafP ps pid).slots.getD s none) = true
              then 1 else 0) = 0 :=
            if_neg (by
              intro hc
              rw [hdead] at hc
              exact Bool.false_ne_true hc)
          have e2 : (if slotLive (some (KVSlot.set (PearsonHash key) key value)) = true
              then 1 else 0) = 1 := if_pos hpaylive
          rw [e1, e2] at h2
          constructor
          · intro hc
            rw [hfindN] at hc
            exact absurd hc Bool.false_ne_true
          · intro hdummy
            rw [hlp]
            omega
      | none =>
          have hfindN : findSlot h k (PearsonHash key) key = none :=
            scanSlots_miss_findSlot_none (PearsonHash_ne_zero key) (by rw [hscan])
          have hfull : ∀ s2, s2 < LEAF_KEYS → h.getD s2 0 ≠ 0 := scanSlots_full hscan
          rw [wfW, leafWinOk_iff] at hw
          obtain ⟨hhlen, hklen, hndlive, hwin⟩ := hw
          have hlive_eq : liveKeysLeaf h k = k := liveKeysLeaf_all_live hfull hklen
          have hnd : k.Nodup := by
            rw [← hlive_eq]
            exact hndlive
          have hnew : key ∉ k := by
            rw [← hlive_eq]
            exact key_not_live_of_scan_miss hinteg (by rw [hscan])
          have hnodupAll : (all49 k key).Nodup := all49_nodup hnd hnew
          have hprevalid : ∀ id ∈ ps.prealloc, id < ps.heap.length :=
            fun id hid => (hpreok id hid).2.1
          obtain ⟨hniddead, hnidmem, hheadmono, hheaple, hallocframe, hnidorigin, hnidslen⟩ :=
            allocLeaf_facts hps
          have hnidlt : (allocLeaf ps).1 < (allocLeaf ps).2.heap.length := allocLeaf_id_lt ps hprevalid
          have hpidlt1 : pid < (allocLeaf ps).2.heap.length :=
            Nat.lt_of_lt_of_le hpidlt (allocLeaf_heap_le ps)
          have hne : (allocLeaf ps).1 ≠ pid := allocLeaf_ne ps pid hpidlt hpidpre
          have hskdef : (sortKeys (k ++ [key])).getD LEAF_KEYS_MIDPOINT [] = splitKeyOf k key := rfl
          have hcnt := split_count_cases k key hklen hnodupAll
          have hlp0 : leafPutPs (PearsonHash key) key value ps h k pid =
              (splitLeaf ps h k pid (PearsonHash key) key value).1 := by
            rw [leafPutPs, hscan]
          have hhead1nd : (allocLeaf ps).2.head.Nodup := allocLeaf_head_nodup hps
          have hpidmem1 : pid ∈ (allocLeaf ps).2.head := hheadmono pid hpidhead
          have hS1 : sumHead (allocLeaf ps).2 = sumHead ps := sumHead_alloc hps
          have hA := sumHead_setLeaf (migOrigSlots (splitKeyOf k key) k (getLeafP (allocLeaf ps).2 pid).slots (getLeafP (allocLeaf ps).2 (allocLeaf ps).1).slots) hhead1nd hpidmem1 hpidlt1
          have hAhead : (setLeafSlots (allocLeaf ps).2 pid (migOrigSlots (splitKeyOf k key) k (getLeafP (allocLeaf ps).2 pid).slots (getLeafP (allocLeaf ps).2 (allocLeaf ps).1).slots)).head = (allocLeaf ps).2.head := setLeafSlots_head _ _ _
          have hAnodup : (setLeafSlots (allocLeaf ps).2 pid (migOrigSlots (splitKeyOf k key) k (getLeafP (allocLeaf ps).2 pid).slots (getLeafP (allocLeaf ps).2 (allocLeaf ps).1).slots)).head.Nodup := by
            rw [hAhead]
            exact hhead1nd
          have hAnidmem : (allocLeaf ps).1 ∈ (setLeafSlots (allocLeaf ps).2 pid (migOrigSlots (splitKeyOf k key) k (getLeafP (allocLeaf ps).2 pid).slots (getLeafP (allocLeaf ps).2 (allocLeaf ps).1).slots)).head := by
            rw [hAhead]
            exact hnidmem
          have hAnidlt : (allocLeaf ps).1 < (setLeafSlots (allocLeaf ps).2 pid (migOrigSlots (splitKeyOf k key) k (getLeafP (allocLeaf ps).2 pid).slots (getLeafP (allocLeaf ps).2 (allocLeaf ps).1).slots)).heap.length := by
            rw [setLeafSlots_heap_length]
            exact hnidlt
          have hB := sumHead_setLeaf (migNewSlots (splitKeyOf k key) k (getLeafP (allocLeaf ps).2 pid).slots (getLeafP (allocLeaf ps).2 (allocLeaf ps).1).slots) hAnodup hAnidmem hAnidlt
          have hgnidA : getLeafP (setLeafSlots (allocLeaf ps).2 pid (migOrigSlots (splitKeyOf k key) k (getLeafP (allocLeaf ps).2 pid).slots (getLeafP (allocLeaf ps).2 (allocLeaf ps).1).slots)) (allocLeaf ps).1 = getLeafP (allocLeaf ps).2 (allocLeaf ps).1 :=
            getLeafP_setLeafSlots_ne _ _ _ _ (fun he => hne he.symm)
          rw [hgnidA] at hB
          have hswap := @countSlots_swap (splitKeyOf k key) k (getLeafP (allocLeaf ps).2 pid).slots (getLeafP (allocLeaf ps).2 (allocLeaf ps).1).slots
          have hOSeq : countSlots (⟨(getLeafP (allocLeaf ps).2 pid).slots⟩ : KVLeaf) descRange =
              countSlots (getLeafP (allocLeaf ps).2 pid) descRange := rfl
          have hNSeq : countSlots (⟨(getLeafP (allocLeaf ps).2 (allocLeaf ps).1).slots⟩ : KVLeaf) descRange =
              countSlots (getLeafP (allocLeaf ps).2 (allocLeaf ps).1) descRange := rfl
          have hNSz : countSlots (getLeafP (allocLeaf ps).2 (allocLeaf ps).1) descRange = 0 :=
            countSlots_dead (fun s2 hs2 => hniddead s2 hs2)
          have hps2head : ((setLeafSlots (setLeafSlots (allocLeaf ps).2 pid (migOrigSlots (splitKeyOf k key) k (getLeafP (allocLeaf ps).2 pid).slots (getLeafP (allocLeaf ps).2 (allocLeaf ps).1).slots)) (allocLeaf ps).1 (migNewSlots (splitKeyOf k key) k (getLeafP (allocLeaf ps).2 pid).slots (getLeafP (allocLeaf ps).2 (allocLeaf ps).1).slots))).head = (allocLeaf ps).2.head := by
            rw [setLeafSlots_head, setLeafSlots_head]
          have hps2nodup : ((setLeafSlots (setLeafSlots (allocLeaf ps).2 pid (migOrigSlots (splitKeyOf k key) k (getLeafP (allocLeaf ps).2 pid).slots (getLeafP (allocLeaf ps).2 (allocLeaf ps).1).slots)) (allocLeaf ps).1 (migNewSlots (splitKeyOf k key) k (getLeafP (allocLeaf ps).2 pid).slots (getLeafP (allocLeaf ps).2 (allocLeaf ps).1).slots))).head.Nodup := by
            rw [hps2head]
            exact hhead1nd
          have hps2heap : ((setLeafSlots (setLeafSlots (allocLeaf ps).2 pid (migOrigSlots (splitKeyOf k key) k (getLeafP (allocLeaf ps).2 pid).slots (getLeafP (allocLeaf ps).2 (allocLeaf ps).1).slots)) (allocLeaf ps).1 (migNewSlots (splitKeyOf k key) k (getLeafP (allocLeaf ps).2 pid).slots (getLeafP (allocLeaf ps).2 (allocLeaf ps).1).slots))).heap.length = (allocLeaf ps).2.heap.length := by
            rw [setLeafSlots_heap_length, setLeafSlots_heap_length]
          have hps2nid : getLeafP (setLeafSlots (setLeafSlots (allocLeaf ps).2 pid (migOrigSlots (splitKeyOf k key) k (getLeafP (allocLeaf ps).2 pid).slots (getLeafP (allocLeaf ps).2 (allocLeaf ps).1).slots)) (allocLeaf ps).1 (migNewSlots (splitKeyOf k key) k (getLeafP (allocLeaf ps).2 pid).slots (getLeafP (allocLeaf ps).2 (allocLeaf ps).1).slots)) (allocLeaf ps).1 = ⟨(migNewSlots (splitKeyOf k key) k (getLeafP (allocLeaf ps).2 pid).slots (getLeafP (allocLeaf ps).2 (allocLeaf ps).1).slots)⟩ :=
            getLeafP_setLeafSlots_self _ _ _ (by rw [setLeafSlots_heap_length]; exact hnidlt)
          have hps2pid : getLeafP (setLeafSlots (setLeafSlots (allocLeaf ps).2 pid (migOrigSlots (splitKeyOf k key) k (getLeafP (allocLeaf ps).2 pid).slots (getLeafP (allocLeaf ps).2 (allocLeaf ps).1).slots)) (allocLeaf ps).1 (migNewSlots (splitKeyOf k key) k (getLeafP (allocLeaf ps).2 pid).slots (getLeafP (allocLeaf ps).2 (allocLeaf ps).1).slots)) pid = ⟨(migOrigSlots (splitKeyOf k key) k (getLeafP (allocLeaf ps).2 pid).slots (getLeafP (allocLeaf ps).2 (allocLeaf ps).1).slots)⟩ := by
            rw [getLeafP_setLeafSlots_ne _ _ _ _ hne]
            exact getLeafP_setLeafSlots_self _ _ _ hpidlt1
          by_cases hgt : strGt key (splitKeyOf k key) = true
          · rw [if_pos hgt] at hcnt
            have hcnt2 : (k.countP fun x => strGt x (splitKeyOf k key)) < LEAF_KEYS := by
              rw [hcnt]
              decide
            rcases @migNew_has_empty (splitKeyOf k key) h k hklen hcnt2 with ⟨eslot, helt, hez⟩
            rcases @fillEmpty_found (migNewHashes (splitKeyOf k key) h k) (migNewKeys (splitKeyOf k key) k)
              (setLeafSlots (setLeafSlots (allocLeaf ps).2 pid (migOrigSlots (splitKeyOf k key) k (getLeafP (allocLeaf ps).2 pid).slots (getLeafP (allocLeaf ps).2 (allocLeaf ps).1).slots)) (allocLeaf ps).1 (migNewSlots (splitKeyOf k key) k (getLeafP (allocLeaf ps).2 pid).slots (getLeafP (allocLeaf ps).2 (allocLeaf ps).1).slots)) (allocLeaf ps).1 (PearsonHash key) key value ⟨eslot, helt, hez⟩
              with ⟨fslot, hflt, hfz, hfind, heq⟩
            have hr : splitLeaf ps h k pid (PearsonHash key) key value =
                ((setLeafSlots (setLeafSlots (setLeafSlots (allocLeaf ps).2 pid (migOrigSlots (splitKeyOf k key) k (getLeafP (allocLeaf ps).2 pid).slots (getLeafP (allocLeaf ps).2 (allocLeaf ps).1).slots)) (allocLeaf ps).1 (migNewSlots (splitKeyOf k key) k (getLeafP (allocLeaf ps).2 pid).slots (getLeafP (allocLeaf ps).2 (allocLeaf ps).1).slots)) (allocLeaf ps).1 ((getLeafP (setLeafSlots (setLeafSlots (allocLeaf ps).2 pid (migOrigSlots (splitKeyOf k key) k (getLeafP (allocLeaf ps).2 pid).slots (getLeafP (allocLeaf ps).2 (allocLeaf ps).1).slots)) (allocLeaf ps).1 (migNewSlots (splitKeyOf k key) k (getLeafP (allocLeaf ps).2 pid).slots (getLeafP (allocLeaf ps).2 (allocLeaf ps).1).slots)) (allocLeaf ps).1).slots.set fslot (some (KVSlot.set (PearsonHash key) key value)))),
                 VNode.leaf (migOrigHashes (splitKeyOf k key) h k) (migOrigKeys (splitKeyOf k key) k) pid,
                 splitKeyOf k key,
                 VNode.leaf ((migNewHashes (splitKeyOf k key) h k).set fslot (PearsonHash key))
                   ((migNewKeys (splitKeyOf k key) k).set fslot key) (allocLeaf ps).1) := by
              rw [splitLeaf, hskdef, if_pos hgt, heq]
              rfl
            have hsplit1 : (splitLeaf ps h k pid (PearsonHash key) key value).1 =
                setLeafSlots (setLeafSlots (setLeafSlots (allocLeaf ps).2 pid (migOrigSlots (splitKeyOf k key) k (getLeafP (allocLeaf ps).2 pid).slots (getLeafP (allocLeaf ps).2 (allocLeaf ps).1).slots)) (allocLeaf ps).1 (migNewSlots (splitKeyOf k key) k (getLeafP (allocLeaf ps).2 pid).slots (getLeafP (allocLeaf ps).2 (allocLeaf ps).1).slots)) (allocLeaf ps).1 ((getLeafP (setLeafSlots (setLeafSlots (allocLeaf ps).2 pid (migOrigSlots (splitKeyOf k key) k (getLeafP (allocLeaf ps).2 pid).slots (getLeafP (allocLeaf ps).2 (allocLeaf ps).1).slots)) (allocLeaf ps).1 (migNewSlots (splitKeyOf k key) k (getLeafP (allocLeaf ps).2 pid).slots (getLeafP (allocLeaf ps).2 (allocLeaf ps).1).slots)) (allocLeaf ps).1).slots.set fslot (some (KVSlot.set (PearsonHash key) key value))) := by
              rw [hr]
            have hC := sumHead_setLeaf ((getLeafP (setLeafSlots (setLeafSlots (allocLeaf ps).2 pid (migOrigSlots (splitKeyOf k key) k (getLeafP (allocLeaf ps).2 pid).slots (getLeafP (allocLeaf ps).2 (allocLeaf ps).1).slots)) (allocLeaf ps).1 (migNewSlots (splitKeyOf k key) k (getLeafP (allocLeaf ps).2 pid).slots (getLeafP (allocLeaf ps).2 (allocLeaf ps).1).slots)) (allocLeaf ps).1).slots.set fslot (some (KVSlot.set (PearsonHash key) key value)))
              hps2nodup (by rw [hps2head]; exact hnidmem) (by rw [hps2heap]; exact hnidlt)
            have hlenMN : (getLeafP (setLeafSlots (setLeafSlots (allocLeaf ps).2 pid (migOrigSlots (splitKeyOf k key) k (getLeafP (allocLeaf ps).2 pid).slots (getLeafP (allocLeaf ps).2 (allocLeaf ps).1).slots)) (allocLeaf ps).1 (migNewSlots (splitKeyOf k key) k (getLeafP (allocLeaf ps).2 pid).slots (getLeafP (allocLeaf ps).2 (allocLeaf ps).1).slots)) (allocLeaf ps).1).slots.length = LEAF_KEYS := by
              rw [hps2nid]
              show ((migNewSlots (splitKeyOf k key) k (getLeafP (allocLeaf ps).2 pid).slots (getLeafP (allocLeaf ps).2 (allocLeaf ps).1).slots)).length = LEAF_KEYS
              rw [migNewSlots_length]
            have hD := countSlots_set (getLeafP (setLeafSlots (setLeafSlots (allocLeaf ps).2 pid (migOrigSlots (splitKeyOf k key) k (getLeafP (allocLeaf ps).2 pid).slots (getLeafP (allocLeaf ps).2 (allocLeaf ps).1).slots)) (allocLeaf ps).1 (migNewSlots (splitKeyOf k key) k (getLeafP (allocLeaf ps).2 pid).slots (getLeafP (allocLeaf ps).2 (allocLeaf ps).1).slots)) (allocLeaf ps).1) fslot (some (KVSlot.set (PearsonHash key) key value)) hflt hlenMN
            have hgsf : strGt (k.getD fslot []) (splitKeyOf k key) = false := by
              cases hgs : strGt (k.getD fslot []) (splitKeyOf k key)
              · rfl
              · have hmg := migNewHashes_getD (splitKeyOf k key) h k hflt
                rw [hmg, if_pos hgs] at hfz
                exact absurd hfz (hfull fslot hflt)
            have holddead : slotLive ((getLeafP (setLeafSlots (setLeafSlots (allocLeaf ps).2 pid (migOrigSlots (splitKeyOf k key) k (getLeafP (allocLeaf ps).2 pid).slots (getLeafP (allocLeaf ps).2 (allocLeaf ps).1).slots)) (allocLeaf ps).1 (migNewSlots (splitKeyOf k key) k (getLeafP (allocLeaf ps).2 pid).slots (getLeafP (allocLeaf ps).2 (allocLeaf ps).1).slots)) (allocLeaf ps).1).slots.getD fslot none) = false := by
              rw [hps2nid]
              show slotLive (((migNewSlots (splitKeyOf k key) k (getLeafP (allocLeaf ps).2 pid).slots (getLeafP (allocLeaf ps).2 (allocLeaf ps).1).slots)).getD fslot none) = false
              rw [migNewSlots_getD (splitKeyOf k key) k (getLeafP (allocLeaf ps).2 pid).slots (getLeafP (allocLeaf ps).2 (allocLeaf ps).1).slots hflt,
                if_neg (show ¬ strGt (k.getD fslot []) (splitKeyOf k key) = true by
                  intro hc
                  rw [hgsf] at hc
                  exact Bool.false_ne_true hc)]
              exact hniddead fslot hflt
            have e1 : (if slotLive ((getLeafP (setLeafSlots (setLeafSlots (allocLeaf ps).2 pid (migOrigSlots (splitKeyOf k key) k (getLeafP (allocLeaf ps).2 pid).slots (getLeafP (allocLeaf ps).2 (allocLeaf ps).1).slots)) (allocLeaf ps).1 (migNewSlots (splitKeyOf k key) k (getLeafP (allocLeaf ps).2 pid).slots (getLeafP (allocLeaf ps).2 (allocLeaf ps).1).slots)) (allocLeaf ps).1).slots.getD fslot none) = true
                then 1 else 0) = 0 :=
              if_neg (by
                intro hc
                rw [holddead] at hc
                exact Bool.false_ne_true hc)
            have e2 : (if slotLive (some (KVSlot.set (PearsonHash key) key value)) = true then 1 else 0) = 1 := if_pos hpaylive
            rw [e1, e2] at hD
            constructor
            · intro hc
              rw [hfindN] at hc
              exact absurd hc Bool.false_ne_true
            · intro hdummy
              rw [hlp0, hsplit1]
              omega
          · rw [if_neg hgt] at hcnt
            have hcnt2 : 0 < (k.countP fun x => strGt x (splitKeyOf k key)) := by
              rw [hcnt]
              decide
            rcases @migOrig_has_empty (splitKeyOf k key) h k hklen hcnt2 with ⟨eslot, helt, hez⟩
            rcases @fillEmpty_found (migOrigHashes (splitKeyOf k key) h k) (migOrigKeys (splitKeyOf k key) k)
              (setLeafSlots (setLeafSlots (allocLeaf ps).2 pid (migOrigSlots (splitKeyOf k key) k (getLeafP (allocLeaf ps).2 pid).slots (getLeafP (allocLeaf ps).2 (allocLeaf ps).1).slots)) (allocLeaf ps).1 (migNewSlots (splitKeyOf k key) k (getLeafP (allocLeaf ps).2 pid).slots (getLeafP (allocLeaf ps).2 (allocLeaf ps).1).slots)) pid (PearsonHash key) key value ⟨eslot, helt, hez⟩
              with ⟨fslot, hflt, hfz, hfind, heq⟩
            have hr : splitLeaf ps h k pid (PearsonHash key) key value =
                ((setLeafSlots (setLeafSlots (setLeafSlots (allocLeaf ps).2 pid (migOrigSlots (splitKeyOf k key) k (getLeafP (allocLeaf ps).2 pid).slots (getLeafP (allocLeaf ps).2 (allocLeaf ps).1).slots)) (allocLeaf ps).1 (migNewSlots (splitKeyOf k key) k (getLeafP (allocLeaf ps).2 pid).slots (getLeafP (allocLeaf ps).2 (allocLeaf ps).1).slots)) pid ((getLeafP (setLeafSlots (setLeafSlots (allocLeaf ps).2 pid (migOrigSlots (splitKeyOf k key) k (getLeafP (allocLeaf ps).2 pid).slots (getLeafP (allocLeaf ps).2 (allocLeaf ps).1).slots)) (allocLeaf ps).1 (migNewSlots (splitKeyOf k key) k (getLeafP (allocLeaf ps).2 pid).slots (getLeafP (allocLeaf ps).2 (allocLeaf ps).1).slots)) pid).slots.set fslot (some (KVSlot.set (PearsonHash key) key value)))),
                 VNode.leaf ((migOrigHashes (splitKeyOf k key) h k).set fslot (PearsonHash key))
                   ((migOrigKeys (splitKeyOf k key) k).set fslot key) pid,
                 splitKeyOf k key,
                 VNode.leaf (migNewHashes (splitKeyOf k key) h k) (migNewKeys (splitKeyOf k key) k) (allocLeaf ps).1) := by
              rw [splitLeaf, hskdef, if_neg hgt, heq]
              rfl
            have hsplit1 : (splitLeaf ps h k pid (PearsonHash key) key value).1 =
                setLeafSlots (setLeafSlots (setLeafSlots (allocLeaf ps).2 pid (migOrigSlots (splitKeyOf k key) k (getLeafP (allocLeaf ps).2 pid).slots (getLeafP (allocLeaf ps).2 (allocLeaf ps).1).slots)) (allocLeaf ps).1 (migNewSlots (splitKeyOf k key) k (getLeafP (allocLeaf ps).2 pid).slots (getLeafP (allocLeaf ps).2 (allocLeaf ps).1).slots)) pid ((getLeafP (setLeafSlots (setLeafSlots (allocLeaf ps).2 pid (migOrigSlots (splitKeyOf k key) k (getLeafP (allocLeaf ps).2 pid).slots (getLeafP (allocLeaf ps).2 (allocLeaf ps).1).slots)) (allocLeaf ps).1 (migNewSlots (splitKeyOf k key) k (getLeafP (allocLeaf ps).2 pid).slots (getLeafP (allocLeaf ps).2 (allocLeaf ps).1).slots)) pid).slots.set fslot (some (KVSlot.set (PearsonHash key) key value))) := by
              rw [hr]
            have hC := sumHead_setLeaf ((getLeafP (setLeafSlots (setLeafSlots (allocLeaf ps).2 pid (migOrigSlots (splitKeyOf k key) k (getLeafP (allocLeaf ps).2 pid).slots (getLeafP (allocLeaf ps).2 (allocLeaf ps).1).slots)) (allocLeaf ps).1 (migNewSlots (splitKeyOf k key) k (getLeafP (allocLeaf ps).2 pid).slots (getLeafP (allocLeaf ps).2 (allocLeaf ps).1).slots)) pid).slots.set fslot (some (KVSlot.set (PearsonHash key) key value)))
              hps2nodup (by rw [hps2head]; exact hpidmem1) (by rw [hps2heap]; exact hpidlt1)
            have hlenMO : (getLeafP (setLeafSlots (setLeafSlots (allocLeaf ps).2 pid (migOrigSlots (splitKeyOf k key) k (getLeafP (allocLeaf ps).2 pid).slots (getLeafP (allocLeaf ps).2 (allocLeaf ps).1).slots)) (allocLeaf ps).1 (migNewSlots (splitKeyOf k key) k (getLeafP (allocLeaf ps).2 pid).slots (getLeafP (allocLeaf ps).2 (allocLeaf ps).1).slots)) pid).slots.length = LEAF_KEYS := by
              rw [hps2pid]
              show ((migOrigSlots (splitKeyOf k key) k (getLeafP (allocLeaf ps).2 pid).slots (getLeafP (allocLeaf ps).2 (allocLeaf ps).1).slots)).length = LEAF_KEYS
              rw [migOrigSlots_length]
            have hD := countSlots_set (getLeafP (setLeafSlots (setLeafSlots (allocLeaf ps).2 pid (migOrigSlots (splitKeyOf k key) k (getLeafP (allocLeaf ps).2 pid).slots (getLeafP (allocLeaf ps).2 (allocLeaf ps).1).slots)) (allocLeaf ps).1 (migNewSlots (splitKeyOf k key) k (getLeafP (allocLeaf ps).2 pid).slots (getLeafP (allocLeaf ps).2 (allocLeaf ps).1).slots)) pid) fslot (some (KVSlot.set (PearsonHash key) key value)) hflt hlenMO
            have hgsf : strGt (k.getD fslot []) (splitKeyOf k key) = true := by
              cases hgs : strGt (k.getD fslot []) (splitKeyOf k key)
              · have hmg := migOrigHashes_getD (splitKeyOf k key) h k hflt
                rw [hmg, if_neg (show ¬ strGt (k.getD fslot []) (splitKeyOf k key) = true by
                  intro hc
                  rw [hgs] at hc
                  exact Bool.false_ne_true hc)] at hfz
                exact absurd hfz (hfull fslot hflt)
              · rfl
            have holddead : slotLive ((getLeafP (setLeafSlots (setLeafSlots (allocLeaf ps).2 pid (migOrigSlots (splitKeyOf k key) k (getLeafP (allocLeaf ps).2 pid).slots (getLeafP (allocLeaf ps).2 (allocLeaf ps).1).slots)) (allocLeaf ps).1 (migNewSlots (splitKeyOf k key) k (getLeafP (allocLeaf ps).2 pid).slots (getLeafP (allocLeaf ps).2 (allocLeaf ps).1).slots)) pid).slots.getD fslot none) = false := by
              rw [hps2pid]
              show slotLive (((migOrigSlots (splitKeyOf k key) k (getLeafP (allocLeaf ps).2 pid).slots (getLeafP (allocLeaf ps).2 (allocLeaf ps).1).slots)).getD fslot none) = false
              rw [migOrigSlots_getD (splitKeyOf k key) k (getLeafP (allocLeaf ps).2 pid).slots (getLeafP (allocLeaf ps).2 (allocLeaf ps).1).slots hflt, if_pos hgsf]
              exact hniddead fslot hflt
            have e1 : (if slotLive ((getLeafP (setLeafSlots (setLeafSlots (allocLeaf ps).2 pid (migOrigSlots (splitKeyOf k key) k (getLeafP (allocLeaf ps).2 pid).slots (getLeafP (allocLeaf ps).2 (allocLeaf ps).1).slots)) (allocLeaf ps).1 (migNewSlots (splitKeyOf k key) k (getLeafP (allocLeaf ps).2 pid).slots (getLeafP (allocLeaf ps).2 (allocLeaf ps).1).slots)) pid).slots.getD fslot none) = true
                then 1 else 0) = 0 :=
              if_neg (by
                intro hc
                rw [holddead] at hc
                exact Bool.false_ne_true hc)
            have e2 : (if slotLive (some (KVSlot.set (PearsonHash key) key value)) = true then 1 else 0) = 1 := if_pos hpaylive
            rw [e1, e2] at hD
            constructor
            · intro hc
              rw [hfindN] at hc
              exact absurd hc Bool.false_ne_true
            · intro hdummy
              rw [hlp0, hsplit1]
              omega

/-! ## Window well-formedness implies structural well-formedness -/

mutual

theorem wfW_shapeOk :
    ∀ (t : VNode) (lo hi : Option Str), wfW lo hi t = true → shapeOk t = true
  | VNode.leaf h k pid, _, _, _ => rfl
  | VNode.inner rkeys children, lo, hi, hw => by
      rw [wfW, Bool.and_eq_true, Bool.and_eq_true] at hw
      rw [shapeOk, Bool.and_eq_true]
      refine ⟨?_, (chainW_shapeOkList rkeys children lo hi hw.2).2⟩
      rw [beq_iff_eq]
      exact (chainW_shapeOkList rkeys children lo hi hw.2).1

theorem chainW_shapeOkList :
    ∀ (rs : List Str) (cs : List VNode) (lo hi : Option Str), chainW lo hi rs cs = true →
      cs.length = rs.length + 1 ∧ shapeOkList cs = true
  | [], [], lo, hi, hch => absurd hch Bool.false_ne_true
  | [], [c], lo, hi, hch => by
      refine ⟨rfl, ?_⟩
      rw [shapeOkList, Bool.and_eq_true]
      exact ⟨wfW_shapeOk c lo hi hch, rfl⟩
  | [], c1 :: c2 :: cs, lo, hi, hch => absurd hch Bool.false_ne_true
  | r :: rs, [], lo, hi, hch => absurd hch Bool.false_ne_true
  | r :: rs, c :: cs, lo, hi, hch => by
      rw [chainW, Bool.and_eq_true, Bool.and_eq_true, Bool.and_eq_true] at hch
      have hrec := chainW_shapeOkList rs cs (some r) hi hch.2
      refine ⟨?_, ?_⟩
      · rw [List.length_cons, List.length_cons, hrec.1]
      · rw [shapeOkList, Bool.and_eq_true]
        exact ⟨wfW_shapeOk c lo (some r) hch.1.2, hrec.2⟩

end

/-- C1: after a successful `put(K, V)`, an immediately following `get(K)`
invokes its callback with exactly the bytes of `V` and reports `OK`,
`exists(K)` reports `OK`, and `count` is unchanged when `K` was already
present (overwrite) and exactly one larger when `K` was absent. -/
theorem claim_C1_put (s : Tree3) (key value : Str) (hInv : InvB s = true)
    (hk32 : key.length < 4294967296) (hv32 : value.length < 4294967296) :
    (tree3.get (tree3.put s key value) key).2 = some value ∧
    (tree3.existsKey (tree3.put s key value) key).2 = true ∧
    ((tree3.existsKey s key).2 = true →
      (tree3.count (tree3.put s key value)).2 = (tree3.count s).2) ∧
    ((tree3.existsKey s key).2 = false →
      (tree3.count (tree3.put s key value)).2 = (tree3.count s).2 + 1) := by
  rcases s with ⟨ps, _ | top⟩
  · obtain ⟨hpsOk0, hdeadall⟩ := (InvB_none_iff rfl).mp hInv
    have hpsOk : psOkB ps = true := hpsOk0
    obtain ⟨hheaplen, hheadnd, hheadlt, hprend, hpreok⟩ := psOkB_iff.mp hpsOk
    have hprevalid : ∀ id ∈ ps.prealloc, id < ps.heap.length :=
      fun id hid => (hpreok id hid).2.1
    obtain ⟨hniddead, hnidmem, hheadmono, hheaple, hallocframe, hnidorigin, hnidslen⟩ :=
      allocLeaf_facts hpsOk
    have hnidlt : (allocLeaf ps).1 < (allocLeaf ps).2.heap.length :=
      allocLeaf_id_lt ps hprevalid
    have hpaylive : slotLive (some (KVSlot.set (PearsonHash key) key value)) = true := by
      show (KVSlot.get_ph (KVSlot.set (PearsonHash key) key value) != 0) = true
      rw [KVSlot.get_ph_set (PearsonHash key) (PearsonHash_lt key) key value, bne_iff_ne]
      exact PearsonHash_ne_zero key
    have hput : tree3.put ⟨ps, none⟩ key value =
        { ps := setLeafSlots (allocLeaf ps).2 (allocLeaf ps).1
            ((getLeafP (allocLeaf ps).2 (allocLeaf ps).1).slots.set 0
              (some (KVSlot.set (PearsonHash key) key value))),
          tree_top := some (VNode.leaf
            ((List.replicate LEAF_KEYS 0).set 0 (PearsonHash key))
            ((List.replicate LEAF_KEYS []).set 0 key) (allocLeaf ps).1) } := rfl
    have hls : LeafSearch key (VNode.leaf
        ((List.replicate LEAF_KEYS 0).set 0 (PearsonHash key))
        ((List.replicate LEAF_KEYS []).set 0 key) (allocLeaf ps).1) =
        some (VNode.leaf ((List.replicate LEAF_KEYS 0).set 0 (PearsonHash key))
          ((List.replicate LEAF_KEYS []).set 0 key) (allocLeaf ps).1) := by
      rw [LeafSearch]
    have hH0 : ((List.replicate LEAF_KEYS (0 : Nat)).set 0 (PearsonHash key)).getD 0 0 =
        PearsonHash key :=
      getD_set_self _ _ _ _ (by rw [List.length_replicate]; decide)
    have hK0 : ((List.replicate LEAF_KEYS ([] : Str)).set 0 key).getD 0 [] = key :=
      getD_set_self _ _ _ _ (by rw [List.length_replicate]; decide)
    have hHx : ∀ x, x ≠ 0 →
        ((List.replicate LEAF_KEYS (0 : Nat)).set 0 (PearsonHash key)).getD x 0 = 0 := by
      intro x hx
      rw [getD_set_ne _ _ _ _ _ (fun he => hx he.symm)]
      rw [List.getD_eq_getElem?_getD, List.getElem?_replicate]
      by_cases hlt : x < LEAF_KEYS
      · rw [if_pos hlt]
        rfl
      · rw [if_neg hlt]
        rfl
    have hfs : findSlot ((List.replicate LEAF_KEYS 0).set 0 (PearsonHash key))
        ((List.replicate LEAF_KEYS []).set 0 key) (PearsonHash key) key = some 0 := by
      rw [findSlot]
      apply find?_unique (mem_descRange.mpr (by decide))
      · show (((List.replicate LEAF_KEYS 0).set 0 (PearsonHash key)).getD 0 0 ==
            PearsonHash key &&
          ((List.replicate LEAF_KEYS []).set 0 key).getD 0 [] == key) = true
        rw [Bool.and_eq_true, beq_iff_eq, beq_iff_eq]
        exact ⟨hH0, hK0⟩
      · intro x hxmem hxne
        show (((List.replicate LEAF_KEYS 0).set 0 (PearsonHash key)).getD x 0 ==
            PearsonHash key &&
          ((List.replicate LEAF_KEYS []).set 0 key).getD x [] == key) = false
        have h0 : (((List.replicate LEAF_KEYS (0 : Nat)).set 0 (PearsonHash key)).getD x 0 ==
            PearsonHash key) = false := by
          rw [hHx x hxne, beq_eq_false_iff_ne]
          exact fun he => PearsonHash_ne_zero key he.symm
        rw [h0, Bool.false_and]
    have hpayload : (getLeafP (setLeafSlots (allocLeaf ps).2 (allocLeaf ps).1
        ((getLeafP (allocLeaf ps).2 (allocLeaf ps).1).slots.set 0
          (some (KVSlot.set (PearsonHash key) key value)))) (allocLeaf ps).1).slots.getD 0 none =
        some (KVSlot.set (PearsonHash key) key value) := by
      rw [getLeafP_setLeafSlots_self _ _ _ hnidlt]
      exact getD_set_self _ _ _ _ (by rw [hnidslen]; decide)
    refine ⟨?_, ?_, ?_, ?_⟩
    · rw [hput, get_eq]
      simp only [hls, hfs, hpayload, Option.map_some']
      rw [KVSlot.valBytes_set (PearsonHash key) key value hk32 hv32]
    · rw [hput, existsKey_eq]
      simp only [hls, hfs]
      rfl
    · intro hc
      have hex : (tree3.existsKey (⟨ps, none⟩ : Tree3) key).2 = false := rfl
      rw [hex] at hc
      exact absurd hc Bool.false_ne_true
    · intro hdummy
      rw [hput, count_eq_sumHead, count_eq_sumHead]
      simp only []
      have hC := sumHead_setLeaf ((getLeafP (allocLeaf ps).2 (allocLeaf ps).1).slots.set 0
        (some (KVSlot.set (PearsonHash key) key value)))
        (allocLeaf_head_nodup hpsOk) hnidmem hnidlt
      have hD := countSlots_set (getLeafP (allocLeaf ps).2 (allocLeaf ps).1) 0
        (some (KVSlot.set (PearsonHash key) key value)) (by decide) hnidslen
      have e1 : (if slotLive ((getLeafP (allocLeaf ps).2 (allocLeaf ps).1).slots.getD 0 none) =
          true then 1 else 0) = 0 :=
        if_neg (by
          intro hcl
          rw [hniddead 0 (by decide)] at hcl
          exact Bool.false_ne_true hcl)
      have e2 : (if slotLive (some (KVSlot.set (PearsonHash key) key value)) = true
          then 1 else 0) = 1 := if_pos hpaylive
      rw [e1, e2] at hD
      have hS1 : sumHead (allocLeaf ps).2 = sumHead ps := sumHead_alloc hpsOk
      omega
  · obtain ⟨hpsOk, hwf, hleaves, hpidsnd, hcov, hpre⟩ := (InvB_some_iff rfl).mp hInv
    have hnodup2 : ((leavesOf top).map VNode.getPleaf).Nodup := by
      have h2 := hpidsnd
      rw [leafPids] at h2
      exact h2
    have hpre2 : ∀ id ∈ ps.prealloc, id ∉ (leavesOf top).map VNode.getPleaf := by
      intro id hid
      have h2 := hpre id hid
      rw [leafPids] at h2
      exact h2
    have hspec := putRec_spec key value hk32 top ps none none hwf rfl hleaves hnodup2
      hpsOk hpre2
    rcases hres : putRec (PearsonHash key) key value ps top with ⟨ps2, t2, sp⟩
    rw [hres] at hspec
    rw [putPost] at hspec
    simp only [] at hspec
    obtain ⟨hwfres, hpres, hagr, hheadm, hheapm, hpids⟩ := hspec
    have hput : tree3.put ⟨ps, some top⟩ key value =
        { ps := ps2, tree_top := some (finishSplit t2 sp) } := by
      rw [put_some_eq, hres]
    have hT : wfW none none (finishSplit t2 sp) = true ∧
        (∀ L ∈ sideLeaves t2 sp, L ∈ leavesOf (finishSplit t2 sp)) := by
      cases sp with
      | none => exact ⟨hwfres, fun L hL => hL⟩
      | some p =>
          obtain ⟨sk, nn⟩ := p
          obtain ⟨hw1, hw2, hlo, hhi, hstrict⟩ := hwfres
          constructor
          · show wfW none none (VNode.inner [sk] [t2, nn]) = true
            rw [wfW, Bool.and_eq_true, Bool.and_eq_true]
            refine ⟨⟨decide_eq_true (Nat.le_refl 1),
              decide_eq_true (by decide : (1 : Nat) ≤ INNER_KEYS)⟩, ?_⟩
            rw [chainW, Bool.and_eq_true, Bool.and_eq_true, Bool.and_eq_true]
            exact ⟨⟨⟨rfl, rfl⟩, hw1⟩, hw2⟩
          · intro L hL
            show L ∈ leavesOfList [t2, nn]
            rw [leavesOfList, leavesOfList, leavesOfList, List.append_nil]
            exact hL
    obtain ⟨hwT, hmemT⟩ := hT
    obtain ⟨h2, k2, pid2, s2, hmem, hs2, hh2, hk2, hpay⟩ := hpres
    have hmemT2 : VNode.leaf h2 k2 pid2 ∈ leavesOf (finishSplit t2 sp) := hmemT _ hmem
    have hh2ne : h2.getD s2 0 ≠ 0 := by
      rw [hh2]
      exact PearsonHash_ne_zero key
    have hsearch : LeafSearch key (finishSplit t2 sp) = some (VNode.leaf h2 k2 pid2) :=
      searchCorrect key (finishSplit t2 sp) none none hwT h2 k2 pid2 s2 hmemT2 hs2 hh2ne hk2
    obtain ⟨hh2len, hk2len, hnd2⟩ := wfW_leaf_basic hwT hmemT2
    rcases hfso : findSlot h2 k2 (PearsonHash key) key with _ | slot
    · exfalso
      rw [findSlot, List.find?_eq_none] at hfso
      exact hfso s2 (mem_descRange.mpr hs2) (by
        rw [Bool.and_eq_true, beq_iff_eq, beq_iff_eq]
        exact ⟨hh2, hk2⟩)
    · obtain ⟨hsltf, hshf, hskf⟩ := findSlot_some hfso
      have hslot_eq : slot = s2 := by
        by_contra hne2
        exact live_slot_unique hnd2 hsltf hs2 hne2
          (by rw [hshf]; exact PearsonHash_ne_zero key) hh2ne (hskf.trans hk2.symm)
      subst hslot_eq
      have hshape : shapeOk top = true := wfW_shapeOk top none none hwf
      obtain ⟨h0, k0, pid0, hsearch0, hmem0⟩ := LeafSearch_reaches_leaf key top hshape
      have hfst := putRec_fst (PearsonHash key) key value top ps
      rw [hres, hsearch0] at hfst
      simp only [] at hfst
      have hex0 : tree3.existsKey ⟨ps, some top⟩ key =
          (⟨ps, some top⟩, (findSlot h0 k0 (PearsonHash key) key).isSome) := by
        rw [existsKey_eq]
        simp only [hsearch0]
      obtain ⟨lo0, hi0, hwin0⟩ := wfW_leaf_win top none none hwf h0 k0 pid0 hmem0
      have hagree0 := hleaves _ hmem0
      have hpid0pre : pid0 ∉ ps.prealloc := by
        intro hcpre
        exact hpre2 pid0 hcpre (List.mem_map_of_mem _ hmem0)
      have hsum := @sumHead_leafPutPs key value ps h0 k0 pid0 lo0 hi0
        (show wfW lo0 hi0 (VNode.leaf h0 k0 pid0) = true from hwin0)
        (show leafAgreeB ps (VNode.leaf h0 k0 pid0) = true from hagree0.1)
        (show leafIntegOk h0 k0 = true from hagree0.2)
        (show psOkB ps = true from hpsOk) hpid0pre
      rw [← hfst] at hsum
      refine ⟨?_, ?_, ?_, ?_⟩
      · rw [hput, get_eq]
        simp only [hsearch, hfso, hpay, Option.map_some']
        rw [KVSlot.valBytes_set (PearsonHash key) key value hk32 hv32]
      · rw [hput, existsKey_eq]
        simp only [hsearch, hfso]
        rfl
      · intro hc
        rw [hex0] at hc
        simp only [] at hc
        have hval := hsum.1 hc
        rw [hput, count_eq_sumHead, count_eq_sumHead]
        simp only []
        exact hval
      · intro hc
        rw [hex0] at hc
        simp only [] at hc
        have hval := hsum.2 hc
        rw [hput, count_eq_sumHead, count_eq_sumHead]
        simp only []
        exact hval

theorem claim_C1_put_witness :
    InvB demoStore = true ∧
    ([98] : Str).length < 4294967296 ∧ ([5] : Str).length < 4294967296 ∧
    ((tree3.get (tree3.put demoStore [98] [5]) [98]).2 = some [5] ∧
     (tree3.existsKey (tree3.put demoStore [98] [5]) [98]).2 = true ∧
     ((tree3.existsKey demoStore [98]).2 = true →
       (tree3.count (tree3.put demoStore [98] [5])).2 = (tree3.count demoStore).2) ∧
     ((tree3.existsKey demoStore [98]).2 = false →
       (tree3.count (tree3.put demoStore [98] [5])).2 = (tree3.count demoStore).2 + 1)) :=
  ⟨by decide, by decide, by decide,
    claim_C1_put demoStore [98] [5] (by decide) (by decide) (by decide)⟩

/-! ## Recovery: window well-formedness machinery for the rebuild -/

theorem insPos_all_le {sk : Str} :
    ∀ {rs : List Str}, (∀ r ∈ rs, strLe r sk = true) → insPos sk rs = rs.length
  | [], _ => rfl
  | r :: rs, hall => by
      rw [insPos, if_pos (hall r (List.mem_cons_self r rs)), List.length_cons,
        insPos_all_le (fun x hx => hall x (List.mem_cons_of_mem r hx))]

theorem insertAt_append {α : Type} :
    ∀ (l : List α) (a : α), insertAt l.length a l = l ++ [a]
  | [], a => rfl
  | x :: xs, a => by
      rw [List.length_cons, insertAt, insertAt_append xs a, List.cons_append]

mutual

/-- All routing keys of a volatile subtree. -/
def rkeysOf : VNode → List Str
  | VNode.leaf _ _ _ => []
  | VNode.inner rkeys children => rkeys ++ rkeysOfList children

def rkeysOfList : List VNode → List Str
  | [] => []
  | c :: cs => rkeysOf c ++ rkeysOfList cs

end

theorem rkeysOfList_append :
    ∀ (l1 l2 : List VNode), rkeysOfList (l1 ++ l2) = rkeysOfList l1 ++ rkeysOfList l2
  | [], l2 => rfl
  | c :: cs, l2 => by
      rw [List.cons_append, rkeysOfList, rkeysOfList, rkeysOfList_append cs l2,
        List.append_assoc]

theorem rkeysOfList_last_mem :
    ∀ (cs : List VNode) (c : VNode), c ∈ cs → ∀ r ∈ rkeysOf c, r ∈ rkeysOfList cs
  | [], c, hc, r, hr => absurd hc (List.not_mem_nil c)
  | c0 :: cs, c, hc, r, hr => by
      rw [rkeysOfList]
      rcases List.mem_cons.mp hc with he | hm
      · exact List.mem_append_left _ (he ▸ hr)
      · exact List.mem_append_right _ (rkeysOfList_last_mem cs c hm r hr)

theorem mem_insertAt {α : Type} :
    ∀ (n : Nat) (a : α) (l : List α) (x : α), x ∈ insertAt n a l → x = a ∨ x ∈ l
  | 0, a, l, x, hx => by
      rcases List.mem_cons.mp hx with he | hm
      · exact Or.inl he
      · exact Or.inr hm
  | n + 1, a, [], x, hx => Or.inl (List.mem_singleton.mp hx)
  | n + 1, a, c :: cs, x, hx => by
      rcases List.mem_cons.mp hx with he | hm
      · exact Or.inr (he ▸ List.mem_cons_self c cs)
      · rcases mem_insertAt n a cs x hm with h1 | h2
        · exact Or.inl h1
        · exact Or.inr (List.mem_cons_of_mem c h2)

theorem rkeysOfList_mem :
    ∀ (cs : List VNode) (r : Str), r ∈ rkeysOfList cs → ∃ c ∈ cs, r ∈ rkeysOf c
  | [], r, hr => absurd hr (List.not_mem_nil r)
  | c :: cs, r, hr => by
      rw [rkeysOfList] at hr
      rcases List.mem_append.mp hr with hm | hm
      · exact ⟨c, List.mem_cons_self c cs, hm⟩
      · rcases rkeysOfList_mem cs r hm with ⟨c2, hc2, hr2⟩
        exact ⟨c2, List.mem_cons_of_mem c hc2, hr2⟩

theorem rkeysOfList_insertAt_mem {n : Nat} {nn : VNode} {cs : List VNode} {r : Str}
    (hr : r ∈ rkeysOfList (insertAt n nn cs)) :
    r ∈ rkeysOf nn ∨ r ∈ rkeysOfList cs := by
  rcases rkeysOfList_mem _ r hr with ⟨c, hc, hrc⟩
  rcases mem_insertAt n nn cs c hc with he | hm
  · exact Or.inl (he ▸ hrc)
  · exact Or.inr (rkeysOfList_last_mem cs c hm r hrc)

theorem absorbSplit_wf {rkeys : List Str} {cs' : List VNode} {sk : Str} {nn : VNode}
    {lo hi : Option Str}
    (hlen1 : 1 ≤ rkeys.length) (hlen4 : rkeys.length ≤ INNER_KEYS)
    (hch : chainW lo hi (insertAt (insPos sk rkeys) sk rkeys)
      (insertAt (insPos sk rkeys + 1) nn cs') = true) :
    (match (absorbSplit rkeys cs' sk nn).2 with
     | none => wfW lo hi (absorbSplit rkeys cs' sk nn).1 = true
     | some (sk2, nn2) =>
         wfW lo (some sk2) (absorbSplit rkeys cs' sk nn).1 = true ∧
         wfW (some sk2) hi nn2 = true ∧ loOk lo sk2 = true ∧ hiOk hi sk2 = true ∧
         (∀ b, hi = some b → strLt sk2 b = true)) ∧
    sideLeaves (absorbSplit rkeys cs' sk nn).1 (absorbSplit rkeys cs' sk nn).2 =
      leavesOfList (insertAt (insPos sk rkeys + 1) nn cs') ∧
    (∀ r, (r ∈ rkeysOf (absorbSplit rkeys cs' sk nn).1 ∨
        (match (absorbSplit rkeys cs' sk nn).2 with
         | none => False
         | some (sk2, nn2) => r = sk2 ∨ r ∈ rkeysOf nn2)) →
      r = sk ∨ r ∈ rkeys ∨ r ∈ rkeysOf nn ∨ r ∈ rkeysOfList cs') := by
  have hkey2 : ∀ r, r ∈ insertAt (insPos sk rkeys) sk rkeys → r = sk ∨ r ∈ rkeys :=
    fun r hr => mem_insertAt _ _ _ r hr
  have hchl2 : ∀ r, r ∈ rkeysOfList (insertAt (insPos sk rkeys + 1) nn cs') →
      r ∈ rkeysOf nn ∨ r ∈ rkeysOfList cs' :=
    fun r hr => rkeysOfList_insertAt_mem hr
  by_cases hovf : (insertAt (insPos sk rkeys) sk rkeys).length ≤ INNER_KEYS
  · have habs : absorbSplit rkeys cs' sk nn =
        (VNode.inner (insertAt (insPos sk rkeys) sk rkeys)
          (insertAt (insPos sk rkeys + 1) nn cs'), none) := by
      rw [absorbSplit]
      rw [if_pos hovf]
    rw [habs]
    refine ⟨?_, rfl, ?_⟩
    · rw [wfW, Bool.and_eq_true, Bool.and_eq_true]
      refine ⟨⟨?_, decide_eq_true hovf⟩, hch⟩
      apply decide_eq_true
      rw [insertAt_length]
      omega
    · intro r hr
      rcases hr with hr | hr
      · rw [rkeysOf] at hr
        rcases List.mem_append.mp hr with hm | hm
        · rcases hkey2 r hm with h1 | h2
          · exact Or.inl h1
          · exact Or.inr (Or.inl h2)
        · rcases hchl2 r hm with h1 | h2
          · exact Or.inr (Or.inr (Or.inl h1))
          · exact Or.inr (Or.inr (Or.inr h2))
      · cases hr
  · have hIK : INNER_KEYS = 4 := rfl
    have hlen5 : (insertAt (insPos sk rkeys) sk rkeys).length = 5 := by
      rw [insertAt_length] at hovf ⊢
      rw [hIK] at hovf hlen4
      omega
    have hclen : (insertAt (insPos sk rkeys + 1) nn cs').length = 6 := by
      have h6 := chainW_length _ _ _ _ hch
      rw [hlen5] at h6
      exact h6
    obtain ⟨a, t1, hrk1, ht1⟩ := cons_of_len_succ _ _ hlen5
    obtain ⟨b, t2, hrk2, ht2⟩ := cons_of_len_succ _ _ ht1
    obtain ⟨m, t3, hrk3, ht3⟩ := cons_of_len_succ _ _ ht2
    obtain ⟨d, t4, hrk4, ht4⟩ := cons_of_len_succ _ _ ht3
    obtain ⟨e, t5, hrk5, ht5⟩ := cons_of_len_succ _ _ ht4
    have ht5n : t5 = [] := List.length_eq_zero.mp ht5
    have hrk : insertAt (insPos sk rkeys) sk rkeys = [a, b, m, d, e] := by
      rw [hrk1, hrk2, hrk3, hrk4, hrk5, ht5n]
    obtain ⟨c0, u1, hck1, hu1⟩ := cons_of_len_succ _ _ hclen
    obtain ⟨c1, u2, hck2, hu2⟩ := cons_of_len_succ _ _ hu1
    obtain ⟨c2, u3, hck3, hu3⟩ := cons_of_len_succ _ _ hu2
    obtain ⟨c3, u4, hck4, hu4⟩ := cons_of_len_succ _ _ hu3
    obtain ⟨c4, u5, hck5, hu5⟩ := cons_of_len_succ _ _ hu4
    obtain ⟨c5, u6, hck6, hu6⟩ := cons_of_len_succ _ _ hu5
    have hu6n : u6 = [] := List.length_eq_zero.mp hu6
    have hck : insertAt (insPos sk rkeys + 1) nn cs' = [c0, c1, c2, c3, c4, c5] := by
      rw [hck1, hck2, hck3, hck4, hck5, hck6, hu6n]
    rw [hrk, hck] at hch
    rw [chainW, Bool.and_eq_true, Bool.and_eq_true, Bool.and_eq_true] at hch
    obtain ⟨⟨⟨hloa, hhia⟩, hwf0⟩, hch⟩ := hch
    rw [chainW, Bool.and_eq_true, Bool.and_eq_true, Bool.and_eq_true] at hch
    obtain ⟨⟨⟨hab, hhib⟩, hwf1⟩, hch⟩ := hch
    rw [chainW, Bool.and_eq_true, Bool.and_eq_true, Bool.and_eq_true] at hch
    obtain ⟨⟨⟨hbm, hhim⟩, hwf2⟩, hch⟩ := hch
    rw [chainW, Bool.and_eq_true, Bool.and_eq_true, Bool.and_eq_true] at hch
    obtain ⟨⟨⟨hmd, hhid⟩, hwf3⟩, hch⟩ := hch
    rw [chainW, Bool.and_eq_true, Bool.and_eq_true, Bool.and_eq_true] at hch
    obtain ⟨⟨⟨hde, hhie⟩, hwf4⟩, hch⟩ := hch
    have hab2 : strLt a b = true := hab
    have hbm2 : strLt b m = true := hbm
    have hmd2 : strLt m d = true := hmd
    have hde2 : strLt d e = true := hde
    have habs : absorbSplit rkeys cs' sk nn =
        (VNode.inner [a, b] [c0, c1, c2],
         some (m, VNode.inner [d, e] [c3, c4, c5])) := by
      rw [absorbSplit]
      rw [hrk, hck, if_neg (show ¬ ([a, b, m, d, e] : List Str).length ≤ INNER_KEYS by
        rw [show ([a, b, m, d, e] : List Str).length = 5 from rfl]
        decide)]
      rfl
    rw [habs]
    have hsplit6 : leavesOfList [c0, c1, c2, c3, c4, c5] =
        leavesOfList [c0, c1, c2] ++ leavesOfList [c3, c4, c5] := by
      rw [show ([c0, c1, c2, c3, c4, c5] : List VNode) =
        [c0, c1, c2] ++ [c3, c4, c5] from rfl, leavesOfList_append]
    refine ⟨⟨?_, ?_, ?_, hhim, ?_⟩, ?_, ?_⟩
    · rw [wfW, Bool.and_eq_true, Bool.and_eq_true]
      refine ⟨⟨decide_eq_true ?_, decide_eq_true ?_⟩, ?_⟩
      · show 1 ≤ 2
        decide
      · show 2 ≤ INNER_KEYS
        decide
      rw [chainW, Bool.and_eq_true, Bool.and_eq_true, Bool.and_eq_true]
      refine ⟨⟨⟨hloa, strLe_of_lt (strLt_trans hab2 hbm2)⟩, hwf0⟩, ?_⟩
      rw [chainW, Bool.and_eq_true, Bool.and_eq_true, Bool.and_eq_true]
      exact ⟨⟨⟨hab2, strLe_of_lt hbm2⟩, hwf1⟩, hwf2⟩
    · rw [wfW, Bool.and_eq_true, Bool.and_eq_true]
      refine ⟨⟨decide_eq_true ?_, decide_eq_true ?_⟩, ?_⟩
      · show 1 ≤ 2
        decide
      · show 2 ≤ INNER_KEYS
        decide
      rw [chainW, Bool.and_eq_true, Bool.and_eq_true, Bool.and_eq_true]
      refine ⟨⟨⟨hmd2, hhid⟩, hwf3⟩, ?_⟩
      rw [chainW, Bool.and_eq_true, Bool.and_eq_true, Bool.and_eq_true]
      exact ⟨⟨⟨hde2, hhie⟩, hwf4⟩, hch⟩
    · exact loOk_weaken (loOk_weaken hloa hab2) hbm2
    · intro b' hb'
      rw [hb'] at hhid
      exact strLt_of_lt_of_le hmd2 hhid
    · rw [hck]
      show leavesOfList [c0, c1, c2] ++ leavesOfList [c3, c4, c5] =
        leavesOfList [c0, c1, c2, c3, c4, c5]
      rw [hsplit6]
    · intro r hr
      have hmem5 : ∀ x : Str, x ∈ ([a, b, m, d, e] : List Str) → x = sk ∨ x ∈ rkeys := by
        intro x hx
        apply hkey2
        rw [hrk]
        exact hx
      have hmem6 : ∀ x : Str, x ∈ rkeysOfList ([c0, c1, c2, c3, c4, c5] : List VNode) →
          x ∈ rkeysOf nn ∨ x ∈ rkeysOfList cs' := by
        intro x hx
        apply hchl2
        rw [hck]
        exact hx
      have hfin : r ∈ ([a, b, m, d, e] : List Str) ∨
          r ∈ rkeysOfList ([c0, c1, c2, c3, c4, c5] : List VNode) → 
          r = sk ∨ r ∈ rkeys ∨ r ∈ rkeysOf nn ∨ r ∈ rkeysOfList cs' := by
        intro hcase
        rcases hcase with hcase | hcase
        · rcases hmem5 r hcase with h1 | h2
          · exact Or.inl h1
          · exact Or.inr (Or.inl h2)
        · rcases hmem6 r hcase with h1 | h2
          · exact Or.inr (Or.inr (Or.inl h1))
          · exact Or.inr (Or.inr (Or.inr h2))
      have hsub3 : ∀ x : Str, x ∈ rkeysOfList ([c0, c1, c2] : List VNode) →
          x ∈ rkeysOfList ([c0, c1, c2, c3, c4, c5] : List VNode) := by
        intro x hx
        rw [show ([c0, c1, c2, c3, c4, c5] : List VNode) =
          [c0, c1, c2] ++ [c3, c4, c5] from rfl, rkeysOfList_append]
        exact List.mem_append_left _ hx
      have hsub3b : ∀ x : Str, x ∈ rkeysOfList ([c3, c4, c5] : List VNode) →
          x ∈ rkeysOfList ([c0, c1, c2, c3, c4, c5] : List VNode) := by
        intro x hx
        rw [show ([c0, c1, c2, c3, c4, c5] : List VNode) =
          [c0, c1, c2] ++ [c3, c4, c5] from rfl, rkeysOfList_append]
        exact List.mem_append_right _ hx
      rcases hr with hr | hr
      · rw [rkeysOf] at hr
        rcases List.mem_append.mp hr with hm2 | hm2
        · exact hfin (Or.inl (by
            rcases List.mem_cons.mp hm2 with h1 | h1
            · rw [h1]
              exact List.mem_cons_self _ _
            · rcases List.mem_cons.mp h1 with h2 | h2
              · rw [h2]
                exact List.mem_cons_of_mem _ (List.mem_cons_self _ _)
              · exact absurd h2 (List.not_mem_nil r)))
        · exact hfin (Or.inr (hsub3 r hm2))
      · rcases hr with hr | hr
        · exact hfin (Or.inl (by
            rw [hr]
            exact List.mem_cons_of_mem _ (List.mem_cons_of_mem _ (List.mem_cons_self _ _))))
        · rw [rkeysOf] at hr
          rcases List.mem_append.mp hr with hm2 | hm2
          · exact hfin (Or.inl (by
              rcases List.mem_cons.mp hm2 with h1 | h1
              · rw [h1]
                exact List.mem_cons_of_mem _ (List.mem_cons_of_mem _
                  (List.mem_cons_of_mem _ (List.mem_cons_self _ _)))
              · rcases List.mem_cons.mp h1 with h2 | h2
                · rw [h2]
                  exact List.mem_cons_of_mem _ (List.mem_cons_of_mem _
                    (List.mem_cons_of_mem _ (List.mem_cons_of_mem _
                      (List.mem_cons_self _ _))))
                · exact absurd h2 (List.not_mem_nil r)))
          · exact hfin (Or.inr (hsub3b r hm2))

mutual

theorem insertSpine_spec (sk : Str) (nn : VNode) :
    ∀ (t : VNode) (lo hi2 : Option Str),
      wfW lo (some sk) t = true → wfW (some sk) hi2 nn = true →
      loOk lo sk = true → hiOk hi2 sk = true →
      (∀ b, hi2 = some b → strLt sk b = true) →
      (∀ r ∈ rkeysOf t, strLt r sk = true) →
      (match (insertSpine t sk nn).2 with
       | none => wfW lo hi2 (insertSpine t sk nn).1 = true
       | some (sk2, nn2) =>
           wfW lo (some sk2) (insertSpine t sk nn).1 = true ∧
           wfW (some sk2) hi2 nn2 = true ∧ loOk lo sk2 = true ∧ hiOk hi2 sk2 = true ∧
           (∀ b, hi2 = some b → strLt sk2 b = true)) ∧
      sideLeaves (insertSpine t sk nn).1 (insertSpine t sk nn).2 =
        leavesOf t ++ leavesOf nn ∧
      (∀ r, (r ∈ rkeysOf (insertSpine t sk nn).1 ∨
          (match (insertSpine t sk nn).2 with
           | none => False
           | some (sk2, nn2) => r = sk2 ∨ r ∈ rkeysOf nn2)) →
        r = sk ∨ r ∈ rkeysOf t ∨ r ∈ rkeysOf nn)
  | VNode.leaf h k pid, lo, hi2, hwt, hnn, hlosk, hhisk, hstrict, hkeys => by
      refine ⟨⟨hwt, hnn, hlosk, hhisk, hstrict⟩, rfl, ?_⟩
      intro r hr
      rcases hr with hr | hr
      · exact absurd hr (List.not_mem_nil r)
      · rcases hr with hr | hr
        · exact Or.inl hr
        · exact Or.inr (Or.inr hr)
  | VNode.inner rkeys children, lo, hi2, hwt, hnn, hlosk, hhisk, hstrict, hkeys => by
      rw [wfW, Bool.and_eq_true, Bool.and_eq_true] at hwt
      obtain ⟨⟨hl1, hl4⟩, hchain⟩ := hwt
      have hl1' : 1 ≤ rkeys.length := of_decide_eq_true hl1
      have hl4' : rkeys.length ≤ INNER_KEYS := of_decide_eq_true hl4
      have hkeysR : ∀ r ∈ rkeys, strLt r sk = true :=
        fun r hr => hkeys r (by rw [rkeysOf]; exact List.mem_append_left _ hr)
      have hkeysC : ∀ r ∈ rkeysOfList children, strLt r sk = true :=
        fun r hr => hkeys r (by rw [rkeysOf]; exact List.mem_append_right _ hr)
      have hsub := insertSpineLast_spec sk nn children rkeys lo hi2 hchain hnn
        hlosk hhisk hstrict hkeysR hkeysC
      rcases hres : insertSpineLast children sk nn with ⟨cs2, ro⟩
      rw [hres] at hsub
      obtain ⟨hsub1, hsub2, hsub3⟩ := hsub
      cases ro with
      | none =>
          have hr2 : insertSpine (VNode.inner rkeys children) sk nn =
              (VNode.inner rkeys cs2, none) := by
            rw [insertSpine, hres]
          rw [hr2]
          refine ⟨?_, ?_, ?_⟩
          · rw [wfW, Bool.and_eq_true, Bool.and_eq_true]
            exact ⟨⟨hl1, hl4⟩, hsub1⟩
          · exact hsub2
          · intro r hr
            rcases hr with hr | hr
            · rw [rkeysOf] at hr
              rcases List.mem_append.mp hr with hm | hm
              · exact Or.inr (Or.inl (by rw [rkeysOf]; exact List.mem_append_left _ hm))
              · rcases hsub3 r (Or.inl hm) with h1 | h2 | h3
                · exact Or.inl h1
                · exact Or.inr (Or.inl (by rw [rkeysOf]; exact List.mem_append_right _ h2))
                · exact Or.inr (Or.inr h3)
            · cases hr
      | some p =>
          obtain ⟨sk2, nn2⟩ := p
          have hr2 : insertSpine (VNode.inner rkeys children) sk nn =
              absorbSplit rkeys cs2 sk2 nn2 := by
            rw [insertSpine, hres]
          obtain ⟨hsub1a, hsub1b, hsub1c, hsub1d⟩ := hsub1
          have habs := absorbSplit_wf hl1' hl4' hsub1a
          obtain ⟨habs1, habs2, habs3⟩ := habs
          rw [hr2]
          refine ⟨habs1, ?_, ?_⟩
          · rw [habs2]
            exact hsub2
          · intro r hr
            have hout : r = sk2 ∨ r ∈ rkeys ∨ r ∈ rkeysOf nn2 ∨ r ∈ rkeysOfList cs2 :=
              habs3 r hr
            rcases hout with h1 | h2 | h3 | h4
            · rcases hsub3 r (Or.inr (Or.inl h1)) with a1 | a2 | a3
              · exact Or.inl a1
              · exact Or.inr (Or.inl (by rw [rkeysOf]; exact List.mem_append_right _ a2))
              · exact Or.inr (Or.inr a3)
            · exact Or.inr (Or.inl (by rw [rkeysOf]; exact List.mem_append_left _ h2))
            · rcases hsub3 r (Or.inr (Or.inr h3)) with a1 | a2 | a3
              · exact Or.inl a1
              · exact Or.inr (Or.inl (by rw [rkeysOf]; exact List.mem_append_right _ a2))
              · exact Or.inr (Or.inr a3)
            · rcases hsub3 r (Or.inl h4) with a1 | a2 | a3
              · exact Or.inl a1
              · exact Or.inr (Or.inl (by rw [rkeysOf]; exact List.mem_append_right _ a2))
              · exact Or.inr (Or.inr a3)

theorem insertSpineLast_spec (sk : Str) (nn : VNode) :
    ∀ (cs : List VNode) (rs : List Str) (lo hi2 : Option Str),
      chainW lo (some sk) rs cs = true →
      wfW (some sk) hi2 nn = true →
      loOk lo sk = true → hiOk hi2 sk = true →
      (∀ b, hi2 = some b → strLt sk b = true) →
      (∀ r ∈ rs, strLt r sk = true) →
      (∀ r ∈ rkeysOfList cs, strLt r sk = true) →
      (match (insertSpineLast cs sk nn).2 with
       | none => chainW lo hi2 rs (insertSpineLast cs sk nn).1 = true
       | some (sk2, nn2) =>
           chainW lo hi2 (insertAt (insPos sk2 rs) sk2 rs)
             (insertAt (insPos sk2 rs + 1) nn2 (insertSpineLast cs sk nn).1) = true ∧
           loOk lo sk2 = true ∧ hiOk hi2 sk2 = true ∧
           (∀ b, hi2 = some b → strLt sk2 b = true)) ∧
      (match (insertSpineLast cs sk nn).2 with
       | none => leavesOfList (insertSpineLast cs sk nn).1
       | some (sk2, nn2) =>
           leavesOfList (insertAt (insPos sk2 rs + 1) nn2 (insertSpineLast cs sk nn).1)) =
        leavesOfList cs ++ leavesOf nn ∧
      (∀ r, (r ∈ rkeysOfList (insertSpineLast cs sk nn).1 ∨
          (match (insertSpineLast cs sk nn).2 with
           | none => False
           | some (sk2, nn2) => r = sk2 ∨ r ∈ rkeysOf nn2)) →
        r = sk ∨ r ∈ rkeysOfList cs ∨ r ∈ rkeysOf nn)
  | [], rs, lo, hi2, hch, hnn, hlosk, hhisk, hstrict, hrs, hcs => by
      cases rs with
      | nil => exact absurd hch Bool.false_ne_true
      | cons r rs' => exact absurd hch Bool.false_ne_true
  | [c], rs, lo, hi2, hch, hnn, hlosk, hhisk, hstrict, hrs, hcs => by
      cases rs with
      | cons r rs' =>
          rw [chainW, Bool.and_eq_true, Bool.and_eq_true, Bool.and_eq_true] at hch
          cases rs' with
          | nil => exact absurd hch.2 Bool.false_ne_true
          | cons r2 rs'' => exact absurd hch.2 Bool.false_ne_true
      | nil =>
          have hwc : wfW lo (some sk) c = true := hch
          have hkeysc : ∀ r ∈ rkeysOf c, strLt r sk = true := by
            intro r hr
            apply hcs
            rw [rkeysOfList, rkeysOfList, List.append_nil]
            exact hr
          have hsub := insertSpine_spec sk nn c lo hi2 hwc hnn hlosk hhisk hstrict hkeysc
          rcases hres : insertSpine c sk nn with ⟨t1, ro⟩
          rw [hres] at hsub
          obtain ⟨hsub1, hsub2, hsub3⟩ := hsub
          have hr2 : insertSpineLast [c] sk nn = ([t1], ro) := by
            rw [insertSpineLast, hres]
          rw [hr2]
          have hkeyout : ∀ r, r = sk ∨ r ∈ rkeysOf c ∨ r ∈ rkeysOf nn →
              r = sk ∨ r ∈ rkeysOfList [c] ∨ r ∈ rkeysOf nn := by
            intro r h
            rcases h with h | h | h
            · exact Or.inl h
            · refine Or.inr (Or.inl ?_)
              rw [rkeysOfList, rkeysOfList, List.append_nil]
              exact h
            · exact Or.inr (Or.inr h)
          cases ro with
          | none =>
              refine ⟨hsub1, ?_, ?_⟩
              · show leavesOf t1 ++ leavesOfList [] = leavesOfList [c] ++ leavesOf nn
                simp only [leavesOfList, List.append_nil]
                exact hsub2
              · intro r hr
                rcases hr with hr | hr
                · apply hkeyout
                  apply hsub3
                  rw [rkeysOfList, rkeysOfList, List.append_nil] at hr
                  exact Or.inl hr
                · cases hr
          | some p =>
              obtain ⟨sk2, nn2⟩ := p
              obtain ⟨hw1, hw2, hlo2, hhi2, hstrict2⟩ := hsub1
              refine ⟨⟨?_, hlo2, hhi2, hstrict2⟩, ?_, ?_⟩
              · show chainW lo hi2 [sk2] [t1, nn2] = true
                rw [chainW, Bool.and_eq_true, Bool.and_eq_true, Bool.and_eq_true]
                exact ⟨⟨⟨hlo2, hhi2⟩, hw1⟩, hw2⟩
              · show leavesOf t1 ++ (leavesOf nn2 ++ leavesOfList []) =
                  leavesOfList [c] ++ leavesOf nn
                simp only [leavesOfList, List.append_nil]
                show sideLeaves t1 (some (sk2, nn2)) = leavesOf c ++ leavesOf nn
                exact hsub2
              · intro r hr
                rcases hr with hr | hr
                · apply hkeyout
                  apply hsub3
                  rw [rkeysOfList, rkeysOfList, List.append_nil] at hr
                  exact Or.inl hr
                · apply hkeyout
                  apply hsub3
                  exact Or.inr hr
  | c :: c2 :: cs', rs, lo, hi2, hch, hnn, hlosk, hhisk, hstrict, hrs, hcs => by
      cases rs with
      | nil => exact absurd hch Bool.false_ne_true
      | cons r rs' =>
          rw [chainW, Bool.and_eq_true, Bool.and_eq_true, Bool.and_eq_true] at hch
          obtain ⟨⟨⟨hlor, hhir⟩, hwc⟩, hchain'⟩ := hch
          have hrsk : strLe r sk = true := hhir
          have hrltsk : strLt r sk = true := hrs r (List.mem_cons_self r rs')
          have hkeysc2 : ∀ x ∈ rkeysOfList (c2 :: cs'), strLt x sk = true := by
            intro x hx
            apply hcs
            rw [rkeysOfList]
            exact List.mem_append_right _ hx
          have hsub := insertSpineLast_spec sk nn (c2 :: cs') rs' (some r) hi2 hchain' hnn
            hrltsk hhisk hstrict (fun x hx => hrs x (List.mem_cons_of_mem r hx)) hkeysc2
          rcases hres : insertSpineLast (c2 :: cs') sk nn with ⟨cs2, ro⟩
          rw [hres] at hsub
          obtain ⟨hsub1, hsub2, hsub3⟩ := hsub
          have hr2 : insertSpineLast (c :: c2 :: cs') sk nn = (c :: cs2, ro) := by
            rw [insertSpineLast, hres]
          rw [hr2]
          have hkeyout : ∀ x, x = sk ∨ x ∈ rkeysOfList (c2 :: cs') ∨ x ∈ rkeysOf nn →
              x = sk ∨ x ∈ rkeysOfList (c :: c2 :: cs') ∨ x ∈ rkeysOf nn := by
            intro x h
            rcases h with h | h | h
            · exact Or.inl h
            · refine Or.inr (Or.inl ?_)
              rw [rkeysOfList]
              exact List.mem_append_right _ h
            · exact Or.inr (Or.inr h)
          have hkeycons : ∀ x, x ∈ rkeysOfList (c :: cs2) →
              x ∈ rkeysOf c ∨ x ∈ rkeysOfList cs2 := by
            intro x hx
            rw [rkeysOfList] at hx
            exact List.mem_append.mp hx
          cases ro with
          | none =>
              refine ⟨?_, ?_, ?_⟩
              · rw [chainW, Bool.and_eq_true, Bool.and_eq_true, Bool.and_eq_true]
                exact ⟨⟨⟨hlor, hiOk_weaken hhisk hrsk⟩, hwc⟩, hsub1⟩
              · simp only [] at hsub2
                show leavesOf c ++ leavesOfList cs2 =
                  leavesOfList (c :: c2 :: cs') ++ leavesOf nn
                rw [hsub2]
                simp only [leavesOfList, List.append_assoc]
              · intro x hx
                rcases hx with hx | hx
                · rcases hkeycons x hx with h1 | h2
                  · refine Or.inr (Or.inl ?_)
                    rw [rkeysOfList]
                    exact List.mem_append_left _ h1
                  · exact hkeyout x (hsub3 x (Or.inl h2))
                · cases hx
          | some p =>
              obtain ⟨sk2, nn2⟩ := p
              obtain ⟨hsub1a, hsub1b, hsub1c, hsub1d⟩ := hsub1
              have hrsk2 : strLe r sk2 = true := strLe_of_lt hsub1b
              have hins : insPos sk2 (r :: rs') = insPos sk2 rs' + 1 := by
                rw [insPos, hrsk2]
                rfl
              refine ⟨⟨?_, loOk_weaken hlor hsub1b, hsub1c, hsub1d⟩, ?_, ?_⟩
              · rw [hins]
                show chainW lo hi2 (r :: insertAt (insPos sk2 rs') sk2 rs')
                  (c :: insertAt (insPos sk2 rs' + 1) nn2 cs2) = true
                rw [chainW, Bool.and_eq_true, Bool.and_eq_true, Bool.and_eq_true]
                exact ⟨⟨⟨hlor, hiOk_weaken hhisk hrsk⟩, hwc⟩, hsub1a⟩
              · simp only [] at hsub2
                show leavesOfList (insertAt (insPos sk2 (r :: rs') + 1) nn2 (c :: cs2)) =
                  leavesOfList (c :: c2 :: cs') ++ leavesOf nn
                rw [hins]
                show leavesOf c ++ leavesOfList (insertAt (insPos sk2 rs' + 1) nn2 cs2) =
                  leavesOfList (c :: c2 :: cs') ++ leavesOf nn
                rw [hsub2]
                simp only [leavesOfList, List.append_assoc]
              · intro x hx
                rcases hx with hx | hx
                · rcases hkeycons x hx with h1 | h2
                  · refine Or.inr (Or.inl ?_)
                    rw [rkeysOfList]
                    exact List.mem_append_left _ h1
                  · exact hkeyout x (hsub3 x (Or.inl h2))
                · exact hkeyout x (hsub3 x (Or.inr hx))

end

/-- The maximum key after folding a run of recovered entries. -/
def lastMax (m : Str) : List RecEntry → Str
  | [] => m
  | e :: rest => lastMax e.max_key rest

/-- The window discipline `recoverBuild` relies on: each recovered leaf is
well formed between the previous maximum (exclusive) and its own maximum
(inclusive), and maxima strictly increase. -/
def entChainOk (m : Str) : List RecEntry → Prop
  | [] => True
  | e :: rest =>
      wfW (some m) (some e.max_key) (VNode.leaf e.hashes e.keys e.pid) = true ∧
      strLt m e.max_key = true ∧ entChainOk e.max_key rest

theorem recoverBuild_spec :
    ∀ (es : List RecEntry) (t : VNode) (m : Str),
      wfW none (some m) t = true →
      (∀ r ∈ rkeysOf t, strLt r m = true) →
      entChainOk m es →
      wfW none (some (lastMax m es)) (recoverBuild t m es) = true ∧
      leavesOf (recoverBuild t m es) =
        leavesOf t ++ es.map (fun e => VNode.leaf e.hashes e.keys e.pid) ∧
      (∀ r ∈ rkeysOf (recoverBuild t m es), strLt r (lastMax m es) = true)
  | [], t, m, hw, hk, hch => by
      rw [recoverBuild, lastMax]
      refine ⟨hw, ?_, hk⟩
      simp
  | e :: rest, t, m, hw, hk, hch => by
      obtain ⟨hle, hlt, hch'⟩ := hch
      have hspine := insertSpine_spec m (VNode.leaf e.hashes e.keys e.pid) t none
        (some e.max_key) hw hle rfl (strLe_of_lt hlt)
        (fun b hb => by
          injection hb with hb2
          rw [← hb2]
          exact hlt) hk
      rcases hres : insertSpine t m (VNode.leaf e.hashes e.keys e.pid) with ⟨t1, ro⟩
      rw [hres] at hspine
      obtain ⟨hs1, hs2, hs3⟩ := hspine
      have hnext : wfW none (some e.max_key) (finishSplit t1 ro) = true ∧
          leavesOf (finishSplit t1 ro) =
            leavesOf t ++ [VNode.leaf e.hashes e.keys e.pid] ∧
          (∀ r ∈ rkeysOf (finishSplit t1 ro), strLt r e.max_key = true) := by
        cases ro with
        | none =>
            refine ⟨hs1, hs2, ?_⟩
            intro r hr
            rcases hs3 r (Or.inl hr) with h1 | h2 | h3
            · rw [h1]
              exact hlt
            · exact strLt_trans (hk r h2) hlt
            · exact absurd h3 (List.not_mem_nil r)
        | some p =>
            obtain ⟨sk2, nn2⟩ := p
            obtain ⟨ha, hb, hc, hd, he2⟩ := hs1
            refine ⟨?_, ?_, ?_⟩
            · show wfW none (some e.max_key) (VNode.inner [sk2] [t1, nn2]) = true
              rw [wfW, Bool.and_eq_true, Bool.and_eq_true]
              refine ⟨⟨decide_eq_true (Nat.le_refl 1),
                decide_eq_true (by decide : (1 : Nat) ≤ INNER_KEYS)⟩, ?_⟩
              rw [chainW, Bool.and_eq_true, Bool.and_eq_true, Bool.and_eq_true]
              exact ⟨⟨⟨hc, hd⟩, ha⟩, hb⟩
            · show leavesOfList [t1, nn2] =
                leavesOf t ++ [VNode.leaf e.hashes e.keys e.pid]
              simp only [leavesOfList, List.append_nil]
              exact hs2
            · intro r hr
              have hr2 : r ∈ ([sk2] ++ rkeysOfList [t1, nn2] : List Str) := hr
              have hcases : r = sk2 ∨ r ∈ rkeysOf t1 ∨ r ∈ rkeysOf nn2 := by
                rcases List.mem_append.mp hr2 with h | h
                · exact Or.inl (List.mem_singleton.mp h)
                · rcases rkeysOfList_mem _ r h with ⟨c, hcmem, hrc⟩
                  rcases List.mem_cons.mp hcmem with h1 | h1
                  · exact Or.inr (Or.inl (h1 ▸ hrc))
                  · rcases List.mem_cons.mp h1 with h2 | h2
                    · exact Or.inr (Or.inr (h2 ▸ hrc))
                    · exact absurd h2 (List.not_mem_nil c)
              have hout : r = m ∨ r ∈ rkeysOf t ∨
                  r ∈ rkeysOf (VNode.leaf e.hashes e.keys e.pid) := by
                rcases hcases with h | h | h
                · exact hs3 r (Or.inr (Or.inl h))
                · exact hs3 r (Or.inl h)
                · exact hs3 r (Or.inr (Or.inr h))
              rcases hout with h | h | h
              · rw [h]
                exact hlt
              · exact strLt_trans (hk r h) hlt
              · exact absurd h (List.not_mem_nil r)
      have hrec := recoverBuild_spec rest (finishSplit t1 ro) e.max_key
        hnext.1 hnext.2.2 hch'
      have hrb : recoverBuild t m (e :: rest) =
          recoverBuild (finishSplit t1 ro) e.max_key rest := by
        rw [recoverBuild, hres]
      rw [hrb, lastMax]
      refine ⟨hrec.1, ?_, hrec.2.2⟩
      rw [hrec.2.1, hnext.2.1, List.append_assoc, List.map_cons]
      rfl

/-! ## Reconstruction of one leaf mirror from its persistent slots -/

/-- The hash byte recovery reads from a persistent slot. -/
def poolHash (lf : KVLeaf) (slot : Nat) : Nat :=
  match lf.slots.getD slot none with
  | none => 0
  | some p => KVSlot.get_ph p

theorem slotAgree_poolHash {q : PState} {pid slot : Nat} {h : List Nat} {k : List Str}
    (hsa : slotAgree q pid slot h k = true) :
    poolHash (getLeafP q pid) slot = h.getD slot 0 := by
  rw [slotAgree] at hsa
  rw [poolHash]
  cases hp : (getLeafP q pid).slots.getD slot none with
  | none =>
      rw [hp] at hsa
      rw [beq_iff_eq] at hsa
      rw [hsa]
  | some p =>
      rw [hp] at hsa
      simp only [] at hsa
      show KVSlot.get_ph p = h.getD slot 0
      by_cases hz : (h.getD slot 0 == 0) = true
      · rw [if_pos hz] at hsa
        rw [beq_iff_eq] at hsa hz
        rw [hsa, hz]
      · rw [if_neg hz] at hsa
        rw [Bool.and_eq_true, beq_iff_eq, beq_iff_eq] at hsa
        exact hsa.1

theorem slotAgree_poolKey {q : PState} {pid slot : Nat} {h : List Nat} {k : List Str}
    (hsa : slotAgree q pid slot h k = true) (hne : h.getD slot 0 ≠ 0) :
    ∃ p, (getLeafP q pid).slots.getD slot none = some p ∧
      KVSlot.keyBytes p = k.getD slot [] := by
  rw [slotAgree] at hsa
  cases hp : (getLeafP q pid).slots.getD slot none with
  | none =>
      rw [hp] at hsa
      rw [beq_iff_eq] at hsa
      exact absurd hsa hne
  | some p =>
      rw [hp] at hsa
      have hz : (h.getD slot 0 == 0) = false := by
        rw [beq_eq_false_iff_ne]
        exact hne
      rw [hz] at hsa
      simp only [Bool.false_eq_true, if_false, Bool.and_eq_true, beq_iff_eq] at hsa
      exact ⟨p, rfl, hsa.2⟩

theorem recoverLeafAux_spec (lf : KVLeaf) (h : List Nat) (k : List Str) :
    ∀ (l : List Nat) (hs : List Nat) (ks : List Str) (mx : Option Str),
      l.Nodup →
      (∀ slot ∈ l, slot < LEAF_KEYS) →
      hs.length = LEAF_KEYS → ks.length = LEAF_KEYS →
      (∀ slot ∈ l, poolHash lf slot = h.getD slot 0) →
      (∀ slot ∈ l, h.getD slot 0 ≠ 0 →
        ∃ p, lf.slots.getD slot none = some p ∧ KVSlot.keyBytes p = k.getD slot []) →
      (∀ slot ∈ l, hs.getD slot 0 = 0 ∧ ks.getD slot [] = []) →
      (recoverLeafAux lf l hs ks mx).1.length = LEAF_KEYS ∧
      (recoverLeafAux lf l hs ks mx).2.1.length = LEAF_KEYS ∧
      (∀ slot, slot ∉ l →
        (recoverLeafAux lf l hs ks mx).1.getD slot 0 = hs.getD slot 0 ∧
        (recoverLeafAux lf l hs ks mx).2.1.getD slot [] = ks.getD slot []) ∧
      (∀ slot ∈ l, (recoverLeafAux lf l hs ks mx).1.getD slot 0 = h.getD slot 0) ∧
      (∀ slot ∈ l, h.getD slot 0 ≠ 0 →
        (recoverLeafAux lf l hs ks mx).2.1.getD slot [] = k.getD slot []) ∧
      (∀ slot ∈ l, h.getD slot 0 = 0 →
        (recoverLeafAux lf l hs ks mx).2.1.getD slot [] = []) ∧
      (match (recoverLeafAux lf l hs ks mx).2.2 with
       | none => mx = none ∧ ∀ slot ∈ l, h.getD slot 0 = 0
       | some z =>
           (mx = some z ∨ ∃ slot ∈ l, h.getD slot 0 ≠ 0 ∧ k.getD slot [] = z) ∧
           (∀ x, mx = some x → strLe x z = true) ∧
           (∀ slot ∈ l, h.getD slot 0 ≠ 0 → strLe (k.getD slot []) z = true))
  | [], hs, ks, mx, hnd, hlt, hhl, hkl, hagH, hagK, hinit => by
      refine ⟨hhl, hkl, fun slot _ => ⟨rfl, rfl⟩,
        fun slot hslot => absurd hslot (List.not_mem_nil slot),
        fun slot hslot => absurd hslot (List.not_mem_nil slot),
        fun slot hslot => absurd hslot (List.not_mem_nil slot), ?_⟩
      cases mx with
      | none => exact ⟨rfl, fun slot hslot => absurd hslot (List.not_mem_nil slot)⟩
      | some z =>
          refine ⟨Or.inl rfl, ?_, fun slot hslot => absurd hslot (List.not_mem_nil slot)⟩
          intro x hx
          injection hx with hx2
          rw [hx2]
          exact strLe_refl x
  | slot :: rest, hs, ks, mx, hnd, hlt, hhl, hkl, hagH, hagK, hinit => by
      rw [List.nodup_cons] at hnd
      obtain ⟨hslnr, hndr⟩ := hnd
      have hsl48 : slot < LEAF_KEYS := hlt slot (List.mem_cons_self slot rest)
      have hinit0 := hinit slot (List.mem_cons_self slot rest)
      have hpoolH := hagH slot (List.mem_cons_self slot rest)
      rcases hp : lf.slots.getD slot none with _ | p
      · have hz : h.getD slot 0 = 0 := by
          rw [poolHash, hp] at hpoolH
          exact hpoolH.symm
        have hstep : recoverLeafAux lf (slot :: rest) hs ks mx =
            recoverLeafAux lf rest hs ks mx := by
          rw [recoverLeafAux, hp]
        have hrec := recoverLeafAux_spec lf h k rest hs ks mx hndr
          (fun s2 hs2 => hlt s2 (List.mem_cons_of_mem slot hs2)) hhl hkl
          (fun s2 hs2 => hagH s2 (List.mem_cons_of_mem slot hs2))
          (fun s2 hs2 => hagK s2 (List.mem_cons_of_mem slot hs2))
          (fun s2 hs2 => hinit s2 (List.mem_cons_of_mem slot hs2))
        rw [hstep]
        obtain ⟨r1, r2, rframe, rH, rK, rKd, rmx⟩ := hrec
        refine ⟨r1, r2,
          fun s2 hs2 => rframe s2 (fun hc => hs2 (List.mem_cons_of_mem slot hc)),
          ?_, ?_, ?_, ?_⟩
        · intro s2 hs2
          rcases List.mem_cons.mp hs2 with he | hm
          · subst he
            rw [(rframe s2 hslnr).1, hinit0.1, hz]
          · exact rH s2 hm
        · intro s2 hs2 hne2
          rcases List.mem_cons.mp hs2 with he | hm
          · subst he
            exact absurd hz hne2
          · exact rK s2 hm hne2
        · intro s2 hs2 hz2
          rcases List.mem_cons.mp hs2 with he | hm
          · subst he
            rw [(rframe s2 hslnr).2, hinit0.2]
          · exact rKd s2 hm hz2
        · cases hrmx : (recoverLeafAux lf rest hs ks mx).2.2 with
          | none =>
              rw [hrmx] at rmx
              refine ⟨rmx.1, ?_⟩
              intro s2 hs2
              rcases List.mem_cons.mp hs2 with he | hm
              · subst he
                exact hz
              · exact rmx.2 s2 hm
          | some z =>
              rw [hrmx] at rmx
              obtain ⟨rorigin, rle, rlive⟩ := rmx
              refine ⟨?_, rle, ?_⟩
              · rcases rorigin with h1 | ⟨s2, hm2, hl2, he2⟩
                · exact Or.inl h1
                · exact Or.inr ⟨s2, List.mem_cons_of_mem slot hm2, hl2, he2⟩
              · intro s2 hs2 hne2
                rcases List.mem_cons.mp hs2 with he | hm
                · subst he
                  exact absurd hz hne2
                · exact rlive s2 hm hne2
      · by_cases hzp : KVSlot.get_ph p = 0
        · have hz : h.getD slot 0 = 0 := by
            rw [poolHash, hp] at hpoolH
            have hpoolH2 : KVSlot.get_ph p = h.getD slot 0 := hpoolH
            rw [← hpoolH2]
            exact hzp
          have hseteq : hs.set slot (KVSlot.get_ph p) = hs := by
            rw [hzp]
            exact set_getD_eq hinit0.1
          have hstep : recoverLeafAux lf (slot :: rest) hs ks mx =
              recoverLeafAux lf rest hs ks mx := by
            simp only [recoverLeafAux, hp]
            rw [if_pos hzp, hseteq]
          have hrec := recoverLeafAux_spec lf h k rest hs ks mx hndr
            (fun s2 hs2 => hlt s2 (List.mem_cons_of_mem slot hs2)) hhl hkl
            (fun s2 hs2 => hagH s2 (List.mem_cons_of_mem slot hs2))
            (fun s2 hs2 => hagK s2 (List.mem_cons_of_mem slot hs2))
            (fun s2 hs2 => hinit s2 (List.mem_cons_of_mem slot hs2))
          rw [hstep]
          obtain ⟨r1, r2, rframe, rH, rK, rKd, rmx⟩ := hrec
          refine ⟨r1, r2,
            fun s2 hs2 => rframe s2 (fun hc => hs2 (List.mem_cons_of_mem slot hc)),
            ?_, ?_, ?_, ?_⟩
          · intro s2 hs2
            rcases List.mem_cons.mp hs2 with he | hm
            · subst he
              rw [(rframe s2 hslnr).1, hinit0.1, hz]
            · exact rH s2 hm
          · intro s2 hs2 hne2
            rcases List.mem_cons.mp hs2 with he | hm
            · subst he
              exact absurd hz hne2
            · exact rK s2 hm hne2
          · intro s2 hs2 hz2
            rcases List.mem_cons.mp hs2 with he | hm
            · subst he
              rw [(rframe s2 hslnr).2, hinit0.2]
            · exact rKd s2 hm hz2
          · cases hrmx : (recoverLeafAux lf rest hs ks mx).2.2 with
            | none =>
                rw [hrmx] at rmx
                refine ⟨rmx.1, ?_⟩
                intro s2 hs2
                rcases List.mem_cons.mp hs2 with he | hm
                · subst he
                  exact hz
                · exact rmx.2 s2 hm
            | some z =>
                rw [hrmx] at rmx
                obtain ⟨rorigin, rle, rlive⟩ := rmx
                refine ⟨?_, rle, ?_⟩
                · rcases rorigin with h1 | ⟨s2, hm2, hl2, he2⟩
                  · exact Or.inl h1
                  · exact Or.inr ⟨s2, List.mem_cons_of_mem slot hm2, hl2, he2⟩
                · intro s2 hs2 hne2
                  rcases List.mem_cons.mp hs2 with he | hm
                  · subst he
                    exact absurd hz hne2
                  · exact rlive s2 hm hne2
        · have hvh : KVSlot.get_ph p = h.getD slot 0 := by
            rw [poolHash, hp] at hpoolH
            exact hpoolH
          have hz : h.getD slot 0 ≠ 0 := by
            rw [← hvh]
            exact hzp
          have hkb : KVSlot.keyBytes p = k.getD slot [] := by
            obtain ⟨p2, hp2, hkb2⟩ := hagK slot (List.mem_cons_self slot rest) hz
            rw [hp] at hp2
            injection hp2 with he
            rw [he]
            exact hkb2
          have hmxN : ∃ w, recoverLeafAux lf (slot :: rest) hs ks mx =
              recoverLeafAux lf rest (hs.set slot (h.getD slot 0))
                (ks.set slot (k.getD slot [])) (some w) ∧
              (mx = some w ∨ w = k.getD slot []) ∧
              (∀ x, mx = some x → strLe x w = true) ∧
              strLe (k.getD slot []) w = true := by
            cases mx with
            | none =>
                refine ⟨k.getD slot [], ?_, Or.inr rfl, ?_, strLe_refl _⟩
                · simp only [recoverLeafAux, hp]
                  rw [if_neg hzp, hvh, hkb]
                · intro x hx
                  cases hx
            | some m0 =>
                by_cases hlt0 : strLt m0 (k.getD slot []) = true
                · refine ⟨k.getD slot [], ?_, Or.inr rfl, ?_, strLe_refl _⟩
                  · simp only [recoverLeafAux, hp]
                    rw [if_neg hzp, hvh, hkb, if_pos hlt0]
                  · intro x hx
                    injection hx with hx2
                    rw [hx2] at hlt0
                    exact strLe_of_lt hlt0
                · refine ⟨m0, ?_, Or.inl rfl, ?_, strLe_iff_not_lt.mpr hlt0⟩
                  · simp only [recoverLeafAux, hp]
                    rw [if_neg hzp, hvh, hkb, if_neg hlt0]
                  · intro x hx
                    injection hx with hx2
                    rw [hx2]
                    exact strLe_refl x
          obtain ⟨w, hstep, hworigin, hwle, hwkv⟩ := hmxN
          have hsl' : slot < hs.length := by
            rw [hhl]
            exact hsl48
          have hsk' : slot < ks.length := by
            rw [hkl]
            exact hsl48
          have hinitr : ∀ s2 ∈ rest,
              (hs.set slot (h.getD slot 0)).getD s2 0 = 0 ∧
              (ks.set slot (k.getD slot [])).getD s2 [] = [] := by
            intro s2 hs2
            have hne2 : slot ≠ s2 := fun he => hslnr (he ▸ hs2)
            rw [getD_set_ne _ _ _ _ _ hne2, getD_set_ne _ _ _ _ _ hne2]
            exact hinit s2 (List.mem_cons_of_mem slot hs2)
          have hrec := recoverLeafAux_spec lf h k rest (hs.set slot (h.getD slot 0))
            (ks.set slot (k.getD slot [])) (some w) hndr
            (fun s2 hs2 => hlt s2 (List.mem_cons_of_mem slot hs2))
            (by rw [List.length_set]; exact hhl) (by rw [List.length_set]; exact hkl)
            (fun s2 hs2 => hagH s2 (List.mem_cons_of_mem slot hs2))
            (fun s2 hs2 => hagK s2 (List.mem_cons_of_mem slot hs2))
            hinitr
          rw [hstep]
          obtain ⟨r1, r2, rframe, rH, rK, rKd, rmx⟩ := hrec
          refine ⟨r1, r2, ?_, ?_, ?_, ?_, ?_⟩
          · intro s2 hs2
            have hs2r : s2 ∉ rest := fun hc => hs2 (List.mem_cons_of_mem slot hc)
            have hs2ne : s2 ≠ slot := fun he => hs2 (he ▸ List.mem_cons_self slot rest)
            obtain ⟨hf1, hf2⟩ := rframe s2 hs2r
            rw [hf1, hf2, getD_set_ne _ _ _ _ _ (fun he => hs2ne he.symm),
              getD_set_ne _ _ _ _ _ (fun he => hs2ne he.symm)]
            exact ⟨rfl, rfl⟩
          · intro s2 hs2
            rcases List.mem_cons.mp hs2 with he | hm
            · subst he
              rw [(rframe s2 hslnr).1, getD_set_self _ _ _ _ hsl']
            · exact rH s2 hm
          · intro s2 hs2 hne2
            rcases List.mem_cons.mp hs2 with he | hm
            · subst he
              rw [(rframe s2 hslnr).2, getD_set_self _ _ _ _ hsk']
            · exact rK s2 hm hne2
          · intro s2 hs2 hz2
            rcases List.mem_cons.mp hs2 with he | hm
            · subst he
              exact absurd hz2 hz
            · exact rKd s2 hm hz2
          · cases hrmx : (recoverLeafAux lf rest (hs.set slot (h.getD slot 0))
                (ks.set slot (k.getD slot [])) (some w)).2.2 with
            | none =>
                rw [hrmx] at rmx
                cases rmx.1
            | some z =>
                rw [hrmx] at rmx
                obtain ⟨rorigin, rle, rlive⟩ := rmx
                have hwz : strLe w z = true := rle w rfl
                refine ⟨?_, ?_, ?_⟩
                · rcases rorigin with h1 | ⟨s2, hm2, hl2, he2⟩
                  · injection h1 with h1b
                    rcases hworigin with h2 | h2
                    · rw [← h1b]
                      exact Or.inl h2
                    · refine Or.inr ⟨slot, List.mem_cons_self slot rest, hz, ?_⟩
                      rw [← h2, h1b]
                  · exact Or.inr ⟨s2, List.mem_cons_of_mem slot hm2, hl2, he2⟩
                · intro x hx
                  exact strLe_trans (hwle x hx) hwz
                · intro s2 hs2 hne2
                  rcases List.mem_cons.mp hs2 with he | hm
                  · subst he
                    exact strLe_trans hwkv hwz
                  · exact rlive s2 hm hne2

theorem getD_replicate {α : Type} (a : α) :
    ∀ (n i : Nat), (List.replicate n a).getD i a = a := by
  intro n
  induction n with
  | zero => intro i; rfl
  | succ m ih =>
      intro i
      cases i with
      | zero => rfl
      | succ j => exact ih j

/-- Rebuilding one leaf mirror from a pool leaf that agrees with a mirror
`(h, k)`: the recovered hashes replicate `h` slotwise, the recovered keys
replicate `k` at live slots and are blank at dead slots, and the recovered
maximum is the largest live key (`none` iff the mirror is fully dead). -/
theorem recoverLeaf_spec (lf : KVLeaf) (h : List Nat) (k : List Str)
    (hagH : ∀ slot, slot < LEAF_KEYS → poolHash lf slot = h.getD slot 0)
    (hagK : ∀ slot, slot < LEAF_KEYS → h.getD slot 0 ≠ 0 →
      ∃ p, lf.slots.getD slot none = some p ∧ KVSlot.keyBytes p = k.getD slot []) :
    (recoverLeaf lf).1.length = LEAF_KEYS ∧
    (recoverLeaf lf).2.1.length = LEAF_KEYS ∧
    (∀ slot, slot < LEAF_KEYS → (recoverLeaf lf).1.getD slot 0 = h.getD slot 0) ∧
    (∀ slot, slot < LEAF_KEYS → h.getD slot 0 ≠ 0 →
      (recoverLeaf lf).2.1.getD slot [] = k.getD slot []) ∧
    (∀ slot, slot < LEAF_KEYS → h.getD slot 0 = 0 →
      (recoverLeaf lf).2.1.getD slot [] = []) ∧
    (match (recoverLeaf lf).2.2 with
     | none => ∀ slot, slot < LEAF_KEYS → h.getD slot 0 = 0
     | some z =>
         (∃ slot, slot < LEAF_KEYS ∧ h.getD slot 0 ≠ 0 ∧ k.getD slot [] = z) ∧
         (∀ slot, slot < LEAF_KEYS → h.getD slot 0 ≠ 0 →
           strLe (k.getD slot []) z = true)) := by
  have hspec := recoverLeafAux_spec lf h k descRange (List.replicate LEAF_KEYS 0)
    (List.replicate LEAF_KEYS []) none descRange_nodup
    (fun slot hs => mem_descRange.mp hs)
    (List.length_replicate _ _) (List.length_replicate _ _)
    (fun slot hs => hagH slot (mem_descRange.mp hs))
    (fun slot hs => hagK slot (mem_descRange.mp hs))
    (fun slot _ => ⟨getD_replicate 0 LEAF_KEYS slot, getD_replicate [] LEAF_KEYS slot⟩)
  obtain ⟨r1, r2, _, rH, rK, rKd, rmx⟩ := hspec
  rw [recoverLeaf]
  refine ⟨r1, r2, fun slot hs => rH slot (mem_descRange.mpr hs),
    fun slot hs => rK slot (mem_descRange.mpr hs),
    fun slot hs => rKd slot (mem_descRange.mpr hs), ?_⟩
  cases hrmx : (recoverLeafAux lf descRange (List.replicate LEAF_KEYS 0)
      (List.replicate LEAF_KEYS []) none).2.2 with
  | none =>
      rw [hrmx] at rmx
      exact fun slot hs => rmx.2 slot (mem_descRange.mpr hs)
  | some z =>
      rw [hrmx] at rmx
      obtain ⟨rorigin, _, rlive⟩ := rmx
      refine ⟨?_, fun slot hs => rlive slot (mem_descRange.mpr hs)⟩
      rcases rorigin with h1 | ⟨slot, hm, hl, he⟩
      · cases h1
      · exact ⟨slot, mem_descRange.mp hm, hl, he⟩

/-- A fully dead pool leaf recovers with no maximum: it goes back to the
free pool. -/
theorem recoverLeaf_dead {ps : PState} {id : Nat} (hd : deadLeaf ps id = true) :
    (recoverLeaf (getLeafP ps id)).2.2 = none := by
  have hagH : ∀ slot, slot < LEAF_KEYS →
      poolHash (getLeafP ps id) slot = (List.replicate LEAF_KEYS (0 : Nat)).getD slot 0 := by
    intro slot hs
    rw [getD_replicate]
    have hlv := deadLeaf_slotLive hd hs
    rw [poolHash]
    cases hp : (getLeafP ps id).slots.getD slot none with
    | none => rfl
    | some p =>
        rw [hp] at hlv
        show KVSlot.get_ph p = 0
        have hlv2 : (KVSlot.get_ph p != 0) = false := hlv
        rw [bne_eq_false_iff_eq] at hlv2
        exact hlv2
  have hagK : ∀ slot, slot < LEAF_KEYS →
      (List.replicate LEAF_KEYS (0 : Nat)).getD slot 0 ≠ 0 →
      ∃ p, (getLeafP ps id).slots.getD slot none = some p ∧
        KVSlot.keyBytes p = (List.replicate LEAF_KEYS ([] : Str)).getD slot [] := by
    intro slot hs hne
    rw [getD_replicate] at hne
    exact absurd rfl hne
  have hspec := recoverLeaf_spec (getLeafP ps id) (List.replicate LEAF_KEYS 0)
    (List.replicate LEAF_KEYS []) hagH hagK
  cases hrmx : (recoverLeaf (getLeafP ps id)).2.2 with
  | none => rfl
  | some z =>
      exfalso
      rw [hrmx] at hspec
      obtain ⟨slot, _, hl, _⟩ := hspec.2.2.2.2.2.1
      rw [getD_replicate] at hl
      exact hl rfl

theorem nodup_map_inj {α β : Type} {f : α → β} :
    ∀ {l : List α}, (l.map f).Nodup → ∀ x ∈ l, ∀ y ∈ l, f x = f y → x = y := by
  intro l
  induction l with
  | nil => intro _ x hx; exact absurd hx (List.not_mem_nil x)
  | cons a rest ih =>
      intro hnd x hx y hy hf
      rw [List.map_cons, List.nodup_cons] at hnd
      rcases List.mem_cons.mp hx with he1 | hm1 <;>
        rcases List.mem_cons.mp hy with he2 | hm2
      · rw [he1, he2]
      · subst he1
        exact absurd (hf ▸ List.mem_map_of_mem f hm2) hnd.1
      · subst he2
        exact absurd (hf ▸ List.mem_map_of_mem f hm1) hnd.1
      · exact ih hnd.2 x hm1 y hm2 hf

theorem liveKeysLeaf_congr {h1 h2 : List Nat} {k1 k2 : List Str}
    (hh : ∀ s, s < LEAF_KEYS → h1.getD s 0 = h2.getD s 0)
    (hk : ∀ s, s < LEAF_KEYS → h2.getD s 0 ≠ 0 → k1.getD s [] = k2.getD s []) :
    liveKeysLeaf h1 k1 = liveKeysLeaf h2 k2 := by
  rw [liveKeysLeaf, liveKeysLeaf]
  have hgen : ∀ l : List Nat, (∀ s ∈ l, s < LEAF_KEYS) →
      (l.filterMap fun slot =>
        if h1.getD slot 0 = 0 then none else some (k1.getD slot [])) =
      (l.filterMap fun slot =>
        if h2.getD slot 0 = 0 then none else some (k2.getD slot [])) := by
    intro l
    induction l with
    | nil => intro _; rfl
    | cons a rest ih =>
        intro hbd
        rw [List.filterMap_cons, List.filterMap_cons]
        have ha : a < LEAF_KEYS := hbd a (List.mem_cons_self a rest)
        have htl := ih fun s hs => hbd s (List.mem_cons_of_mem a hs)
        by_cases hz : h2.getD a 0 = 0
        · rw [if_pos (by rw [hh a ha]; exact hz), if_pos hz, htl]
        · rw [if_neg (by rw [hh a ha]; exact hz), if_neg hz, htl, hk a ha hz]
  exact hgen _ fun s hs => List.mem_range.mp hs

theorem recoverWalk_cons_dead {ps : PState} {id : Nat} (l : List Nat)
    (hr : (recoverLeaf (getLeafP ps id)).2.2 = none) :
    recoverWalk ps (id :: l) =
      (id :: (recoverWalk ps l).1, (recoverWalk ps l).2) := by
  simp only [recoverWalk, hr]

theorem recoverWalk_cons_live {ps : PState} {id : Nat} {mx : Str} (l : List Nat)
    (hr : (recoverLeaf (getLeafP ps id)).2.2 = some mx) :
    recoverWalk ps (id :: l) =
      ((recoverWalk ps l).1,
       (⟨(recoverLeaf (getLeafP ps id)).1, (recoverLeaf (getLeafP ps id)).2.1, id, mx⟩ :
          RecEntry) :: (recoverWalk ps l).2) := by
  simp only [recoverWalk, hr]

mutual

theorem leavesOf_shape : ∀ (t : VNode), ∀ L ∈ leavesOf t,
    ∃ h k pid, L = VNode.leaf h k pid
  | VNode.leaf h k pid, L, hm => by
      rw [leavesOf, List.mem_singleton] at hm
      exact ⟨h, k, pid, hm⟩
  | VNode.inner rs cs, L, hm => by
      rw [leavesOf] at hm
      exact leavesOfList_shape cs L hm

theorem leavesOfList_shape : ∀ (cs : List VNode), ∀ L ∈ leavesOfList cs,
    ∃ h k pid, L = VNode.leaf h k pid
  | [], L, hm => absurd hm (List.not_mem_nil L)
  | c :: cs, L, hm => by
      rw [leavesOfList] at hm
      rcases List.mem_append.mp hm with h1 | h1
      · exact leavesOf_shape c L h1
      · exact leavesOfList_shape cs L h1

end

/-- What one recovered entry promises: it mirrors a tree leaf slotwise
(hashes everywhere, keys at live slots), and its `max_key` is the largest
live key of that leaf. -/
def entryGood (T : VNode) (e : RecEntry) : Prop :=
  ∃ h k, VNode.leaf h k e.pid ∈ leavesOf T ∧
    e.hashes.length = LEAF_KEYS ∧ e.keys.length = LEAF_KEYS ∧
    (∀ s, s < LEAF_KEYS → e.hashes.getD s 0 = h.getD s 0) ∧
    (∀ s, s < LEAF_KEYS → h.getD s 0 ≠ 0 → e.keys.getD s [] = k.getD s []) ∧
    (∃ s, s < LEAF_KEYS ∧ h.getD s 0 ≠ 0 ∧ k.getD s [] = e.max_key) ∧
    (∀ s, s < LEAF_KEYS → h.getD s 0 ≠ 0 → strLe (k.getD s []) e.max_key = true)

/-- The recovery walk over a list of linked leaf ids, each either a tree
leaf or dead: the produced entries carry distinct ids, every entry mirrors
its tree leaf, and every tree leaf with a live slot yields an entry. -/
theorem recoverWalk_entries (ps : PState) (T : VNode)
    (hlv : ∀ L ∈ leavesOf T, leafAgreeB ps L = true)
    (hnd : (leafPids T).Nodup) :
    ∀ l : List Nat,
      (∀ id ∈ l, id ∈ leafPids T ∨ deadLeaf ps id = true) →
      ((recoverWalk ps l).2.map RecEntry.pid).Sublist l ∧
      (∀ e ∈ (recoverWalk ps l).2, entryGood T e) ∧
      (∀ h k pid, VNode.leaf h k pid ∈ leavesOf T → pid ∈ l →
        (∃ s, s < LEAF_KEYS ∧ h.getD s 0 ≠ 0) →
        ∃ e ∈ (recoverWalk ps l).2, e.pid = pid) := by
  have hndm : ((leavesOf T).map VNode.getPleaf).Nodup := by
    rw [leafPids] at hnd
    exact hnd
  intro l
  induction l with
  | nil =>
      intro _
      exact ⟨List.nil_sublist _, fun e he => absurd he (List.not_mem_nil e),
        fun h k pid _ hp _ => absurd hp (List.not_mem_nil pid)⟩
  | cons id rest ih =>
      intro hcov
      have ihr := ih fun id2 hid2 => hcov id2 (List.mem_cons_of_mem id hid2)
      obtain ⟨ihsub, ihgood, ihpres⟩ := ihr
      by_cases hidT : id ∈ leafPids T
      · rw [leafPids] at hidT
        obtain ⟨L, hLmem, hLpid⟩ := List.mem_map.mp hidT
        obtain ⟨h, k, pid0, hLeq⟩ := leavesOf_shape T L hLmem
        rw [hLeq] at hLmem hLpid
        have hpid0 : pid0 = id := hLpid
        rw [hpid0] at hLmem
        obtain ⟨hpidlt, hpidhead, hslots⟩ := leafAgreeB_iff.mp (hlv _ hLmem)
        have hagH : ∀ slot, slot < LEAF_KEYS →
            poolHash (getLeafP ps id) slot = h.getD slot 0 :=
          fun slot hs => slotAgree_poolHash (hslots slot hs)
        have hagK : ∀ slot, slot < LEAF_KEYS → h.getD slot 0 ≠ 0 →
            ∃ p, (getLeafP ps id).slots.getD slot none = some p ∧
              KVSlot.keyBytes p = k.getD slot [] :=
          fun slot hs hz => slotAgree_poolKey (hslots slot hs) hz
        have hspec := recoverLeaf_spec (getLeafP ps id) h k hagH hagK
        obtain ⟨r1, r2, rH, rK, rKd, rmx⟩ := hspec
        cases hrm : (recoverLeaf (getLeafP ps id)).2.2 with
        | none =>
            rw [hrm] at rmx
            rw [recoverWalk_cons_dead rest hrm]
            refine ⟨List.Sublist.cons id ihsub, ihgood, ?_⟩
            intro h2 k2 pid2 hmem2 hpid2 hex2
            rcases List.mem_cons.mp hpid2 with he | hm
            · subst he
              exfalso
              have heq := nodup_map_inj hndm _ hmem2 _ hLmem rfl
              injection heq with e1 e2 e3
              obtain ⟨s, hs, hlv2⟩ := hex2
              rw [e1] at hlv2
              exact hlv2 (rmx s hs)
            · exact ihpres h2 k2 pid2 hmem2 hm hex2
        | some mx =>
            rw [hrm] at rmx
            rw [recoverWalk_cons_live rest hrm]
            refine ⟨List.Sublist.cons₂ id ihsub, ?_, ?_⟩
            · intro e he
              rcases List.mem_cons.mp he with he1 | hm
              · subst he1
                exact ⟨h, k, hLmem, r1, r2, rH, rK, rmx.1, rmx.2⟩
              · exact ihgood e hm
            · intro h2 k2 pid2 hmem2 hpid2 hex2
              rcases List.mem_cons.mp hpid2 with he | hm
              · subst he
                exact ⟨_, List.mem_cons_self _ _, rfl⟩
              · obtain ⟨e, hemem, hepid⟩ := ihpres h2 k2 pid2 hmem2 hm hex2
                exact ⟨e, List.mem_cons_of_mem _ hemem, hepid⟩
      · have hdead : deadLeaf ps id = true := by
          rcases hcov id (List.mem_cons_self id rest) with hc | hc
          · exact absurd hc hidT
          · exact hc
        have hrm := recoverLeaf_dead hdead
        rw [recoverWalk_cons_dead rest hrm]
        refine ⟨List.Sublist.cons id ihsub, ihgood, ?_⟩
        intro h2 k2 pid2 hmem2 hpid2 hex2
        rcases List.mem_cons.mp hpid2 with he | hm
        · subst he
          exact absurd (by rw [leafPids]; exact List.mem_map_of_mem _ hmem2) hidT
        · exact ihpres h2 k2 pid2 hmem2 hm hex2

/-- Block separation of two leaves: every live key of the first is
strictly below every live key of the second. -/
def leafSep (L1 L2 : VNode) : Prop :=
  ∀ s1, s1 < LEAF_KEYS → (VNode.getHashes L1).getD s1 0 ≠ 0 →
    ∀ s2, s2 < LEAF_KEYS → (VNode.getHashes L2).getD s2 0 ≠ 0 →
      strLt ((VNode.getKeys L1).getD s1 []) ((VNode.getKeys L2).getD s2 []) = true

mutual

theorem wfW_sep : ∀ (t : VNode) (lo hi : Option Str), wfW lo hi t = true →
    List.Pairwise leafSep (leavesOf t)
  | VNode.leaf h k pid, lo, hi, hw => by
      rw [leavesOf]
      exact List.Pairwise.cons (fun y hy => absurd hy (List.not_mem_nil y))
        List.Pairwise.nil
  | VNode.inner rkeys children, lo, hi, hw => by
      rw [wfW, Bool.and_eq_true] at hw
      rw [leavesOf]
      exact chainW_sep rkeys children lo hi hw.2

theorem chainW_sep : ∀ (rs : List Str) (cs : List VNode) (lo hi : Option Str),
    chainW lo hi rs cs = true → List.Pairwise leafSep (leavesOfList cs)
  | [], [], lo, hi, hch => absurd hch Bool.false_ne_true
  | [], [c], lo, hi, hch => by
      rw [chainW] at hch
      rw [leavesOfList, leavesOfList, List.append_nil]
      exact wfW_sep c lo hi hch
  | [], c1 :: c2 :: cs, lo, hi, hch => absurd hch Bool.false_ne_true
  | r :: rs, [], lo, hi, hch => absurd hch Bool.false_ne_true
  | r :: rs, c :: cs, lo, hi, hch => by
      rw [chainW, Bool.and_eq_true, Bool.and_eq_true, Bool.and_eq_true] at hch
      rw [leavesOfList, List.pairwise_append]
      refine ⟨wfW_sep c lo (some r) hch.1.2, chainW_sep rs cs (some r) hi hch.2, ?_⟩
      intro L1 h1mem L2 h2mem
      obtain ⟨ha, ka, pa, he1⟩ := leavesOf_shape c L1 h1mem
      obtain ⟨hb, kb, pb, he2⟩ := leavesOfList_shape cs L2 h2mem
      subst he1
      subst he2
      intro s1 hs1 hl1 s2 hs2 hl2
      have hin1 := wfW_live_in_win c lo (some r) hch.1.2 ha ka pa s1 h1mem hs1 hl1
      have hin2 := chainW_live_in_win rs cs (some r) hi hch.2 hb kb pb s2 h2mem hs2 hl2
      rw [inWin_iff] at hin1 hin2
      show strLt (ka.getD s1 []) (kb.getD s2 []) = true
      exact strLt_of_le_of_lt
        (show strLe (ka.getD s1 []) r = true from hin1.2)
        (show strLt r (kb.getD s2 []) = true from hin2.1)

end

theorem pairwise_rel_of_mem {α β : Type} {R : α → α → Prop} {f : α → β} :
    ∀ {l : List α}, List.Pairwise R l → (l.map f).Nodup →
      ∀ x ∈ l, ∀ y ∈ l, f x ≠ f y → R x y ∨ R y x := by
  intro l
  induction l with
  | nil => intro _ _ x hx; exact absurd hx (List.not_mem_nil x)
  | cons a rest ih =>
      intro hp hnd x hx y hy hne
      rw [List.pairwise_cons] at hp
      rw [List.map_cons, List.nodup_cons] at hnd
      rcases List.mem_cons.mp hx with he1 | hm1 <;> rcases List.mem_cons.mp hy with he2 | hm2
      · exact absurd (by rw [he1, he2]) hne
      · subst he1
        exact Or.inl (hp.1 y hm2)
      · subst he2
        exact Or.inr (hp.1 x hm1)
      · exact ih hp.2 hnd.2 x hm1 y hm2 hne

/-- Separation at the entry level: the earlier entry's maximum sits
strictly below the later entry's maximum and all its live keys. -/
def entSep (a b : RecEntry) : Prop :=
  strLt a.max_key b.max_key = true ∧
  ∀ s, s < LEAF_KEYS → b.hashes.getD s 0 ≠ 0 →
    strLt a.max_key (b.keys.getD s []) = true

/-- Local well-formedness of one entry, independent of its neighbours. -/
def entWf (e : RecEntry) : Prop :=
  e.hashes.length = LEAF_KEYS ∧ e.keys.length = LEAF_KEYS ∧
  (liveKeysLeaf e.hashes e.keys).Nodup ∧
  (∀ s, s < LEAF_KEYS → e.hashes.getD s 0 ≠ 0 →
    strLe (e.keys.getD s []) e.max_key = true) ∧
  (∃ s, s < LEAF_KEYS ∧ e.hashes.getD s 0 ≠ 0 ∧ e.keys.getD s [] = e.max_key)

theorem entryGood_entWf {T : VNode} {e : RecEntry}
    (hw : wfW none none T = true) (hg : entryGood T e) : entWf e := by
  obtain ⟨h, k, hmem, hl1, hl2, hH, hK, ⟨s0, hs0, hlv0, hmax0⟩, hbd⟩ := hg
  obtain ⟨hhl, hkl, hnd⟩ := wfW_leaf_basic hw hmem
  have hlknd : liveKeysLeaf e.hashes e.keys = liveKeysLeaf h k :=
    liveKeysLeaf_congr hH hK
  refine ⟨hl1, hl2, by rw [hlknd]; exact hnd, ?_, ?_⟩
  · intro s hs hlv
    rw [hH s hs] at hlv
    rw [hK s hs hlv]
    exact hbd s hs hlv
  · refine ⟨s0, hs0, ?_, ?_⟩
    · rw [hH s0 hs0]
      exact hlv0
    · rw [hK s0 hs0 hlv0, hmax0]

/-- Sorting the recovered entries of a separated, duplicate-free tree by
maximum yields a pairwise-separated list. -/
theorem sorted_entries_sep {T : VNode}
    (hsep : List.Pairwise leafSep (leavesOf T))
    (hndp : (leafPids T).Nodup)
    {es : List RecEntry}
    (hgood : ∀ e ∈ es, entryGood T e)
    (hnde : (es.map RecEntry.pid).Nodup) :
    List.Pairwise entSep (sortEntries es) ∧
    ∀ e ∈ sortEntries es, entryGood T e := by
  have hperm : List.Perm (sortEntries es) es := List.perm_insertionSort entLe es
  have hgood2 : ∀ e ∈ sortEntries es, entryGood T e :=
    fun e he => hgood e (hperm.mem_iff.mp he)
  have hnds : ((sortEntries es).map RecEntry.pid).Nodup :=
    ((hperm.map RecEntry.pid).nodup_iff).mpr hnde
  have hsorted : List.Pairwise entLe (sortEntries es) :=
    List.sorted_insertionSort entLe es
  have hpidpw : List.Pairwise (fun a b : RecEntry => RecEntry.pid a ≠ RecEntry.pid b)
      (sortEntries es) := List.pairwise_map.mp hnds
  have hndm : ((leavesOf T).map VNode.getPleaf).Nodup := by
    rw [leafPids] at hndp
    exact hndp
  refine ⟨?_, hgood2⟩
  refine List.Pairwise.imp_of_mem ?_ (hsorted.and hpidpw)
  intro a b ha hb hab
  obtain ⟨hle, hne⟩ := hab
  obtain ⟨h1, k1, hmem1, _, _, hH1, hK1, ⟨sA, hsA, hlvA, hmaxA⟩, hbd1⟩ := hgood2 a ha
  obtain ⟨h2, k2, hmem2, _, _, hH2, hK2, ⟨sB, hsB, hlvB, hmaxB⟩, hbd2⟩ := hgood2 b hb
  have hdico := pairwise_rel_of_mem hsep hndm _ hmem1 _ hmem2
    (show VNode.getPleaf (VNode.leaf h1 k1 a.pid) ≠
      VNode.getPleaf (VNode.leaf h2 k2 b.pid) from hne)
  rcases hdico with hd | hd
  · constructor
    · have hthis : strLt (k1.getD sA []) (k2.getD sB []) = true :=
        hd sA hsA hlvA sB hsB hlvB
      rw [hmaxA, hmaxB] at hthis
      exact hthis
    · intro s hs hlv
      rw [hH2 s hs] at hlv
      have hthis : strLt (k1.getD sA []) (k2.getD s []) = true :=
        hd sA hsA hlvA s hs hlv
      rw [hmaxA, ← hK2 s hs hlv] at hthis
      exact hthis
  · exfalso
    have hthis : strLt (k2.getD sB []) (k1.getD sA []) = true :=
      hd sB hsB hlvB sA hsA hlvA
    rw [hmaxB, hmaxA] at hthis
    exact (strLe_iff_not_lt.mp
      (show strLe a.max_key b.max_key = true from hle)) hthis

theorem entChainOk_build :
    ∀ (l : List RecEntry) (prev : RecEntry),
      (∀ e ∈ l, entSep prev e) → List.Pairwise entSep l →
      (∀ e ∈ l, entWf e) →
      entChainOk prev.max_key l
  | [], prev, _, _, _ => True.intro
  | e :: rest, prev, hprev, hpw, hwf => by
      rw [List.pairwise_cons] at hpw
      have hsep := hprev e (List.mem_cons_self e rest)
      obtain ⟨hl1, hl2, hnd, hbd, _⟩ := hwf e (List.mem_cons_self e rest)
      refine ⟨?_, hsep.1, ?_⟩
      · show leafWinOk (some prev.max_key) (some e.max_key) e.hashes e.keys = true
        rw [leafWinOk_iff]
        refine ⟨hl1, hl2, hnd, ?_⟩
        intro s hs hlv
        rw [inWin_iff]
        exact ⟨show strLt prev.max_key (e.keys.getD s []) = true from hsep.2 s hs hlv,
          show strLe (e.keys.getD s []) e.max_key = true from hbd s hs hlv⟩
      · exact entChainOk_build rest e hpw.1 hpw.2
          (fun e2 he2 => hwf e2 (List.mem_cons_of_mem e he2))

theorem slotAgree_of_dead {ps : PState} {pid slot : Nat} {h : List Nat} {k : List Str}
    (hd : slotLive ((getLeafP ps pid).slots.getD slot none) = false)
    (hz : h.getD slot 0 = 0) :
    slotAgree ps pid slot h k = true := by
  rw [slotAgree]
  cases hp : (getLeafP ps pid).slots.getD slot none with
  | none =>
      show (h.getD slot 0 == 0) = true
      rw [beq_iff_eq]
      exact hz
  | some p =>
      rw [hp] at hd
      show (if (h.getD slot 0 == 0) = true then KVSlot.get_ph p == 0
        else (KVSlot.get_ph p == h.getD slot 0) &&
          (KVSlot.keyBytes p == k.getD slot [])) = true
      rw [if_pos (by rw [beq_iff_eq]; exact hz)]
      have hd2 : (KVSlot.get_ph p != 0) = false := hd
      rw [bne_eq_false_iff_eq] at hd2
      rw [beq_iff_eq]
      exact hd2

theorem deadLeaf_of_empty {ps : PState} {id : Nat} (he : getLeafP ps id = emptyLeaf) :
    deadLeaf ps id = true := by
  rw [deadLeaf_iff]
  intro slot hs
  rw [he]
  show slotLive ((List.replicate LEAF_KEYS none).getD slot none) = false
  rw [getD_replicate]
  rfl

theorem deadLeaf_frame {ps ps2 : PState} {id : Nat}
    (hf : getLeafP ps2 id = getLeafP ps id) (hd : deadLeaf ps id = true) :
    deadLeaf ps2 id = true := by
  rw [deadLeaf_iff] at hd ⊢
  intro slot hs
  rw [hf]
  exact hd slot hs

theorem fillEmpty_fst_head (ps : PState) (pid : Nat) (hashes : List Nat) (keys : List Str)
    (hash : Nat) (key value : Str) :
    (fillEmpty ps pid hashes keys hash key value).1.head = ps.head := by
  rw [fillEmpty]
  cases hf : findEmptySlot hashes with
  | some slot => exact setLeafSlots_head ps pid _
  | none => rfl

theorem splitLeaf_fst_head (ps : PState) (hashes : List Nat) (keys : List Str)
    (pid hash : Nat) (key value : Str) :
    (splitLeaf ps hashes keys pid hash key value).1.head = (allocLeaf ps).2.head := by
  simp only [splitLeaf]
  by_cases hg : strGt key ((sortKeys (keys ++ [key])).getD LEAF_KEYS_MIDPOINT []) = true
  · rw [if_pos hg]
    rw [fillEmpty_fst_head, setLeafSlots_head, setLeafSlots_head]
  · rw [if_neg hg]
    rw [fillEmpty_fst_head, setLeafSlots_head, setLeafSlots_head]

theorem leafPutPs_head (hash : Nat) (key value : Str) (ps : PState) (h : List Nat)
    (k : List Str) (pid : Nat) :
    (leafPutPs hash key value ps h k pid).head = ps.head ∨
    ((leafPutPs hash key value ps h k pid).head = ps.heap.length :: ps.head ∧
      ps.prealloc.getLast? = none) := by
  rw [leafPutPs]
  rcases hscan : scanSlots h k hash key with ⟨o1, o2⟩
  cases o1 with
  | some s =>
      left
      show (fillSpecific ps pid h k hash key value s).1.head = ps.head
      exact setLeafSlots_head ps pid _
  | none =>
      cases o2 with
      | some s =>
          left
          show (fillSpecific ps pid h k hash key value s).1.head = ps.head
          exact setLeafSlots_head ps pid _
      | none =>
          have hsp := splitLeaf_fst_head ps h k pid hash key value
          rcases allocLeaf_spec ps with ⟨nid0, hlast, heq⟩ | ⟨hlast, heq⟩
          · left
            show (splitLeaf ps h k pid hash key value).1.head = ps.head
            rw [hsp, heq]
          · right
            refine ⟨?_, hlast⟩
            show (splitLeaf ps h k pid hash key value).1.head =
              ps.heap.length :: ps.head
            rw [hsp, heq]

theorem liveKeysLeaf_single (h0 : Nat) (hne : h0 ≠ 0) (key : Str) :
    liveKeysLeaf ((List.replicate LEAF_KEYS 0).set 0 h0)
      ((List.replicate LEAF_KEYS []).set 0 key) = [key] := by
  have htail : ∀ l : List Nat, (∀ x ∈ l, x ≠ 0) →
      (l.filterMap fun slot =>
        if ((List.replicate LEAF_KEYS 0).set 0 h0).getD slot 0 = 0 then none
        else some (((List.replicate LEAF_KEYS []).set 0 key).getD slot [])) = [] := by
    intro l
    induction l with
    | nil => intro _; rfl
    | cons a rest ih =>
        intro hbd
        have hz : ((List.replicate LEAF_KEYS (0 : Nat)).set 0 h0).getD a 0 = 0 := by
          rw [getD_set_ne _ _ _ _ _
            (fun he => hbd a (List.mem_cons_self a rest) he.symm), getD_replicate]
        rw [List.filterMap_cons_none (by rw [hz]; rfl)]
        exact ih fun x hx => hbd x (List.mem_cons_of_mem a hx)
  have hH0 : ((List.replicate LEAF_KEYS (0 : Nat)).set 0 h0).getD 0 0 = h0 :=
    getD_set_self _ _ _ _ (by rw [List.length_replicate]; decide)
  have hK0 : ((List.replicate LEAF_KEYS ([] : Str)).set 0 key).getD 0 [] = key :=
    getD_set_self _ _ _ _ (by rw [List.length_replicate]; decide)
  have hrange : List.range LEAF_KEYS = 0 :: List.map Nat.succ (List.range 47) := by
    rw [show LEAF_KEYS = 47 + 1 from rfl, List.range_succ_eq_map]
  rw [liveKeysLeaf, hrange]
  have hf0 : (if ((List.replicate LEAF_KEYS (0 : Nat)).set 0 h0).getD 0 0 = 0 then none
      else some (((List.replicate LEAF_KEYS ([] : Str)).set 0 key).getD 0 [])) = some key := by
    simp only [hH0, hK0]
    rw [if_neg hne]
  rw [@List.filterMap_cons_some Nat Str
    (fun slot => if ((List.replicate LEAF_KEYS 0).set 0 h0).getD slot 0 = 0 then none
      else some (((List.replicate LEAF_KEYS []).set 0 key).getD slot [])) 0
    (List.map Nat.succ (List.range 47)) key hf0]
  rw [htail (List.map Nat.succ (List.range 47)) (by
    intro x hx
    obtain ⟨y, _, hy⟩ := List.mem_map.mp hx
    rw [← hy]
    exact Nat.succ_ne_zero y)]

/-- The facts about the store `put` leaves behind that recovery relies on:
a well-formed tree whose leaves agree with the pool under distinct ids, a
duplicate-free leaf list covered by tree leaves and dead leaves, and the
new mapping stored in a tree leaf with its persistent payload. -/
theorem put_recover_base (s : Tree3) (key value : Str) (hInv : InvB s = true)
    (hk32 : key.length < 4294967296) (hv32 : value.length < 4294967296) :
    ∃ ps2 T, tree3.put s key value = { ps := ps2, tree_top := some T } ∧
      wfW none none T = true ∧
      (∀ L ∈ leavesOf T, leafAgreeB ps2 L = true) ∧
      (leafPids T).Nodup ∧
      ps2.head.Nodup ∧
      (∀ id ∈ ps2.head, id ∈ leafPids T ∨ deadLeaf ps2 id = true) ∧
      ∃ h2 k2 pid2 s2, VNode.leaf h2 k2 pid2 ∈ leavesOf T ∧
        s2 < LEAF_KEYS ∧ h2.getD s2 0 = PearsonHash key ∧ k2.getD s2 [] = key ∧
        (getLeafP ps2 pid2).slots.getD s2 none =
          some (KVSlot.set (PearsonHash key) key value) := by
  rcases s with ⟨ps, _ | top⟩
  · obtain ⟨hpsOk0, hdeadall⟩ := (InvB_none_iff rfl).mp hInv
    have hpsOk : psOkB ps = true := hpsOk0
    have hdeadall2 : ∀ id ∈ ps.head, deadLeaf ps id = true := hdeadall
    obtain ⟨hheaplen, hheadnd, hheadlt, hprend, hpreok⟩ := psOkB_iff.mp hpsOk
    have hprevalid : ∀ id ∈ ps.prealloc, id < ps.heap.length :=
      fun id hid => (hpreok id hid).2.1
    obtain ⟨hniddead, hnidmem, hheadmono, hheaple, hallocframe, hnidorigin, hnidslen⟩ :=
      allocLeaf_facts hpsOk
    have hnidlt : (allocLeaf ps).1 < (allocLeaf ps).2.heap.length :=
      allocLeaf_id_lt ps hprevalid
    have hH0 : ((List.replicate LEAF_KEYS (0 : Nat)).set 0 (PearsonHash key)).getD 0 0 =
        PearsonHash key :=
      getD_set_self _ _ _ _ (by rw [List.length_replicate]; decide)
    have hK0 : ((List.replicate LEAF_KEYS ([] : Str)).set 0 key).getD 0 [] = key :=
      getD_set_self _ _ _ _ (by rw [List.length_replicate]; decide)
    have hHx : ∀ x, x ≠ 0 →
        ((List.replicate LEAF_KEYS (0 : Nat)).set 0 (PearsonHash key)).getD x 0 = 0 := by
      intro x hx
      rw [getD_set_ne _ _ _ _ _ (fun he => hx he.symm), getD_replicate]
    have hpayload : (getLeafP (setLeafSlots (allocLeaf ps).2 (allocLeaf ps).1
        ((getLeafP (allocLeaf ps).2 (allocLeaf ps).1).slots.set 0
          (some (KVSlot.set (PearsonHash key) key value)))) (allocLeaf ps).1).slots.getD 0
          none =
        some (KVSlot.set (PearsonHash key) key value) := by
      rw [getLeafP_setLeafSlots_self _ _ _ hnidlt]
      exact getD_set_self _ _ _ _ (by rw [hnidslen]; decide)
    refine ⟨setLeafSlots (allocLeaf ps).2 (allocLeaf ps).1
        ((getLeafP (allocLeaf ps).2 (allocLeaf ps).1).slots.set 0
          (some (KVSlot.set (PearsonHash key) key value))),
      VNode.leaf ((List.replicate LEAF_KEYS 0).set 0 (PearsonHash key))
        ((List.replicate LEAF_KEYS []).set 0 key) (allocLeaf ps).1,
      rfl, ?_, ?_, ?_, ?_, ?_, ?_⟩
    · show leafWinOk none none ((List.replicate LEAF_KEYS 0).set 0 (PearsonHash key))
        ((List.replicate LEAF_KEYS []).set 0 key) = true
      rw [leafWinOk_iff]
      refine ⟨by rw [List.length_set, List.length_replicate],
        by rw [List.length_set, List.length_replicate], ?_, fun s hs hlv => rfl⟩
      rw [liveKeysLeaf_single (PearsonHash key) (PearsonHash_ne_zero key) key]
      exact List.nodup_singleton key
    · intro L hL
      rw [leavesOf, List.mem_singleton] at hL
      rw [hL, leafAgreeB_iff]
      refine ⟨?_, ?_, ?_⟩
      · rw [setLeafSlots_heap_length]
        exact hnidlt
      · rw [setLeafSlots_head]
        exact hnidmem
      · intro slot hs
        by_cases hz : slot = 0
        · subst hz
          exact slotAgree_payload hk32 (PearsonHash_lt key) (PearsonHash_ne_zero key)
            hpayload hH0 hK0
        · apply slotAgree_of_dead
          · rw [getLeafP_setLeafSlots_self _ _ _ hnidlt]
            show slotLive
              ((((getLeafP (allocLeaf ps).2 (allocLeaf ps).1).slots.set 0
                (some (KVSlot.set (PearsonHash key) key value)))).getD slot none) = false
            rw [getD_set_ne _ _ _ _ _ (fun he => hz he.symm)]
            exact hniddead slot hs
          · exact hHx slot hz
    · show ([VNode.leaf ((List.replicate LEAF_KEYS 0).set 0 (PearsonHash key))
        ((List.replicate LEAF_KEYS []).set 0 key) (allocLeaf ps).1].map
          VNode.getPleaf).Nodup
      exact List.nodup_singleton _
    · show (setLeafSlots (allocLeaf ps).2 (allocLeaf ps).1 _).head.Nodup
      rw [setLeafSlots_head]
      exact allocLeaf_head_nodup hpsOk
    · intro id hid
      rw [setLeafSlots_head] at hid
      by_cases hidn : id = (allocLeaf ps).1
      · left
        rw [hidn]
        show (allocLeaf ps).1 ∈ [VNode.leaf _ _ (allocLeaf ps).1].map VNode.getPleaf
        exact List.mem_singleton.mpr rfl
      · right
        have hframe2 : getLeafP (setLeafSlots (allocLeaf ps).2 (allocLeaf ps).1
            ((getLeafP (allocLeaf ps).2 (allocLeaf ps).1).slots.set 0
              (some (KVSlot.set (PearsonHash key) key value)))) id = getLeafP ps id := by
          rw [getLeafP_setLeafSlots_ne _ _ _ _ (fun he => hidn he.symm)]
          exact hallocframe id hidn
        rcases allocLeaf_spec ps with ⟨nid0, hlast, heq⟩ | ⟨hlast, heq⟩
        · rw [heq] at hid
          exact deadLeaf_frame hframe2 (hdeadall2 id hid)
        · rw [heq] at hid
          rcases List.mem_cons.mp hid with he | hm
          · apply deadLeaf_of_empty
            rw [hframe2, he]
            exact getLeafP_out (Nat.le_refl _)
          · exact deadLeaf_frame hframe2 (hdeadall2 id hm)
    · refine ⟨(List.replicate LEAF_KEYS 0).set 0 (PearsonHash key),
        (List.replicate LEAF_KEYS []).set 0 key, (allocLeaf ps).1, 0,
        ?_, by decide, hH0, hK0, hpayload⟩
      rw [leavesOf]
      exact List.mem_singleton.mpr rfl
  · obtain ⟨hpsOk, hwf, hleaves, hpidsnd, hcov, hpre⟩ := (InvB_some_iff rfl).mp hInv
    obtain ⟨hheaplen, hheadnd, hheadlt, hprend, hpreok⟩ := psOkB_iff.mp hpsOk
    have hnodup2 : ((leavesOf top).map VNode.getPleaf).Nodup := by
      rw [leafPids] at hpidsnd
      exact hpidsnd
    have hpre2 : ∀ id ∈ ps.prealloc, id ∉ (leavesOf top).map VNode.getPleaf := by
      intro id hid
      have h2 := hpre id hid
      rw [leafPids] at h2
      exact h2
    have hspec := putRec_spec key value hk32 top ps none none hwf rfl hleaves hnodup2
      hpsOk hpre2
    rcases hres : putRec (PearsonHash key) key value ps top with ⟨ps2, t2, sp⟩
    rw [hres] at hspec
    rw [putPost] at hspec
    simp only [] at hspec
    obtain ⟨hwfres, hpres, hagr, hheadm, hheapm, hpids⟩ := hspec
    have hput : tree3.put ⟨ps, some top⟩ key value =
        { ps := ps2, tree_top := some (finishSplit t2 sp) } := by
      rw [put_some_eq, hres]
    have hwT : wfW none none (finishSplit t2 sp) = true := by
      cases sp with
      | none => exact hwfres
      | some p =>
          obtain ⟨sk, nn⟩ := p
          obtain ⟨hw1, hw2, hlo, hhi, hstrict⟩ := hwfres
          show wfW none none (VNode.inner [sk] [t2, nn]) = true
          rw [wfW, Bool.and_eq_true, Bool.and_eq_true]
          refine ⟨⟨decide_eq_true (Nat.le_refl 1),
            decide_eq_true (by decide : (1 : Nat) ≤ INNER_KEYS)⟩, ?_⟩
          rw [chainW, Bool.and_eq_true, Bool.and_eq_true, Bool.and_eq_true]
          exact ⟨⟨⟨rfl, rfl⟩, hw1⟩, hw2⟩
    have hLT : leavesOf (finishSplit t2 sp) = sideLeaves t2 sp := by
      cases sp with
      | none => rfl
      | some p =>
          obtain ⟨sk, nn⟩ := p
          show leavesOfList [t2, nn] = leavesOf t2 ++ leavesOf nn
          rw [leavesOfList, leavesOfList, leavesOfList, List.append_nil]
    have hpidlt_top : ∀ p ∈ leafPids top, p < ps.heap.length := by
      intro p hp
      rw [leafPids] at hp
      obtain ⟨L, hLmem, hLpid⟩ := List.mem_map.mp hp
      obtain ⟨hL, kL, pL, hLeq⟩ := leavesOf_shape top L hLmem
      rw [hLeq] at hLmem hLpid
      have hlt := (leafAgreeB_iff.mp (hleaves _ hLmem).1).1
      have hpL : pL = p := hLpid
      rw [← hpL]
      exact hlt
    have hndT : (leafPids (finishSplit t2 sp)).Nodup := by
      rw [leafPids, hLT]
      rcases hpids with ⟨hmapeq, hframe⟩ | ⟨nid, l1, l2, hsplit, hmapeq, hframe, horigin⟩
      · rw [hmapeq]
        exact hpidsnd
      · rw [hmapeq, List.nodup_middle, List.nodup_cons]
        constructor
        · rw [← hsplit]
          rcases horigin with ho | ho
          · intro hc
            have hlt := hpidlt_top nid hc
            rw [ho] at hlt
            exact Nat.lt_irrefl _ hlt
          · exact hpre nid ho
        · rw [← hsplit]
          exact hpidsnd
    have hshape : shapeOk top = true := wfW_shapeOk top none none hwf
    obtain ⟨h0, k0, pid0, hsearch0, hmem0⟩ := LeafSearch_reaches_leaf key top hshape
    have hfst := putRec_fst (PearsonHash key) key value top ps
    rw [hres, hsearch0] at hfst
    simp only [] at hfst
    have hhead2 := leafPutPs_head (PearsonHash key) key value ps h0 k0 pid0
    rw [← hfst] at hhead2
    have hhead2nd : ps2.head.Nodup := by
      rcases hhead2 with hh | ⟨hh, _⟩
      · rw [hh]
        exact hheadnd
      · rw [hh, List.nodup_cons]
        exact ⟨fun hc => Nat.lt_irrefl _ (hheadlt _ hc), hheadnd⟩
    have hcov2 : ∀ id ∈ ps2.head,
        id ∈ leafPids (finishSplit t2 sp) ∨ deadLeaf ps2 id = true := by
      intro id hid
      by_cases hidT : id ∈ leafPids (finishSplit t2 sp)
      · exact Or.inl hidT
      right
      rw [leafPids, hLT] at hidT
      have hidtop : id ∉ leafPids top := by
        intro hc
        apply hidT
        rcases hpids with ⟨hmapeq, _⟩ | ⟨nid, l1, l2, hsplit, hmapeq, _, _⟩
        · rw [hmapeq]
          exact hc
        · rw [hmapeq]
          rw [hsplit] at hc
          rcases List.mem_append.mp hc with hc1 | hc1
          · exact List.mem_append.mpr (Or.inl hc1)
          · exact List.mem_append.mpr (Or.inr (List.mem_cons_of_mem _ hc1))
      have hidold : id ∈ ps.head ∨ id = ps.heap.length := by
        rcases hhead2 with hh | ⟨hh, _⟩
        · rw [hh] at hid
          exact Or.inl hid
        · rw [hh] at hid
          rcases List.mem_cons.mp hid with he | hm
          · exact Or.inr he
          · exact Or.inl hm
      have hframe2 : getLeafP ps2 id = getLeafP ps id := by
        rcases hpids with ⟨hmapeq, hframe⟩ | ⟨nid, l1, l2, hsplit, hmapeq, hframe, horigin⟩
        · exact hframe id hidtop
        · have hidnid : id ≠ nid := by
            intro he
            apply hidT
            rw [hmapeq, he]
            exact List.mem_append.mpr (Or.inr (List.mem_cons_self _ _))
          exact hframe id hidtop hidnid
      rcases hidold with hm | he
      · rcases hcov id hm with hc | hc
        · exact absurd hc hidtop
        · exact deadLeaf_frame hframe2 hc
      · apply deadLeaf_of_empty
        rw [hframe2, he]
        exact getLeafP_out (Nat.le_refl _)
    obtain ⟨h2, k2, pid2, s2, hmem, hs2, hh2, hk2, hpay⟩ := hpres
    refine ⟨ps2, finishSplit t2 sp, hput, hwT, ?_, hndT, hhead2nd, hcov2,
      h2, k2, pid2, s2, ?_, hs2, hh2, hk2, hpay⟩
    · intro L hL
      rw [hLT] at hL
      exact (hagr L hL).1
    · rw [hLT]
      exact hmem

/-- C2: after `put(K, V)` on a store satisfying the engine invariant,
reopening the pool — running `Recover` on the persistent state alone —
and then calling `get(K)` returns exactly `V`: recovery reconstructs from
the persistent leaf list a volatile index that maps the stored key to its
stored value. -/
theorem claim_C2_recover_roundtrip (s : Tree3) (key value : Str)
    (hInv : InvB s = true) (hk32 : key.length < 4294967296)
    (hv32 : value.length < 4294967296) :
    (tree3.get (Recover (tree3.put s key value).ps) key).2 = some value := by
  obtain ⟨ps2, T, hput, hwT, hagT, hndT, hhead2nd, hcov2,
    h2, k2, pid2, s2, hmem2, hs2, hh2, hk2, hpay⟩ :=
    put_recover_base s key value hInv hk32 hv32
  rw [hput]
  show (tree3.get (Recover ps2) key).2 = some value
  obtain ⟨hsub, hgoodall, hpresence⟩ := recoverWalk_entries ps2 T hagT hndT ps2.head hcov2
  have hh2ne : h2.getD s2 0 ≠ 0 := by
    rw [hh2]
    exact PearsonHash_ne_zero key
  obtain ⟨hpid2lt, hpid2head, hslots2⟩ := leafAgreeB_iff.mp (hagT _ hmem2)
  obtain ⟨estar, hestar, hestarpid⟩ :=
    hpresence h2 k2 pid2 hmem2 hpid2head ⟨s2, hs2, hh2ne⟩
  have hnde : ((recoverWalk ps2 ps2.head).2.map RecEntry.pid).Nodup :=
    List.Nodup.sublist hsub hhead2nd
  obtain ⟨hpw, hgoodsorted⟩ :=
    sorted_entries_sep (wfW_sep T none none hwT) hndT hgoodall hnde
  have hperm : List.Perm (sortEntries (recoverWalk ps2 ps2.head).2)
      (recoverWalk ps2 ps2.head).2 := List.perm_insertionSort entLe _
  have hestar2 : estar ∈ sortEntries (recoverWalk ps2 ps2.head).2 :=
    hperm.mem_iff.mpr hestar
  cases hses : sortEntries (recoverWalk ps2 ps2.head).2 with
  | nil =>
      rw [hses] at hestar2
      exact absurd hestar2 (List.not_mem_nil _)
  | cons e0 rest =>
      rw [hses] at hpw hgoodsorted hestar2
      rw [List.pairwise_cons] at hpw
      have hwfents : ∀ e ∈ e0 :: rest, entWf e :=
        fun e he => entryGood_entWf hwT (hgoodsorted e he)
      have hchain : entChainOk e0.max_key rest :=
        entChainOk_build rest e0 hpw.1 hpw.2
          (fun e he => hwfents e (List.mem_cons_of_mem e0 he))
      obtain ⟨hel1, hel2, helnd, helbd, _⟩ := hwfents e0 (List.mem_cons_self e0 rest)
      have hw0 : wfW none (some e0.max_key)
          (VNode.leaf e0.hashes e0.keys e0.pid) = true := by
        show leafWinOk none (some e0.max_key) e0.hashes e0.keys = true
        rw [leafWinOk_iff]
        refine ⟨hel1, hel2, helnd, fun s3 hs3 hlv3 => ?_⟩
        rw [inWin_iff]
        exact ⟨rfl,
          show strLe (e0.keys.getD s3 []) e0.max_key = true from helbd s3 hs3 hlv3⟩
      obtain ⟨hwTR, hleavesTR, _⟩ := recoverBuild_spec rest
        (VNode.leaf e0.hashes e0.keys e0.pid) e0.max_key hw0
        (fun r hr => absurd (show r ∈ ([] : List Str) from hr) (List.not_mem_nil r))
        hchain
      have hrec : Recover ps2 =
          { ps := { ps2 with prealloc := (recoverWalk ps2 ps2.head).1 },
            tree_top := some (recoverBuild (VNode.leaf e0.hashes e0.keys e0.pid)
              e0.max_key rest) } := by
        simp only [Recover]
        rw [hses]
      rw [hrec]
      obtain ⟨h', k', hmem', hlen1, hlen2, hH', hK', hmaxex, hmaxbd⟩ :=
        hgoodsorted estar hestar2
      have hndm : ((leavesOf T).map VNode.getPleaf).Nodup := by
        rw [leafPids] at hndT
        exact hndT
      have heq2 : VNode.leaf h' k' estar.pid = VNode.leaf h2 k2 pid2 :=
        nodup_map_inj hndm _ hmem' _ hmem2
          (show VNode.getPleaf (VNode.leaf h' k' estar.pid) =
            VNode.getPleaf (VNode.leaf h2 k2 pid2) from hestarpid)
      injection heq2 with e1 e2 e3
      subst e1
      subst e2
      have hHs2 : estar.hashes.getD s2 0 = PearsonHash key := by
        rw [hH' s2 hs2, hh2]
      have hKs2 : estar.keys.getD s2 [] = key := by
        rw [hK' s2 hs2 hh2ne, hk2]
      have hHs2ne : estar.hashes.getD s2 0 ≠ 0 := by
        rw [hHs2]
        exact PearsonHash_ne_zero key
      have hmemTR : VNode.leaf estar.hashes estar.keys estar.pid ∈
          leavesOf (recoverBuild (VNode.leaf e0.hashes e0.keys e0.pid)
            e0.max_key rest) := by
        rw [hleavesTR]
        rcases List.mem_cons.mp hestar2 with he | hm
        · apply List.mem_append.mpr
          left
          rw [he]
          show VNode.leaf e0.hashes e0.keys e0.pid ∈
            [VNode.leaf e0.hashes e0.keys e0.pid]
          exact List.mem_singleton.mpr rfl
        · apply List.mem_append.mpr
          right
          exact List.mem_map_of_mem _ hm
      have hsearchR := searchCorrect key _ none (some (lastMax e0.max_key rest)) hwTR
        estar.hashes estar.keys estar.pid s2 hmemTR hs2 hHs2ne hKs2
      rw [get_eq]
      simp only [hsearchR]
      obtain ⟨_, _, hndR, _, _⟩ := hwfents estar hestar2
      rcases hfso : findSlot estar.hashes estar.keys (PearsonHash key) key with _ | slot
      · exfalso
        rw [findSlot, List.find?_eq_none] at hfso
        exact hfso s2 (mem_descRange.mpr hs2) (by
          rw [Bool.and_eq_true, beq_iff_eq, beq_iff_eq]
          exact ⟨hHs2, hKs2⟩)
      · obtain ⟨hsltf, hshf, hskf⟩ := findSlot_some hfso
        have hslot_eq : slot = s2 := by
          by_contra hne2
          exact live_slot_unique hndR hsltf hs2 hne2
            (by rw [hshf]; exact PearsonHash_ne_zero key) hHs2ne
            (hskf.trans hKs2.symm)
        subst hslot_eq
        simp only [hfso]
        have hgl : getLeafP { ps2 with prealloc := (recoverWalk ps2 ps2.head).1 }
            estar.pid = getLeafP ps2 pid2 := by
          rw [hestarpid]
          rfl
        rw [hgl, hpay, Option.map_some']
        rw [KVSlot.valBytes_set (PearsonHash key) key value hk32 hv32]

theorem claim_C2_recover_roundtrip_witness :
    InvB demoStore = true ∧ ([98] : Str).length < 4294967296 ∧
    ([5] : Str).length < 4294967296 ∧
    (tree3.get (Recover (tree3.put demoStore [98] [5]).ps) [98]).2 = some [5] :=
  ⟨by decide, by decide, by decide,
    claim_C2_recover_roundtrip demoStore [98] [5] (by decide) (by decide) (by decide)⟩
